import Mathlib

/-!
# Future / Promise (libprocess `process/future.hpp`)

A shallow embedding of the shared future of `third_party/libprocess`:
the block of heap objects every handle of one future points to, the
operations of `Future<T>` and `Promise<T>` on it, and the callbacks they fire.

Modelling conventions

* `Shared T` is the block of nine heap objects (`refs`, `lock`, `state`, `t`,
  `message`, the three queues, `latch`) that all handles of one future alias.
  A handle is a pointer to that block, so an operation issued through any
  handle is an operation on the block.
* `int` fields are `Int`.  The reference count is kept as a mathematical
  integer; `int32` and `Future.copy32` give the value the 32-bit `int` takes,
  and the invariant of the count (C19) is stated for counts within its range.
* A callback (`std::tr1::function<void(const Future<T>&)>`) is named by a
  number; the table `prog` gives, for each callback, the list of operations its
  body performs on the future it is handed.  Bodies may call back into the same
  future, so the interpreter `exec` is indexed by fuel: it bounds both the
  nesting depth of callback invocations and the length of a drain loop.
* Every invocation of a callback is appended to `World.log`, with the nesting
  depth at which it happened and the block as the callback saw it.
* Faults are explicit: running out of fuel, spinning on a held lock, a failed
  `assert`, `abort()`, and blocking forever on the latch.
* `Latch::await` (`process/latch.hpp`) is a parameter `latchAwait`: given the
  timeout and the block at the call it yields whether the latch was triggered
  and the block as the other threads left it, or the fault `blocked`.
* `World` holds one future.  `Heap` holds several, by position, with callbacks
  whose bodies operate on any of them, and the promise of a running `select`;
  the functions `select` and `discard` on sets of futures are `Heap.select` and
  `Heap.discard`, with the operations of other threads interleaved between the
  iterations of the registration loop and during the wait.
-/

namespace process

deriving instance DecidableEq for Except

/-- The enum `Future<T>::State`. -/
inductive State where
  | PENDING
  | READY
  | FAILED
  | DISCARDED
  deriving DecidableEq, Repr

/-- Modelled from the spec: `Latch` (`process/latch.hpp` is not among the
sources).  A one-shot binary event; `triggers` counts the calls of `trigger`. -/
structure Latch where
  triggered : Bool
  triggers : Nat
  deriving DecidableEq, Repr

/-- Modelled from the spec: `Latch::trigger` fires the event. -/
def Latch.trigger (l : Latch) : Latch :=
  { triggered := true, triggers := l.triggers + 1 }

/-- A callback closure, named by a number. -/
abbrev Callback := Nat

/-- The heap block shared by all handles of one future (the targets of the nine
pointer fields of `Future<T>`), and the ghost flag `freed` set by the `delete`s
of `cleanup`. -/
structure Shared (T : Type) where
  refs : Int
  lock : Int
  state : State
  t : Option T
  message : Option String
  onReadyCallbacks : List Callback
  onFailedCallbacks : List Callback
  onDiscardedCallbacks : List Callback
  latch : Latch
  freed : Bool
  deriving DecidableEq, Repr

/-- One callback invocation `callback(*this)`: which callback, at which nesting
depth, and the future it was handed. -/
structure Event (T : Type) where
  callback : Callback
  depth : Nat
  arg : Shared T
  deriving DecidableEq, Repr

/-- The shared block together with the ghost record of callback invocations. -/
structure World (T : Type) where
  fut : Shared T
  log : List (Event T)
  depth : Nat
  deriving DecidableEq, Repr

/-- The ways an operation can fail to return. -/
inductive Fault where
  | fuel
  | spin
  | assertion
  | abort
  | blocked
  deriving DecidableEq, Repr

/-- The three callback queues. -/
inductive Queue where
  | ready
  | failed
  | discarded
  deriving DecidableEq, Repr

/-- The queue selected by `q`. -/
def Shared.queue {T : Type} (s : Shared T) : Queue → List Callback
  | .ready => s.onReadyCallbacks
  | .failed => s.onFailedCallbacks
  | .discarded => s.onDiscardedCallbacks

/-- The call `queue->pop()` on the queue selected by `q`. -/
def Shared.pop {T : Type} (s : Shared T) : Queue → Shared T
  | .ready => { s with onReadyCallbacks := s.onReadyCallbacks.tail }
  | .failed => { s with onFailedCallbacks := s.onFailedCallbacks.tail }
  | .discarded => { s with onDiscardedCallbacks := s.onDiscardedCallbacks.tail }

namespace internal

/-- The spin lock `internal::acquire`: the compare-and-swap succeeds when the
lock word is 0; on a held lock a single thread spins forever. -/
def acquire {T : Type} (s : Shared T) : Except Fault (Shared T) :=
  if s.lock = 0 then .ok { s with lock := 1 } else .error .spin

/-- The unlock `internal::release`: compare-and-swap 1 to 0, and
`assert(unlocked)`. -/
def release {T : Type} (s : Shared T) : Except Fault (Shared T) :=
  if s.lock = 1 then .ok { s with lock := 0 } else .error .assertion

end internal

/-- The loop `while (!queue->empty()) { callback = queue->front();
callback(*this); queue->pop(); }` of `set`, `fail` and `discard`; `call` is the
invocation of a callback and the first argument after `q` bounds the number of
iterations. -/
def drain {T : Type} (call : Callback → World T → Except Fault (World T)) (q : Queue) :
    Nat → World T → Except Fault (World T)
  | 0, w =>
    match w.fut.queue q with
    | [] => .ok w
    | _ :: _ => .error .fuel
  | k + 1, w =>
    match w.fut.queue q with
    | [] => .ok w
    | callback :: _ =>
      match call callback w with
      | .error e => .error e
      | .ok w1 => drain call q k { w1 with fut := w1.fut.pop q }

namespace Future

/-- The default constructor `Future<T>::Future()`. -/
def init {T : Type} : Shared T :=
  { refs := 1, lock := 0, state := .PENDING, t := none, message := none,
    onReadyCallbacks := [], onFailedCallbacks := [], onDiscardedCallbacks := [],
    latch := { triggered := false, triggers := 0 }, freed := false }

/-- The method `Future<T>::pending`. -/
def pending {T : Type} (s : Shared T) : Bool := decide (s.state = .PENDING)

/-- The method `Future<T>::ready`. -/
def ready {T : Type} (s : Shared T) : Bool := decide (s.state = .READY)

/-- The method `Future<T>::discarded`. -/
def discarded {T : Type} (s : Shared T) : Bool := decide (s.state = .DISCARDED)

/-- The method `Future<T>::failed`. -/
def failed {T : Type} (s : Shared T) : Bool := decide (s.state = .FAILED)

/-- The method `Future<T>::failure`: the message when the slot is non-null. -/
def failure {T : Type} (s : Shared T) : Option String :=
  match s.message with
  | some m => some m
  | none => none

/-- The method `Future<T>::set`. -/
def set {T : Type} (call : Callback → World T → Except Fault (World T)) (k : Nat)
    (_t : T) (w : World T) : Except Fault (Bool × World T) :=
  match internal.acquire w.fut with
  | .error e => .error e
  | .ok s =>
    let result := decide (s.state = .PENDING)
    let s1 := if s.state = .PENDING then
        { s with t := some _t, state := .READY, latch := s.latch.trigger }
      else s
    match internal.release s1 with
    | .error e => .error e
    | .ok s2 =>
      if result then
        match drain call .ready k { w with fut := s2 } with
        | .error e => .error e
        | .ok w1 => .ok (true, w1)
      else .ok (false, { w with fut := s2 })

/-- The method `Future<T>::fail`. -/
def fail {T : Type} (call : Callback → World T → Except Fault (World T)) (k : Nat)
    (_message : String) (w : World T) : Except Fault (Bool × World T) :=
  match internal.acquire w.fut with
  | .error e => .error e
  | .ok s =>
    let result := decide (s.state = .PENDING)
    let s1 := if s.state = .PENDING then
        { s with message := some _message, state := .FAILED, latch := s.latch.trigger }
      else s
    match internal.release s1 with
    | .error e => .error e
    | .ok s2 =>
      if result then
        match drain call .failed k { w with fut := s2 } with
        | .error e => .error e
        | .ok w1 => .ok (true, w1)
      else .ok (false, { w with fut := s2 })

/-- The method `Future<T>::discard`. -/
def discard {T : Type} (call : Callback → World T → Except Fault (World T)) (k : Nat)
    (w : World T) : Except Fault (Bool × World T) :=
  match internal.acquire w.fut with
  | .error e => .error e
  | .ok s =>
    let result := decide (s.state = .PENDING)
    let s1 := if s.state = .PENDING then
        { s with state := .DISCARDED, latch := s.latch.trigger }
      else s
    match internal.release s1 with
    | .error e => .error e
    | .ok s2 =>
      if result then
        match drain call .discarded k { w with fut := s2 } with
        | .error e => .error e
        | .ok w1 => .ok (true, w1)
      else .ok (false, { w with fut := s2 })

/-- The method `Future<T>::onReady`. -/
def onReady {T : Type} (call : Callback → World T → Except Fault (World T))
    (callback : Callback) (w : World T) : Except Fault (World T) :=
  match internal.acquire w.fut with
  | .error e => .error e
  | .ok s =>
    let run := decide (s.state = .READY)
    let s1 := if s.state = .READY then s
      else if s.state = .PENDING then
        { s with onReadyCallbacks := s.onReadyCallbacks ++ [callback] }
      else s
    match internal.release s1 with
    | .error e => .error e
    | .ok s2 =>
      if run then call callback { w with fut := s2 } else .ok { w with fut := s2 }

/-- The method `Future<T>::onFailed`. -/
def onFailed {T : Type} (call : Callback → World T → Except Fault (World T))
    (callback : Callback) (w : World T) : Except Fault (World T) :=
  match internal.acquire w.fut with
  | .error e => .error e
  | .ok s =>
    let run := decide (s.state = .FAILED)
    let s1 := if s.state = .FAILED then s
      else if s.state = .PENDING then
        { s with onFailedCallbacks := s.onFailedCallbacks ++ [callback] }
      else s
    match internal.release s1 with
    | .error e => .error e
    | .ok s2 =>
      if run then call callback { w with fut := s2 } else .ok { w with fut := s2 }

/-- The method `Future<T>::onDiscarded`. -/
def onDiscarded {T : Type} (call : Callback → World T → Except Fault (World T))
    (callback : Callback) (w : World T) : Except Fault (World T) :=
  match internal.acquire w.fut with
  | .error e => .error e
  | .ok s =>
    let run := decide (s.state = .DISCARDED)
    let s1 := if s.state = .DISCARDED then s
      else if s.state = .PENDING then
        { s with onDiscardedCallbacks := s.onDiscardedCallbacks ++ [callback] }
      else s
    match internal.release s1 with
    | .error e => .error e
    | .ok s2 =>
      if run then call callback { w with fut := s2 } else .ok { w with fut := s2 }

/-- The method `Future<T>::copy`, seen from the block of `that`: the reference
count is incremented and the new handle aliases the same block.  The count is
taken as a mathematical integer here; `Future.copy32` is the same step on the
32-bit `int`, and the two agree below `2 ^ 31 - 1`. -/
def copy {T : Type} (w : World T) : World T :=
  { w with fut := { w.fut with refs := w.fut.refs + 1 } }

/-- The method `Future<T>::cleanup`: both `__sync_sub_and_fetch` tests, the
discard of a still pending future with the count put back at 1, and the
`delete`s. -/
def cleanup {T : Type} (call : Callback → World T → Except Fault (World T)) (k : Nat)
    (w : World T) : Except Fault (World T) :=
  let w1 : World T := { w with fut := { w.fut with refs := w.fut.refs - 1 } }
  if w1.fut.refs = 0 then
    let discarded : Except Fault (World T) :=
      if w1.fut.state = .PENDING then
        match discard call k { w1 with fut := { w1.fut with refs := 1 } } with
        | .error e => .error e
        | .ok (_, w2) => .ok w2
      else .ok w1
    match discarded with
    | .error e => .error e
    | .ok w2 =>
      let w3 : World T := { w2 with fut := { w2.fut with refs := w2.fut.refs - 1 } }
      if w3.fut.refs = 0 then .ok { w3 with fut := { w3.fut with freed := true } }
      else .ok w3
  else .ok w1

end Future

/-- The operations a thread, or the body of a callback, performs on a future
through a handle. -/
inductive Action (T : Type) where
  | set (v : T)
  | fail (m : String)
  | discard
  | onReady (c : Callback)
  | onFailed (c : Callback)
  | onDiscarded (c : Callback)
  | copy
  | cleanup
  deriving DecidableEq, Repr

/-- Dispatch of an operation to the method of `Future<T>`; methods returning
`void` or `*this` report `true`. -/
def perform {T : Type} (call : Callback → World T → Except Fault (World T)) (k : Nat)
    (a : Action T) (w : World T) : Except Fault (Bool × World T) :=
  match a with
  | .set v => Future.set call k v w
  | .fail m => Future.fail call k m w
  | .discard => Future.discard call k w
  | .onReady c => (Future.onReady call c w).map fun w1 => (true, w1)
  | .onFailed c => (Future.onFailed call c w).map fun w1 => (true, w1)
  | .onDiscarded c => (Future.onDiscarded call c w).map fun w1 => (true, w1)
  | .copy => .ok (true, Future.copy w)
  | .cleanup => (Future.cleanup call k w).map fun w1 => (true, w1)

/-- The statements of a callback body, in order. -/
def runBody {T : Type} (step : Action T → World T → Except Fault (Bool × World T)) :
    List (Action T) → World T → Except Fault (World T)
  | [], w => .ok w
  | a :: rest, w =>
    match step a w with
    | .error e => .error e
    | .ok (_, w1) => runBody step rest w1

/-- The call `callback(*this)`: the invocation is logged with the future as the
callback receives it, and the body runs one level deeper. -/
def invoke {T : Type} (step : Action T → World T → Except Fault (Bool × World T))
    (body : List (Action T)) (c : Callback) (w : World T) : Except Fault (World T) :=
  match runBody step body
      { w with log := w.log ++ [{ callback := c, depth := w.depth, arg := w.fut }],
               depth := w.depth + 1 } with
  | .error e => .error e
  | .ok w1 => .ok { w1 with depth := w.depth }

/-- The invocation of the callbacks of `prog` once the operations of their
bodies are run by `step`. -/
def callWith {T : Type} (prog : Callback → List (Action T))
    (step : Action T → World T → Except Fault (Bool × World T)) :
    Callback → World T → Except Fault (World T) :=
  fun c w => invoke step (prog c) c w

/-- The interpreter: one operation on the future, with the callbacks of `prog`.
Fuel `n + 1` allows drain loops of at most `n` iterations and callback bodies
whose own operations run with fuel `n`. -/
def exec {T : Type} (prog : Callback → List (Action T)) :
    Nat → Action T → World T → Except Fault (Bool × World T)
  | 0, _, _ => .error .fuel
  | n + 1, a, w => perform (callWith prog (exec prog n)) n a w

/-- A sequence of operations issued one after the other, with their results. -/
def execAll {T : Type} (prog : Callback → List (Action T)) (fuel : Nat) :
    List (Action T) → World T → Except Fault (List Bool × World T)
  | [], w => .ok ([], w)
  | a :: rest, w =>
    match exec prog fuel a w with
    | .error e => .error e
    | .ok (b, w1) =>
      match execAll prog fuel rest w1 with
      | .error e => .error e
      | .ok (bs, w2) => .ok (b :: bs, w2)

/-- A freshly constructed future with nothing logged. -/
def World.init {T : Type} : World T := { fut := Future.init, log := [], depth := 0 }

/-- The timeout `double secs`; it is only handed on to the latch. -/
abbrev Secs := Rat

namespace Future

/-- The constructor `Future<T>::Future(const T& _t)`: the fresh block, then
`set(_t)`. -/
def ofValue {T : Type} (prog : Callback → List (Action T)) (_t : T) :
    Except Fault (Bool × World T) :=
  exec prog 1 (.set _t) World.init

/-- The method `Future<T>::await`. -/
def await {T : Type} (latchAwait : Secs → Shared T → Except Fault (Bool × Shared T))
    (secs : Secs) (s : Shared T) : Except Fault (Bool × Shared T) :=
  if !ready s && !discarded s && !failed s then latchAwait secs s else .ok (true, s)

/-- The method `Future<T>::get`: wait (with the default `secs = 0`) unless
ready, `abort()` unless ready afterwards, then `**t` under `assert(*t != NULL)`. -/
def get {T : Type} (latchAwait : Secs → Shared T → Except Fault (Bool × Shared T))
    (s : Shared T) : Except Fault (T × Shared T) :=
  let waited : Except Fault (Shared T) :=
    if !ready s then
      match await latchAwait 0 s with
      | .error e => .error e
      | .ok (_, s1) => .ok s1
    else .ok s
  match waited with
  | .error e => .error e
  | .ok s1 =>
    if !ready s1 then .error .abort
    else
      match s1.t with
      | none => .error .assertion
      | some v => .ok (v, s1)

/-- The assignment `Future<T>::operator=`, seen from one block: `sameObject`
is `this == &that`, `thisHere` says that the assigned handle pointed to the
block (it is cleaned up) and `thatHere` that the source handle does (it is
copied). -/
def assign {T : Type} (call : Callback → World T → Except Fault (World T)) (k : Nat)
    (sameObject thisHere thatHere : Bool) (w : World T) : Except Fault (World T) :=
  if sameObject then .ok w
  else
    match (if thisHere then cleanup call k w else .ok w) with
    | .error e => .error e
    | .ok w1 => .ok (if thatHere then copy w1 else w1)

end Future

namespace Promise

/-- The constructor `Promise<T>::Promise()`: the member future is default
constructed. -/
def init {T : Type} : World T := World.init

/-- The constructor `Promise<T>::Promise(const T& t)`: `f(t)`. -/
def ofValue {T : Type} (prog : Callback → List (Action T)) (t : T) :
    Except Fault (Bool × World T) :=
  Future.ofValue prog t

/-- The calls a program makes through the copies of a promise and the futures
obtained from it. -/
inductive Call (T : Type) where
  | set (t : T)
  | fail (message : String)
  | future
  | copy
  | discard
  deriving DecidableEq, Repr

/-- What each call does on the member future `f`: `Promise<T>::set` is
`f.set(t)`, `Promise<T>::fail` is `f.fail(message)`, `Promise<T>::future` and
the copy constructor copy `f`, and `discard` is called on a future handle. -/
def Call.action {T : Type} : Call T → Action T
  | .set t => .set t
  | .fail message => .fail message
  | .future => .copy
  | .copy => .copy
  | .discard => .discard

/-- Whether the call is one of the three transitions. -/
def Call.isTransition {T : Type} : Call T → Bool
  | .set _ => true
  | .fail _ => true
  | .discard => true
  | _ => false

end Promise

/-- The terminal state an operation selects when it wins the transition. -/
def Action.target {T : Type} : Action T → Option State
  | .set _ => some .READY
  | .fail _ => some .FAILED
  | .discard => some .DISCARDED
  | _ => none

/-- The queue a winning transition drains. -/
def Action.queue {T : Type} : Action T → Queue
  | .set _ => .ready
  | .fail _ => .failed
  | _ => .discarded

/-- The writes a winning transition makes while it holds the lock: the slot,
the state tag and `latch->trigger()`. -/
def Shared.settle {T : Type} (s : Shared T) : Action T → Shared T
  | .set v => { s with t := some v, state := .READY, latch := s.latch.trigger }
  | .fail m => { s with message := some m, state := .FAILED, latch := s.latch.trigger }
  | .discard => { s with state := .DISCARDED, latch := s.latch.trigger }
  | _ => s

/-- The registration that feeds queue `q`. -/
def Queue.on {T : Type} (q : Queue) (c : Callback) : Action T :=
  match q with
  | .ready => .onReady c
  | .failed => .onFailed c
  | .discarded => .onDiscarded c

/-- The block after callback `c` was pushed on queue `q`. -/
def Shared.push {T : Type} (s : Shared T) (q : Queue) (c : Callback) : Shared T :=
  match q with
  | .ready => { s with onReadyCallbacks := s.onReadyCallbacks ++ [c] }
  | .failed => { s with onFailedCallbacks := s.onFailedCallbacks ++ [c] }
  | .discarded => { s with onDiscardedCallbacks := s.onDiscardedCallbacks ++ [c] }

/-- The results of the transition calls among `calls`, given the results `bs`
of all calls. -/
def Promise.results {T : Type} (calls : List (Promise.Call T)) (bs : List Bool) : List Bool :=
  ((calls.zip bs).filter fun p => p.1.isTransition).map Prod.snd

/-- The block is in the state selected by the transition call `c`. -/
def Promise.Selected {T : Type} (c : Promise.Call T) (s : Shared T) : Prop :=
  match c with
  | .set t => s.state = .READY ∧ s.t = some t ∧ s.message = none
  | .fail message => s.state = .FAILED ∧ s.message = some message ∧ s.t = none
  | _ => s.state = .DISCARDED ∧ s.t = none ∧ s.message = none

/-- The callbacks an operation hands to the future. -/
def Action.registered {T : Type} : Action T → List Callback
  | .onReady c => [c]
  | .onFailed c => [c]
  | .onDiscarded c => [c]
  | _ => []

/-- The callback table is well founded: a body only registers callbacks of
smaller rank. -/
def Ranked {T : Type} (prog : Callback → List (Action T)) (rank : Callback → Nat) : Prop :=
  ∀ c, ∀ a ∈ prog c, ∀ c1 ∈ a.registered, rank c1 < rank c

/-- The callbacks an operation on `w` can invoke: those it registers and those
queued. -/
def candidates {T : Type} (a : Action T) (w : World T) : List Callback :=
  a.registered ++ w.fut.onReadyCallbacks ++ w.fut.onFailedCallbacks
    ++ w.fut.onDiscardedCallbacks

/-- Fuel that lets operation `a` on `w` run to completion when callbacks are
ranked by `rank`: more than every queue length and than the rank of every
callback it can invoke, plus one. -/
def fuelFor {T : Type} (rank : Callback → Nat) (a : Action T) (w : World T) : Nat :=
  ((candidates a w).map fun c => rank c + 1).foldr max (candidates a w).length + 1

/-- The value and message slots agree with the state tag. -/
def Shared.SlotsOk {T : Type} (s : Shared T) : Prop :=
  (s.t.isSome = true ↔ s.state = .READY) ∧ (s.message.isSome = true ↔ s.state = .FAILED)

/-- Two blocks agree on everything but the reference count. -/
def Shared.Agree {T : Type} (s s1 : Shared T) : Prop :=
  s1.state = s.state ∧ s1.t = s.t ∧ s1.message = s.message ∧ s1.latch = s.latch
    ∧ s1.lock = s.lock ∧ s1.onReadyCallbacks = s.onReadyCallbacks
    ∧ s1.onFailedCallbacks = s.onFailedCallbacks
    ∧ s1.onDiscardedCallbacks = s.onDiscardedCallbacks
    ∧ s1.freed = s.freed

/-- The world `w1` is `w` after callbacks ran on an unchanged future: the
blocks agree, the depth is back, and the log grew by invocations made at depth
`w.depth` or deeper, each on a block that agrees with `w.fut`. -/
def Frozen {T : Type} (w w1 : World T) : Prop :=
  w.fut.Agree w1.fut ∧ w1.depth = w.depth
    ∧ ∃ l, w1.log = w.log ++ l ∧ ∀ e ∈ l, w.depth ≤ e.depth ∧ w.fut.Agree e.arg

/-- The world `w1` is `w` after the call `c(*this)`: as `Frozen`, and the log
grew by the invocation of `c` at depth `w.depth` followed by deeper ones. -/
def Called {T : Type} (c : Callback) (w w1 : World T) : Prop :=
  w.fut.Agree w1.fut ∧ w1.depth = w.depth
    ∧ ∃ l, w1.log = w.log ++ { callback := c, depth := w.depth, arg := w.fut } :: l
      ∧ ∀ e ∈ l, w.depth < e.depth ∧ w.fut.Agree e.arg

/-- Two blocks agree on the state tag, both slots, the latch, the lock and the
`freed` flag. -/
def Shared.Core {T : Type} (s s1 : Shared T) : Prop :=
  s1.state = s.state ∧ s1.t = s.t ∧ s1.message = s.message ∧ s1.latch = s.latch
    ∧ s1.lock = s.lock ∧ s1.freed = s.freed

/-- The world `w1` is `w` after the drain loop over queue `q`: state, slots,
latch, lock and `freed` flag are untouched, queue `q` is empty and the other queues are as
they were, and the invocations logged at depth `w.depth` are those of the
callbacks queued in `w`, in queue order. -/
def Drained {T : Type} (q : Queue) (w w1 : World T) : Prop :=
  w.fut.Core w1.fut ∧ w1.fut.queue q = [] ∧ (∀ q1, q1 ≠ q → w1.fut.queue q1 = w.fut.queue q1)
    ∧ w1.depth = w.depth
    ∧ ∃ l, w1.log = w.log ++ l ∧ (∀ e ∈ l, w.depth ≤ e.depth ∧ w.fut.Core e.arg)
      ∧ (l.filter fun e => decide (e.depth = w.depth)).map Event.callback = w.fut.queue q

/-- The worlds between operations: a fresh future, a future constructed with a
value, and whatever an operation returns on a reachable world. -/
inductive Reachable {T : Type} (prog : Callback → List (Action T)) : World T → Prop where
  | init : Reachable prog World.init
  | ofValue (t : T) (b : Bool) (w : World T) :
      Future.ofValue prog t = .ok (b, w) → Reachable prog w
  | step (n : Nat) (a : Action T) (w : World T) (b : Bool) (w1 : World T) :
      Reachable prog w → exec prog n a w = .ok (b, w1) → Reachable prog w1

/-- A table of callbacks that do nothing. -/
def idle : Callback → List (Action Nat) := fun _ => []

/-- A table with re-entrant callbacks: callback 1 registers callback 0 on every
queue, tries all three transitions and keeps a copy; callback 0 tries to
discard. -/
def reentrant : Callback → List (Action Nat)
  | 0 => [.discard]
  | 1 => [.onReady 0, .onFailed 0, .onDiscarded 0, .set 5, .fail "late", .discard, .copy]
  | _ => []

/-- A fresh promise after `set(42)`. -/
def answered : World Nat :=
  { fut := { refs := 1, lock := 0, state := .READY, t := some 42, message := none,
             onReadyCallbacks := [], onFailedCallbacks := [], onDiscardedCallbacks := [],
             latch := { triggered := true, triggers := 1 }, freed := false },
    log := [], depth := 0 }

/-- A fresh future after `fail("boom")`. -/
def broken : World Nat :=
  { fut := { refs := 1, lock := 0, state := .FAILED, t := none, message := some "boom",
             onReadyCallbacks := [], onFailedCallbacks := [], onDiscardedCallbacks := [],
             latch := { triggered := true, triggers := 1 }, freed := false },
    log := [], depth := 0 }

/-- The slots agree with the state tag in the block and in every block a
callback was handed. -/
def World.Sound {T : Type} (w : World T) : Prop :=
  w.fut.SlotsOk ∧ ∀ e ∈ w.log, e.arg.SlotsOk

/-- A latch nobody ever triggers, awaited without timeout: the wait never
returns. -/
def neverWakes : Secs → Shared Nat → Except Fault (Bool × Shared Nat) :=
  fun _ _ => .error .blocked

/-- A latch wait during which another thread discards the future. -/
def discardedMeanwhile : Secs → Shared Nat → Except Fault (Bool × Shared Nat) :=
  fun _ s => .ok (true, { s with state := .DISCARDED, latch := s.latch.trigger })

/-- A latch wait during which another thread sets the value 7. -/
def setMeanwhile : Secs → Shared Nat → Except Fault (Bool × Shared Nat) :=
  fun _ s => .ok (true, { s with t := some 7, state := .READY, latch := s.latch.trigger })

/-- The block after the callbacks `cs` were pushed on queue `q`, one after the
other. -/
def Shared.pushAll {T : Type} (s : Shared T) (q : Queue) (cs : List Callback) : Shared T :=
  cs.foldl (fun s1 c => s1.push q c) s

/-- The callbacks invoked at nesting depth `d` among the logged invocations
`l`, in order of invocation. -/
def firedAt {T : Type} (d : Nat) (l : List (Event T)) : List Callback :=
  (l.filter fun e => decide (e.depth = d)).map Event.callback

/-- The terminal state whose callbacks queue `q` holds. -/
def Queue.state : Queue → State
  | .ready => .READY
  | .failed => .FAILED
  | .discarded => .DISCARDED

/-- The callback a registration runs at once on a future in state `st`: the one
it is handed, when `st` is the state the registration waits for. -/
def Action.lateFor {T : Type} (st : State) : Action T → Option Callback
  | .onReady c => if st = .READY then some c else none
  | .onFailed c => if st = .FAILED then some c else none
  | .onDiscarded c => if st = .DISCARDED then some c else none
  | _ => none

/-- A fresh future on which callback 1 was registered with `onReady` and
callback 2 with `onDiscarded`, and which then failed; `set` and `discard` were
tried afterwards. -/
def stuck : World Nat :=
  { fut := { refs := 1, lock := 0, state := .FAILED, t := none, message := some "boom",
             onReadyCallbacks := [1], onFailedCallbacks := [], onDiscardedCallbacks := [2],
             latch := { triggered := true, triggers := 1 }, freed := false },
    log := [], depth := 0 }

/-- The guard is free and the latch agrees with the state tag: it has been
triggered exactly when the state is not PENDING, and `trigger` was called once
in that case and never otherwise. -/
def Shared.Tidy {T : Type} (s : Shared T) : Prop :=
  s.lock = 0 ∧ (s.latch.triggered = true ↔ s.state ≠ .PENDING)
    ∧ s.latch.triggers = if s.state = .PENDING then 0 else 1

/-- The block satisfies `P`, and every block a callback was handed satisfied
`P` and was terminal. -/
def World.Keeps {T : Type} (P : Shared T → Prop) (w : World T) : Prop :=
  P w.fut ∧ ∀ e ∈ w.log, P e.arg ∧ e.arg.state ≠ .PENDING

/-- A fresh future on which the re-entrant callback 1 was registered with
`onReady`. -/
def waiting : World Nat :=
  { fut := { refs := 1, lock := 0, state := .PENDING, t := none, message := none,
             onReadyCallbacks := [1], onFailedCallbacks := [], onDiscardedCallbacks := [],
             latch := { triggered := false, triggers := 0 }, freed := false },
    log := [], depth := 0 }

/-- Whether the operation copies a handle. -/
def Action.isCopy {T : Type} : Action T → Bool
  | .copy => true
  | _ => false

/-- The number of handle copies the body of callback `c` makes. -/
def kept {T : Type} (prog : Callback → List (Action T)) (c : Callback) : Nat :=
  ((prog c).filter Action.isCopy).length

/-- The callbacks only store copies of the future or attempt transitions: no
body registers a callback or destroys a handle. -/
def Keeping {T : Type} (prog : Callback → List (Action T)) : Prop :=
  ∀ c, ∀ a ∈ prog c, a = .copy ∨ a.target.isSome = true

/-- No callback body copies or destroys a handle. -/
def Quiet {T : Type} (prog : Callback → List (Action T)) : Prop :=
  ∀ c, ∀ a ∈ prog c, a ≠ .copy ∧ a ≠ .cleanup

/-- A table whose callback 1 stores two copies of the future it is handed and
whose callback 2 stores one. -/
def hoarding : Callback → List (Action Nat)
  | 1 => [.copy, .copy]
  | 2 => [.copy]
  | _ => []

/-- A fresh future with one handle on which callbacks 1 and 2 were registered
with `onDiscarded`. -/
def watched : World Nat :=
  { fut := { refs := 1, lock := 0, state := .PENDING, t := none, message := none,
             onReadyCallbacks := [], onFailedCallbacks := [], onDiscardedCallbacks := [1, 2],
             latch := { triggered := false, triggers := 0 }, freed := false },
    log := [], depth := 0 }

/-- The block of `answered` after its only handle was destroyed. -/
def leaked : World Nat :=
  { fut := { refs := -1, lock := 0, state := .READY, t := some 42, message := none,
             onReadyCallbacks := [], onFailedCallbacks := [], onDiscardedCallbacks := [],
             latch := { triggered := true, triggers := 1 }, freed := false },
    log := [], depth := 0 }

namespace Handle

/-- What a program does with the handles of one block: copy-construct a
handle from one of them (`Future(const Future&)`, `Promise(const Promise&)`),
call `Promise::future()`, assign (seen from this block as in `Future.assign`),
or destroy one (`~Future`, `~Promise`). -/
inductive Op where
  | copy
  | future
  | assign (sameObject thisHere thatHere : Bool)
  | destroy
  deriving DecidableEq, Repr

/-- The effect of a handle operation on the block: the copy constructor and
`future()` run `copy`, the destructor runs `cleanup`. -/
def step {T : Type} (prog : Callback → List (Action T)) (n : Nat) :
    Op → World T → Except Fault (World T)
  | .copy, w => .ok (Future.copy w)
  | .future, w => .ok (Future.copy w)
  | .assign sameObject thisHere thatHere, w =>
    Future.assign (callWith prog (exec prog n)) n sameObject thisHere thatHere w
  | .destroy, w => Future.cleanup (callWith prog (exec prog n)) n w

/-- A sequence of handle operations. -/
def run {T : Type} (prog : Callback → List (Action T)) (n : Nat) :
    List Op → World T → Except Fault (World T)
  | [], w => .ok w
  | op :: rest, w =>
    match step prog n op w with
    | .error e => .error e
    | .ok w1 => run prog n rest w1

/-- By how much an operation changes the number of live handles of the block. -/
def Op.delta : Op → Int
  | .copy => 1
  | .future => 1
  | .assign sameObject thisHere thatHere =>
    if sameObject then 0 else (if thatHere then 1 else 0) - (if thisHere then 1 else 0)
  | .destroy => -1

/-- The number of live handles after the operations, starting from `h`. -/
def count (h : Int) : List Op → Int
  | [] => h
  | op :: rest => count (h + op.delta) rest

/-- No operation takes away the last handle: a handle is destroyed, or
assigned away from the block, only while another handle of the block is
alive. -/
def Valid (h : Int) : List Op → Prop
  | [] => True
  | op :: rest =>
    (match op with
      | .destroy => 2 ≤ h
      | .assign sameObject thisHere _ => sameObject = true ∨ thisHere = false ∨ 2 ≤ h
      | _ => True) ∧ Valid (h + op.delta) rest

end Handle

/-- A fresh promise after `future()` was called on it: two handles. -/
def shared2 : World Nat :=
  { fut := { refs := 2, lock := 0, state := .PENDING, t := none, message := none,
             onReadyCallbacks := [], onFailedCallbacks := [], onDiscardedCallbacks := [],
             latch := { triggered := false, triggers := 0 }, freed := false },
    log := [], depth := 0 }

/-- The nine pointer members of a handle `Future<T>`, as addresses; 0 is
`NULL`. -/
structure Pointers where
  refs : Nat
  lock : Nat
  state : Nat
  t : Nat
  message : Nat
  onReadyCallbacks : Nat
  onFailedCallbacks : Nat
  onDiscardedCallbacks : Nat
  latch : Nat
  deriving DecidableEq, Repr

namespace Pointers

/-- The addresses a handle points to. -/
def addresses (p : Pointers) : List Nat :=
  [p.refs, p.lock, p.state, p.t, p.message, p.onReadyCallbacks, p.onFailedCallbacks,
    p.onDiscardedCallbacks, p.latch]

/-- The assignments of `Future<T>::copy(const Future<T>& that)`, under
`assert(that.refs > 0)`: each member is taken from `that`. -/
def copy (that : Pointers) : Except Fault Pointers :=
  if that.refs > 0 then
    .ok { refs := that.refs, lock := that.lock, state := that.state, t := that.t,
          message := that.message, onReadyCallbacks := that.onReadyCallbacks,
          onFailedCallbacks := that.onFailedCallbacks,
          onDiscardedCallbacks := that.onDiscardedCallbacks, latch := that.latch }
  else .error .assertion

/-- The comparison `Future<T>::operator ==`. -/
def equals (a that : Pointers) : Except Fault Bool :=
  if a.latch = 0 then .error .assertion
  else if that.latch = 0 then .error .assertion
  else .ok (decide (a.latch = that.latch))

/-- The comparison `Future<T>::operator <`. -/
def less (a that : Pointers) : Except Fault Bool :=
  if a.latch = 0 then .error .assertion
  else if that.latch = 0 then .error .assertion
  else .ok (decide (a.latch < that.latch))

/-- What the nine `new` of the constructor `Future<T>::Future()` guarantee for
the handle `p` they fill, next to the handles `live` in use: no address is
`NULL`, the nine objects are distinct, and none is an object a handle in use
points to. -/
def Fresh (p : Pointers) (live : List Pointers) : Prop :=
  0 ∉ p.addresses ∧ p.addresses.Nodup ∧ ∀ a ∈ live, ∀ x ∈ p.addresses, x ∉ a.addresses

end Pointers

/-- The handles a program can hold: it constructs futures (and promises, whose
member `f` is such a handle), copies handles (copy constructor,
`Promise<T>::future`), assigns one to another, and destroys them. -/
inductive Live : List Pointers → Prop where
  | nil : Live []
  | construct (p : Pointers) (hs : List Pointers) : Live hs → p.Fresh hs → Live (p :: hs)
  | copy (a b : Pointers) (hs : List Pointers) :
      Live hs → a ∈ hs → Pointers.copy a = .ok b → Live (b :: hs)
  | assign (a that b : Pointers) (hs : List Pointers) :
      Live hs → a ∈ hs → that ∈ hs → Pointers.copy that = .ok b → Live (b :: hs.erase a)
  | destroy (a : Pointers) (hs : List Pointers) : Live hs → Live (hs.erase a)

/-- The handle whose nine objects lie at `base`, `base + 1`, ... -/
def Pointers.at (base : Nat) : Pointers :=
  { refs := base, lock := base + 1, state := base + 2, t := base + 3, message := base + 4,
    onReadyCallbacks := base + 5, onFailedCallbacks := base + 6,
    onDiscardedCallbacks := base + 7, latch := base + 8 }

/-- Where a thread stands inside a call of `set`, `fail` or `discard`: before
`internal::acquire`, at the test `*state == PENDING`, at the write of the slot,
at the write of the state tag, at `latch->trigger(); result = true`, at
`internal::release`, at the callback loop, or returned. -/
inductive Pc where
  | acquire
  | test
  | write
  | tag
  | trigger
  | release
  | callbacks
  | done
  deriving DecidableEq, Repr

/-- Whether a thread at this point holds the spin lock. -/
def Pc.holds : Pc → Bool
  | .test => true
  | .write => true
  | .tag => true
  | .trigger => true
  | .release => true
  | _ => false

/-- The statements left before the call returns, at most. -/
def Pc.left : Pc → Nat
  | .acquire => 7
  | .test => 6
  | .write => 5
  | .tag => 4
  | .trigger => 3
  | .release => 2
  | .callbacks => 1
  | .done => 0

/-- A thread inside one call: the call, the point reached and the local
`result`. -/
structure Thread (T : Type) where
  call : Action T
  pc : Pc
  result : Bool
  deriving DecidableEq, Repr

/-- The write of the slot: `*t = new T(_t)` in `set`, `*message = new
std::string(_message)` in `fail`, nothing in `discard`. -/
def Shared.written {T : Type} (s : Shared T) : Action T → Shared T
  | .set v => { s with t := some v }
  | .fail m => { s with message := some m }
  | _ => s

/-- The write of the state tag: `*state = READY`, `FAILED` or `DISCARDED`. -/
def Shared.tagged {T : Type} (s : Shared T) (a : Action T) : Shared T :=
  { s with state := a.target.getD s.state }

/-- One step of a thread on the shared block.  Each compare-and-swap of
`acquire` and `release` is one step (a failed swap in `acquire` is one turn of
its loop), and so is each statement between them; a callback of the loop at the
end is popped without its body being run. -/
def Thread.step {T : Type} (th : Thread T) (s : Shared T) : Except Fault (Thread T × Shared T) :=
  match th.pc with
  | .acquire =>
    match internal.acquire s with
    | .ok s1 => .ok ({ th with pc := .test }, s1)
    | .error _ => .ok (th, s)
  | .test =>
    if s.state = .PENDING then
      match th.call with
      | .discard => .ok ({ th with pc := .tag }, s)
      | _ => .ok ({ th with pc := .write }, s)
    else .ok ({ th with pc := .release }, s)
  | .write => .ok ({ th with pc := .tag }, s.written th.call)
  | .tag => .ok ({ th with pc := .trigger }, s.tagged th.call)
  | .trigger => .ok ({ th with pc := .release, result := true },
      { s with latch := s.latch.trigger })
  | .release =>
    match internal.release s with
    | .error e => .error e
    | .ok s1 => .ok ({ th with pc := .callbacks }, s1)
  | .callbacks =>
    if th.result then
      match s.queue th.call.queue with
      | [] => .ok ({ th with pc := .done }, s)
      | _ :: _ => .ok (th, s.pop th.call.queue)
    else .ok ({ th with pc := .done }, s)
  | .done => .ok (th, s)

/-- The shared block and the threads calling into it. -/
structure Conf (T : Type) where
  shared : Shared T
  threads : List (Thread T)
  deriving DecidableEq, Repr

namespace Conf

/-- The scheduler lets thread `i` take one step; a thread that does not exist
takes none. -/
def step {T : Type} (i : Nat) (c : Conf T) : Except Fault (Conf T) :=
  match c.threads[i]? with
  | none => .ok c
  | some th =>
    match th.step c.shared with
    | .error e => .error e
    | .ok (th1, s1) => .ok { shared := s1, threads := c.threads.set i th1 }

/-- An interleaving: the threads step in the order the schedule lists them. -/
def run {T : Type} : List Nat → Conf T → Except Fault (Conf T)
  | [], c => .ok c
  | i :: schedule, c =>
    match step i c with
    | .error e => .error e
    | .ok c1 => run schedule c1

/-- A fresh future and one thread for each call, none started. -/
def init {T : Type} (calls : List (Action T)) : Conf T :=
  { shared := Future.init, threads := calls.map fun a => { call := a, pc := .acquire, result := false } }

/-- Every call has returned. -/
def allDone {T : Type} (c : Conf T) : Prop := ∀ th ∈ c.threads, th.pc = .done

/-- The statements left before all calls have returned, at most. -/
def left {T : Type} (c : Conf T) : Nat := (c.threads.map fun th => th.pc.left).sum

end Conf

/-- The thread has seen the future PENDING under the lock: it is at one of the
three writes or has `result` true. -/
def Thread.Past {T : Type} (th : Thread T) : Prop :=
  th.pc = .write ∨ th.pc = .tag ∨ th.pc = .trigger ∨ th.result = true

/-- The block of a fresh future as the winning thread has written it so far,
lock aside. -/
def stage {T : Type} (a : Action T) : Pc → Shared T
  | .write => Future.init
  | .tag => (Future.init : Shared T).written a
  | .trigger => ((Future.init : Shared T).written a).tagged a
  | _ => (Future.init : Shared T).settle a

/-- The invariant of the interleavings on a fresh future: the calls are
transitions; `result` is true only after the lock; at most one thread holds the
lock and the lock word says whether one does; at most one thread is past the
test, and the block is what that thread has written so far, or still fresh;
a thread that left the test with `result` false saw the future settled. -/
structure Conf.Inv {T : Type} (c : Conf T) : Prop where
  wf : ∀ (i : Nat) (a : Thread T), c.threads[i]? = some a → a.call.target.isSome = true ∧
    (a.result = true → a.pc = .release ∨ a.pc = .callbacks ∨ a.pc = .done)
  excl : ∀ (i j : Nat) (a b : Thread T), c.threads[i]? = some a → c.threads[j]? = some b →
    a.pc.holds = true → b.pc.holds = true → i = j
  lock : (c.shared.lock = 1 ∧ ∃ (i : Nat) (a : Thread T), c.threads[i]? = some a ∧ a.pc.holds = true) ∨
    (c.shared.lock = 0 ∧ ∀ (i : Nat) (a : Thread T), c.threads[i]? = some a → a.pc.holds = false)
  one : ∀ (i j : Nat) (a b : Thread T), c.threads[i]? = some a → c.threads[j]? = some b → a.Past → b.Past → i = j
  block : (∃ (i : Nat) (a : Thread T), c.threads[i]? = some a ∧ a.Past ∧
      { c.shared with lock := 0 } = stage a.call a.pc) ∨
    ((∀ (i : Nat) (a : Thread T), c.threads[i]? = some a → ¬ a.Past) ∧
      { c.shared with lock := 0 } = (Future.init : Shared T))
  lost : ∀ (i : Nat) (a : Thread T), c.threads[i]? = some a → ¬ a.Past →
    (a.pc = .release ∨ a.pc = .callbacks ∨ a.pc = .done) → c.shared.state ≠ .PENDING

/-- The blocks `select` works on: those of the futures of the set, in iteration
order, and the block of the local `Promise<Future<T> > promise`, whose value
names an input by its position in the set. -/
structure Group (T : Type) where
  inputs : List (World T)
  promise : World Nat
  deriving DecidableEq, Repr

namespace internal.callbacks

/-- The function `internal::callbacks::select(future, promise)`, `i` being the
position of `future` in the set: both assertions, and `promise.set(future)`
unless the promise is ready or discarded.  Nothing is ever registered on the
promise, so its callbacks are those of `idle`.  The copy of the handle
`future` that `set` stores in the promise is not counted here;
`Heap.callbacksSelect` counts it. -/
def select {T : Type} (future : Shared T) (i : Nat) (promise : World Nat) :
    Except Fault (World Nat) :=
  if !Future.ready future then .error .assertion
  else if Future.failed promise.fut then .error .assertion
  else if !Future.ready promise.fut && !Future.discarded promise.fut then
    match exec idle 1 (.set i) promise with
    | .error e => .error e
    | .ok (_, p) => .ok p
  else .ok promise

end internal.callbacks

/-- What the invocations of the callback of `select`, named `sel`, among the
invocations `l` logged by an operation on input `i` do to the promise, in
order.  The callback reads nothing of the future it is handed but `ready()`,
which the logged block records, and writes nothing but the promise, which no
other callback reaches: so its effect is taken from the log, after the
operation on the input.  With `queued`, the callback objects are queue
entries: `pop()` destroys each after its call, and with it the promise handle
bound in it. -/
def relay {T : Type} (sel : Callback) (queued : Bool) (i : Nat) :
    List (Event T) → World Nat → Except Fault (World Nat)
  | [], p => .ok p
  | e :: l, p =>
    if e.callback = sel then
      match internal.callbacks.select e.arg i p with
      | .error x => .error x
      | .ok p1 =>
        match (if queued then exec idle 1 .cleanup p1 else .ok (true, p1)) with
        | .error x => .error x
        | .ok (_, p2) => relay sel queued i l p2
    else relay sel queued i l p

/-- The callbacks of the inputs: those of `prog`, and the callback of `select`
under the name `sel`, which does nothing to the input it is handed (what it
does to the promise is `relay`). -/
def withSel {T : Type} (prog : Callback → List (Action T)) (sel : Callback) :
    Callback → List (Action T) :=
  fun c => if c = sel then [] else prog c

namespace Group

/-- One operation `a` on input `i`, with the callbacks of `prog` on that input
and the callback of `select` acting on the promise.  An operation on an input
that does not exist does nothing.  The bodies of `prog` reach the input they
are handed only; callbacks that reach other futures are those of `Heap`. -/
def act {T : Type} (prog : Callback → List (Action T)) (sel : Callback) (n : Nat)
    (queued : Bool) (i : Nat) (a : Action T) (g : Group T) : Except Fault (Bool × Group T) :=
  match g.inputs[i]? with
  | none => .ok (false, g)
  | some w =>
    match exec (withSel prog sel) n a w with
    | .error e => .error e
    | .ok (b, w1) =>
      match relay sel queued i (w1.log.drop w.log.length) g.promise with
      | .error e => .error e
      | .ok p => .ok (b, { inputs := g.inputs.set i w1, promise := p })

/-- The operations other threads perform on the inputs, one after the other. -/
def run {T : Type} (prog : Callback → List (Action T)) (sel : Callback) (n : Nat) :
    List (Nat × Action T) → Group T → Except Fault (Group T)
  | [], g => .ok g
  | (i, a) :: ops, g =>
    match act prog sel n true i a g with
    | .error e => .error e
    | .ok (_, g1) => run prog sel n ops g1

/-- The call `future.await(secs)` of `select`, on the promise: at once when the
promise is not pending; otherwise `latch->await(secs)`, during which the other
threads perform `during`, and which returns whether the latch was triggered
(modelled from the spec, as `Latch`). -/
def await {T : Type} (prog : Callback → List (Action T)) (sel : Callback) (n : Nat)
    (during : List (Nat × Action T)) (_secs : Secs) (g : Group T) :
    Except Fault (Bool × Group T) :=
  if !Future.ready g.promise.fut && !Future.discarded g.promise.fut
      && !Future.failed g.promise.fut then
    match run prog sel n during g with
    | .error e => .error e
    | .ok g1 => .ok (g1.promise.fut.latch.triggered, g1)
  else .ok (true, g)

/-- The end of `select`: the locals `future`, `callback` (with the promise
bound in it) and `promise` are destroyed. -/
def leave {T : Type} (g : Group T) : Except Fault (Group T) :=
  match exec idle 1 .cleanup g.promise with
  | .error e => .error e
  | .ok (_, p1) =>
    match exec idle 1 .cleanup p1 with
    | .error e => .error e
    | .ok (_, p2) =>
      match exec idle 1 .cleanup p2 with
      | .error e => .error e
      | .ok (_, p3) => .ok { g with promise := p3 }

end Group

/-- The loop of `select` over the inputs at the positions listed:
`future.onReady(callback)`; on a pending input the entry pushed is a copy of
the callback, with a copy of the promise bound in it.  No other thread acts
between two iterations here; `Heap.registerAll` interleaves them. -/
def registerAll {T : Type} (prog : Callback → List (Action T)) (sel : Callback) (n : Nat) :
    List Nat → Group T → Except Fault (Group T)
  | [], g => .ok g
  | i :: rest, g =>
    match g.inputs[i]? with
    | none => registerAll prog sel n rest g
    | some w =>
      match Group.act prog sel n false i (.onReady sel) g with
      | .error e => .error e
      | .ok (_, g1) =>
        registerAll prog sel n rest
          (if w.fut.state = .PENDING then { g1 with promise := Future.copy g1.promise } else g1)

/-- The function `select(futures, secs)`, on the blocks of the futures in
iteration order; other threads perform `during` while it waits and `late`
between a wait that timed out and the discard.  The result is the position of
the selected future.  Handles that live within one statement (`promise.future()`,
arguments passed by value) and the copies of an input handle kept in the
promise and in the result are not counted. -/
def select {T : Type} (prog : Callback → List (Action T)) (sel : Callback) (n : Nat)
    (during late : List (Nat × Action T)) (secs : Secs) (futures : List (World T)) :
    Except Fault (Option Nat × Group T) :=
  match registerAll prog sel n (List.range futures.length)
      { inputs := futures, promise := Future.copy Promise.init } with
  | .error e => .error e
  | .ok g1 =>
    match Group.await prog sel n during secs { g1 with promise := Future.copy g1.promise } with
    | .error e => .error e
    | .ok (awaited, g2) =>
      if awaited then
        match Future.get (fun _ _ => .error .blocked) g2.promise.fut with
        | .error e => .error e
        | .ok (i, _) =>
          match g2.leave with
          | .error e => .error e
          | .ok g3 => .ok (some i, g3)
      else
        match Group.run prog sel n late g2 with
        | .error e => .error e
        | .ok g3 =>
          match exec idle 1 .discard g3.promise with
          | .error e => .error e
          | .ok (_, p) =>
            match Group.leave { g3 with promise := p } with
            | .error e => .error e
            | .ok g4 => .ok (none, g4)

/-- The promise of `select` as its code keeps it: never FAILED, the lock free,
nothing registered, the slot filled exactly when READY, the latch triggered
exactly when not PENDING. -/
def Neat (p : World Nat) : Prop :=
  p.fut.state ≠ .FAILED ∧ p.fut.lock = 0 ∧ (∀ q, p.fut.queue q = []) ∧
    (p.fut.t.isSome = true ↔ p.fut.state = .READY) ∧
    (p.fut.latch.triggered = true ↔ p.fut.state ≠ .PENDING)

/-- The input the promise names is an input of the group, and READY. -/
def Group.Sound {T : Type} (g : Group T) : Prop :=
  ∀ i, g.promise.fut.t = some i → ∃ w, g.inputs[i]? = some w ∧ w.fut.state = .READY

/-- What the invocations of the callback of `select` on input `i` make of the
promise `p`: a pending promise becomes READY naming `i`; a promise that is not
pending keeps state and value. -/
def Settled (i : Nat) (p p1 : World Nat) : Prop :=
  (p.fut.state = .PENDING → p1.fut.state = .READY ∧ p1.fut.t = some i) ∧
    (p.fut.state ≠ .PENDING → p1.fut.state = p.fut.state ∧ p1.fut.t = p.fut.t)

/-- The callbacks an operation appends to queue `q` of a pending future. -/
def Action.pushed {T : Type} : Action T → Queue → List Callback
  | .onReady c, .ready => [c]
  | .onFailed c, .failed => [c]
  | .onDiscarded c, .discarded => [c]
  | _, _ => []

/-- How a group changes while `select` and the other threads work on it: the
inputs stay in place, an input that is not pending keeps its state, the promise
is not discarded behind the back of `select`, and a promise that is not pending
keeps state and value. -/
def Group.Evolves {T : Type} (g g1 : Group T) : Prop :=
  g1.inputs.length = g.inputs.length ∧
    (∀ (j : Nat) (w w1 : World T), g.inputs[j]? = some w → g1.inputs[j]? = some w1 →
      w.fut.state ≠ .PENDING → w1.fut.state = w.fut.state) ∧
    (g1.promise.fut.state = .DISCARDED → g.promise.fut.state = .DISCARDED) ∧
    (g.promise.fut.state ≠ .PENDING →
      g1.promise.fut.state = g.promise.fut.state ∧ g1.promise.fut.t = g.promise.fut.t)

/-- From `g` to `g1` every input kept its state and, if it is pending, the
callbacks of its ready queue. -/
def Group.Holds {T : Type} (g g1 : Group T) : Prop :=
  ∀ (j : Nat) (w : World T), g.inputs[j]? = some w →
    ∃ w1, g1.inputs[j]? = some w1 ∧ w1.fut.state = w.fut.state ∧
      (w1.fut.state = .PENDING → ∀ c ∈ w.fut.onReadyCallbacks, c ∈ w1.fut.onReadyCallbacks)

/-- The queue as each iteration of a drain loop finds it: the queue, then the
queue less its first entry, and so on while an entry is left. -/
def suffixes : List Callback → List (List Callback)
  | [] => []
  | c :: cs => (c :: cs) :: suffixes cs

/-- A table in which every callback registers itself again with `onReady`. -/
def looping : Callback → List (Action Nat) := fun c => [.onReady c]

/-- Some callback body of `prog` registers callback `c` for the state `st`. -/
def Fed {T : Type} (prog : Callback → List (Action T)) (st : State) (c : Callback) : Prop :=
  ∃ c1, ∃ a ∈ prog c1, a.lateFor st = some c

/-- An input after `select` registered its callback `sel` on it: queued on a
pending input, invoked at once on a READY one, dropped otherwise. -/
def registered {T : Type} (sel : Callback) (w : World T) : World T :=
  if w.fut.state = .PENDING then { w with fut := w.fut.push .ready sel }
  else if w.fut.state = .READY then
    { w with log := w.log ++ [{ callback := sel, depth := w.depth, arg := w.fut }] }
  else w

/-- The promise of `select` after the registration on the inputs `ws`, which
stand at the positions `i`, `i + 1`, ...: a pending input takes a copy of the
promise into its queue entry, and the first READY input sets the promise to its
position. -/
def promiseAfter {T : Type} : Nat → List (World T) → World Nat → World Nat
  | _, [], p => p
  | i, w :: ws, p =>
    promiseAfter (i + 1) ws
      (if w.fut.state = .PENDING then Future.copy p
       else if w.fut.state = .READY ∧ p.fut.state = .PENDING then
         { p with fut := p.fut.settle (.set i) }
       else p)

/-- The number of invocations of callback `sel` among the logged invocations
`l`. -/
def hits {T : Type} (sel : Callback) (l : List (Event T)) : Nat :=
  l.countP fun e => decide (e.callback = sel)

/-- The number of entries of callback `sel` in the ready queues of the
inputs. -/
def entries {T : Type} (sel : Callback) (ws : List (World T)) : Nat :=
  (ws.map fun w => w.fut.onReadyCallbacks.count sel).sum

/-- The number of pending inputs. -/
def pendings {T : Type} (ws : List (World T)) : Nat :=
  ws.countP fun w => decide (w.fut.state = .PENDING)

/-- The handles of the promise of `select` are accounted for: `k` of them are
held by locals of `select`, one by each entry of its callback in a ready queue
of an input, nothing was freed; and its callback is in no other queue. -/
def Group.Counted {T : Type} (sel : Callback) (k : Int) (g : Group T) : Prop :=
  g.promise.fut.refs = k + entries sel g.inputs ∧ g.promise.fut.freed = false ∧
    ∀ w ∈ g.inputs, sel ∉ w.fut.onFailedCallbacks ∧ sel ∉ w.fut.onDiscardedCallbacks

/-- Only `select` registers its callback `sel`: no callback body does. -/
def Private {T : Type} (sel : Callback) (prog : Callback → List (Action T)) : Prop :=
  ∀ c, ∀ a ∈ prog c, sel ∉ a.registered

/-- The value an `int` takes for the arithmetic result `x`: 32 bits, two's
complement, as the atomic builtins `__sync_fetch_and_add` and
`__sync_sub_and_fetch` leave it. -/
def int32 (x : Int) : Int := (x + 2 ^ 31) % 2 ^ 32 - 2 ^ 31

/-- The method `Future<T>::copy` with the count as the `int` it is:
`__sync_fetch_and_add(that.refs, 1)` wraps at `2 ^ 31`. -/
def Future.copy32 {T : Type} (w : World T) : World T :=
  { w with fut := { w.fut with refs := int32 (w.fut.refs + 1) } }

/-- The number of live handles stays within the range of the `int` that counts
them, before and after every operation. -/
def Handle.Bounded (h : Int) : List Handle.Op → Prop
  | [] => h ≤ 2 ^ 31 - 1
  | op :: rest => h ≤ 2 ^ 31 - 1 ∧ Handle.Bounded (h + op.delta) rest

/-- A READY future with `2 ^ 31 - 1` live handles. -/
def crowded : World Nat :=
  { answered with fut := { answered.fut with refs := 2 ^ 31 - 1 } }

/-- Several futures of one value type `T` on the heap, by position, and the
block of the `Promise<Future<T> >` of a running `select`, whose value names a
future by its position.  Callbacks are closures: the body of one may operate on
any of the futures, so an operation on one future can change another.  `log`
records every invocation `callback(*this)` with the position of the future it
was made on, and `depth` is the nesting depth of the invocation under way. -/
structure Heap (T : Type) where
  futures : List (Shared T)
  promise : World Nat
  log : List (Nat × Event T)
  depth : Nat
  deriving DecidableEq, Repr

/-- The body of a callback: the operations it performs, in order, each with the
position of the future it is performed on.  The body reaches those futures
through handles that live outside the callback object, so that invoking or
destroying the callback object moves no reference count; the one callback that
carries a handle is that of `select`, which is not in the table. -/
abbrev Body (T : Type) := List (Nat × Action T)

namespace Heap

/-- The heap with the block at position `i` replaced by `s`. -/
def put {T : Type} (h : Heap T) (i : Nat) (s : Shared T) : Heap T :=
  { h with futures := h.futures.set i s }

/-- The function `internal::callbacks::select(future, promise)` invoked on the
future at position `i`: both assertions, and `promise.set(future)` unless the
promise is ready or discarded.  When `set` wins, `*t = new T(_t)` stores a copy
of the handle `future` in the promise: the count of the future goes up by one.
Nothing is ever registered on the promise, so its callbacks are those of
`idle`.  The promise handle passed by value and the handles `promise.future()`
returns live within the call and are not counted. -/
def callbacksSelect {T : Type} (i : Nat) (h : Heap T) : Except Fault (Heap T) :=
  match h.futures[i]? with
  | none => .error .assertion
  | some future =>
    if !Future.ready future then .error .assertion
    else if Future.failed h.promise.fut then .error .assertion
    else if !Future.ready h.promise.fut && !Future.discarded h.promise.fut then
      match process.exec idle 1 (.set i) h.promise with
      | .error e => .error e
      | .ok (won, p) =>
        if won then
          .ok { h.put i { future with refs := future.refs + 1 } with promise := p }
        else .ok { h with promise := p }
    else .ok h

/-- The statements of a callback body, in order. -/
def runBody {T : Type} (step : Nat × Action T → Heap T → Except Fault (Bool × Heap T)) :
    Body T → Heap T → Except Fault (Heap T)
  | [], h => .ok h
  | x :: rest, h =>
    match step x h with
    | .error e => .error e
    | .ok (_, h1) => runBody step rest h1

/-- The call `callback(*this)` on the future at position `i`: the invocation is
logged with the future as the callback receives it, and the body runs one level
deeper.  The callback named `sel` is the one `select` built with `bind`; every
other callback `c` has the body `prog c i`. -/
def invoke {T : Type} (step : Nat × Action T → Heap T → Except Fault (Bool × Heap T))
    (prog : Callback → Nat → Body T) (sel : Callback) (c : Callback) (i : Nat) (h : Heap T) :
    Except Fault (Heap T) :=
  match h.futures[i]? with
  | none => .error .assertion
  | some s =>
    let h0 : Heap T :=
      { h with log := h.log ++ [(i, { callback := c, depth := h.depth, arg := s })],
               depth := h.depth + 1 }
    match (if c = sel then callbacksSelect i h0 else runBody step (prog c i) h0) with
    | .error e => .error e
    | .ok h1 => .ok { h1 with depth := h.depth }

/-- The call `queue->pop()` on queue `q` of the future at position `i`: the
front entry is destroyed, and with an entry of the callback of `select` the
promise handle bound in it. -/
def pop {T : Type} (sel : Callback) (i : Nat) (q : Queue) (h : Heap T) :
    Except Fault (Heap T) :=
  match h.futures[i]? with
  | none => .error .assertion
  | some s =>
    match s.queue q with
    | [] => .ok h
    | c :: _ =>
      if c = sel then
        match process.exec idle 1 .cleanup h.promise with
        | .error e => .error e
        | .ok (_, p) => .ok { h.put i (s.pop q) with promise := p }
      else .ok (h.put i (s.pop q))

/-- The loop `while (!queue->empty()) { callback = queue->front();
callback(*this); queue->pop(); }` of `set`, `fail` and `discard` on the future
at position `i`; the queue is read again in every iteration, as other futures'
callbacks may have run in between, and the first argument after `q` bounds the
number of iterations. -/
def drain {T : Type} (call : Callback → Nat → Heap T → Except Fault (Heap T))
    (sel : Callback) (i : Nat) (q : Queue) : Nat → Heap T → Except Fault (Heap T)
  | 0, h =>
    match h.futures[i]? with
    | none => .error .assertion
    | some s =>
      match s.queue q with
      | [] => .ok h
      | _ :: _ => .error .fuel
  | k + 1, h =>
    match h.futures[i]? with
    | none => .error .assertion
    | some s =>
      match s.queue q with
      | [] => .ok h
      | callback :: _ =>
        match call callback i h with
        | .error e => .error e
        | .ok h1 =>
          match pop sel i q h1 with
          | .error e => .error e
          | .ok h2 => drain call sel i q k h2

/-- The methods `Future<T>::set`, `fail` and `discard` on the future at
position `i`; they differ in the writes made under the lock (`Shared.settle`)
and in the queue drained afterwards (`Action.queue`).  An operation through a
handle that points to no future of the heap does nothing. -/
def transition {T : Type} (call : Callback → Nat → Heap T → Except Fault (Heap T))
    (sel : Callback) (k : Nat) (i : Nat) (a : Action T) (h : Heap T) :
    Except Fault (Bool × Heap T) :=
  match h.futures[i]? with
  | none => .ok (false, h)
  | some s0 =>
    match internal.acquire s0 with
    | .error e => .error e
    | .ok s =>
      let result := decide (s.state = .PENDING)
      let s1 := if s.state = .PENDING then s.settle a else s
      match internal.release s1 with
      | .error e => .error e
      | .ok s2 =>
        if result then
          match drain call sel i a.queue k (h.put i s2) with
          | .error e => .error e
          | .ok h1 => .ok (true, h1)
        else .ok (false, h.put i s2)

/-- The methods `Future<T>::onReady`, `onFailed` and `onDiscarded` on the
future at position `i`, `q` being the queue of the method.  The entry pushed is
a copy of the callback object: with the callback of `select` the promise bound
in it is copied too. -/
def register {T : Type} (call : Callback → Nat → Heap T → Except Fault (Heap T))
    (sel : Callback) (i : Nat) (q : Queue) (callback : Callback) (h : Heap T) :
    Except Fault (Heap T) :=
  match h.futures[i]? with
  | none => .ok h
  | some s0 =>
    match internal.acquire s0 with
    | .error e => .error e
    | .ok s =>
      let run := decide (s.state = q.state)
      let s1 := if s.state = q.state then s
        else if s.state = .PENDING then s.push q callback
        else s
      let p := if s.state ≠ q.state ∧ s.state = .PENDING ∧ callback = sel then
          Future.copy h.promise
        else h.promise
      match internal.release s1 with
      | .error e => .error e
      | .ok s2 =>
        let h1 : Heap T := { h.put i s2 with promise := p }
        if run then call callback i h1 else .ok h1

/-- The method `Future<T>::copy` with the future at position `i` as `that`. -/
def copy {T : Type} (i : Nat) (h : Heap T) : Heap T :=
  match h.futures[i]? with
  | none => h
  | some s => h.put i { s with refs := s.refs + 1 }

/-- The method `Future<T>::cleanup` on a handle of the future at position `i`:
both `__sync_sub_and_fetch` tests, the discard of a still pending future with
the count put back at 1, and the `delete`s. -/
def cleanup {T : Type} (call : Callback → Nat → Heap T → Except Fault (Heap T))
    (sel : Callback) (k : Nat) (i : Nat) (h : Heap T) : Except Fault (Heap T) :=
  match h.futures[i]? with
  | none => .ok h
  | some s =>
    if s.refs - 1 = 0 then
      let discarded : Except Fault (Heap T) :=
        if s.state = .PENDING then
          match transition call sel k i .discard (h.put i { s with refs := 1 }) with
          | .error e => .error e
          | .ok (_, h2) => .ok h2
        else .ok (h.put i { s with refs := s.refs - 1 })
      match discarded with
      | .error e => .error e
      | .ok h2 =>
        match h2.futures[i]? with
        | none => .ok h2
        | some s2 =>
          if s2.refs - 1 = 0 then
            .ok (h2.put i { s2 with refs := s2.refs - 1, freed := true })
          else .ok (h2.put i { s2 with refs := s2.refs - 1 })
    else .ok (h.put i { s with refs := s.refs - 1 })

/-- Dispatch of an operation on the future at position `i` to the method of
`Future<T>`; methods returning `void` or `*this` report `true`. -/
def perform {T : Type} (call : Callback → Nat → Heap T → Except Fault (Heap T))
    (sel : Callback) (k : Nat) (i : Nat) (a : Action T) (h : Heap T) :
    Except Fault (Bool × Heap T) :=
  match a with
  | .set v => transition call sel k i (.set v) h
  | .fail m => transition call sel k i (.fail m) h
  | .discard => transition call sel k i .discard h
  | .onReady c => (register call sel i .ready c h).map fun h1 => (true, h1)
  | .onFailed c => (register call sel i .failed c h).map fun h1 => (true, h1)
  | .onDiscarded c => (register call sel i .discarded c h).map fun h1 => (true, h1)
  | .copy => .ok (true, copy i h)
  | .cleanup => (cleanup call sel k i h).map fun h1 => (true, h1)

/-- The interpreter: one operation on one future of the heap, with the
callbacks of `prog` and the callback `sel` of `select`.  Fuel `n + 1` allows
drain loops of at most `n` iterations and callback bodies whose own operations
run with fuel `n`. -/
def exec {T : Type} (prog : Callback → Nat → Body T) (sel : Callback) :
    Nat → Nat × Action T → Heap T → Except Fault (Bool × Heap T)
  | 0, _, _ => .error .fuel
  | n + 1, x, h =>
    perform (fun c i h1 => invoke (exec prog sel n) prog sel c i h1) sel n x.1 x.2 h

/-- Operations performed one after the other, by this thread or by others. -/
def run {T : Type} (prog : Callback → Nat → Body T) (sel : Callback) (n : Nat) :
    Body T → Heap T → Except Fault (Heap T)
  | [], h => .ok h
  | x :: ops, h =>
    match exec prog sel n x h with
    | .error e => .error e
    | .ok (_, h1) => run prog sel n ops h1

/-- The free function `discard(const std::set<Future<T> >&)`, the elements of
the set standing at the positions listed, in iteration order: the loop body
copies the element into the local `future`, calls `future.discard()`, and the
local is destroyed at the end of the iteration.  Nothing is held from one
iteration to the next: before the iteration on element `i` the other threads
perform `between i`. -/
def discard {T : Type} (prog : Callback → Nat → Body T) (sel : Callback) (n : Nat)
    (between : Nat → Body T) : List Nat → Heap T → Except Fault (Heap T)
  | [], h => .ok h
  | i :: rest, h =>
    match run prog sel n (between i) h with
    | .error e => .error e
    | .ok h0 =>
      match exec prog sel n (i, .discard) (copy i h0) with
      | .error e => .error e
      | .ok (_, h1) =>
        match exec prog sel n (i, .cleanup) h1 with
        | .error e => .error e
        | .ok (_, h2) => discard prog sel n between rest h2

/-- The loop of `select` over the inputs at the positions listed:
`future.onReady(callback)`.  Nothing is held from one iteration to the next:
before the iteration on input `i` the other threads perform `between i`. -/
def registerAll {T : Type} (prog : Callback → Nat → Body T) (sel : Callback) (n : Nat)
    (between : Nat → Body T) : List Nat → Heap T → Except Fault (Heap T)
  | [], h => .ok h
  | i :: rest, h =>
    match run prog sel n (between i) h with
    | .error e => .error e
    | .ok h1 =>
      match exec prog sel n (i, .onReady sel) h1 with
      | .error e => .error e
      | .ok (_, h2) => registerAll prog sel n between rest h2

/-- The call `future.await(secs)` of `select`, on the promise: at once when the
promise is not pending; otherwise `latch->await(secs)`, during which the other
threads perform `during`, and which returns whether the latch was triggered
(modelled from the spec, as `Latch`). -/
def await {T : Type} (prog : Callback → Nat → Body T) (sel : Callback) (n : Nat)
    (during : Body T) (_secs : Secs) (h : Heap T) : Except Fault (Bool × Heap T) :=
  if !Future.ready h.promise.fut && !Future.discarded h.promise.fut
      && !Future.failed h.promise.fut then
    match run prog sel n during h with
    | .error e => .error e
    | .ok h1 => .ok (h1.promise.fut.latch.triggered, h1)
  else .ok (true, h)

/-- The end of `select`: the locals `future`, `callback` (with the promise
bound in it) and `promise` are destroyed.  A promise that is READY is never
freed by these (the second decrement of `cleanup` leaves -1), so the handle
stored in it is not destroyed. -/
def leave {T : Type} (h : Heap T) : Except Fault (Heap T) :=
  match process.exec idle 1 .cleanup h.promise with
  | .error e => .error e
  | .ok (_, p1) =>
    match process.exec idle 1 .cleanup p1 with
    | .error e => .error e
    | .ok (_, p2) =>
      match process.exec idle 1 .cleanup p2 with
      | .error e => .error e
      | .ok (_, p3) => .ok { h with promise := p3 }

/-- The function `select(futures, secs)`, on the blocks of the futures in
iteration order.  Other threads perform `between i` before the iteration of the
registration loop on input `i`, `during` while `select` waits, and `late`
between a wait that timed out and the discard.  The result is the position of
the selected future; the handle the result carries is a copy of the one stored
in the promise, so the count of the selected future goes up by one more.
Handles that live within one statement (`promise.future()`, the value
`future.get()` returns) are not counted. -/
def select {T : Type} (prog : Callback → Nat → Body T) (sel : Callback) (n : Nat)
    (between : Nat → Body T) (during late : Body T) (secs : Secs)
    (futures : List (Shared T)) : Except Fault (Option Nat × Heap T) :=
  match registerAll prog sel n between (List.range futures.length)
      { futures := futures, promise := Future.copy Promise.init, log := [], depth := 0 } with
  | .error e => .error e
  | .ok h1 =>
    match await prog sel n during secs { h1 with promise := Future.copy h1.promise } with
    | .error e => .error e
    | .ok (awaited, h2) =>
      if awaited then
        match Future.get (fun _ _ => .error .blocked) h2.promise.fut with
        | .error e => .error e
        | .ok (i, _) =>
          match leave (copy i h2) with
          | .error e => .error e
          | .ok h3 => .ok (some i, h3)
      else
        match run prog sel n late h2 with
        | .error e => .error e
        | .ok h3 =>
          match process.exec idle 1 .discard h3.promise with
          | .error e => .error e
          | .ok (_, p) =>
            match leave { h3 with promise := p } with
            | .error e => .error e
            | .ok h4 => .ok (none, h4)

end Heap

/-- The position of the future on which the callback of `select`, named `sel`,
was invoked first among the logged invocations `l`. -/
def firstSel {T : Type} (sel : Callback) : List (Nat × Event T) → Option Nat
  | [] => none
  | e :: l => if e.2.callback = sel then some e.1 else firstSel sel l

/-- A block that is not pending keeps its state, value and message. -/
def Shared.Stays {T : Type} (s s1 : Shared T) : Prop :=
  s.state ≠ .PENDING → s1.state = s.state ∧ s1.t = s.t ∧ s1.message = s.message

/-- What the invocations `l` make of the promise of `select`: a promise that
is not pending keeps state and value; a pending promise stays as it is, or is
discarded, while the callback of `select` is not invoked, and its first
invocation, on input `i`, makes it READY naming `i` unless it was discarded
before. -/
def Relayed {T : Type} (sel : Callback) (l : List (Nat × Event T)) (p p1 : World Nat) : Prop :=
  (p.fut.state ≠ .PENDING → p1.fut.state = p.fut.state ∧ p1.fut.t = p.fut.t) ∧
  (p.fut.state = .PENDING →
    (firstSel sel l = none →
      (p1.fut.state = .PENDING ∨ p1.fut.state = .DISCARDED) ∧ p1.fut.t = p.fut.t) ∧
    (∀ i, firstSel sel l = some i →
      (p1.fut.state = .READY ∧ p1.fut.t = some i) ∨
        (p1.fut.state = .DISCARDED ∧ p1.fut.t = p.fut.t)))

/-- The logged invocation `e` was made on a future that was not pending, READY
if the callback is that of `select`, and the future is in heap `h` with the
state, value and message the callback saw. -/
def Heap.Seen {T : Type} (sel : Callback) (h : Heap T) (e : Nat × Event T) : Prop :=
  e.2.arg.state ≠ .PENDING ∧ (e.2.callback = sel → e.2.arg.state = .READY) ∧
    ∃ s, h.futures[e.1]? = some s ∧ s.state = e.2.arg.state ∧ s.t = e.2.arg.t ∧
      s.message = e.2.arg.message

/-- How operations take heap `h` to heap `h1`: the futures stay in place, one
that is not pending keeps state, value and message, the nesting depth is back,
the log grew by invocations made at depth `h.depth` or deeper, each on a future
that was not pending and still is as the callback saw it, and the promise
followed the invocations of the callback of `select`. -/
def Heap.Moves {T : Type} (sel : Callback) (h h1 : Heap T) : Prop :=
  h1.futures.length = h.futures.length ∧ h1.depth = h.depth ∧
    (∀ (i : Nat) (s : Shared T), h.futures[i]? = some s →
      ∃ s1, h1.futures[i]? = some s1 ∧ s.Stays s1) ∧
    ∃ l, h1.log = h.log ++ l ∧ (∀ e ∈ l, h.depth ≤ e.2.depth ∧ h1.Seen sel e) ∧
      Relayed sel l h.promise h1.promise

/-- From `h` to `h1` the futures that were not pending kept the queues selected
by `P`. -/
def Heap.Queued {T : Type} (P : Nat → Queue → Prop) (h h1 : Heap T) : Prop :=
  ∀ (i : Nat) (s s1 : Shared T) (q : Queue), h.futures[i]? = some s →
    h1.futures[i]? = some s1 → s.state ≠ .PENDING →
    P i q → s1.queue q = s.queue q

/-- The heap `h1` is `h` after whole operations: as `Moves`, and a future that
was not pending kept its queues. -/
def Heap.Grows {T : Type} (sel : Callback) (h h1 : Heap T) : Prop :=
  Heap.Moves sel h h1 ∧ Heap.Queued (fun _ _ => True) h h1

/-- The invocations logged from `h` to `h1` at the nesting depth of `h`: the
position of the future and the callback, in order. -/
def Heap.fired {T : Type} (h h1 : Heap T) : List (Nat × Callback) :=
  ((h1.log.drop h.log.length).filter fun e => decide (e.2.depth = h.depth)).map
    fun e => (e.1, e.2.callback)

/-- The heap `h1` is `h` after the call `c(*this)` on the future at position
`i`, whose block was `s`: as `Grows`, and the log grew by the invocation of `c`
at depth `h.depth` followed by deeper ones. -/
def Heap.Called {T : Type} (sel : Callback) (c : Callback) (i : Nat) (s : Shared T)
    (h h1 : Heap T) : Prop :=
  h.Grows sel h1 ∧
    ∃ l, h1.log = h.log ++ (i, { callback := c, depth := h.depth, arg := s }) :: l ∧
      ∀ e ∈ l, h.depth < e.2.depth

/-- A table with a callback that reaches another future: callback 7 sets the
future at position 1 to 9, whatever future it is invoked on. -/
def crossing : Callback → Nat → Body Nat
  | 7, _ => [(1, .set 9)]
  | _, _ => []

/-- Two fresh futures A (position 0) and B (position 1); callback 7 was
registered on A with `onDiscarded`.  No `select` is under way. -/
def pair : Heap Nat :=
  { futures := [{ (Future.init : Shared Nat) with onDiscardedCallbacks := [7] }, Future.init],
    promise := Promise.init, log := [], depth := 0 }

/-- The method `Future<T>::cleanup` with the count as the `int` it is: both
`__sync_sub_and_fetch` wrap at `-2 ^ 31`. -/
def Future.cleanup32 {T : Type} (call : Callback → World T → Except Fault (World T)) (k : Nat)
    (w : World T) : Except Fault (World T) :=
  let w1 : World T := { w with fut := { w.fut with refs := int32 (w.fut.refs - 1) } }
  if w1.fut.refs = 0 then
    let discarded : Except Fault (World T) :=
      if w1.fut.state = .PENDING then
        match Future.discard call k { w1 with fut := { w1.fut with refs := 1 } } with
        | .error e => .error e
        | .ok (_, w2) => .ok w2
      else .ok w1
    match discarded with
    | .error e => .error e
    | .ok w2 =>
      let w3 : World T := { w2 with fut := { w2.fut with refs := int32 (w2.fut.refs - 1) } }
      if w3.fut.refs = 0 then .ok { w3 with fut := { w3.fut with freed := true } }
      else .ok w3
  else .ok w1

/-- The assignment `Future<T>::operator=` with the count as the `int` it is,
seen from one block as `Future.assign`. -/
def Future.assign32 {T : Type} (call : Callback → World T → Except Fault (World T)) (k : Nat)
    (sameObject thisHere thatHere : Bool) (w : World T) : Except Fault (World T) :=
  if sameObject then .ok w
  else
    match (if thisHere then Future.cleanup32 call k w else .ok w) with
    | .error e => .error e
    | .ok w1 => .ok (if thatHere then Future.copy32 w1 else w1)

/-- The effect of a handle operation on the block, the count being the `int`
it is. -/
def Handle.step32 {T : Type} (prog : Callback → List (Action T)) (n : Nat) :
    Handle.Op → World T → Except Fault (World T)
  | .copy, w => .ok (Future.copy32 w)
  | .future, w => .ok (Future.copy32 w)
  | .assign sameObject thisHere thatHere, w =>
    Future.assign32 (callWith prog (exec prog n)) n sameObject thisHere thatHere w
  | .destroy, w => Future.cleanup32 (callWith prog (exec prog n)) n w

/-- A sequence of handle operations, the count being the `int` it is. -/
def Handle.run32 {T : Type} (prog : Callback → List (Action T)) (n : Nat) :
    List Handle.Op → World T → Except Fault (World T)
  | [], w => .ok w
  | op :: rest, w =>
    match Handle.step32 prog n op w with
    | .error e => .error e
    | .ok w1 => Handle.run32 prog n rest w1

/-- The callback table of a heap is well founded: a body only registers
callbacks of smaller rank, on whatever future. -/
def Heap.Ranked {T : Type} (prog : Callback → Nat → Body T) (rank : Callback → Nat) : Prop :=
  ∀ c i, ∀ x ∈ prog c i, ∀ c1 ∈ x.2.registered, rank c1 < rank c

/-- No callback body registers the callback `sel` of `select`. -/
def Heap.Apart {T : Type} (sel : Callback) (prog : Callback → Nat → Body T) : Prop :=
  ∀ c i, ∀ x ∈ prog c i, sel ∉ x.2.registered

/-- The guards of the futures are free and no `select` is under way on them:
its callback `sel` is in no queue. -/
def Heap.Free {T : Type} (sel : Callback) (h : Heap T) : Prop :=
  ∀ (i : Nat) (s : Shared T), h.futures[i]? = some s → s.lock = 0 ∧ ∀ q, sel ∉ s.queue q

/-- The number of pending futures of the heap. -/
def Heap.pendings {T : Type} (h : Heap T) : Nat :=
  h.futures.countP fun s => decide (s.state = .PENDING)

end process

/-! ## The executor launcher (`src/launcher/launcher.cpp`) -/

namespace mesos.internal.launcher

/-- A `std::string`: a sequence of characters, NUL included. -/
abbrev string := List Char

/-- The constant `std::string::npos`, the largest `size_t`. -/
def npos : Nat := 2 ^ 64 - 1

/-- The C string behind `s.c_str()` as the C library reads it: the characters
before the first NUL. -/
def c_str (s : string) : string := s.takeWhile fun c => decide (c ≠ Char.ofNat 0)

/-- The C function `strlen`. -/
def strlen (s : string) : Nat := (c_str s).length

/-- Whether `pat` is found in `s` at position 0, character by character. -/
def occursAt : string → string → Bool
  | [], _ => true
  | _ :: _, [] => false
  | p :: pat, c :: s => decide (p = c) && occursAt pat s

/-- The search loop of `find`: the first position at or after `pos`, counted
from the start of the whole string, where `pat` occurs in the rest `s`. -/
def findFrom (pat : string) : string → Nat → Nat
  | [], pos => if occursAt pat [] then pos else npos
  | c :: s, pos => if occursAt pat (c :: s) then pos else findFrom pat s (pos + 1)

/-- The method `std::string::find(const char*)`: the position of the first
occurrence of the C string `pat`, or `npos`. -/
def find (s pat : string) : Nat := findFrom (c_str pat) s 0

/-- The ways the launcher code modelled here can fail to return. -/
inductive Failure where
  | out_of_range
  | fatal
  deriving DecidableEq, Repr

/-- The method `std::string::substr(pos)`: it throws `std::out_of_range` when
`pos` is beyond the size. -/
def substr (s : string) (pos : Nat) : Except Failure string :=
  if pos > s.length then .error .out_of_range else .ok (s.drop pos)

/-- One call `setenv(name, value, overwrite)`, with the C strings it was
handed. -/
structure Setenv where
  name : string
  value : string
  overwrite : Int
  deriving DecidableEq, Repr

/-- The environment of the process, `environ`, and the ghost record of the
calls of `setenv`. -/
structure Environment where
  environ : List (string × string)
  calls : List Setenv
  deriving DecidableEq, Repr

/-- The value of variable `name` in `environ`, as `getenv` finds it: the first
entry with that name. -/
def getenv (name : string) : List (string × string) → Option string
  | [] => none
  | (k, v) :: rest => if k = name then some v else getenv name rest

/-- The list `environ` after variable `name` is given `value`: the first
entry with that name is replaced, or a new entry is added at the end. -/
def store (name value : string) : List (string × string) → List (string × string)
  | [] => [(name, value)]
  | (k, v) :: rest =>
    if k = name then (name, value) :: rest else (k, v) :: store name value rest

/-- The C library call `setenv(name, value, overwrite)` as POSIX describes it:
it fails (returning -1, `EINVAL`) on an empty name or a name with an `=`;
otherwise it adds the variable, or changes it when `overwrite` is nonzero. -/
def setenv (name value : string) (overwrite : Int) (e : Environment) : Int × Environment :=
  let e1 : Environment := { e with calls := e.calls ++ [⟨name, value, overwrite⟩] }
  if name = [] ∨ '=' ∈ name then (-1, e1)
  else if (getenv name e.environ).isSome ∧ overwrite = 0 then (0, e1)
  else (0, { e1 with environ := store name value e.environ })

/-- The members of `ExecutorLauncher`; `frameworkId` and `executorId` stand for
`frameworkId.value()` and `executorId.value()`, and `params` lists the entries
of the `map<string, string>` in the order `foreachpair` visits them. -/
structure ExecutorLauncher where
  frameworkId : string
  executorId : string
  executorUri : string
  user : string
  workDirectory : string
  slavePid : string
  frameworksHome : string
  mesosHome : string
  hadoopHome : string
  redirectIO : Bool
  shouldSwitchUser : Bool
  container : string
  params : List (string × string)
  deriving DecidableEq, Repr

namespace ExecutorLauncher

/-- The body of the loop of `setupEnvVariablesFromParams()` for one entry. -/
def setupEnvVariable (key value : string) (e : Environment) : Except Failure Environment :=
  if find key "env.".toList = 0 then
    match substr key (strlen "env.".toList) with
    | .error x => .error x
    | .ok var => .ok (setenv (c_str var) (c_str value) 1 e).2
  else .ok e

/-- The loop `foreachpair (key, value, params)` of
`setupEnvVariablesFromParams()`. -/
def setupEnvVariablesFrom : List (string × string) → Environment → Except Failure Environment
  | [], e => .ok e
  | (key, value) :: rest, e =>
    match setupEnvVariable key value e with
    | .error x => .error x
    | .ok e1 => setupEnvVariablesFrom rest e1

/-- The method `ExecutorLauncher::setupEnvVariablesFromParams()`. -/
def setupEnvVariablesFromParams (l : ExecutorLauncher) (e : Environment) :
    Except Failure Environment :=
  setupEnvVariablesFrom l.params e

/-- The method `ExecutorLauncher::setupEnvironment()`. -/
def setupEnvironment (l : ExecutorLauncher) (e : Environment) : Except Failure Environment :=
  match setupEnvVariablesFromParams l e with
  | .error x => .error x
  | .ok e1 =>
    let e2 := (setenv "MESOS_DIRECTORY".toList (c_str l.workDirectory) 1 e1).2
    let e3 := (setenv "MESOS_SLAVE_PID".toList (c_str l.slavePid) 1 e2).2
    let e4 := (setenv "MESOS_FRAMEWORK_ID".toList (c_str l.frameworkId) 1 e3).2
    let e5 := (setenv "MESOS_EXECUTOR_ID".toList (c_str l.executorId) 1 e4).2
    let e6 := (setenv "LIBPROCESS_PORT".toList "0".toList 1 e5).2
    if l.mesosHome ≠ [] then .ok (setenv "MESOS_HOME".toList (c_str l.mesosHome) 1 e6).2
    else .ok e6

end ExecutorLauncher

/-- The calls of `setenv` the parameter map asks for: one for each entry whose
key starts with `env.`, in order, named by the rest of the key. -/
def expectedCalls (params : List (string × string)) : List Setenv :=
  params.filterMap fun p =>
    if p.1.take 4 = "env.".toList then some ⟨c_str (p.1.drop 4), c_str p.2, 1⟩ else none

/-- A launcher whose parameters try to override two of the fixed variables and
set one of their own. -/
def sample : ExecutorLauncher :=
  { frameworkId := "fw-1".toList, executorId := "exec-7".toList,
    executorUri := "/bin/true".toList, user := "mesos".toList,
    workDirectory := "/tmp/work".toList, slavePid := "slave@10.0.0.1:5051".toList,
    frameworksHome := [], mesosHome := "/opt/mesos".toList, hadoopHome := [],
    redirectIO := false, shouldSwitchUser := false, container := [],
    params := [("cpus".toList, "2".toList),
      ("env.LIBPROCESS_PORT".toList, "9999".toList),
      ("env.MESOS_DIRECTORY".toList, "/elsewhere".toList),
      ("env.PATH".toList, "/usr/bin".toList),
      ("environment".toList, "prod".toList)] }

/-- The search loop of `find_first_of`: the first position, counted from `pos`,
of a character of `s` that is one of `chars`. -/
def firstOfFrom (chars : string) : string → Nat → Nat
  | [], _ => npos
  | c :: s, pos => if c ∈ chars then pos else firstOfFrom chars s (pos + 1)

/-- The method `std::string::find_first_of`: the position of the first
character that is one of `chars`, or `npos`.  The overload for one character
`c` is `find_first_of s [c]`. -/
def find_first_of (s chars : string) : Nat := firstOfFrom chars s 0

/-- The search loop of `rfind`: the last position at or before `pos` where
`pat` occurs in `s`. -/
def rfindFrom (s pat : string) : Nat → Nat
  | 0 => if occursAt pat s then 0 else npos
  | pos + 1 => if occursAt pat (s.drop (pos + 1)) then pos + 1 else rfindFrom s pat pos

/-- The method `std::string::rfind(const char*)`: the position of the last
occurrence of the C string `pat`, or `npos`; a pattern longer than the string
is not searched for. -/
def rfind (s pat : string) : Nat :=
  if (c_str pat).length ≤ s.length then rfindFrom s (c_str pat) (s.length - (c_str pat).length)
  else npos

/-- The single quote the shell commands are built with. -/
def quote : Char := Char.ofNat 39

/-- One entry of the work directory as `readdir` returns it, with what `stat`
says of it: `none` when `stat` fails, else whether it is a directory. -/
structure Dirent where
  d_name : string
  stat : Option Bool

/-- What the operating system answers to the launcher: the variable
`HADOOP_HOME`, the C library function `basename` of `libgen.h`, the exit status
of a command handed to `system`, the results of `chmod` and `chdir`, and the
entries of the work directory, `none` when `opendir(".")` fails.  The function
`basename` may write into the buffer it is handed (it puts a NUL over a
trailing slash): it gives the string it returns and the buffer as it leaves
it. -/
structure Host where
  HADOOP_HOME : Option string
  basename : string → string × string
  system : string → Int
  chmod : string → Int
  chdir : string → Int
  opendir : Option (List Dirent)

/-- The loop `while (struct dirent *ent = readdir(dir))` of `fetchExecutor()`,
with its variables `found` and `dirname`. -/
def findDirectory : List Dirent → Bool → string → Except Failure (Bool × string)
  | [], found, dirname => .ok (found, dirname)
  | ent :: rest, found, dirname =>
    if ".".toList ≠ c_str ent.d_name ∧ "..".toList ≠ c_str ent.d_name then
      match ent.stat with
      | some isDir =>
        if isDir then
          if found then .error .fatal else findDirectory rest true (c_str ent.d_name)
        else findDirectory rest found dirname
      | none => .error .fatal
    else findDirectory rest found dirname

namespace ExecutorLauncher

/-- The first half of `fetchExecutor()`, up to the comment on `.tgz` files: the
check for illegal characters, the download from HDFS and the resolution of a
relative path.  It gives the commands handed to `system`, in order, and the
value of the variable `executor`, or the failure.  In the HDFS branch
`basename` is handed the buffer of `executor`, which holds no NUL there, and
the command is built from that buffer as `basename` left it. -/
def locate (l : ExecutorLauncher) (os : Host) : List string × Except Failure string :=
  let executor := l.executorUri
  if find_first_of executor [Char.ofNat 92] ≠ npos ∨
      find_first_of executor [quote] ≠ npos ∨
      find_first_of executor [Char.ofNat 0] ≠ npos then
    ([], .error .fatal)
  else if find executor "hdfs://".toList = 0 then
    let hadoopScript : string :=
      if l.hadoopHome ≠ [] then l.hadoopHome ++ "/bin/hadoop".toList
      else
        match os.HADOOP_HOME with
        | some home => c_str home ++ "/bin/hadoop".toList
        | none => "hadoop".toList
    let localFile : string := "./".toList ++ c_str (os.basename (c_str executor)).1
    let command : string := hadoopScript ++ " fs -copyToLocal ".toList ++ [quote] ++
      (os.basename (c_str executor)).2 ++ [quote] ++ " ".toList ++ [quote] ++ localFile ++ [quote]
    if os.system (c_str command) ≠ 0 then ([c_str command], .error .fatal)
    else if os.chmod (c_str localFile) ≠ 0 then ([c_str command], .error .fatal)
    else ([c_str command], .ok localFile)
  else if find_first_of executor (c_str "/".toList) ≠ 0 then
    if l.frameworksHome ≠ [] then ([], .ok (l.frameworksHome ++ "/".toList ++ executor))
    else if l.mesosHome ≠ [] then ([], .ok (l.mesosHome ++ "/frameworks/".toList ++ executor))
    else ([], .error .fatal)
  else ([], .ok executor)

/-- The second half of `fetchExecutor()`, from the test for `.tgz` on the
value `executor` the first half left; the subtraction is the one of `size_t`,
modulo `2 ^ 64`. -/
def unpack (os : Host) (executor : string) : List string × Except Failure string :=
  if rfind executor ".tgz".toList = (executor.length + 2 ^ 64 - strlen ".tgz".toList) % 2 ^ 64 then
    let command : string := "tar xzf ".toList ++ [quote] ++ executor ++ [quote]
    if os.system (c_str command) ≠ 0 then ([c_str command], .error .fatal)
    else
      match os.opendir with
      | some entries =>
        match findDirectory entries false [] with
        | .error x => ([c_str command], .error x)
        | .ok (found, dirname) =>
          if !found then ([c_str command], .error .fatal)
          else if os.chdir (c_str dirname) < 0 then ([c_str command], .error .fatal)
          else ([c_str command], .ok "./executor".toList)
      | none => ([c_str command], .error .fatal)
  else ([], .ok executor)

/-- The method `ExecutorLauncher::fetchExecutor()`: the commands it hands to
`system`, in order, and the path it returns, or the failure (`fatal` and
`fatalerror` end the process). -/
def fetchExecutor (l : ExecutorLauncher) (os : Host) : List string × Except Failure string :=
  match locate l os with
  | (commands, .error x) => (commands, .error x)
  | (commands, .ok executor) => (commands ++ (unpack os executor).1, (unpack os executor).2)

end ExecutorLauncher

/-- Whether `s` ends with the four characters `.tgz`. -/
def endsWithTgz (s : string) : Bool :=
  decide (4 ≤ s.length) && decide (s.drop (s.length - 4) = ".tgz".toList)

/-- A host on which every command and call succeeds, `basename` is the part
after the last slash and leaves its buffer as it was, and the work directory
holds one directory `pkg`. -/
def quiet : Host :=
  { HADOOP_HOME := none,
    basename := fun s => ((s.reverse.takeWhile fun c => decide (c ≠ '/')).reverse, s),
    system := fun _ => 0, chmod := fun _ => 0, chdir := fun _ => 0,
    opendir := some [⟨".".toList, some true⟩, ⟨"..".toList, some true⟩,
      ⟨"pkg".toList, some true⟩, ⟨"x.tgz".toList, some false⟩] }

end mesos.internal.launcher

namespace process

/-! ## Frame lemmas -/

section Lemmas

variable {T : Type}

theorem Shared.Agree.agree_refl (s : Shared T) : s.Agree s := by
  simp [Shared.Agree]

theorem Shared.Agree.agree_trans {a b c : Shared T} (h1 : a.Agree b) (h2 : b.Agree c) :
    a.Agree c := by
  unfold Shared.Agree at *
  obtain ⟨h11, h12, h13, h14, h15, h16, h17, h18⟩ := h1
  obtain ⟨h21, h22, h23, h24, h25, h26, h27, h28⟩ := h2
  simp_all

theorem Frozen.frozen_refl (w : World T) : Frozen w w :=
  ⟨Shared.Agree.agree_refl _, rfl, [], by simp, by simp⟩

theorem Frozen.frozen_trans {a b c : World T} (h1 : Frozen a b) (h2 : Frozen b c) : Frozen a c := by
  obtain ⟨ha1, hd1, l1, hl1, he1⟩ := h1
  obtain ⟨ha2, hd2, l2, hl2, he2⟩ := h2
  refine ⟨ha1.agree_trans ha2, by rw [hd2, hd1], l1 ++ l2, by rw [hl2, hl1, List.append_assoc], ?_⟩
  intro e he
  rcases List.mem_append.1 he with h | h
  · exact he1 e h
  · obtain ⟨hd, hag⟩ := he2 e h
    exact ⟨by omega, ha1.agree_trans hag⟩

theorem Called.frozen {c : Callback} {w w1 : World T} (h : Called c w w1) : Frozen w w1 := by
  obtain ⟨ha, hd, l, hl, he⟩ := h
  refine ⟨ha, hd, _, hl, ?_⟩
  intro e he1
  rcases List.mem_cons.1 he1 with h | h
  · subst h; exact ⟨le_refl _, Shared.Agree.agree_refl _⟩
  · exact ⟨le_of_lt (he e h).1, (he e h).2⟩


theorem set_spin (call : Callback → World T → Except Fault (World T)) (k : Nat) (v : T)
    (w : World T) (hl : w.fut.lock ≠ 0) : Future.set call k v w = .error .spin := by
  simp [Future.set, internal.acquire, hl]

theorem set_terminal_eq (call : Callback → World T → Except Fault (World T)) (k : Nat) (v : T)
    (w : World T) (hw : w.fut.state ≠ .PENDING) (hl : w.fut.lock = 0) :
    Future.set call k v w = .ok (false, w) := by
  obtain ⟨⟨a1, a2, a3, a4, a5, a6, a7, a8, a9, a10⟩, l, d⟩ := w
  simp only at hl hw
  subst hl
  simp [Future.set, internal.acquire, internal.release, hw]

theorem set_pending_eq (call : Callback → World T → Except Fault (World T)) (k : Nat) (v : T)
    (w : World T) (hw : w.fut.state = .PENDING) (hl : w.fut.lock = 0) :
    Future.set call k v w =
      match drain call .ready k { w with fut := { w.fut with
          t := some v, state := .READY, latch := w.fut.latch.trigger } } with
      | .error e => .error e
      | .ok w1 => .ok (true, w1) := by
  simp [Future.set, internal.acquire, internal.release, hl, hw]

theorem fail_spin (call : Callback → World T → Except Fault (World T)) (k : Nat) (m : String)
    (w : World T) (hl : w.fut.lock ≠ 0) : Future.fail call k m w = .error .spin := by
  simp [Future.fail, internal.acquire, hl]

theorem fail_terminal_eq (call : Callback → World T → Except Fault (World T)) (k : Nat) (m : String)
    (w : World T) (hw : w.fut.state ≠ .PENDING) (hl : w.fut.lock = 0) :
    Future.fail call k m w = .ok (false, w) := by
  obtain ⟨⟨a1, a2, a3, a4, a5, a6, a7, a8, a9, a10⟩, l, d⟩ := w
  simp only at hl hw
  subst hl
  simp [Future.fail, internal.acquire, internal.release, hw]

theorem fail_pending_eq (call : Callback → World T → Except Fault (World T)) (k : Nat) (m : String)
    (w : World T) (hw : w.fut.state = .PENDING) (hl : w.fut.lock = 0) :
    Future.fail call k m w =
      match drain call .failed k { w with fut := { w.fut with
          message := some m, state := .FAILED, latch := w.fut.latch.trigger } } with
      | .error e => .error e
      | .ok w1 => .ok (true, w1) := by
  simp [Future.fail, internal.acquire, internal.release, hl, hw]

theorem discard_spin (call : Callback → World T → Except Fault (World T)) (k : Nat)
    (w : World T) (hl : w.fut.lock ≠ 0) : Future.discard call k w = .error .spin := by
  simp [Future.discard, internal.acquire, hl]

theorem discard_terminal_eq (call : Callback → World T → Except Fault (World T)) (k : Nat)
    (w : World T) (hw : w.fut.state ≠ .PENDING) (hl : w.fut.lock = 0) :
    Future.discard call k w = .ok (false, w) := by
  obtain ⟨⟨a1, a2, a3, a4, a5, a6, a7, a8, a9, a10⟩, l, d⟩ := w
  simp only at hl hw
  subst hl
  simp [Future.discard, internal.acquire, internal.release, hw]

theorem discard_pending_eq (call : Callback → World T → Except Fault (World T)) (k : Nat)
    (w : World T) (hw : w.fut.state = .PENDING) (hl : w.fut.lock = 0) :
    Future.discard call k w =
      match drain call .discarded k { w with fut := { w.fut with
          state := .DISCARDED, latch := w.fut.latch.trigger } } with
      | .error e => .error e
      | .ok w1 => .ok (true, w1) := by
  simp [Future.discard, internal.acquire, internal.release, hl, hw]

theorem onReady_spin (call : Callback → World T → Except Fault (World T)) (c : Callback)
    (w : World T) (hl : w.fut.lock ≠ 0) : Future.onReady call c w = .error .spin := by
  simp [Future.onReady, internal.acquire, hl]

theorem onReady_terminal_eq (call : Callback → World T → Except Fault (World T)) (c : Callback)
    (w : World T) (hw : w.fut.state ≠ .PENDING) (hl : w.fut.lock = 0) :
    Future.onReady call c w = if w.fut.state = .READY then call c w else .ok w := by
  obtain ⟨⟨a1, a2, a3, a4, a5, a6, a7, a8, a9, a10⟩, l, d⟩ := w
  simp only at hl hw
  subst hl
  by_cases hr : a3 = .READY <;>
    simp [Future.onReady, internal.acquire, internal.release, hw, hr]

theorem onReady_pending_eq (call : Callback → World T → Except Fault (World T)) (c : Callback)
    (w : World T) (hw : w.fut.state = .PENDING) (hl : w.fut.lock = 0) :
    Future.onReady call c w = .ok { w with fut := { w.fut with
      onReadyCallbacks := w.fut.onReadyCallbacks ++ [c] } } := by
  simp [Future.onReady, internal.acquire, internal.release, hl, hw]

theorem onFailed_spin (call : Callback → World T → Except Fault (World T)) (c : Callback)
    (w : World T) (hl : w.fut.lock ≠ 0) : Future.onFailed call c w = .error .spin := by
  simp [Future.onFailed, internal.acquire, hl]

theorem onFailed_terminal_eq (call : Callback → World T → Except Fault (World T)) (c : Callback)
    (w : World T) (hw : w.fut.state ≠ .PENDING) (hl : w.fut.lock = 0) :
    Future.onFailed call c w = if w.fut.state = .FAILED then call c w else .ok w := by
  obtain ⟨⟨a1, a2, a3, a4, a5, a6, a7, a8, a9, a10⟩, l, d⟩ := w
  simp only at hl hw
  subst hl
  by_cases hr : a3 = .FAILED <;>
    simp [Future.onFailed, internal.acquire, internal.release, hw, hr]

theorem onFailed_pending_eq (call : Callback → World T → Except Fault (World T)) (c : Callback)
    (w : World T) (hw : w.fut.state = .PENDING) (hl : w.fut.lock = 0) :
    Future.onFailed call c w = .ok { w with fut := { w.fut with
      onFailedCallbacks := w.fut.onFailedCallbacks ++ [c] } } := by
  simp [Future.onFailed, internal.acquire, internal.release, hl, hw]

theorem onDiscarded_spin (call : Callback → World T → Except Fault (World T)) (c : Callback)
    (w : World T) (hl : w.fut.lock ≠ 0) : Future.onDiscarded call c w = .error .spin := by
  simp [Future.onDiscarded, internal.acquire, hl]

theorem onDiscarded_terminal_eq (call : Callback → World T → Except Fault (World T)) (c : Callback)
    (w : World T) (hw : w.fut.state ≠ .PENDING) (hl : w.fut.lock = 0) :
    Future.onDiscarded call c w = if w.fut.state = .DISCARDED then call c w else .ok w := by
  obtain ⟨⟨a1, a2, a3, a4, a5, a6, a7, a8, a9, a10⟩, l, d⟩ := w
  simp only at hl hw
  subst hl
  by_cases hr : a3 = .DISCARDED <;>
    simp [Future.onDiscarded, internal.acquire, internal.release, hw, hr]

theorem onDiscarded_pending_eq (call : Callback → World T → Except Fault (World T)) (c : Callback)
    (w : World T) (hw : w.fut.state = .PENDING) (hl : w.fut.lock = 0) :
    Future.onDiscarded call c w = .ok { w with fut := { w.fut with
      onDiscardedCallbacks := w.fut.onDiscardedCallbacks ++ [c] } } := by
  simp [Future.onDiscarded, internal.acquire, internal.release, hl, hw]

theorem cleanup_terminal_eq (call : Callback → World T → Except Fault (World T)) (k : Nat)
    (w : World T) (hw : w.fut.state ≠ .PENDING) :
    Future.cleanup call k w = .ok { w with fut := { w.fut with
      refs := if w.fut.refs = 1 then -1 else w.fut.refs - 1 } } := by
  by_cases h1 : w.fut.refs = 1
  · simp [Future.cleanup, hw, h1]
  · have h2 : ¬ (w.fut.refs - 1 = 0) := by omega
    simp [Future.cleanup, h1, h2]

theorem cleanup_nonlast_eq (call : Callback → World T → Except Fault (World T)) (k : Nat)
    (w : World T) (h1 : w.fut.refs ≠ 1) :
    Future.cleanup call k w = .ok { w with fut := { w.fut with refs := w.fut.refs - 1 } } := by
  have h2 : ¬ (w.fut.refs - 1 = 0) := by omega
  simp [Future.cleanup, h2]

theorem cleanup_last_pending_eq (call : Callback → World T → Except Fault (World T)) (k : Nat)
    (w : World T) (hw : w.fut.state = .PENDING) (h1 : w.fut.refs = 1) :
    Future.cleanup call k w =
      match Future.discard call k w with
      | .error e => .error e
      | .ok (_, w2) =>
        .ok { w2 with fut := { w2.fut with refs := w2.fut.refs - 1,
                                           freed := decide (w2.fut.refs - 1 = 0) || w2.fut.freed } } := by
  obtain ⟨⟨a1, a2, a3, a4, a5, a6, a7, a8, a9, a10⟩, l, d⟩ := w
  simp only at hw h1
  subst hw h1
  simp only [Future.cleanup, sub_self, if_true]
  generalize Future.discard call k _ = r
  rcases r with e | ⟨b, w2⟩
  · rfl
  · by_cases h0 : w2.fut.refs - 1 = 0 <;> simp [h0]


theorem Frozen.state {w w1 : World T} (h : Frozen w w1) : w1.fut.state = w.fut.state := h.1.1

theorem Frozen.lock {w w1 : World T} (h : Frozen w w1) : w1.fut.lock = w.fut.lock := h.1.2.2.2.2.1

theorem Frozen.of_refs (w : World T) (r : Int) :
    Frozen w { w with fut := { w.fut with refs := r } } :=
  ⟨by simp [Shared.Agree], rfl, [], by simp, by simp⟩

theorem runBody_frozen (step : Action T → World T → Except Fault (Bool × World T))
    (hstep : ∀ a w r, w.fut.state ≠ .PENDING → step a w = .ok r → Frozen w r.2) :
    ∀ (body : List (Action T)) (w w1 : World T), w.fut.state ≠ .PENDING →
      runBody step body w = .ok w1 → Frozen w w1 := by
  intro body
  induction body with
  | nil =>
    intro w w1 _ h
    simp only [runBody, Except.ok.injEq] at h
    subst h
    exact Frozen.frozen_refl w
  | cons a rest ih =>
    intro w w1 hw h
    simp only [runBody] at h
    cases hs : step a w with
    | error e => rw [hs] at h; cases h
    | ok r =>
      obtain ⟨b, w2⟩ := r
      rw [hs] at h
      have h1 := hstep a w (b, w2) hw hs
      have h2 := ih w2 w1 (by rw [h1.state]; exact hw) h
      exact h1.frozen_trans h2

theorem invoke_called (step : Action T → World T → Except Fault (Bool × World T))
    (hstep : ∀ a w r, w.fut.state ≠ .PENDING → step a w = .ok r → Frozen w r.2)
    (body : List (Action T)) (c : Callback) (w w1 : World T) (hw : w.fut.state ≠ .PENDING)
    (h : invoke step body c w = .ok w1) : Called c w w1 := by
  unfold invoke at h
  cases hb : runBody step body
      { w with log := w.log ++ [{ callback := c, depth := w.depth, arg := w.fut }],
               depth := w.depth + 1 } with
  | error e => rw [hb] at h; cases h
  | ok w2 =>
    rw [hb] at h
    simp only [Except.ok.injEq] at h
    subst h
    obtain ⟨ha, hd, l, hl, he⟩ := runBody_frozen step hstep body
      { w with log := w.log ++ [{ callback := c, depth := w.depth, arg := w.fut }],
               depth := w.depth + 1 } w2 hw hb
    refine ⟨ha, rfl, l, ?_, ?_⟩
    · simp only [hl, List.append_assoc, List.singleton_append]
    · intro e hel
      obtain ⟨h1, h2⟩ := he e hel
      exact ⟨h1, h2⟩

theorem perform_frozen (call : Callback → World T → Except Fault (World T))
    (hcall : ∀ c w w1, w.fut.state ≠ .PENDING → call c w = .ok w1 → Called c w w1)
    (k : Nat) (a : Action T) (w : World T) (r : Bool × World T) (hw : w.fut.state ≠ .PENDING)
    (h : perform call k a w = .ok r) : Frozen w r.2 := by
  by_cases hl : w.fut.lock = 0
  · cases a with
    | set v =>
      simp only [perform, set_terminal_eq call k v w hw hl, Except.ok.injEq] at h
      subst h; exact Frozen.frozen_refl w
    | fail m =>
      simp only [perform, fail_terminal_eq call k m w hw hl, Except.ok.injEq] at h
      subst h; exact Frozen.frozen_refl w
    | discard =>
      simp only [perform, discard_terminal_eq call k w hw hl, Except.ok.injEq] at h
      subst h; exact Frozen.frozen_refl w
    | onReady c =>
      simp only [perform, onReady_terminal_eq call c w hw hl] at h
      split at h
      · cases hc : call c w with
        | error e => rw [hc] at h; cases h
        | ok w1 =>
          rw [hc] at h
          simp only [Except.map, Except.ok.injEq] at h
          subst h
          exact (hcall c w w1 hw hc).frozen
      · simp only [Except.map, Except.ok.injEq] at h
        subst h; exact Frozen.frozen_refl w
    | onFailed c =>
      simp only [perform, onFailed_terminal_eq call c w hw hl] at h
      split at h
      · cases hc : call c w with
        | error e => rw [hc] at h; cases h
        | ok w1 =>
          rw [hc] at h
          simp only [Except.map, Except.ok.injEq] at h
          subst h
          exact (hcall c w w1 hw hc).frozen
      · simp only [Except.map, Except.ok.injEq] at h
        subst h; exact Frozen.frozen_refl w
    | onDiscarded c =>
      simp only [perform, onDiscarded_terminal_eq call c w hw hl] at h
      split at h
      · cases hc : call c w with
        | error e => rw [hc] at h; cases h
        | ok w1 =>
          rw [hc] at h
          simp only [Except.map, Except.ok.injEq] at h
          subst h
          exact (hcall c w w1 hw hc).frozen
      · simp only [Except.map, Except.ok.injEq] at h
        subst h; exact Frozen.frozen_refl w
    | copy =>
      simp only [perform, Except.ok.injEq] at h
      subst h; exact Frozen.of_refs w _
    | cleanup =>
      simp only [perform, cleanup_terminal_eq call k w hw, Except.map, Except.ok.injEq] at h
      subst h; exact Frozen.of_refs w _
  · cases a with
    | set v => simp [perform, set_spin call k v w hl] at h
    | fail m => simp [perform, fail_spin call k m w hl] at h
    | discard => simp [perform, discard_spin call k w hl] at h
    | onReady c => simp [perform, onReady_spin call c w hl, Except.map] at h
    | onFailed c => simp [perform, onFailed_spin call c w hl, Except.map] at h
    | onDiscarded c => simp [perform, onDiscarded_spin call c w hl, Except.map] at h
    | copy =>
      simp only [perform, Except.ok.injEq] at h
      subst h; exact Frozen.of_refs w _
    | cleanup =>
      simp only [perform, cleanup_terminal_eq call k w hw, Except.map, Except.ok.injEq] at h
      subst h; exact Frozen.of_refs w _

theorem exec_frozen (prog : Callback → List (Action T)) :
    ∀ (n : Nat) (a : Action T) (w : World T) (r : Bool × World T),
      w.fut.state ≠ .PENDING → exec prog n a w = .ok r → Frozen w r.2 := by
  intro n
  induction n with
  | zero => intro a w r _ h; simp [exec] at h
  | succ n ih =>
    intro a w r hw h
    simp only [exec] at h
    exact perform_frozen _
      (fun c w0 w1 hw0 hc => invoke_called (exec prog n) ih (prog c) c w0 w1 hw0 hc) n a w r hw h

theorem callWith_called (prog : Callback → List (Action T)) (n : Nat) (c : Callback)
    (w w1 : World T) (hw : w.fut.state ≠ .PENDING)
    (h : callWith prog (exec prog n) c w = .ok w1) : Called c w w1 :=
  invoke_called (exec prog n) (exec_frozen prog n) (prog c) c w w1 hw h



theorem Shared.Agree.core {s s1 : Shared T} (h : s.Agree s1) : s.Core s1 :=
  ⟨h.1, h.2.1, h.2.2.1, h.2.2.2.1, h.2.2.2.2.1, h.2.2.2.2.2.2.2.2⟩

theorem Shared.Agree.queue {s s1 : Shared T} (h : s.Agree s1) (q : Queue) :
    s1.queue q = s.queue q := by
  obtain ⟨_, _, _, _, _, h6, h7, h8, _⟩ := h
  cases q <;> simp [Shared.queue, *]

theorem Shared.Core.core_trans {a b c : Shared T} (h1 : a.Core b) (h2 : b.Core c) : a.Core c := by
  unfold Shared.Core at *
  obtain ⟨h11, h12, h13, h14, h15⟩ := h1
  obtain ⟨h21, h22, h23, h24, h25⟩ := h2
  simp_all

theorem Shared.Core.core_refl (s : Shared T) : s.Core s := by simp [Shared.Core]

theorem Shared.pop_core (s : Shared T) (q : Queue) : s.Core (s.pop q) := by
  cases q <;> simp [Shared.Core, Shared.pop]

theorem Shared.pop_queue (s : Shared T) (q : Queue) : (s.pop q).queue q = (s.queue q).tail := by
  cases q <;> simp [Shared.queue, Shared.pop]

theorem Shared.pop_queue_ne (s : Shared T) (q q1 : Queue) (h : q1 ≠ q) :
    (s.pop q).queue q1 = s.queue q1 := by
  cases q <;> cases q1 <;> simp_all [Shared.queue, Shared.pop]

theorem drain_drained (call : Callback → World T → Except Fault (World T))
    (hcall : ∀ c w w1, w.fut.state ≠ .PENDING → call c w = .ok w1 → Called c w w1)
    (q : Queue) : ∀ (k : Nat) (w w1 : World T), w.fut.state ≠ .PENDING →
      drain call q k w = .ok w1 → Drained q w w1 := by
  intro k
  induction k with
  | zero =>
    intro w w1 _ h
    simp only [drain] at h
    cases hq : w.fut.queue q with
    | nil =>
      rw [hq] at h
      simp only [Except.ok.injEq] at h
      subst h
      exact ⟨Shared.Core.core_refl _, hq, fun _ _ => rfl, rfl, [], by simp, by simp, by simp [hq]⟩
    | cons c rest => rw [hq] at h; cases h
  | succ k ih =>
    intro w w1 hw h
    simp only [drain] at h
    cases hq : w.fut.queue q with
    | nil =>
      rw [hq] at h
      simp only [Except.ok.injEq] at h
      subst h
      exact ⟨Shared.Core.core_refl _, hq, fun _ _ => rfl, rfl, [], by simp, by simp, by simp [hq]⟩
    | cons c rest =>
      rw [hq] at h
      simp only at h
      cases hc : call c w with
      | error e => rw [hc] at h; cases h
      | ok w2 =>
        rw [hc] at h
        simp only at h
        obtain ⟨ha, hd, l, hl, he⟩ := hcall c w w2 hw hc
        have hw2 : ({ w2 with fut := w2.fut.pop q } : World T).fut.state ≠ .PENDING := by
          have := (Shared.pop_core w2.fut q).1
          simp only
          rw [this, ha.1]; exact hw
        obtain ⟨hc2, hq2, ho2, hd2, l2, hl2, he2, hf2⟩ := ih _ w1 hw2 h
        have hcore : w.fut.Core (w2.fut.pop q) := ha.core.core_trans (Shared.pop_core _ _)
        refine ⟨hcore.core_trans hc2, hq2, ?_, ?_, ?_⟩
        · intro q1 hne
          rw [ho2 q1 hne]
          simp only
          rw [Shared.pop_queue_ne _ _ _ hne, ha.queue]
        · rw [hd2]; exact hd
        · refine ⟨{ callback := c, depth := w.depth, arg := w.fut } :: l ++ l2, ?_, ?_, ?_⟩
          · rw [hl2]; simp only; rw [hl]; simp
          · intro e hel
            simp only [List.cons_append, List.mem_cons, List.mem_append] at hel
            rcases hel with h1 | h1 | h1
            · subst h1; exact ⟨le_refl _, Shared.Core.core_refl _⟩
            · exact ⟨le_of_lt (he e h1).1, (he e h1).2.core⟩
            · obtain ⟨h3, h4⟩ := he2 e h1
              simp only at h3 h4
              exact ⟨by omega, hcore.core_trans h4⟩
          · have hfl : l.filter (fun e => decide (e.depth = w.depth)) = [] := by
              rw [List.filter_eq_nil_iff]
              intro e hel
              have := (he e hel).1
              simp only [decide_eq_true_eq]
              omega
            simp only at hf2
            rw [hd] at hf2
            simp only [List.cons_append, List.filter_cons, decide_True, if_true, List.filter_append,
              hfl, List.nil_append, List.map_cons, hf2]
            rw [Shared.pop_queue, ha.queue, hq]
            rfl



theorem runBody_total (step : Action T → World T → Except Fault (Bool × World T))
    (hstep : ∀ a w r, w.fut.state ≠ .PENDING → step a w = .ok r → Frozen w r.2) :
    ∀ (body : List (Action T)),
      (∀ a ∈ body, ∀ w : World T, w.fut.state ≠ .PENDING → w.fut.lock = 0 →
        ∃ r, step a w = .ok r) →
      ∀ w : World T, w.fut.state ≠ .PENDING → w.fut.lock = 0 →
        ∃ w1, runBody step body w = .ok w1 := by
  intro body
  induction body with
  | nil => intro _ w _ _; exact ⟨w, rfl⟩
  | cons a rest ih =>
    intro hall w hw hl
    obtain ⟨⟨b, w2⟩, hr⟩ := hall a (List.mem_cons_self _ _) w hw hl
    have hf := hstep a w (b, w2) hw hr
    obtain ⟨w1, h1⟩ := ih (fun a1 ha1 => hall a1 (List.mem_cons_of_mem _ ha1)) w2
      (by rw [hf.state]; exact hw) (by rw [hf.lock]; exact hl)
    exact ⟨w1, by simp only [runBody, hr, h1]⟩

theorem invoke_total (step : Action T → World T → Except Fault (Bool × World T))
    (hstep : ∀ a w r, w.fut.state ≠ .PENDING → step a w = .ok r → Frozen w r.2)
    (body : List (Action T))
    (hall : ∀ a ∈ body, ∀ w : World T, w.fut.state ≠ .PENDING → w.fut.lock = 0 →
        ∃ r, step a w = .ok r)
    (c : Callback) (w : World T) (hw : w.fut.state ≠ .PENDING) (hl : w.fut.lock = 0) :
    ∃ w1, invoke step body c w = .ok w1 := by
  obtain ⟨w1, h1⟩ := runBody_total step hstep body hall
    { w with log := w.log ++ [{ callback := c, depth := w.depth, arg := w.fut }],
             depth := w.depth + 1 } hw hl
  exact ⟨{ w1 with depth := w.depth }, by simp only [invoke, h1]⟩

theorem perform_total_terminal (call : Callback → World T → Except Fault (World T)) (k : Nat)
    (a : Action T) (w : World T) (hw : w.fut.state ≠ .PENDING) (hl : w.fut.lock = 0)
    (hcall : ∀ c ∈ a.registered, ∃ w1, call c w = .ok w1) :
    ∃ r, perform call k a w = .ok r := by
  cases a with
  | set v => exact ⟨(false, w), set_terminal_eq call k v w hw hl⟩
  | fail m => exact ⟨(false, w), fail_terminal_eq call k m w hw hl⟩
  | discard => exact ⟨(false, w), discard_terminal_eq call k w hw hl⟩
  | onReady c =>
    obtain ⟨w1, h1⟩ := hcall c (by simp [Action.registered])
    simp only [perform, onReady_terminal_eq call c w hw hl]
    split
    · exact ⟨_, by rw [h1]; rfl⟩
    · exact ⟨_, rfl⟩
  | onFailed c =>
    obtain ⟨w1, h1⟩ := hcall c (by simp [Action.registered])
    simp only [perform, onFailed_terminal_eq call c w hw hl]
    split
    · exact ⟨_, by rw [h1]; rfl⟩
    · exact ⟨_, rfl⟩
  | onDiscarded c =>
    obtain ⟨w1, h1⟩ := hcall c (by simp [Action.registered])
    simp only [perform, onDiscarded_terminal_eq call c w hw hl]
    split
    · exact ⟨_, by rw [h1]; rfl⟩
    · exact ⟨_, rfl⟩
  | copy => exact ⟨_, rfl⟩
  | cleanup => exact ⟨_, by simp only [perform, cleanup_terminal_eq call k w hw]; rfl⟩

theorem exec_total_terminal (prog : Callback → List (Action T)) (rank : Callback → Nat)
    (hr : Ranked prog rank) :
    ∀ (n : Nat) (a : Action T) (w : World T), w.fut.state ≠ .PENDING → w.fut.lock = 0 →
      (∀ c ∈ a.registered, rank c < n) → ∃ r, exec prog (n + 1) a w = .ok r := by
  intro n
  induction n with
  | zero =>
    intro a w hw hl hrk
    simp only [exec]
    exact perform_total_terminal _ 0 a w hw hl (fun c hc => absurd (hrk c hc) (Nat.not_lt_zero _))
  | succ n ih =>
    intro a w hw hl hrk
    rw [exec]
    refine perform_total_terminal _ (n + 1) a w hw hl (fun c hc => ?_)
    refine invoke_total (exec prog (n + 1)) (exec_frozen prog (n + 1)) (prog c) ?_ c w hw hl
    intro a1 ha1 w1 hw1 hl1
    refine ih a1 w1 hw1 hl1 (fun c1 hc1 => ?_)
    have h1 := hr c a1 ha1 c1 hc1
    have h2 := hrk c hc
    omega

theorem callWith_total (prog : Callback → List (Action T)) (rank : Callback → Nat)
    (hr : Ranked prog rank) (n : Nat) (c : Callback) (hc : rank c < n) (w : World T)
    (hw : w.fut.state ≠ .PENDING) (hl : w.fut.lock = 0) :
    ∃ w1, callWith prog (exec prog n) c w = .ok w1 := by
  obtain ⟨m, rfl⟩ : ∃ m, n = m + 1 := ⟨n - 1, by omega⟩
  refine invoke_total (exec prog (m + 1)) (exec_frozen prog (m + 1)) (prog c) ?_ c w hw hl
  intro a1 ha1 w1 hw1 hl1
  refine exec_total_terminal prog rank hr m a1 w1 hw1 hl1 (fun c1 hc1 => ?_)
  have h1 := hr c a1 ha1 c1 hc1
  omega

theorem drain_total (call : Callback → World T → Except Fault (World T))
    (hcall : ∀ c w w1, w.fut.state ≠ .PENDING → call c w = .ok w1 → Called c w w1)
    (q : Queue) : ∀ (k : Nat) (w : World T), w.fut.state ≠ .PENDING → w.fut.lock = 0 →
      (w.fut.queue q).length ≤ k →
      (∀ c ∈ w.fut.queue q, ∀ w0 : World T, w0.fut.state ≠ .PENDING → w0.fut.lock = 0 →
        ∃ w1, call c w0 = .ok w1) →
      ∃ w1, drain call q k w = .ok w1 := by
  intro k
  induction k with
  | zero =>
    intro w _ _ hlen _
    have hq : w.fut.queue q = [] := List.length_eq_zero.1 (Nat.le_zero.1 hlen)
    exact ⟨w, by simp only [drain, hq]⟩
  | succ k ih =>
    intro w hw hl hlen htot
    cases hq : w.fut.queue q with
    | nil => exact ⟨w, by simp only [drain, hq]⟩
    | cons c rest =>
      obtain ⟨w2, h2⟩ := htot c (by rw [hq]; exact List.mem_cons_self _ _) w hw hl
      obtain ⟨ha, hd, -⟩ := hcall c w w2 hw h2
      have hq2 : (w2.fut.pop q).queue q = rest := by
        rw [Shared.pop_queue, ha.queue, hq]; rfl
      have hc2 := ha.core.core_trans (Shared.pop_core w2.fut q)
      obtain ⟨w1, h1⟩ := ih { w2 with fut := w2.fut.pop q }
        (by simp only; rw [hc2.1]; exact hw) (by simp only; rw [hc2.2.2.2.2.1]; exact hl)
        (by simp only; rw [hq2]; rw [hq] at hlen; simpa using hlen)
        (by
          intro c1 hc1
          simp only at hc1
          rw [hq2] at hc1
          exact htot c1 (by rw [hq]; exact List.mem_cons_of_mem _ hc1))
      exact ⟨w1, by simp only [drain, hq, h2, h1]⟩



theorem perform_transition_pending (call : Callback → World T → Except Fault (World T)) (k : Nat)
    (a : Action T) (ha : a.target.isSome = true) (w : World T) (hw : w.fut.state = .PENDING)
    (hl : w.fut.lock = 0) :
    perform call k a w =
      match drain call a.queue k { w with fut := w.fut.settle a } with
      | .error e => .error e
      | .ok w1 => .ok (true, w1) := by
  cases a with
  | set v => exact set_pending_eq call k v w hw hl
  | fail m => exact fail_pending_eq call k m w hw hl
  | discard => exact discard_pending_eq call k w hw hl
  | onReady c => simp [Action.target] at ha
  | onFailed c => simp [Action.target] at ha
  | onDiscarded c => simp [Action.target] at ha
  | copy => simp [Action.target] at ha
  | cleanup => simp [Action.target] at ha

theorem perform_transition_terminal (call : Callback → World T → Except Fault (World T)) (k : Nat)
    (a : Action T) (ha : a.target.isSome = true) (w : World T) (hw : w.fut.state ≠ .PENDING)
    (hl : w.fut.lock = 0) : perform call k a w = .ok (false, w) := by
  cases a with
  | set v => exact set_terminal_eq call k v w hw hl
  | fail m => exact fail_terminal_eq call k m w hw hl
  | discard => exact discard_terminal_eq call k w hw hl
  | onReady c => simp [Action.target] at ha
  | onFailed c => simp [Action.target] at ha
  | onDiscarded c => simp [Action.target] at ha
  | copy => simp [Action.target] at ha
  | cleanup => simp [Action.target] at ha

theorem perform_transition_spin (call : Callback → World T → Except Fault (World T)) (k : Nat)
    (a : Action T) (ha : a.target.isSome = true) (w : World T)
    (hl : w.fut.lock ≠ 0) : perform call k a w = .error .spin := by
  cases a with
  | set v => exact set_spin call k v w hl
  | fail m => exact fail_spin call k m w hl
  | discard => exact discard_spin call k w hl
  | onReady c => simp [Action.target] at ha
  | onFailed c => simp [Action.target] at ha
  | onDiscarded c => simp [Action.target] at ha
  | copy => simp [Action.target] at ha
  | cleanup => simp [Action.target] at ha

theorem perform_on_pending (call : Callback → World T → Except Fault (World T)) (k : Nat)
    (q : Queue) (c : Callback) (w : World T) (hw : w.fut.state = .PENDING)
    (hl : w.fut.lock = 0) :
    perform call k (q.on c) w = .ok (true, { w with fut := w.fut.push q c }) := by
  cases q with
  | ready => simp only [Queue.on, perform, onReady_pending_eq call c w hw hl]; rfl
  | failed => simp only [Queue.on, perform, onFailed_pending_eq call c w hw hl]; rfl
  | discarded => simp only [Queue.on, perform, onDiscarded_pending_eq call c w hw hl]; rfl

theorem perform_on_spin (call : Callback → World T → Except Fault (World T)) (k : Nat)
    (q : Queue) (c : Callback) (w : World T) (hl : w.fut.lock ≠ 0) :
    perform call k (q.on c) w = .error .spin := by
  cases q with
  | ready => simp only [Queue.on, perform, onReady_spin call c w hl]; rfl
  | failed => simp only [Queue.on, perform, onFailed_spin call c w hl]; rfl
  | discarded => simp only [Queue.on, perform, onDiscarded_spin call c w hl]; rfl

theorem settle_state (s : Shared T) (a : Action T) (ha : a.target.isSome = true) :
    some (s.settle a).state = a.target ∧ (s.settle a).lock = s.lock
      ∧ (∀ q, (s.settle a).queue q = s.queue q)
      ∧ (s.settle a).latch = s.latch.trigger ∧ (s.settle a).refs = s.refs
      ∧ (s.settle a).freed = s.freed := by
  cases a <;> simp [Action.target] at ha <;>
    refine ⟨rfl, rfl, fun q => by cases q <;> rfl, rfl, rfl, rfl⟩

theorem settle_terminal (s : Shared T) (a : Action T) (ha : a.target.isSome = true) :
    (s.settle a).state ≠ .PENDING := by
  cases a <;> simp [Action.target] at ha <;> simp [Shared.settle]



theorem perform_cases (call : Callback → World T → Except Fault (World T))
    (hcall : ∀ c w w1, w.fut.state ≠ .PENDING → call c w = .ok w1 → Called c w w1)
    (k : Nat) (a : Action T) (w : World T) (b : Bool) (w1 : World T)
    (h : perform call k a w = .ok (b, w1)) :
    (w.fut.state ≠ .PENDING ∧ Frozen w w1 ∧ (a.target.isSome = true → b = false ∧ w1 = w)) ∨
    (w.fut.state = .PENDING ∧ ∃ a1 : Action T, a1.target.isSome = true ∧
      ∃ w2, ((a1 = a ∧ b = true ∧ w1 = w2) ∨
          (a = .cleanup ∧ a1 = .discard ∧ w.fut.refs = 1 ∧
            w1 = { w2 with fut := { w2.fut with
              refs := w2.fut.refs - 1,
              freed := decide (w2.fut.refs - 1 = 0) || w2.fut.freed } })) ∧
        Drained a1.queue { w with fut := w.fut.settle a1 } w2) ∨
    (w.fut.state = .PENDING ∧ a.target = none ∧ w.fut.Core w1.fut ∧ w1.log = w.log ∧
      w1.depth = w.depth) := by
  by_cases hw : w.fut.state = .PENDING
  · -- pending
    have htrans : ∀ a1 : Action T, a1.target.isSome = true → ∀ b1 w3,
        perform call k a1 w = .ok (b1, w3) →
        b1 = true ∧ Drained a1.queue { w with fut := w.fut.settle a1 } w3 := by
      intro a1 ha1 b1 w3 h1
      by_cases hl : w.fut.lock = 0
      · rw [perform_transition_pending call k a1 ha1 w hw hl] at h1
        cases hd : drain call a1.queue k { w with fut := w.fut.settle a1 } with
        | error e => rw [hd] at h1; cases h1
        | ok w4 =>
          rw [hd] at h1
          simp only [Except.ok.injEq, Prod.mk.injEq] at h1
          obtain ⟨h2, h3⟩ := h1
          subst h3
          exact ⟨h2.symm, drain_drained call hcall a1.queue k _ w4
            (settle_terminal w.fut a1 ha1) hd⟩
      · rw [perform_transition_spin call k a1 ha1 w hl] at h1; cases h1
    have hreg : ∀ (q : Queue) (c : Callback), perform call k (q.on c) w = .ok (b, w1) →
        w.fut.Core w1.fut ∧ w1.log = w.log ∧ w1.depth = w.depth := by
      intro q c h1
      by_cases hl : w.fut.lock = 0
      · rw [perform_on_pending call k q c w hw hl] at h1
        simp only [Except.ok.injEq, Prod.mk.injEq] at h1
        obtain ⟨-, h3⟩ := h1
        subst h3
        refine ⟨?_, rfl, rfl⟩
        cases q <;> simp [Shared.Core, Shared.push]
      · rw [perform_on_spin call k q c w hl] at h1; cases h1
    cases a with
    | set v =>
      obtain ⟨h1, h2⟩ := htrans (.set v) rfl b w1 h
      exact Or.inr (Or.inl ⟨hw, .set v, rfl, w1, Or.inl ⟨rfl, h1, rfl⟩, h2⟩)
    | fail m =>
      obtain ⟨h1, h2⟩ := htrans (.fail m) rfl b w1 h
      exact Or.inr (Or.inl ⟨hw, .fail m, rfl, w1, Or.inl ⟨rfl, h1, rfl⟩, h2⟩)
    | discard =>
      obtain ⟨h1, h2⟩ := htrans .discard rfl b w1 h
      exact Or.inr (Or.inl ⟨hw, .discard, rfl, w1, Or.inl ⟨rfl, h1, rfl⟩, h2⟩)
    | onReady c => exact Or.inr (Or.inr ⟨hw, rfl, hreg .ready c h⟩)
    | onFailed c => exact Or.inr (Or.inr ⟨hw, rfl, hreg .failed c h⟩)
    | onDiscarded c => exact Or.inr (Or.inr ⟨hw, rfl, hreg .discarded c h⟩)
    | copy =>
      simp only [perform, Except.ok.injEq, Prod.mk.injEq] at h
      obtain ⟨-, h3⟩ := h
      subst h3
      exact Or.inr (Or.inr ⟨hw, rfl, by simp [Shared.Core, Future.copy], rfl, rfl⟩)
    | cleanup =>
      by_cases h1 : w.fut.refs = 1
      · simp only [perform, cleanup_last_pending_eq call k w hw h1] at h
        cases hd : Future.discard call k w with
        | error e => rw [hd] at h; cases h
        | ok r =>
          obtain ⟨b2, w2⟩ := r
          rw [hd] at h
          simp only [Except.map, Except.ok.injEq, Prod.mk.injEq] at h
          obtain ⟨-, h3⟩ := h
          subst h3
          obtain ⟨-, h5⟩ := htrans .discard rfl b2 w2 hd
          exact Or.inr (Or.inl ⟨hw, .discard, rfl, w2, Or.inr ⟨rfl, rfl, h1, rfl⟩, h5⟩)
      · simp only [perform, cleanup_nonlast_eq call k w h1, Except.map, Except.ok.injEq,
          Prod.mk.injEq] at h
        obtain ⟨-, h3⟩ := h
        subst h3
        exact Or.inr (Or.inr ⟨hw, rfl, by simp [Shared.Core], rfl, rfl⟩)
  · refine Or.inl ⟨hw, perform_frozen call hcall k a w (b, w1) hw h, ?_⟩
    intro ha
    by_cases hl : w.fut.lock = 0
    · rw [perform_transition_terminal call k a ha w hw hl] at h
      simp only [Except.ok.injEq, Prod.mk.injEq] at h
      exact ⟨h.1.symm, h.2.symm⟩
    · rw [perform_transition_spin call k a ha w hl] at h; cases h

theorem exec_cases (prog : Callback → List (Action T)) (n : Nat) (a : Action T) (w : World T)
    (b : Bool) (w1 : World T) (h : exec prog n a w = .ok (b, w1)) :
    (w.fut.state ≠ .PENDING ∧ Frozen w w1 ∧ (a.target.isSome = true → b = false ∧ w1 = w)) ∨
    (w.fut.state = .PENDING ∧ ∃ a1 : Action T, a1.target.isSome = true ∧
      ∃ w2, ((a1 = a ∧ b = true ∧ w1 = w2) ∨
          (a = .cleanup ∧ a1 = .discard ∧ w.fut.refs = 1 ∧
            w1 = { w2 with fut := { w2.fut with
              refs := w2.fut.refs - 1,
              freed := decide (w2.fut.refs - 1 = 0) || w2.fut.freed } })) ∧
        Drained a1.queue { w with fut := w.fut.settle a1 } w2) ∨
    (w.fut.state = .PENDING ∧ a.target = none ∧ w.fut.Core w1.fut ∧ w1.log = w.log ∧
      w1.depth = w.depth) := by
  cases n with
  | zero => simp [exec] at h
  | succ n =>
    rw [exec] at h
    exact perform_cases _ (fun c w0 w3 hw0 hc => callWith_called prog n c w0 w3 hw0 hc) n a w b w1 h



theorem foldr_max_bound (l : List Nat) (b : Nat) :
    b ≤ l.foldr max b ∧ ∀ x ∈ l, x ≤ l.foldr max b := by
  induction l with
  | nil => simp
  | cons y ys ih =>
    obtain ⟨h1, h2⟩ := ih
    refine ⟨le_trans h1 (le_max_right _ _), ?_⟩
    intro x hx
    rcases List.mem_cons.1 hx with h | h
    · subst h; exact le_max_left _ _
    · exact le_trans (h2 x h) (le_max_right _ _)

theorem fuelFor_spec (rank : Callback → Nat) (a : Action T) (w : World T) (n : Nat)
    (hn : fuelFor rank a w ≤ n) :
    ∃ m, n = m + 1 ∧ (candidates a w).length ≤ m ∧ ∀ c ∈ candidates a w, rank c < m := by
  obtain ⟨h1, h2⟩ := foldr_max_bound ((candidates a w).map fun c => rank c + 1)
    (candidates a w).length
  unfold fuelFor at hn
  refine ⟨n - 1, by omega, by omega, ?_⟩
  intro c hc
  have := h2 (rank c + 1) (List.mem_map.2 ⟨c, hc, rfl⟩)
  omega

theorem queue_sublist_candidates (a : Action T) (w : World T) (q : Queue) :
    (∀ c ∈ w.fut.queue q, c ∈ candidates a w) ∧
      (w.fut.queue q).length ≤ (candidates a w).length := by
  cases q <;> simp only [Shared.queue, candidates, List.mem_append, List.length_append] <;>
    refine ⟨fun c hc => by simp [hc], by omega⟩

theorem exec_total (prog : Callback → List (Action T)) (rank : Callback → Nat)
    (hr : Ranked prog rank) (a : Action T) (w : World T) (hl : w.fut.lock = 0) (n : Nat)
    (hn : fuelFor rank a w ≤ n) : ∃ r, exec prog n a w = .ok r := by
  obtain ⟨m, rfl, hlen, hrank⟩ := fuelFor_spec rank a w n hn
  rw [exec]
  by_cases hw : w.fut.state = .PENDING
  · have hdrain : ∀ a1 : Action T, a1.target.isSome = true →
        ∃ r, perform (callWith prog (exec prog m)) m a1 w = .ok r := by
      intro a1 ha1
      rw [perform_transition_pending _ m a1 ha1 w hw hl]
      obtain ⟨h1, h2, h3, -⟩ := settle_state w.fut a1 ha1
      obtain ⟨w1, hd⟩ := drain_total (callWith prog (exec prog m))
        (fun c w0 w3 hw0 hc => callWith_called prog m c w0 w3 hw0 hc) a1.queue m
        { w with fut := w.fut.settle a1 } (settle_terminal w.fut a1 ha1)
        (by simp only; rw [h2]; exact hl)
        (by simp only; rw [h3]; exact le_trans (queue_sublist_candidates a w _).2 hlen)
        (by
          intro c hc w0 hw0 hl0
          simp only at hc
          rw [h3] at hc
          exact callWith_total prog rank hr m c
            (hrank c ((queue_sublist_candidates a w _).1 c hc)) w0 hw0 hl0)
      exact ⟨(true, w1), by rw [hd]⟩
    cases a with
    | set v => exact hdrain (.set v) rfl
    | fail s => exact hdrain (.fail s) rfl
    | discard => exact hdrain .discard rfl
    | onReady c => exact ⟨_, perform_on_pending _ m .ready c w hw hl⟩
    | onFailed c => exact ⟨_, perform_on_pending _ m .failed c w hw hl⟩
    | onDiscarded c => exact ⟨_, perform_on_pending _ m .discarded c w hw hl⟩
    | copy => exact ⟨_, rfl⟩
    | cleanup =>
      by_cases h1 : w.fut.refs = 1
      · obtain ⟨⟨b, w2⟩, hd⟩ := hdrain .discard rfl
        simp only [perform] at hd
        simp only [perform, cleanup_last_pending_eq _ m w hw h1, hd]
        exact ⟨_, rfl⟩
      · simp only [perform, cleanup_nonlast_eq _ m w h1]
        exact ⟨_, rfl⟩
  · refine perform_total_terminal _ m a w hw hl (fun c hc => ?_)
    exact callWith_total prog rank hr m c
      (hrank c (by simp [candidates, hc])) w hw hl



theorem exec_transition (prog : Callback → List (Action T)) (n : Nat) (a : Action T)
    (ha : a.target.isSome = true) (w : World T) (b : Bool) (w1 : World T)
    (h : exec prog n a w = .ok (b, w1)) :
    (b = true ↔ w.fut.state = .PENDING) ∧
      (b = false → w1 = w) ∧
      (b = true → Drained a.queue { w with fut := w.fut.settle a } w1) := by
  rcases exec_cases prog n a w b w1 h with ⟨hw, -, h2⟩ | ⟨hw, a1, -, w2, h2, hd⟩ |
    ⟨-, h2, -⟩
  · obtain ⟨hb, hww⟩ := h2 ha
    subst hb
    exact ⟨by simp [hw], fun _ => hww, by simp⟩
  · rcases h2 with ⟨rfl, hb, rfl⟩ | ⟨h3, -⟩
    · subst hb
      exact ⟨by simp [hw], by simp, fun _ => hd⟩
    · subst h3; simp [Action.target] at ha
  · rw [h2] at ha; simp at ha

theorem ranked_idle : Ranked idle id := by
  intro c a ha
  simp [idle] at ha

theorem ranked_reentrant : Ranked reentrant id := by
  intro c a ha c1 hc1
  match c with
  | 0 =>
    simp only [reentrant, List.mem_singleton] at ha
    subst ha
    simp [Action.registered] at hc1
  | 1 =>
    simp only [reentrant, List.mem_cons, List.mem_singleton, List.not_mem_nil, or_false] at ha
    rcases ha with rfl | rfl | rfl | rfl | rfl | rfl | rfl <;>
      simp [Action.registered] at hc1 <;> simp [hc1]
  | n + 2 => simp [reentrant] at ha


theorem exec_transition_terminal (prog : Callback → List (Action T)) (n : Nat) (a : Action T)
    (ha : a.target.isSome = true) (w : World T) (hw : w.fut.state ≠ .PENDING)
    (hl : w.fut.lock = 0) : exec prog (n + 1) a w = .ok (false, w) := by
  rw [exec]
  exact perform_transition_terminal _ n a ha w hw hl

theorem drain_nil (call : Callback → World T → Except Fault (World T)) (q : Queue) (k : Nat)
    (w : World T) (hq : w.fut.queue q = []) : drain call q k w = .ok w := by
  cases k <;> simp only [drain, hq]

theorem get_ready (latchAwait : Secs → Shared T → Except Fault (Bool × Shared T))
    (s : Shared T) (v : T) (hs : s.state = .READY) (ht : s.t = some v) :
    Future.get latchAwait s = .ok (v, s) := by
  simp [Future.get, Future.ready, hs, ht]

theorem results_cons (c : Promise.Call T) (rest : List (Promise.Call T)) (b : Bool)
    (bs : List Bool) :
    Promise.results (c :: rest) (b :: bs) =
      if c.isTransition then b :: Promise.results rest bs else Promise.results rest bs := by
  unfold Promise.results
  by_cases hc : c.isTransition = true <;> simp [List.filter_cons, hc]

theorem execAll_cons (prog : Callback → List (Action T)) (n : Nat) (a : Action T)
    (rest : List (Action T)) (w w1 w2 : World T) (b : Bool) (bs : List Bool)
    (h1 : exec prog n a w = .ok (b, w1)) (h2 : execAll prog n rest w1 = .ok (bs, w2)) :
    execAll prog n (a :: rest) w = .ok (b :: bs, w2) := by
  simp only [execAll, h1, h2]

theorem calls_after_terminal (prog : Callback → List (Action T)) (n : Nat) :
    ∀ (calls : List (Promise.Call T)) (w : World T), w.fut.state ≠ .PENDING → w.fut.lock = 0 →
      ∃ bs w1, execAll prog (n + 1) (calls.map Promise.Call.action) w = .ok (bs, w1) ∧
        bs.length = calls.length ∧
        Promise.results calls bs = (calls.filter Promise.Call.isTransition).map (fun _ => false) ∧
        w1.fut.state = w.fut.state ∧ w1.fut.t = w.fut.t ∧ w1.fut.message = w.fut.message := by
  intro calls
  induction calls with
  | nil => intro w _ _; exact ⟨[], w, rfl, rfl, rfl, rfl, rfl, rfl⟩
  | cons c rest ih =>
    intro w hw hl
    by_cases hc : c.isTransition = true
    · have ha : c.action.target.isSome = true := by
        cases c <;> simp [Promise.Call.isTransition] at hc <;> rfl
      obtain ⟨bs, w1, h1, h2, h3, h4, h5, h6⟩ := ih w hw hl
      refine ⟨false :: bs, w1, ?_, by simp [h2], ?_, h4, h5, h6⟩
      · exact execAll_cons prog (n + 1) _ _ w w w1 false bs
          (exec_transition_terminal prog n _ ha w hw hl) h1
      · rw [results_cons, if_pos hc, h3, List.filter_cons, if_pos hc]; rfl
    · have ha : c.action = .copy := by
        cases c <;> simp [Promise.Call.isTransition] at hc <;> rfl
      obtain ⟨bs, w1, h1, h2, h3, h4, h5, h6⟩ := ih (Future.copy w) hw hl
      refine ⟨true :: bs, w1, ?_, by simp [h2], ?_, h4, h5, h6⟩
      · refine execAll_cons prog (n + 1) _ _ w (Future.copy w) w1 true bs ?_ h1
        rw [ha]; rfl
      · rw [results_cons, if_neg hc, h3, List.filter_cons, if_neg hc]

theorem calls_from_pending (prog : Callback → List (Action T)) (n : Nat) :
    ∀ (calls : List (Promise.Call T)) (w : World T), w.fut.state = .PENDING → w.fut.lock = 0 →
      (∀ q, w.fut.queue q = []) → w.fut.t = none → w.fut.message = none →
      ∃ bs w1, execAll prog (n + 1) (calls.map Promise.Call.action) w = .ok (bs, w1) ∧
        bs.length = calls.length ∧
        match calls.filter Promise.Call.isTransition with
        | [] => Promise.results calls bs = [] ∧ w1.fut.state = .PENDING
        | first :: later =>
          Promise.results calls bs = true :: later.map (fun _ => false) ∧
            Promise.Selected first w1.fut := by
  intro calls
  induction calls with
  | nil => intro w hw _ _ _ _; exact ⟨[], w, rfl, rfl, rfl, hw⟩
  | cons c rest ih =>
    intro w hw hl hq ht hm
    by_cases hc : c.isTransition = true
    · have ha : c.action.target.isSome = true := by
        cases c <;> simp [Promise.Call.isTransition] at hc <;> rfl
      obtain ⟨hs1, hs2, hs3, -⟩ := settle_state w.fut c.action ha
      have hstep : exec prog (n + 1) c.action w =
          .ok (true, { w with fut := w.fut.settle c.action }) := by
        rw [exec, perform_transition_pending _ n _ ha w hw hl,
          drain_nil _ _ _ _ (by simp only; rw [hs3]; exact hq _)]
      obtain ⟨bs, w1, h1, h2, h3, h4, h5, h6⟩ := calls_after_terminal prog n rest
        { w with fut := w.fut.settle c.action } (settle_terminal w.fut _ ha)
        (by simp only; rw [hs2]; exact hl)
      refine ⟨true :: bs, w1, execAll_cons prog (n + 1) _ _ w _ w1 true bs hstep h1,
        by simp [h2], ?_⟩
      rw [List.filter_cons, if_pos hc]
      simp only
      refine ⟨by rw [results_cons, if_pos hc, h3], ?_⟩
      simp only at h4 h5 h6
      cases c <;> simp [Promise.Call.isTransition] at hc <;>
        simp [Promise.Selected, h4, h5, h6, Shared.settle, Promise.Call.action, ht, hm]
    · have ha : c.action = .copy := by
        cases c <;> simp [Promise.Call.isTransition] at hc <;> rfl
      obtain ⟨bs, w1, h1, h2, h3⟩ := ih (Future.copy w) hw hl
        (fun q => hq q) ht hm
      refine ⟨true :: bs, w1, ?_, by simp [h2], ?_⟩
      · refine execAll_cons prog (n + 1) _ _ w (Future.copy w) w1 true bs ?_ h1
        rw [ha]; rfl
      · rw [List.filter_cons, if_neg hc, results_cons, if_neg hc]
        exact h3

theorem await_terminal (latchAwait : Secs → Shared T → Except Fault (Bool × Shared T))
    (secs : Secs) (s : Shared T) (hs : s.state ≠ .PENDING) :
    Future.await latchAwait secs s = .ok (true, s) := by
  cases h : s.state <;> simp_all [Future.await, Future.ready, Future.discarded, Future.failed]

theorem await_pending (latchAwait : Secs → Shared T → Except Fault (Bool × Shared T))
    (secs : Secs) (s : Shared T) (hs : s.state = .PENDING) :
    Future.await latchAwait secs s = latchAwait secs s := by
  simp [Future.await, Future.ready, Future.discarded, Future.failed, hs]

theorem get_not_ready (latchAwait : Secs → Shared T → Except Fault (Bool × Shared T))
    (s : Shared T) (hs : s.state ≠ .PENDING) (hr : s.state ≠ .READY) :
    Future.get latchAwait s = .error .abort := by
  simp [Future.get, Future.ready, hr, await_terminal latchAwait 0 s hs]

theorem get_terminal_block (latchAwait : Secs → Shared T → Except Fault (Bool × Shared T))
    (s : Shared T) (hs : s.state ≠ .PENDING) (v : T) (s1 : Shared T)
    (h : Future.get latchAwait s = .ok (v, s1)) : s1 = s := by
  by_cases hr : s.state = .READY
  · cases ht : s.t with
    | none => simp [Future.get, Future.ready, hr, ht] at h
    | some v1 =>
      rw [get_ready latchAwait s v1 hr ht] at h
      simp only [Except.ok.injEq, Prod.mk.injEq] at h
      exact h.2.symm
  · rw [get_not_ready latchAwait s hs hr] at h; cases h

theorem assign_terminal_state (call : Callback → World T → Except Fault (World T)) (k : Nat)
    (sameObject thisHere thatHere : Bool) (w w1 : World T) (hw : w.fut.state ≠ .PENDING)
    (h : Future.assign call k sameObject thisHere thatHere w = .ok w1) :
    w1.fut.state = w.fut.state := by
  unfold Future.assign at h
  cases sameObject <;> cases thisHere <;> cases thatHere <;>
    simp [cleanup_terminal_eq call k w hw, Future.copy] at h <;> subst h <;> rfl

theorem Shared.Core.slots {s s1 : Shared T} (h : s.Core s1) (hs : s.SlotsOk) : s1.SlotsOk := by
  obtain ⟨h1, h2, h3, -⟩ := h
  unfold Shared.SlotsOk at *
  rw [h1, h2, h3]
  exact hs

theorem settle_slots (s : Shared T) (a : Action T) (ha : a.target.isSome = true)
    (hp : s.state = .PENDING) (hs : s.SlotsOk) : (s.settle a).SlotsOk := by
  obtain ⟨h1, h2⟩ := hs
  have ht : s.t = none := by
    cases h : s.t with
    | none => rfl
    | some v => rw [h, hp] at h1; simp at h1
  have hm : s.message = none := by
    cases h : s.message with
    | none => rfl
    | some v => rw [h, hp] at h2; simp at h2
  cases a <;> simp [Action.target] at ha <;> simp [Shared.SlotsOk, Shared.settle, ht, hm]

theorem exec_sound (prog : Callback → List (Action T)) (n : Nat) (a : Action T) (w : World T)
    (b : Bool) (w1 : World T) (hs : w.Sound) (h : exec prog n a w = .ok (b, w1)) : w1.Sound := by
  obtain ⟨hs1, hs2⟩ := hs
  rcases exec_cases prog n a w b w1 h with ⟨-, ⟨hag, -, l, hl, he⟩, -⟩ |
    ⟨hw, a1, ha1, w2, hor, ⟨hc, -, -, -, l, hl, he, -⟩⟩ | ⟨-, -, hc, hlog, -⟩
  · refine ⟨hag.core.slots hs1, ?_⟩
    intro e hel
    rw [hl] at hel
    rcases List.mem_append.1 hel with h1 | h1
    · exact hs2 e h1
    · exact (he e h1).2.core.slots hs1
  · have hset := settle_slots w.fut a1 ha1 hw hs1
    have hw2 : w1.fut.SlotsOk ∧ w1.log = w2.log := by
      rcases hor with ⟨-, -, rfl⟩ | ⟨-, -, -, rfl⟩
      · exact ⟨hc.slots hset, rfl⟩
      · exact ⟨hc.slots hset, rfl⟩
    refine ⟨hw2.1, ?_⟩
    intro e hel
    rw [hw2.2, hl] at hel
    rcases List.mem_append.1 hel with h1 | h1
    · exact hs2 e h1
    · exact (he e h1).2.slots hset
  · refine ⟨hc.slots hs1, ?_⟩
    rw [hlog]
    exact hs2

theorem init_sound : (World.init : World T).Sound :=
  ⟨by simp [Shared.SlotsOk, World.init, Future.init], by simp [World.init]⟩

theorem reachable_sound (prog : Callback → List (Action T)) (w : World T)
    (h : Reachable prog w) : w.Sound := by
  induction h with
  | init => exact init_sound
  | ofValue t b w h => exact exec_sound prog 1 (.set t) World.init b w init_sound h
  | step n a w b w1 _ h ih => exact exec_sound prog n a w b w1 ih h

theorem execAll_cons_inv (prog : Callback → List (Action T)) (n : Nat) (a : Action T)
    (rest : List (Action T)) (w w2 : World T) (bs : List Bool)
    (h : execAll prog n (a :: rest) w = .ok (bs, w2)) :
    ∃ b w1 bs1, exec prog n a w = .ok (b, w1) ∧ execAll prog n rest w1 = .ok (bs1, w2) ∧
      bs = b :: bs1 := by
  simp only [execAll] at h
  cases h1 : exec prog n a w with
  | error e => rw [h1] at h; cases h
  | ok r =>
    obtain ⟨b, w1⟩ := r
    rw [h1] at h
    simp only at h
    cases h2 : execAll prog n rest w1 with
    | error e => rw [h2] at h; cases h
    | ok r2 =>
      obtain ⟨bs1, w3⟩ := r2
      rw [h2] at h
      simp only [Except.ok.injEq, Prod.mk.injEq] at h
      obtain ⟨h3, h4⟩ := h
      subst h3 h4
      exact ⟨b, w1, bs1, rfl, h2, rfl⟩

theorem execAll_frozen (prog : Callback → List (Action T)) (n : Nat) :
    ∀ (ops : List (Action T)) (w w2 : World T) (bs : List Bool), w.fut.state ≠ .PENDING →
      execAll prog n ops w = .ok (bs, w2) →
      Frozen w w2 ∧ ∀ p ∈ ops.zip bs, p.1.target.isSome = true → p.2 = false := by
  intro ops
  induction ops with
  | nil =>
    intro w w2 bs _ h
    simp only [execAll, Except.ok.injEq, Prod.mk.injEq] at h
    obtain ⟨h1, h2⟩ := h
    subst h1 h2
    exact ⟨Frozen.frozen_refl w, by simp⟩
  | cons a rest ih =>
    intro w w2 bs hw h
    obtain ⟨b, w1, bs1, h1, h2, rfl⟩ := execAll_cons_inv prog n a rest w w2 bs h
    rcases exec_cases prog n a w b w1 h1 with ⟨-, hf, hb⟩ | ⟨hp, -⟩ | ⟨hp, -⟩
    · obtain ⟨h3, h4⟩ := ih w1 w2 bs1 (by rw [hf.state]; exact hw) h2
      refine ⟨hf.frozen_trans h3, ?_⟩
      intro p hp
      simp only [List.zip_cons_cons, List.mem_cons] at hp
      rcases hp with rfl | hp
      · intro ha; exact (hb ha).1
      · exact h4 p hp
    · exact absurd hp hw
    · exact absurd hp hw

theorem execAll_sound (prog : Callback → List (Action T)) (n : Nat) :
    ∀ (ops : List (Action T)) (w w2 : World T) (bs : List Bool), w.Sound →
      execAll prog n ops w = .ok (bs, w2) → w2.Sound := by
  intro ops
  induction ops with
  | nil =>
    intro w w2 bs hs h
    simp only [execAll, Except.ok.injEq, Prod.mk.injEq] at h
    rw [← h.2]; exact hs
  | cons a rest ih =>
    intro w w2 bs hs h
    obtain ⟨b, w1, bs1, h1, h2, -⟩ := execAll_cons_inv prog n a rest w w2 bs h
    exact ih w1 w2 bs1 (exec_sound prog n a w b w1 hs h1) h2

theorem set_won (prog : Callback → List (Action T)) (n : Nat) (v : T) (w w1 : World T)
    (h : exec prog n (.set v) w = .ok (true, w1)) :
    w1.fut.state = .READY ∧ w1.fut.t = some v := by
  obtain ⟨hc, -⟩ := (exec_transition prog n (.set v) rfl w true w1 h).2.2 rfl
  exact ⟨hc.1, hc.2.1⟩

theorem failure_eq (s : Shared T) : Future.failure s = s.message := by
  unfold Future.failure
  cases s.message <;> rfl

theorem pending_slots_none (s : Shared T) (hs : s.SlotsOk) (hp : s.state = .PENDING) :
    s.t = none ∧ s.message = none := by
  obtain ⟨h1, h2⟩ := hs
  constructor
  · cases h : s.t with
    | none => rfl
    | some v => rw [h, hp] at h1; simp at h1
  · cases h : s.message with
    | none => rfl
    | some v => rw [h, hp] at h2; simp at h2

theorem settle_message (s : Shared T) (a : Action T) (m : String) (hm : s.message = none) :
    (s.settle a).message = some m ↔ a = .fail m := by
  cases a <;> simp [Shared.settle, hm]

theorem execAll_message (prog : Callback → List (Action T)) (n : Nat) (m : String) :
    ∀ (ops : List (Action T)) (w w2 : World T) (bs : List Bool), w.Sound →
      execAll prog n ops w = .ok (bs, w2) →
      (w2.fut.message = some m ↔
        w.fut.message = some m ∨
          (w.fut.state = .PENDING ∧ (Action.fail m, true) ∈ ops.zip bs)) := by
  intro ops
  induction ops with
  | nil =>
    intro w w2 bs _ h
    simp only [execAll, Except.ok.injEq, Prod.mk.injEq] at h
    obtain ⟨h1, h2⟩ := h
    subst h1 h2
    simp
  | cons a rest ih =>
    intro w w2 bs hs h
    obtain ⟨b, w1, bs1, h1, h2, rfl⟩ := execAll_cons_inv prog n a rest w w2 bs h
    have hs1 := exec_sound prog n a w b w1 hs h1
    have hih := ih w1 w2 bs1 hs1 h2
    rcases exec_cases prog n a w b w1 h1 with ⟨hw, hf, -⟩ |
      ⟨hw, a1, ha1, w3, hor, ⟨hc, -⟩⟩ | ⟨hw, ha, hc, -⟩
    · have hw1 : w1.fut.state ≠ .PENDING := by rw [hf.state]; exact hw
      rw [hih, hf.1.2.2.1]
      simp [hw, hw1]
    · obtain ⟨-, hm0⟩ := pending_slots_none w.fut hs.1 hw
      have hst : w1.fut.state = w3.fut.state ∧ w1.fut.message = w3.fut.message := by
        rcases hor with ⟨-, -, rfl⟩ | ⟨-, -, -, rfl⟩ <;> exact ⟨rfl, rfl⟩
      have hw1 : w1.fut.state ≠ .PENDING := by
        rw [hst.1, hc.1]; exact settle_terminal w.fut a1 ha1
      have hm1 : w1.fut.message = (w.fut.settle a1).message := by rw [hst.2, hc.2.2.1]
      have hlater := (execAll_frozen prog n rest w1 w2 bs1 hw1 h2).2
      have hnot : (Action.fail m, true) ∉ rest.zip bs1 := by
        intro hmem
        have := hlater _ hmem rfl
        simp at this
      rw [hih, hm1, settle_message w.fut a1 m hm0]
      have hzip : (Action.fail m, true) ∈ (a :: rest).zip (b :: bs1) ↔ a = .fail m ∧ b = true := by
        simp only [List.zip_cons_cons, List.mem_cons, Prod.mk.injEq, hnot, or_false]
        constructor
        · intro h5; exact ⟨h5.1.symm, h5.2.symm⟩
        · intro h5; exact ⟨h5.1.symm, h5.2.symm⟩
      rw [hzip]
      rcases hor with ⟨rfl, rfl, -⟩ | ⟨rfl, rfl, -, -⟩
      · simp [hw1, hm0, hw]
      · simp [hw1, hm0, hw]
    · have hw1 : w1.fut.state = .PENDING := by rw [hc.1]; exact hw
      have hne : a ≠ Action.fail m := by
        intro h5; rw [h5] at ha; simp [Action.target] at ha
      rw [hih, hc.2.2.1]
      simp only [hw1, hw, true_and, List.zip_cons_cons, List.mem_cons, Prod.mk.injEq]
      constructor
      · rintro (h5 | h5)
        · exact Or.inl h5
        · exact Or.inr (Or.inr h5)
      · rintro (h5 | ⟨h5, -⟩ | h5)
        · exact Or.inl h5
        · exact absurd h5.symm hne
        · exact Or.inr h5

theorem get_pending (latchAwait : Secs → Shared T → Except Fault (Bool × Shared T))
    (s : Shared T) (hs : s.state = .PENDING) :
    Future.get latchAwait s =
      match latchAwait 0 s with
      | .error e => .error e
      | .ok (_, s1) =>
        if s1.state = .READY then
          match s1.t with
          | none => .error .assertion
          | some v => .ok (v, s1)
        else .error .abort := by
  simp only [Future.get, Future.ready, hs, await_pending latchAwait 0 s hs]
  cases latchAwait 0 s with
  | error e => simp
  | ok r =>
    obtain ⟨b, s1⟩ := r
    by_cases h : s1.state = .READY <;> simp [h]

theorem get_ok_ready (latchAwait : Secs → Shared T → Except Fault (Bool × Shared T))
    (s : Shared T) (v : T) (s1 : Shared T) (h : Future.get latchAwait s = .ok (v, s1)) :
    s1.state = .READY ∧ s1.t = some v := by
  by_cases hp : s.state = .PENDING
  · rw [get_pending latchAwait s hp] at h
    cases hl : latchAwait 0 s with
    | error e => rw [hl] at h; cases h
    | ok r =>
      obtain ⟨b, s2⟩ := r
      rw [hl] at h
      simp only at h
      by_cases hr : s2.state = .READY
      · rw [if_pos hr] at h
        cases ht : s2.t with
        | none => rw [ht] at h; cases h
        | some v2 =>
          rw [ht] at h
          simp only [Except.ok.injEq, Prod.mk.injEq] at h
          obtain ⟨h1, h2⟩ := h
          subst h1 h2
          exact ⟨hr, ht⟩
      · rw [if_neg hr] at h; cases h
  · have h1 := get_terminal_block latchAwait s hp v s1 h
    subst h1
    by_cases hr : s1.state = .READY
    · refine ⟨hr, ?_⟩
      cases ht : s1.t with
      | none => simp [Future.get, Future.ready, hr, ht] at h
      | some v1 =>
        rw [get_ready latchAwait s1 v1 hr ht] at h
        simp only [Except.ok.injEq, Prod.mk.injEq] at h
        rw [h.1]
    · rw [get_not_ready latchAwait s1 hp hr] at h; cases h

theorem push_spec (s : Shared T) (q : Queue) (c : Callback) :
    (s.push q c).queue q = s.queue q ++ [c] ∧ (∀ q1, q1 ≠ q → (s.push q c).queue q1 = s.queue q1)
      ∧ s.Core (s.push q c) ∧ (s.push q c).refs = s.refs ∧ (s.push q c).freed = s.freed := by
  cases q <;> refine ⟨rfl, ?_, by simp [Shared.Core, Shared.push], rfl, rfl⟩ <;>
    intro q1 hq1 <;> cases q1 <;> simp_all [Shared.queue, Shared.push]

theorem pushAll_spec (q : Queue) : ∀ (cs : List Callback) (s : Shared T),
    (s.pushAll q cs).queue q = s.queue q ++ cs ∧
      (∀ q1, q1 ≠ q → (s.pushAll q cs).queue q1 = s.queue q1) ∧ s.Core (s.pushAll q cs) := by
  intro cs
  induction cs with
  | nil => intro s; exact ⟨by simp [Shared.pushAll], fun _ _ => rfl, Shared.Core.core_refl s⟩
  | cons c rest ih =>
    intro s
    obtain ⟨h1, h2, h3⟩ := ih (s.push q c)
    obtain ⟨h4, h5, h6, -⟩ := push_spec s q c
    refine ⟨?_, ?_, h6.core_trans h3⟩
    · show ((s.push q c).pushAll q rest).queue q = _
      rw [h1, h4, List.append_assoc]; rfl
    · intro q1 hq1
      show ((s.push q c).pushAll q rest).queue q1 = _
      rw [h2 q1 hq1, h5 q1 hq1]

theorem register_all (prog : Callback → List (Action T)) (n : Nat) (q : Queue) :
    ∀ (cs : List Callback) (w : World T), w.fut.state = .PENDING → w.fut.lock = 0 →
      execAll prog (n + 1) (cs.map q.on) w =
        .ok (cs.map (fun _ => true), { w with fut := w.fut.pushAll q cs }) := by
  intro cs
  induction cs with
  | nil => intro w _ _; rfl
  | cons c rest ih =>
    intro w hw hl
    obtain ⟨-, -, h6, -⟩ := push_spec w.fut q c
    have h1 : exec prog (n + 1) (q.on c) w = .ok (true, { w with fut := w.fut.push q c }) := by
      rw [exec]; exact perform_on_pending _ n q c w hw hl
    have h2 := ih { w with fut := w.fut.push q c } (by simp only; rw [h6.1]; exact hw)
      (by simp only; rw [h6.2.2.2.2.1]; exact hl)
    exact execAll_cons prog (n + 1) _ _ w _ _ true _ h1 h2

theorem fire_in_order (prog : Callback → List (Action T)) (a : Action T)
    (ha : a.target.isSome = true) (cs : List Callback) (w : World T)
    (hw : w.fut.state = .PENDING) (n : Nat) (b : Bool) (w1 : World T)
    (h : exec prog n a { w with fut := w.fut.pushAll a.queue cs } = .ok (b, w1)) :
    b = true ∧ w1.fut.queue a.queue = [] ∧
      ∃ l, w1.log = w.log ++ l ∧ firedAt w.depth l = w.fut.queue a.queue ++ cs ∧
        ∀ e ∈ l, w.depth ≤ e.depth ∧ (w.fut.settle a).Core e.arg := by
  obtain ⟨hq, -, hc⟩ := pushAll_spec a.queue cs w.fut
  obtain ⟨h1, -, h3⟩ := exec_transition prog n a ha _ b w1 h
  have hb : b = true := h1.2 (by simp only; rw [hc.1]; exact hw)
  obtain ⟨-, hq1, -, -, l, hl, he, hf⟩ := h3 hb
  obtain ⟨-, -, hsq, -⟩ := settle_state (w.fut.pushAll a.queue cs) a ha
  refine ⟨hb, hq1, l, hl, ?_, ?_⟩
  · simp only at hf
    rw [hsq, hq] at hf
    exact hf
  · intro e hel
    obtain ⟨h5, h6⟩ := he e hel
    refine ⟨h5, Shared.Core.core_trans ?_ h6⟩
    obtain ⟨c1, c2, c3, c4, c5⟩ := hc
    cases a <;> simp [Action.target] at ha <;>
      simp [Shared.Core, Shared.settle, c1, c2, c3, c4, c5]

theorem perform_on_terminal (call : Callback → World T → Except Fault (World T)) (k : Nat)
    (q : Queue) (c : Callback) (w : World T) (hw : w.fut.state ≠ .PENDING)
    (hl : w.fut.lock = 0) :
    perform call k (q.on c) w =
      if w.fut.state = q.state then (call c w).map fun w1 => (true, w1) else .ok (true, w) := by
  cases q with
  | ready =>
    simp only [Queue.on, perform, onReady_terminal_eq call c w hw hl, Queue.state]
    split <;> rfl
  | failed =>
    simp only [Queue.on, perform, onFailed_terminal_eq call c w hw hl, Queue.state]
    split <;> rfl
  | discarded =>
    simp only [Queue.on, perform, onDiscarded_terminal_eq call c w hw hl, Queue.state]
    split <;> rfl

theorem firedAt_called (d : Nat) (c : Callback) (s : Shared T) (l : List (Event T))
    (hl : ∀ e ∈ l, d < e.depth) :
    firedAt d ({ callback := c, depth := d, arg := s } :: l) = [c] := by
  have hfl : l.filter (fun e => decide (e.depth = d)) = [] := by
    rw [List.filter_eq_nil_iff]
    intro e hel
    have := hl e hel
    simp only [decide_eq_true_eq]
    omega
  simp [firedAt, List.filter_cons, hfl]

theorem late_registration (prog : Callback → List (Action T)) (q : Queue) (c : Callback)
    (w : World T) (hw : w.fut.state = q.state) (n : Nat) (b : Bool) (w1 : World T)
    (h : exec prog n (q.on c) w = .ok (b, w1)) :
    w.fut.Agree w1.fut ∧ w1.depth = w.depth ∧
      ∃ l, w1.log = w.log ++ { callback := c, depth := w.depth, arg := w.fut } :: l ∧
        (∀ e ∈ l, w.depth < e.depth ∧ w.fut.Agree e.arg) ∧
        firedAt w.depth ({ callback := c, depth := w.depth, arg := w.fut } :: l) = [c] := by
  have hterm : w.fut.state ≠ .PENDING := by rw [hw]; cases q <;> simp [Queue.state]
  cases n with
  | zero => simp [exec] at h
  | succ n =>
    rw [exec] at h
    have hl : w.fut.lock = 0 := by
      by_contra hl
      rw [perform_on_spin _ n q c w hl] at h; cases h
    rw [perform_on_terminal _ n q c w hterm hl, if_pos hw] at h
    cases hc : callWith prog (exec prog n) c w with
    | error e => rw [hc] at h; cases h
    | ok w2 =>
      rw [hc] at h
      simp only [Except.map, Except.ok.injEq, Prod.mk.injEq] at h
      obtain ⟨-, rfl⟩ := h
      obtain ⟨ha, hd, l, hlog, he⟩ := callWith_called prog n c w w2 hterm hc
      exact ⟨ha, hd, l, hlog, he, firedAt_called w.depth c w.fut l (fun e hel => (he e hel).1)⟩

theorem firedAt_append (d : Nat) (l1 l2 : List (Event T)) :
    firedAt d (l1 ++ l2) = firedAt d l1 ++ firedAt d l2 := by
  simp [firedAt, List.filter_append]

theorem exec_terminal_fired (prog : Callback → List (Action T)) (n : Nat) (a : Action T)
    (w : World T) (b : Bool) (w1 : World T) (hw : w.fut.state ≠ .PENDING)
    (h : exec prog n a w = .ok (b, w1)) :
    ∃ l, w1.log = w.log ++ l ∧ firedAt w.depth l = (a.lateFor w.fut.state).toList := by
  have hreg : ∀ (q : Queue) (c : Callback), a = q.on c →
      ∃ l, w1.log = w.log ++ l ∧
        firedAt w.depth l = (if w.fut.state = q.state then some c else none).toList := by
    intro q c hq
    subst hq
    by_cases hst : w.fut.state = q.state
    · obtain ⟨-, -, l, hlog, -, hf⟩ := late_registration prog q c w hst n b w1 h
      exact ⟨_, hlog, by rw [hf, if_pos hst]; rfl⟩
    · cases n with
      | zero => simp [exec] at h
      | succ n =>
        rw [exec] at h
        have hl : w.fut.lock = 0 := by
          by_contra hl
          rw [perform_on_spin _ n q c w hl] at h; cases h
        rw [perform_on_terminal _ n q c w hw hl, if_neg hst] at h
        simp only [Except.ok.injEq, Prod.mk.injEq] at h
        obtain ⟨-, rfl⟩ := h
        exact ⟨[], by simp, by rw [if_neg hst]; rfl⟩
  cases a with
  | set v =>
    obtain ⟨-, h2⟩ := (exec_transition prog n (.set v) rfl w b w1 h)
    have hb : b = false := by
      cases b with
      | false => rfl
      | true => exact absurd ((exec_transition prog n (.set v) rfl w true w1 h).1.1 rfl) hw
    rw [h2.1 hb]; exact ⟨[], by simp, rfl⟩
  | fail m =>
    obtain ⟨-, h2⟩ := (exec_transition prog n (.fail m) rfl w b w1 h)
    have hb : b = false := by
      cases b with
      | false => rfl
      | true => exact absurd ((exec_transition prog n (.fail m) rfl w true w1 h).1.1 rfl) hw
    rw [h2.1 hb]; exact ⟨[], by simp, rfl⟩
  | discard =>
    obtain ⟨-, h2⟩ := (exec_transition prog n .discard rfl w b w1 h)
    have hb : b = false := by
      cases b with
      | false => rfl
      | true => exact absurd ((exec_transition prog n .discard rfl w true w1 h).1.1 rfl) hw
    rw [h2.1 hb]; exact ⟨[], by simp, rfl⟩
  | onReady c => exact hreg .ready c rfl
  | onFailed c => exact hreg .failed c rfl
  | onDiscarded c => exact hreg .discarded c rfl
  | copy =>
    cases n with
    | zero => simp [exec] at h
    | succ n =>
      simp only [exec, perform, Except.ok.injEq, Prod.mk.injEq] at h
      obtain ⟨-, rfl⟩ := h
      exact ⟨[], by simp [Future.copy], rfl⟩
  | cleanup =>
    cases n with
    | zero => simp [exec] at h
    | succ n =>
      simp only [exec, perform, cleanup_terminal_eq _ n w hw, Except.map, Except.ok.injEq,
        Prod.mk.injEq] at h
      obtain ⟨-, rfl⟩ := h
      exact ⟨[], by simp, rfl⟩

theorem execAll_late (prog : Callback → List (Action T)) (n : Nat) :
    ∀ (ops : List (Action T)) (w w2 : World T) (bs : List Bool), w.fut.state ≠ .PENDING →
      execAll prog n ops w = .ok (bs, w2) →
      ∃ l, w2.log = w.log ++ l ∧
        firedAt w.depth l = ops.filterMap (Action.lateFor w.fut.state) := by
  intro ops
  induction ops with
  | nil =>
    intro w w2 bs _ h
    simp only [execAll, Except.ok.injEq, Prod.mk.injEq] at h
    obtain ⟨-, rfl⟩ := h
    exact ⟨[], by simp, rfl⟩
  | cons a rest ih =>
    intro w w2 bs hw h
    obtain ⟨b, w1, bs1, h1, h2, rfl⟩ := execAll_cons_inv prog n a rest w w2 bs h
    have hf := exec_frozen prog n a w (b, w1) hw h1
    obtain ⟨l1, hl1, hf1⟩ := exec_terminal_fired prog n a w b w1 hw h1
    obtain ⟨l2, hl2, hf2⟩ := ih w1 w2 bs1 (by rw [hf.state]; exact hw) h2
    refine ⟨l1 ++ l2, by rw [hl2, hl1, List.append_assoc], ?_⟩
    rw [firedAt_append, hf1]
    have hd : w1.depth = w.depth := hf.2.1
    have hs : w1.fut.state = w.fut.state := hf.state
    rw [hd, hs] at hf2
    rw [hf2, List.filterMap_cons]
    cases Action.lateFor w.fut.state a <;> rfl

theorem exec_keeps (prog : Callback → List (Action T)) (P : Shared T → Prop)
    (hcore : ∀ s s1 : Shared T, s.Core s1 → P s → P s1)
    (hsettle : ∀ (s : Shared T) (a : Action T), a.target.isSome = true → s.state = .PENDING →
      P s → P (s.settle a))
    (hdel : ∀ (s : Shared T) (r : Int) (f : Bool), P s → P { s with refs := r, freed := f })
    (n : Nat) (a : Action T) (w : World T) (b : Bool) (w1 : World T) (hk : w.Keeps P)
    (h : exec prog n a w = .ok (b, w1)) : w1.Keeps P := by
  obtain ⟨hk1, hk2⟩ := hk
  rcases exec_cases prog n a w b w1 h with ⟨hw, ⟨hag, -, l, hl, he⟩, -⟩ |
    ⟨hw, a1, ha1, w2, hor, ⟨hc, -, -, -, l, hl, he, -⟩⟩ | ⟨-, -, hc, hlog, -⟩
  · refine ⟨hcore _ _ hag.core hk1, ?_⟩
    intro e hel
    rw [hl] at hel
    rcases List.mem_append.1 hel with h1 | h1
    · exact hk2 e h1
    · obtain ⟨-, hae⟩ := he e h1
      exact ⟨hcore _ _ hae.core hk1, by rw [hae.1]; exact hw⟩
  · have hset := hsettle w.fut a1 ha1 hw hk1
    have hw2 : P w1.fut ∧ w1.log = w2.log := by
      rcases hor with ⟨-, -, rfl⟩ | ⟨-, -, -, rfl⟩
      · exact ⟨hcore _ _ hc hset, rfl⟩
      · exact ⟨hdel _ _ _ (hcore _ _ hc hset), rfl⟩
    refine ⟨hw2.1, ?_⟩
    intro e hel
    rw [hw2.2, hl] at hel
    rcases List.mem_append.1 hel with h1 | h1
    · exact hk2 e h1
    · obtain ⟨-, hce⟩ := he e h1
      exact ⟨hcore _ _ hce hset, by rw [hce.1]; exact settle_terminal w.fut a1 ha1⟩
  · refine ⟨hcore _ _ hc hk1, ?_⟩
    rw [hlog]
    exact hk2

theorem reachable_keeps (prog : Callback → List (Action T)) (P : Shared T → Prop)
    (hcore : ∀ s s1 : Shared T, s.Core s1 → P s → P s1)
    (hsettle : ∀ (s : Shared T) (a : Action T), a.target.isSome = true → s.state = .PENDING →
      P s → P (s.settle a))
    (hdel : ∀ (s : Shared T) (r : Int) (f : Bool), P s → P { s with refs := r, freed := f })
    (hinit : P (Future.init : Shared T)) (w : World T) (h : Reachable prog w) : w.Keeps P := by
  have h0 : (World.init : World T).Keeps P := ⟨hinit, by simp [World.init]⟩
  induction h with
  | init => exact h0
  | ofValue t b w h => exact exec_keeps prog P hcore hsettle hdel 1 (.set t) World.init b w h0 h
  | step n a w b w1 _ h ih => exact exec_keeps prog P hcore hsettle hdel n a w b w1 ih h

theorem tidy_core (s s1 : Shared T) (h : s.Core s1) (hs : s.Tidy) : s1.Tidy := by
  obtain ⟨h1, -, -, h4, h5, -⟩ := h
  unfold Shared.Tidy at *
  rw [h1, h4, h5]
  exact hs

theorem tidy_settle (s : Shared T) (a : Action T) (ha : a.target.isSome = true)
    (hp : s.state = .PENDING) (hs : s.Tidy) : (s.settle a).Tidy := by
  obtain ⟨h1, -, h3⟩ := hs
  rw [if_pos hp] at h3
  cases a <;> simp [Action.target] at ha <;>
    simp [Shared.Tidy, Shared.settle, Latch.trigger, h1, h3]

theorem tidy_del (s : Shared T) (r : Int) (f : Bool) (hs : s.Tidy) :
    ({ s with refs := r, freed := f } : Shared T).Tidy := hs

theorem tidy_init : (Future.init : Shared T).Tidy := by
  simp [Shared.Tidy, Future.init]

theorem reachable_tidy (prog : Callback → List (Action T)) (w : World T)
    (h : Reachable prog w) : w.Keeps Shared.Tidy :=
  reachable_keeps prog Shared.Tidy tidy_core tidy_settle tidy_del tidy_init w h

theorem exec_core (prog : Callback → List (Action T)) (n : Nat) (a : Action T) (w : World T)
    (b : Bool) (w1 : World T) (h : exec prog n a w = .ok (b, w1)) :
    w1.fut.lock = w.fut.lock ∧ w1.depth = w.depth ∧
      (w.fut.state ≠ .PENDING → w1.fut.state = w.fut.state) := by
  rcases exec_cases prog n a w b w1 h with ⟨hw, hf, -⟩ |
    ⟨hw, a1, ha1, w2, hor, ⟨hc, -, -, hd, -⟩⟩ | ⟨hw, -, hc, -, hd⟩
  · exact ⟨hf.lock, hf.2.1, fun _ => hf.state⟩
  · have h2 : w1.fut.lock = w2.fut.lock ∧ w1.depth = w2.depth := by
      rcases hor with ⟨-, -, rfl⟩ | ⟨-, -, -, rfl⟩ <;> exact ⟨rfl, rfl⟩
    refine ⟨?_, by rw [h2.2, hd], fun h3 => absurd hw h3⟩
    rw [h2.1, hc.2.2.2.2.1]
    exact (settle_state w.fut a1 ha1).2.1
  · exact ⟨hc.2.2.2.2.1, hd, fun h3 => absurd hw h3⟩

theorem reachable_waiting : Reachable reentrant waiting :=
  Reachable.step 1 (.onReady 1) World.init true waiting Reachable.init rfl

theorem runBody_fault (step : Action T → World T → Except Fault (Bool × World T))
    (hstep : ∀ a w r, w.fut.state ≠ .PENDING → step a w = .ok r → Frozen w r.2)
    (hfault : ∀ a w e, w.fut.state ≠ .PENDING → w.fut.lock = 0 → step a w = .error e →
      e = .fuel) :
    ∀ (body : List (Action T)) (w : World T) (e : Fault), w.fut.state ≠ .PENDING →
      w.fut.lock = 0 → runBody step body w = .error e → e = .fuel := by
  intro body
  induction body with
  | nil => intro w e _ _ h; simp [runBody] at h
  | cons a rest ih =>
    intro w e hw hl h
    simp only [runBody] at h
    cases hs : step a w with
    | error e1 =>
      rw [hs] at h
      simp only [Except.error.injEq] at h
      subst h
      exact hfault a w e1 hw hl hs
    | ok r =>
      obtain ⟨b, w2⟩ := r
      rw [hs] at h
      have hf := hstep a w (b, w2) hw hs
      exact ih w2 e (by rw [hf.state]; exact hw) (by rw [hf.lock]; exact hl) h

theorem invoke_fault (step : Action T → World T → Except Fault (Bool × World T))
    (hstep : ∀ a w r, w.fut.state ≠ .PENDING → step a w = .ok r → Frozen w r.2)
    (hfault : ∀ a w e, w.fut.state ≠ .PENDING → w.fut.lock = 0 → step a w = .error e →
      e = .fuel)
    (body : List (Action T)) (c : Callback) (w : World T) (e : Fault)
    (hw : w.fut.state ≠ .PENDING) (hl : w.fut.lock = 0)
    (h : invoke step body c w = .error e) : e = .fuel := by
  unfold invoke at h
  cases hb : runBody step body
      { w with log := w.log ++ [{ callback := c, depth := w.depth, arg := w.fut }],
               depth := w.depth + 1 } with
  | error e1 =>
    rw [hb] at h
    simp only [Except.error.injEq] at h
    subst h
    exact runBody_fault step hstep hfault body
      { w with log := w.log ++ [{ callback := c, depth := w.depth, arg := w.fut }],
               depth := w.depth + 1 } e1 hw hl hb
  | ok w2 => rw [hb] at h; cases h

theorem drain_fault (call : Callback → World T → Except Fault (World T))
    (hcall : ∀ c w w1, w.fut.state ≠ .PENDING → call c w = .ok w1 → Called c w w1)
    (hcf : ∀ c w e, w.fut.state ≠ .PENDING → w.fut.lock = 0 → call c w = .error e → e = .fuel)
    (q : Queue) : ∀ (k : Nat) (w : World T) (e : Fault), w.fut.state ≠ .PENDING →
      w.fut.lock = 0 → drain call q k w = .error e → e = .fuel := by
  intro k
  induction k with
  | zero =>
    intro w e _ _ h
    simp only [drain] at h
    cases hq : w.fut.queue q with
    | nil => rw [hq] at h; cases h
    | cons c rest =>
      rw [hq] at h
      simp only [Except.error.injEq] at h
      exact h.symm
  | succ k ih =>
    intro w e hw hl h
    simp only [drain] at h
    cases hq : w.fut.queue q with
    | nil => rw [hq] at h; cases h
    | cons c rest =>
      rw [hq] at h
      simp only at h
      cases hc : call c w with
      | error e1 =>
        rw [hc] at h
        simp only [Except.error.injEq] at h
        subst h
        exact hcf c w e1 hw hl hc
      | ok w2 =>
        rw [hc] at h
        simp only at h
        obtain ⟨ha, -⟩ := hcall c w w2 hw hc
        have hc2 := ha.core.core_trans (Shared.pop_core w2.fut q)
        exact ih _ e (by simp only; rw [hc2.1]; exact hw)
          (by simp only; rw [hc2.2.2.2.2.1]; exact hl) h

theorem perform_fault (call : Callback → World T → Except Fault (World T))
    (hcall : ∀ c w w1, w.fut.state ≠ .PENDING → call c w = .ok w1 → Called c w w1)
    (hcf : ∀ c w e, w.fut.state ≠ .PENDING → w.fut.lock = 0 → call c w = .error e → e = .fuel)
    (k : Nat) (a : Action T) (w : World T) (e : Fault) (hl : w.fut.lock = 0)
    (h : perform call k a w = .error e) : e = .fuel := by
  have htrans : ∀ a1 : Action T, a1.target.isSome = true →
      perform call k a1 w = .error e → e = .fuel := by
    intro a1 ha1 h1
    by_cases hw : w.fut.state = .PENDING
    · rw [perform_transition_pending call k a1 ha1 w hw hl] at h1
      obtain ⟨-, h2, -⟩ := settle_state w.fut a1 ha1
      cases hd : drain call a1.queue k { w with fut := w.fut.settle a1 } with
      | error e1 =>
        rw [hd] at h1
        simp only [Except.error.injEq] at h1
        subst h1
        exact drain_fault call hcall hcf a1.queue k _ e1 (settle_terminal w.fut a1 ha1)
          (by simp only; rw [h2]; exact hl) hd
      | ok w1 => rw [hd] at h1; cases h1
    · rw [perform_transition_terminal call k a1 ha1 w hw hl] at h1; cases h1
  have hreg : ∀ (q : Queue) (c : Callback), perform call k (q.on c) w = .error e →
      e = .fuel := by
    intro q c h1
    by_cases hw : w.fut.state = .PENDING
    · rw [perform_on_pending call k q c w hw hl] at h1; cases h1
    · rw [perform_on_terminal call k q c w hw hl] at h1
      split at h1
      · cases hc : call c w with
        | error e1 =>
          rw [hc] at h1
          simp only [Except.map, Except.error.injEq] at h1
          subst h1
          exact hcf c w e1 hw hl hc
        | ok w1 => rw [hc] at h1; cases h1
      · cases h1
  cases a with
  | set v => exact htrans (.set v) rfl h
  | fail m => exact htrans (.fail m) rfl h
  | discard => exact htrans .discard rfl h
  | onReady c => exact hreg .ready c h
  | onFailed c => exact hreg .failed c h
  | onDiscarded c => exact hreg .discarded c h
  | copy => cases h
  | cleanup =>
    by_cases hw : w.fut.state = .PENDING
    · by_cases h1 : w.fut.refs = 1
      · simp only [perform, cleanup_last_pending_eq call k w hw h1] at h
        cases hd : Future.discard call k w with
        | error e1 =>
          rw [hd] at h
          simp only [Except.map, Except.error.injEq] at h
          subst h
          exact htrans .discard rfl hd
        | ok r => rw [hd] at h; cases h
      · simp only [perform, cleanup_nonlast_eq call k w h1] at h; cases h
    · simp only [perform, cleanup_terminal_eq call k w hw] at h; cases h

theorem exec_fault (prog : Callback → List (Action T)) :
    ∀ (n : Nat) (a : Action T) (w : World T) (e : Fault), w.fut.lock = 0 →
      exec prog n a w = .error e → e = .fuel := by
  intro n
  induction n with
  | zero =>
    intro a w e _ h
    simp only [exec, Except.error.injEq] at h
    exact h.symm
  | succ n ih =>
    intro a w e hl h
    rw [exec] at h
    exact perform_fault _ (fun c w0 w3 hw0 hc => callWith_called prog n c w0 w3 hw0 hc)
      (fun c w0 e0 hw0 hl0 hc => invoke_fault (exec prog n) (exec_frozen prog n)
        (fun a1 w1 e1 _ hl1 h1 => ih a1 w1 e1 hl1 h1) (prog c) c w0 e0 hw0 hl0 hc)
      n a w e hl h

theorem pop_refs (s : Shared T) (q : Queue) : (s.pop q).refs = s.refs := by
  cases q <;> rfl

theorem drain_refs (call : Callback → World T → Except Fault (World T))
    (hcall : ∀ c w w1, w.fut.state ≠ .PENDING → call c w = .ok w1 → Called c w w1)
    (gain : Callback → Int)
    (hgain : ∀ c w w1, w.fut.state ≠ .PENDING → w.fut.lock = 0 → call c w = .ok w1 →
      w1.fut.refs = w.fut.refs + gain c)
    (q : Queue) : ∀ (k : Nat) (w w1 : World T), w.fut.state ≠ .PENDING → w.fut.lock = 0 →
      drain call q k w = .ok w1 →
      w1.fut.refs = w.fut.refs + ((w.fut.queue q).map gain).sum := by
  intro k
  induction k with
  | zero =>
    intro w w1 _ _ h
    simp only [drain] at h
    cases hq : w.fut.queue q with
    | nil =>
      rw [hq] at h
      simp only [Except.ok.injEq] at h
      subst h
      simp
    | cons c rest => rw [hq] at h; cases h
  | succ k ih =>
    intro w w1 hw hl h
    simp only [drain] at h
    cases hq : w.fut.queue q with
    | nil =>
      rw [hq] at h
      simp only [Except.ok.injEq] at h
      subst h
      simp
    | cons c rest =>
      rw [hq] at h
      simp only at h
      cases hc : call c w with
      | error e => rw [hc] at h; cases h
      | ok w2 =>
        rw [hc] at h
        simp only at h
        obtain ⟨ha, -⟩ := hcall c w w2 hw hc
        have hc2 := ha.core.core_trans (Shared.pop_core w2.fut q)
        have h3 := ih _ w1 (by simp only; rw [hc2.1]; exact hw)
          (by simp only; rw [hc2.2.2.2.2.1]; exact hl) h
        simp only at h3
        rw [h3, pop_refs, hgain c w w2 hw hl hc, Shared.pop_queue, ha.queue, hq]
        simp only [List.tail_cons, List.map_cons, List.sum_cons]
        omega

theorem runBody_keeping (prog : Callback → List (Action T)) (n : Nat) :
    ∀ (body : List (Action T)), (∀ a ∈ body, a = .copy ∨ a.target.isSome = true) →
      ∀ (w w1 : World T), w.fut.state ≠ .PENDING → w.fut.lock = 0 →
      runBody (exec prog n) body w = .ok w1 →
      w1.fut.refs = w.fut.refs + ((body.filter Action.isCopy).length : Int) := by
  intro body
  induction body with
  | nil =>
    intro _ w w1 _ _ h
    simp only [runBody, Except.ok.injEq] at h
    subst h
    simp
  | cons a rest ih =>
    intro hall w w1 hw hl h
    simp only [runBody] at h
    cases hs : exec prog n a w with
    | error e => rw [hs] at h; cases h
    | ok r =>
      obtain ⟨b, w2⟩ := r
      rw [hs] at h
      simp only at h
      have hf := exec_frozen prog n a w (b, w2) hw hs
      have h3 := ih (fun a1 ha1 => hall a1 (List.mem_cons_of_mem _ ha1)) w2 w1
        (by rw [hf.state]; exact hw) (by rw [hf.lock]; exact hl) h
      rcases hall a (List.mem_cons_self _ _) with rfl | ha
      · cases n with
        | zero => simp [exec] at hs
        | succ n =>
          simp only [exec, perform, Except.ok.injEq, Prod.mk.injEq] at hs
          obtain ⟨-, rfl⟩ := hs
          rw [h3]
          simp only [Future.copy, List.filter_cons, Action.isCopy, if_true, List.length_cons]
          push_cast
          omega
      · have hw2 : w2 = w := ((exec_transition prog n a ha w b w2 hs).2.1 (by
          cases b with
          | false => rfl
          | true => exact absurd ((exec_transition prog n a ha w true w2 hs).1.1 rfl) hw))
        subst hw2
        rw [h3]
        have hnc : a.isCopy = false := by
          cases a <;> simp [Action.target] at ha <;> rfl
        simp [List.filter_cons, hnc]

theorem callWith_keeping (prog : Callback → List (Action T)) (hk : Keeping prog) (n : Nat)
    (c : Callback) (w w1 : World T) (hw : w.fut.state ≠ .PENDING) (hl : w.fut.lock = 0)
    (h : callWith prog (exec prog n) c w = .ok w1) :
    w1.fut.refs = w.fut.refs + (kept prog c : Int) := by
  unfold callWith invoke at h
  cases hb : runBody (exec prog n) (prog c)
      { w with log := w.log ++ [{ callback := c, depth := w.depth, arg := w.fut }],
               depth := w.depth + 1 } with
  | error e => rw [hb] at h; cases h
  | ok w2 =>
    rw [hb] at h
    simp only [Except.ok.injEq] at h
    subst h
    exact runBody_keeping prog n (prog c) (hk c)
      { w with log := w.log ++ [{ callback := c, depth := w.depth, arg := w.fut }],
               depth := w.depth + 1 } w2 hw hl hb

theorem exec_quiet (prog : Callback → List (Action T)) (hq : Quiet prog) :
    ∀ (n : Nat) (a : Action T) (w : World T) (b : Bool) (w1 : World T),
      w.fut.state ≠ .PENDING → a ≠ .copy → a ≠ .cleanup → exec prog n a w = .ok (b, w1) →
      w1.fut.refs = w.fut.refs := by
  intro n
  induction n with
  | zero => intro a w b w1 _ _ _ h; simp [exec] at h
  | succ n ih =>
    intro a w b w1 hw hnc hnd h
    have hbody : ∀ (body : List (Action T)), (∀ a1 ∈ body, a1 ≠ .copy ∧ a1 ≠ .cleanup) →
        ∀ (w2 w3 : World T), w2.fut.state ≠ .PENDING →
        runBody (exec prog n) body w2 = .ok w3 → w3.fut.refs = w2.fut.refs := by
      intro body
      induction body with
      | nil =>
        intro _ w2 w3 _ h2
        simp only [runBody, Except.ok.injEq] at h2
        subst h2; rfl
      | cons a1 rest ihb =>
        intro hall w2 w3 hw2 h2
        simp only [runBody] at h2
        cases hs : exec prog n a1 w2 with
        | error e => rw [hs] at h2; cases h2
        | ok r =>
          obtain ⟨b2, w4⟩ := r
          rw [hs] at h2
          simp only at h2
          have hf := exec_frozen prog n a1 w2 (b2, w4) hw2 hs
          have h5 := hall a1 (List.mem_cons_self _ _)
          rw [ihb (fun a2 ha2 => hall a2 (List.mem_cons_of_mem _ ha2)) w4 w3
            (by rw [hf.state]; exact hw2) h2, ih a1 w2 b2 w4 hw2 h5.1 h5.2 hs]
    have hcall : ∀ (c : Callback) (w2 w3 : World T), w2.fut.state ≠ .PENDING →
        callWith prog (exec prog n) c w2 = .ok w3 → w3.fut.refs = w2.fut.refs := by
      intro c w2 w3 hw2 h2
      unfold callWith invoke at h2
      cases hb : runBody (exec prog n) (prog c)
          { w2 with log := w2.log ++ [{ callback := c, depth := w2.depth, arg := w2.fut }],
                    depth := w2.depth + 1 } with
      | error e => rw [hb] at h2; cases h2
      | ok w4 =>
        rw [hb] at h2
        simp only [Except.ok.injEq] at h2
        subst h2
        exact hbody (prog c) (hq c)
          { w2 with log := w2.log ++ [{ callback := c, depth := w2.depth, arg := w2.fut }],
                    depth := w2.depth + 1 } w4 hw2 hb
    have htrans : ∀ a1 : Action T, a1.target.isSome = true → a = a1 → w1.fut.refs = w.fut.refs := by
      intro a1 ha1 he
      subst he
      have hb : b = false := by
        cases b with
        | false => rfl
        | true => exact absurd ((exec_transition prog (n + 1) a ha1 w true w1 h).1.1 rfl) hw
      rw [(exec_transition prog (n + 1) a ha1 w b w1 h).2.1 hb]
    have hreg : ∀ (q : Queue) (c : Callback), a = q.on c → w1.fut.refs = w.fut.refs := by
      intro q c he
      subst he
      rw [exec] at h
      have hl : w.fut.lock = 0 := by
        by_contra hl
        rw [perform_on_spin _ n q c w hl] at h; cases h
      rw [perform_on_terminal _ n q c w hw hl] at h
      split at h
      · cases hc : callWith prog (exec prog n) c w with
        | error e => rw [hc] at h; cases h
        | ok w2 =>
          rw [hc] at h
          simp only [Except.map, Except.ok.injEq, Prod.mk.injEq] at h
          obtain ⟨-, rfl⟩ := h
          exact hcall c w w2 hw hc
      · simp only [Except.ok.injEq, Prod.mk.injEq] at h
        obtain ⟨-, rfl⟩ := h
        rfl
    cases a with
    | set v => exact htrans (.set v) rfl rfl
    | fail m => exact htrans (.fail m) rfl rfl
    | discard => exact htrans .discard rfl rfl
    | onReady c => exact hreg .ready c rfl
    | onFailed c => exact hreg .failed c rfl
    | onDiscarded c => exact hreg .discarded c rfl
    | copy => exact absurd rfl hnc
    | cleanup => exact absurd rfl hnd

theorem callWith_quiet (prog : Callback → List (Action T)) (hq : Quiet prog) (n : Nat)
    (c : Callback) (w w1 : World T) (hw : w.fut.state ≠ .PENDING)
    (h : callWith prog (exec prog n) c w = .ok w1) : w1.fut.refs = w.fut.refs + 0 := by
  rw [add_zero]
  unfold callWith invoke at h
  cases hb : runBody (exec prog n) (prog c)
      { w with log := w.log ++ [{ callback := c, depth := w.depth, arg := w.fut }],
               depth := w.depth + 1 } with
  | error e => rw [hb] at h; cases h
  | ok w2 =>
    rw [hb] at h
    simp only [Except.ok.injEq] at h
    subst h
    have key : ∀ (body : List (Action T)), (∀ a1 ∈ body, a1 ≠ .copy ∧ a1 ≠ .cleanup) →
        ∀ (w3 w4 : World T), w3.fut.state ≠ .PENDING →
        runBody (exec prog n) body w3 = .ok w4 → w4.fut.refs = w3.fut.refs := by
      intro body
      induction body with
      | nil =>
        intro _ w3 w4 _ h2
        simp only [runBody, Except.ok.injEq] at h2
        subst h2; rfl
      | cons a1 rest ihb =>
        intro hall w3 w4 hw3 h2
        simp only [runBody] at h2
        cases hs : exec prog n a1 w3 with
        | error e => rw [hs] at h2; cases h2
        | ok r =>
          obtain ⟨b2, w5⟩ := r
          rw [hs] at h2
          simp only at h2
          have hf := exec_frozen prog n a1 w3 (b2, w5) hw3 hs
          have h5 := hall a1 (List.mem_cons_self _ _)
          rw [ihb (fun a2 ha2 => hall a2 (List.mem_cons_of_mem _ ha2)) w5 w4
            (by rw [hf.state]; exact hw3) h2,
            exec_quiet prog hq n a1 w3 b2 w5 hw3 h5.1 h5.2 hs]
    exact key (prog c) (hq c)
      { w with log := w.log ++ [{ callback := c, depth := w.depth, arg := w.fut }],
               depth := w.depth + 1 } w2 hw hb

theorem exec_cleanup_last (prog : Callback → List (Action T)) (n : Nat) (w : World T)
    (hw : w.fut.state = .PENDING) (h1 : w.fut.refs = 1) (b : Bool) (w1 : World T)
    (h : exec prog n .cleanup w = .ok (b, w1)) :
    ∃ w2, exec prog n .discard w = .ok (true, w2) ∧
      w1 = { w2 with fut := { w2.fut with
        refs := w2.fut.refs - 1,
        freed := decide (w2.fut.refs - 1 = 0) || w2.fut.freed } } := by
  cases n with
  | zero => simp [exec] at h
  | succ n =>
    have hd : exec prog (n + 1) .discard w =
        Future.discard (callWith prog (exec prog n)) n w := rfl
    simp only [exec, perform, cleanup_last_pending_eq _ n w hw h1] at h
    cases hx : Future.discard (callWith prog (exec prog n)) n w with
    | error e => rw [hx] at h; cases h
    | ok r =>
      obtain ⟨b2, w2⟩ := r
      rw [hx] at h
      simp only [Except.map, Except.ok.injEq, Prod.mk.injEq] at h
      obtain ⟨-, rfl⟩ := h
      rw [← hd] at hx
      have hb : b2 = true := (exec_transition prog (n + 1) .discard rfl w b2 w2 hx).1.2 hw
      subst hb
      exact ⟨w2, hx, rfl⟩

theorem exec_won_refs (prog : Callback → List (Action T)) (gain : Callback → Int)
    (hgain : ∀ n c w w1, w.fut.state ≠ .PENDING → w.fut.lock = 0 →
      callWith prog (exec prog n) c w = .ok w1 → w1.fut.refs = w.fut.refs + gain c)
    (n : Nat) (a : Action T) (ha : a.target.isSome = true) (w w1 : World T)
    (hw : w.fut.state = .PENDING) (h : exec prog n a w = .ok (true, w1)) :
    w1.fut.refs = w.fut.refs + ((w.fut.queue a.queue).map gain).sum := by
  cases n with
  | zero => simp [exec] at h
  | succ n =>
    rw [exec] at h
    have hl : w.fut.lock = 0 := by
      by_contra hl
      rw [perform_transition_spin _ n a ha w hl] at h; cases h
    rw [perform_transition_pending _ n a ha w hw hl] at h
    obtain ⟨-, h2, h3, -, h5, -⟩ := settle_state w.fut a ha
    cases hd : drain (callWith prog (exec prog n)) a.queue n { w with fut := w.fut.settle a } with
    | error e => rw [hd] at h; cases h
    | ok w2 =>
      rw [hd] at h
      simp only [Except.ok.injEq, Prod.mk.injEq, true_and] at h
      subst h
      have := drain_refs (callWith prog (exec prog n))
        (fun c w0 w3 hw0 hc => callWith_called prog n c w0 w3 hw0 hc) gain (hgain n)
        a.queue n _ w2 (settle_terminal w.fut a ha) (by simp only; rw [h2]; exact hl) hd
      simp only at this
      rw [this, h5, h3]

theorem sum_map_zero (l : List Callback) : (l.map fun _ => (0 : Int)).sum = 0 := by
  induction l with
  | nil => rfl
  | cons c rest ih => simp [ih]

theorem keeping_ranked (prog : Callback → List (Action T)) (hk : Keeping prog) :
    Ranked prog (fun _ => 0) := by
  intro c a ha c1 hc1
  rcases hk c a ha with rfl | h
  · simp [Action.registered] at hc1
  · cases a <;> simp [Action.target] at h <;> simp [Action.registered] at hc1

theorem keeping_hoarding : Keeping hoarding := by
  intro c a ha
  match c with
  | 0 => simp [hoarding] at ha
  | 1 =>
    simp only [hoarding, List.mem_cons, List.mem_singleton, List.not_mem_nil, or_false] at ha
    rcases ha with rfl | rfl <;> exact Or.inl rfl
  | 2 =>
    simp only [hoarding, List.mem_singleton] at ha
    exact Or.inl ha
  | n + 3 => simp [hoarding] at ha

theorem quiet_idle : Quiet idle := by
  intro c a ha
  simp [idle] at ha

theorem handle_step (prog : Callback → List (Action T)) (n : Nat) (op : Handle.Op)
    (w : World T) (h1 : 1 ≤ w.fut.refs) (hv : Handle.Valid w.fut.refs [op]) :
    Handle.step prog n op w =
      .ok { w with fut := { w.fut with refs := w.fut.refs + op.delta } } ∧
    1 ≤ w.fut.refs + op.delta := by
  obtain ⟨hv, -⟩ := hv
  cases op with
  | copy => exact ⟨rfl, by simp only [Handle.Op.delta]; omega⟩
  | future => exact ⟨rfl, by simp only [Handle.Op.delta]; omega⟩
  | destroy =>
    simp only at hv
    have hne : w.fut.refs ≠ 1 := by omega
    refine ⟨?_, by simp only [Handle.Op.delta]; omega⟩
    simp only [Handle.step, cleanup_nonlast_eq _ n w hne, Handle.Op.delta]
    rfl
  | assign sameObject thisHere thatHere =>
    simp only at hv
    cases sameObject with
    | true =>
      refine ⟨?_, by simp only [Handle.Op.delta, if_true]; omega⟩
      simp only [Handle.step, Future.assign, Handle.Op.delta, if_true, add_zero]
    | false =>
      cases thisHere with
      | false =>
        cases thatHere with
        | false =>
          refine ⟨?_, by simp [Handle.Op.delta]; omega⟩
          simp [Handle.step, Future.assign, Handle.Op.delta]
        | true =>
          refine ⟨?_, by simp [Handle.Op.delta]; omega⟩
          simp [Handle.step, Future.assign, Handle.Op.delta, Future.copy]
      | true =>
        have h2 : 2 ≤ w.fut.refs := by simpa using hv
        have hne : w.fut.refs ≠ 1 := by omega
        cases thatHere with
        | false =>
          refine ⟨?_, by simp [Handle.Op.delta]; omega⟩
          simp [Handle.step, Future.assign, Handle.Op.delta, cleanup_nonlast_eq _ n w hne]
          rfl
        | true =>
          refine ⟨?_, by simp [Handle.Op.delta]; omega⟩
          simp [Handle.step, Future.assign, Handle.Op.delta, cleanup_nonlast_eq _ n w hne,
            Future.copy]

theorem handle_run (prog : Callback → List (Action T)) (n : Nat) :
    ∀ (ops : List Handle.Op) (w : World T), 1 ≤ w.fut.refs → Handle.Valid w.fut.refs ops →
      Handle.run prog n ops w =
        .ok { w with fut := { w.fut with refs := Handle.count w.fut.refs ops } } ∧
      1 ≤ Handle.count w.fut.refs ops := by
  intro ops
  induction ops with
  | nil => intro w h1 _; exact ⟨rfl, h1⟩
  | cons op rest ih =>
    intro w h1 hv
    obtain ⟨hs, hpos⟩ := handle_step prog n op w h1 ⟨hv.1, trivial⟩
    obtain ⟨h3, h4⟩ := ih { w with fut := { w.fut with refs := w.fut.refs + op.delta } }
      hpos hv.2
    refine ⟨?_, h4⟩
    simp only [Handle.run, hs]
    rw [h3]
    rfl

theorem destroys_valid : ∀ (ops : List Handle.Op) (h : Int),
    (∀ op ∈ ops, op = .destroy) → (ops.length : Int) < h →
    Handle.Valid h ops ∧ Handle.count h ops = h - ops.length := by
  intro ops
  induction ops with
  | nil => intro h _ _; exact ⟨trivial, by simp [Handle.count]⟩
  | cons op rest ih =>
    intro h hall hlen
    have hop : op = .destroy := hall op (List.mem_cons_self _ _)
    subst hop
    simp only [List.length_cons, Nat.cast_add, Nat.cast_one] at hlen
    obtain ⟨h3, h4⟩ := ih (h + -1)
      (fun o ho => hall o (List.mem_cons_of_mem _ ho)) (by omega)
    refine ⟨⟨?_, h3⟩, ?_⟩
    · show 2 ≤ h
      have : (0 : Int) ≤ rest.length := Int.natCast_nonneg _
      omega
    · show Handle.count (h + -1) rest = h - ((rest.length + 1 : Nat) : Int)
      rw [h4]
      push_cast
      omega

/-- Settling a transition does not touch the queues. -/
theorem settle_queue (s : Shared T) (a : Action T) (q : Queue) :
    (s.settle a).queue q = s.queue q := by
  cases a <;> cases q <;> rfl

/-- An operation that leaves the future terminal never lengthens a queue. -/
theorem exec_queue_length (prog : Callback → List (Action T)) (n : Nat) (a : Action T)
    (w : World T) (b : Bool) (w1 : World T) (h : exec prog n a w = .ok (b, w1))
    (hs : w1.fut.state ≠ .PENDING) (q : Queue) :
    (w1.fut.queue q).length ≤ (w.fut.queue q).length := by
  rcases exec_cases prog n a w b w1 h with ⟨-, hf, -⟩ | ⟨-, a1, -, w2, hor, hd⟩ | ⟨hp, -, hc, -, -⟩
  · rw [hf.1.queue q]
  · have hq : (w2.fut.queue q).length ≤ (w.fut.queue q).length := by
      by_cases hqq : q = a1.queue
      · subst hqq
        rw [hd.2.1]
        exact Nat.zero_le _
      · rw [hd.2.2.1 q hqq]
        show ((w.fut.settle a1).queue q).length ≤ _
        rw [settle_queue]
    rcases hor with ⟨-, -, rfl⟩ | ⟨-, -, -, rfl⟩
    · exact hq
    · cases q <;> exact hq
  · exact absurd (hc.1.trans hp) hs

theorem exec_cleanup_terminal (prog : Callback → List (Action T)) (n : Nat) (w : World T)
    (hw : w.fut.state ≠ .PENDING) :
    exec prog (n + 1) .cleanup w = .ok (true, { w with fut := { w.fut with
      refs := if w.fut.refs = 1 then -1 else w.fut.refs - 1 } }) := by
  simp only [exec, perform, cleanup_terminal_eq _ n w hw]
  rfl

theorem Pointers.copy_eq (that b : Pointers) (h : Pointers.copy that = .ok b) : b = that := by
  unfold Pointers.copy at h
  split at h
  · simp only [Except.ok.injEq] at h
    exact h.symm
  · cases h

theorem Pointers.latch_mem (p : Pointers) : p.latch ∈ p.addresses := by
  simp [Pointers.addresses]

/-- Handles in use point to non-null, distinct objects, and two of them that
share one object are the same handle value. -/
theorem live_inv (hs : List Pointers) (h : Live hs) :
    ∀ a ∈ hs, 0 ∉ a.addresses ∧ ∀ b ∈ hs, (∃ x ∈ a.addresses, x ∈ b.addresses) → a = b := by
  induction h with
  | nil => intro a ha; cases ha
  | construct p hs _ hf ih =>
    intro a ha
    rcases List.mem_cons.1 ha with hap | ha1
    · subst hap
      refine ⟨hf.1, fun b hb hx => ?_⟩
      rcases List.mem_cons.1 hb with hbp | hb1
      · exact hbp.symm
      · obtain ⟨x, hx1, hx2⟩ := hx
        exact absurd hx2 (hf.2.2 b hb1 x hx1)
    · refine ⟨(ih a ha1).1, fun b hb hx => ?_⟩
      rcases List.mem_cons.1 hb with hbp | hb1
      · subst hbp
        obtain ⟨x, hx1, hx2⟩ := hx
        exact absurd hx1 (hf.2.2 a ha1 x hx2)
      · exact (ih a ha1).2 b hb1 hx
  | copy a b hs _ ha hc ih =>
    have hba := Pointers.copy_eq a b hc
    subst hba
    intro a1 ha1
    have ha1' : a1 ∈ hs := by
      rcases List.mem_cons.1 ha1 with rfl | h1
      · exact ha
      · exact h1
    refine ⟨(ih a1 ha1').1, fun b1 hb1 hx => ?_⟩
    have hb1' : b1 ∈ hs := by
      rcases List.mem_cons.1 hb1 with rfl | h1
      · exact ha
      · exact h1
    exact (ih a1 ha1').2 b1 hb1' hx
  | assign a that b hs _ _ ht hc ih =>
    have hba := Pointers.copy_eq that b hc
    subst hba
    intro a1 ha1
    have ha1' : a1 ∈ hs := by
      rcases List.mem_cons.1 ha1 with rfl | h1
      · exact ht
      · exact List.mem_of_mem_erase h1
    refine ⟨(ih a1 ha1').1, fun b1 hb1 hx => ?_⟩
    have hb1' : b1 ∈ hs := by
      rcases List.mem_cons.1 hb1 with rfl | h1
      · exact ht
      · exact List.mem_of_mem_erase h1
    exact (ih a1 ha1').2 b1 hb1' hx
  | destroy a hs _ ih =>
    intro a1 ha1
    have ha1' : a1 ∈ hs := List.mem_of_mem_erase ha1
    exact ⟨(ih a1 ha1').1, fun b1 hb1 hx => (ih a1 ha1').2 b1 (List.mem_of_mem_erase hb1) hx⟩

theorem live_latch (hs : List Pointers) (h : Live hs) (a : Pointers) (ha : a ∈ hs) :
    a.latch ≠ 0 := fun h0 =>
  (live_inv hs h a ha).1 (h0 ▸ a.latch_mem)

theorem live_latch_inj (hs : List Pointers) (h : Live hs) (a b : Pointers) (ha : a ∈ hs)
    (hb : b ∈ hs) : a.latch = b.latch ↔ a = b :=
  ⟨fun hl => (live_inv hs h a ha).2 b hb ⟨a.latch, a.latch_mem, hl ▸ b.latch_mem⟩,
    fun hab => hab ▸ rfl⟩

theorem set_lookup {α : Type} (ths : List α) (i : Nat) (a a1 : α) (hi : ths[i]? = some a)
    (j : Nat) (b : α) :
    (ths.set i a1)[j]? = some b ↔ (j = i ∧ b = a1) ∨ (j ≠ i ∧ ths[j]? = some b) := by
  have hlt : i < ths.length := by
    by_contra hn
    rw [List.getElem?_eq_none (by omega)] at hi
    cases hi
  rw [List.getElem?_set]
  by_cases hij : i = j
  · subst hij
    simp only [if_true, hlt, Option.some.injEq, true_and, ne_eq, not_true_eq_false, false_and,
      or_false]
    exact eq_comm
  · have hji : j ≠ i := fun h => hij h.symm
    simp [hij, hji]

theorem stage_pending (a : Action T) (ha : a.target.isSome = true) (pc : Pc)
    (h : (stage a pc).state = .PENDING) : pc = .write ∨ pc = .tag := by
  cases pc <;> first
    | exact Or.inl rfl
    | exact Or.inr rfl
    | (cases a <;> simp [Action.target] at ha <;>
        simp [stage, Shared.settle, Shared.tagged, Shared.written, Future.init, Action.target] at h)

/-- What a step of thread `i` must satisfy for the invariant to carry over. -/
theorem Conf.Inv.update (c : Conf T) (hinv : c.Inv) (i : Nat) (a a1 : Thread T) (s1 : Shared T)
    (hi : c.threads[i]? = some a) (hcall : a1.call = a.call)
    (hres : a1.result = true → a1.pc = .release ∨ a1.pc = .callbacks ∨ a1.pc = .done)
    (hlock : (a1.pc.holds = a.pc.holds ∧ s1.lock = c.shared.lock) ∨
      (a.pc.holds = false ∧ a1.pc.holds = true ∧ c.shared.lock = 0 ∧ s1.lock = 1) ∨
      (a.pc.holds = true ∧ a1.pc.holds = false ∧ s1.lock = 0))
    (hmono : c.shared.state ≠ .PENDING → s1.state ≠ .PENDING)
    (hpast : (¬ a.Past ∧ ¬ a1.Past ∧ { s1 with lock := 0 } = { c.shared with lock := 0 }) ∨
      (a.Past ∧ a1.Past ∧ ({ c.shared with lock := 0 } = stage a.call a.pc →
        { s1 with lock := 0 } = stage a1.call a1.pc)) ∨
      (¬ a.Past ∧ a1.Past ∧ a.pc.holds = true ∧ c.shared.state = .PENDING ∧
        ({ c.shared with lock := 0 } = (Future.init : Shared T) →
          { s1 with lock := 0 } = stage a1.call a1.pc)))
    (hlost : ¬ a1.Past → (a1.pc = .release ∨ a1.pc = .callbacks ∨ a1.pc = .done) →
      s1.state ≠ .PENDING) :
    Conf.Inv { shared := s1, threads := c.threads.set i a1 } := by
  have hset := set_lookup c.threads i a a1 hi
  -- no thread other than one holding the lock is past the test while the future is pending
  have hnone : a.pc.holds = true → c.shared.state = .PENDING → ¬ a.Past →
      ∀ (k : Nat) (b : Thread T), c.threads[k]? = some b → ¬ b.Past := by
    intro hh hp hna k b hk hb
    rcases hinv.block with ⟨k1, b1, hk1, hb1, hs1⟩ | ⟨hno, -⟩
    · have hst : (stage b1.call b1.pc).state = .PENDING := by
        rw [← hs1]; exact hp
      have hpc := stage_pending b1.call (hinv.wf k1 b1 hk1).1 b1.pc hst
      have hhold : b1.pc.holds = true := by
        rcases hpc with h | h <;> rw [h] <;> rfl
      have := hinv.excl i k1 a b1 hi hk1 hh hhold
      subst this
      rw [hi] at hk1
      cases hk1
      exact hna hb1
    · exact hno k b hk hb
  constructor
  · intro j b hj
    rcases (hset j b).1 hj with ⟨-, rfl⟩ | ⟨-, hj⟩
    · exact ⟨hcall ▸ (hinv.wf i a hi).1, hres⟩
    · exact hinv.wf j b hj
  · intro j k b d hj hk hb hd
    rcases (hset j b).1 hj with ⟨rfl, rfl⟩ | ⟨hji, hj2⟩ <;>
      rcases (hset k d).1 hk with ⟨rfl, rfl⟩ | ⟨hki, hk2⟩
    · rfl
    · exfalso
      rcases hlock with ⟨h1, -⟩ | ⟨-, -, h0, -⟩ | ⟨-, h1, -⟩
      · exact hki (hinv.excl k _ d a hk2 hi hd (h1 ▸ hb))
      · rcases hinv.lock with ⟨h1, -⟩ | ⟨-, hno⟩
        · omega
        · rw [hno k d hk2] at hd; cases hd
      · rw [h1] at hb; cases hb
    · exfalso
      rcases hlock with ⟨h1, -⟩ | ⟨-, -, h0, -⟩ | ⟨-, h1, -⟩
      · exact hji (hinv.excl j _ b a hj2 hi hb (h1 ▸ hd))
      · rcases hinv.lock with ⟨h1, -⟩ | ⟨-, hno⟩
        · omega
        · rw [hno j b hj2] at hb; cases hb
      · rw [h1] at hd; cases hd
    · exact hinv.excl j k b d hj2 hk2 hb hd
  · rcases hlock with ⟨h1, h2⟩ | ⟨-, h1, -, h2⟩ | ⟨h0, h1, h2⟩
    · rcases hinv.lock with ⟨hl, k, b, hk, hb⟩ | ⟨hl, hno⟩
      · refine Or.inl ⟨h2.trans hl, ?_⟩
        by_cases hki : k = i
        · subst hki
          rw [hi] at hk
          cases hk
          exact ⟨k, a1, (hset k a1).2 (Or.inl ⟨rfl, rfl⟩), h1 ▸ hb⟩
        · exact ⟨k, b, (hset k b).2 (Or.inr ⟨hki, hk⟩), hb⟩
      · refine Or.inr ⟨h2.trans hl, fun j b hj => ?_⟩
        rcases (hset j b).1 hj with ⟨-, rfl⟩ | ⟨-, hj⟩
        · rw [h1]; exact hno i a hi
        · exact hno j b hj
    · exact Or.inl ⟨h2, i, a1, (hset i a1).2 (Or.inl ⟨rfl, rfl⟩), h1⟩
    · refine Or.inr ⟨h2, fun j b hj => ?_⟩
      rcases (hset j b).1 hj with ⟨-, rfl⟩ | ⟨hji, hj⟩
      · exact h1
      · by_contra hb
        have hb1 : b.pc.holds = true := by
          cases h : b.pc.holds
          · exact absurd h hb
          · rfl
        exact hji (hinv.excl j i b a hj hi hb1 h0)
  · intro j k b d hj hk hb hd
    rcases (hset j b).1 hj with ⟨rfl, rfl⟩ | ⟨hji, hj2⟩ <;>
      rcases (hset k d).1 hk with ⟨rfl, rfl⟩ | ⟨hki, hk2⟩
    · rfl
    · exfalso
      rcases hpast with ⟨-, h1, -⟩ | ⟨h0, -, -⟩ | ⟨h0, -, hh, hp, -⟩
      · exact h1 hb
      · exact hki (hinv.one k _ d a hk2 hi hd h0)
      · exact hnone hh hp h0 k d hk2 hd
    · exfalso
      rcases hpast with ⟨-, h1, -⟩ | ⟨h0, -, -⟩ | ⟨h0, -, hh, hp, -⟩
      · exact h1 hd
      · exact hji (hinv.one j _ b a hj2 hi hb h0)
      · exact hnone hh hp h0 j b hj2 hb
    · exact hinv.one j k b d hj2 hk2 hb hd
  · rcases hpast with ⟨h0, h1, hs⟩ | ⟨h0, h1, hs⟩ | ⟨h0, h1, hh, hp, hs⟩
    · rcases hinv.block with ⟨k, b, hk, hb, hsb⟩ | ⟨hno, hsb⟩
      · have hki : k ≠ i := by
          rintro rfl
          rw [hi] at hk
          cases hk
          exact h0 hb
        exact Or.inl ⟨k, b, (hset k b).2 (Or.inr ⟨hki, hk⟩), hb, hs.trans hsb⟩
      · refine Or.inr ⟨fun j b hj => ?_, hs.trans hsb⟩
        rcases (hset j b).1 hj with ⟨-, rfl⟩ | ⟨-, hj⟩
        · exact h1
        · exact hno j b hj
    · rcases hinv.block with ⟨k, b, hk, hb, hsb⟩ | ⟨hno, -⟩
      · have hki : k = i := hinv.one k i b a hk hi hb h0
        subst hki
        rw [hi] at hk
        cases hk
        exact Or.inl ⟨k, a1, (hset k a1).2 (Or.inl ⟨rfl, rfl⟩), h1, hs hsb⟩
      · exact absurd h0 (hno i a hi)
    · rcases hinv.block with ⟨k, b, hk, hb, -⟩ | ⟨-, hsb⟩
      · exact absurd hb (hnone hh hp h0 k b hk)
      · exact Or.inl ⟨i, a1, (hset i a1).2 (Or.inl ⟨rfl, rfl⟩), h1, hs hsb⟩
  · intro j b hj hb hpc
    rcases (hset j b).1 hj with ⟨-, rfl⟩ | ⟨-, hj⟩
    · exact hlost hb hpc
    · exact hmono (hinv.lost j b hj hb hpc)

theorem set_self {α : Type} : ∀ (l : List α) (i : Nat) (a : α), l[i]? = some a → l.set i a = l
  | [], _, _, _ => rfl
  | x :: l, 0, a, h => by
    simp only [List.getElem?_cons_zero, Option.some.injEq] at h
    subst h
    rfl
  | x :: l, i + 1, a, h => by
    simp only [List.getElem?_cons_succ] at h
    simp only [List.set_cons_succ, set_self l i a h]

theorem written_unlocked (s : Shared T) (a : Action T) :
    { s.written a with lock := 0 } = ({ s with lock := 0 } : Shared T).written a := by
  cases a <;> rfl

theorem written_state (s : Shared T) (a : Action T) : (s.written a).state = s.state := by
  cases a <;> rfl

theorem tagged_state (s : Shared T) (a : Action T) (ha : a.target.isSome = true) :
    (s.tagged a).state ≠ .PENDING := by
  cases a <;> simp [Action.target] at ha <;> simp [Shared.tagged, Action.target]

theorem stage_settled (a : Action T) (ha : a.target.isSome = true) :
    { ((Future.init : Shared T).written a).tagged a with
      latch := (((Future.init : Shared T).written a).tagged a).latch.trigger } =
      (Future.init : Shared T).settle a := by
  cases a <;> simp [Action.target] at ha <;> rfl

theorem stage_queue (a : Action T) (pc : Pc) (q : Queue) : (stage a pc).queue q = [] := by
  cases pc <;> cases a <;> cases q <;> rfl

/-- A step of any thread keeps the invariant, and never fails. -/
theorem Conf.Inv.step (c : Conf T) (hinv : c.Inv) (i : Nat) :
    ∃ c1, Conf.step i c = .ok c1 ∧ c1.Inv := by
  unfold Conf.step
  cases hi : c.threads[i]? with
  | none => exact ⟨c, rfl, hinv⟩
  | some a =>
    have hstay : Conf.Inv { shared := c.shared, threads := c.threads.set i a } := by
      rw [set_self c.threads i a hi]
      exact hinv
    obtain ⟨hta, hra⟩ := hinv.wf i a hi
    obtain ⟨call, pc, result⟩ := a
    simp only at hta hra
    cases pc with
    | acquire =>
      have hr : result = false := by
        cases result
        · rfl
        · rcases hra rfl with h | h | h <;> cases h
      subst hr
      by_cases hl : c.shared.lock = 0
      · simp only [Thread.step, internal.acquire, hl, if_true]
        refine ⟨_, rfl, Conf.Inv.update c hinv i _ _ _ hi rfl (fun h => by cases h)
          (Or.inr (Or.inl ⟨rfl, rfl, hl, rfl⟩)) (fun h => h)
          (Or.inl ⟨?_, ?_, rfl⟩) (fun _ h => by rcases h with h | h | h <;> cases h)⟩
        · rintro (h | h | h | h) <;> cases h
        · rintro (h | h | h | h) <;> cases h
      · simp only [Thread.step, internal.acquire, hl, if_false]
        exact ⟨_, rfl, hstay⟩
    | test =>
      have hr : result = false := by
        cases result
        · rfl
        · rcases hra rfl with h | h | h <;> cases h
      subst hr
      by_cases hp : c.shared.state = .PENDING
      · have hgo : ∀ pc1 : Pc, (pc1 = .write ∨ pc1 = .tag) → pc1.holds = true →
            stage call pc1 = (Future.init : Shared T) →
            Conf.Inv { shared := c.shared,
                       threads := c.threads.set i { call := call, pc := pc1, result := false } } := by
          intro pc1 hpc hh hst
          refine Conf.Inv.update c hinv i _ _ _ hi rfl (fun h => by cases h)
            (Or.inl ⟨hh, rfl⟩) (fun h => h)
            (Or.inr (Or.inr ⟨?_, ?_, rfl, hp, fun h => by rw [hst]; exact h⟩))
            (fun hn _ => ?_)
          · rintro (h | h | h | h) <;> cases h
          · rcases hpc with h | h
            · exact Or.inl h
            · exact Or.inr (Or.inl h)
          · exfalso
            apply hn
            rcases hpc with h | h
            · exact Or.inl h
            · exact Or.inr (Or.inl h)
        cases call with
        | discard =>
          simp only [Thread.step, hp, if_true]
          exact ⟨_, rfl, hgo .tag (Or.inr rfl) rfl rfl⟩
        | set v =>
          simp only [Thread.step, hp, if_true]
          exact ⟨_, rfl, hgo .write (Or.inl rfl) rfl rfl⟩
        | fail m =>
          simp only [Thread.step, hp, if_true]
          exact ⟨_, rfl, hgo .write (Or.inl rfl) rfl rfl⟩
        | onReady c1 => simp [Action.target] at hta
        | onFailed c1 => simp [Action.target] at hta
        | onDiscarded c1 => simp [Action.target] at hta
        | copy => simp [Action.target] at hta
        | cleanup => simp [Action.target] at hta
      · simp only [Thread.step, hp, if_false]
        refine ⟨_, rfl, Conf.Inv.update c hinv i _ _ _ hi rfl (fun h => by cases h)
          (Or.inl ⟨rfl, rfl⟩) (fun h => h) (Or.inl ⟨?_, ?_, rfl⟩) (fun _ _ => hp)⟩
        · rintro (h | h | h | h) <;> cases h
        · rintro (h | h | h | h) <;> cases h
    | write =>
      have hr : result = false := by
        cases result
        · rfl
        · rcases hra rfl with h | h | h <;> cases h
      subst hr
      simp only [Thread.step]
      refine ⟨_, rfl, Conf.Inv.update c hinv i _ _ _ hi rfl (fun h => by cases h)
        (Or.inl ⟨rfl, by cases call <;> rfl⟩) (fun h => by rw [written_state]; exact h)
        (Or.inr (Or.inl ⟨Or.inl rfl, Or.inr (Or.inl rfl), fun h => ?_⟩))
        (fun hn _ => absurd (Or.inr (Or.inl rfl)) hn)⟩
      rw [written_unlocked, h]
      rfl
    | tag =>
      have hr : result = false := by
        cases result
        · rfl
        · rcases hra rfl with h | h | h <;> cases h
      subst hr
      simp only [Thread.step]
      refine ⟨_, rfl, Conf.Inv.update c hinv i _ _ _ hi rfl (fun h => by cases h)
        (Or.inl ⟨rfl, rfl⟩) (fun _ => tagged_state _ _ hta)
        (Or.inr (Or.inl ⟨Or.inr (Or.inl rfl), Or.inr (Or.inr (Or.inl rfl)), fun h => ?_⟩))
        (fun hn _ => absurd (Or.inr (Or.inr (Or.inl rfl))) hn)⟩
      have h2 : ({ c.shared.tagged call with lock := 0 } : Shared T) =
          ({ c.shared with lock := 0 } : Shared T).tagged call := rfl
      rw [h2, h]
      rfl
    | trigger =>
      have hr : result = false := by
        cases result
        · rfl
        · rcases hra rfl with h | h | h <;> cases h
      subst hr
      simp only [Thread.step]
      refine ⟨_, rfl, Conf.Inv.update c hinv i _ _ _ hi rfl (fun _ => Or.inl rfl)
        (Or.inl ⟨rfl, rfl⟩) (fun h => h)
        (Or.inr (Or.inl ⟨Or.inr (Or.inr (Or.inl rfl)), Or.inr (Or.inr (Or.inr rfl)),
          fun h => ?_⟩))
        (fun hn _ => absurd (Or.inr (Or.inr (Or.inr rfl))) hn)⟩
      have h2 : ({ { c.shared with latch := c.shared.latch.trigger } with lock := 0 } : Shared T) =
          { ({ c.shared with lock := 0 } : Shared T) with
            latch := ({ c.shared with lock := 0 } : Shared T).latch.trigger } := rfl
      rw [h2, h]
      exact stage_settled call hta
    | release =>
      have hl : c.shared.lock = 1 := by
        rcases hinv.lock with ⟨h, -⟩ | ⟨-, hno⟩
        · exact h
        · have := hno i _ hi
          cases this
      simp only [Thread.step, internal.release, hl, if_true]
      refine ⟨_, rfl, Conf.Inv.update c hinv i _ _ _ hi rfl
        (fun h => Or.inr (Or.inl rfl)) (Or.inr (Or.inr ⟨rfl, rfl, rfl⟩)) (fun h => h) ?_
        (fun hn _ => hinv.lost i _ hi (fun hp => hn ?_) (Or.inl rfl))⟩
      · by_cases hp : Thread.Past { call := call, pc := .release, result := result }
        · refine Or.inr (Or.inl ⟨hp, ?_, fun h => h⟩)
          rcases hp with h | h | h | h
          · cases h
          · cases h
          · cases h
          · exact Or.inr (Or.inr (Or.inr h))
        · refine Or.inl ⟨hp, fun hq => hp ?_, rfl⟩
          rcases hq with h | h | h | h
          · cases h
          · cases h
          · cases h
          · exact Or.inr (Or.inr (Or.inr h))
      · rcases hp with h | h | h | h
        · cases h
        · cases h
        · cases h
        · exact Or.inr (Or.inr (Or.inr h))
    | callbacks =>
      cases result with
      | true =>
        have hp : Thread.Past { call := call, pc := .callbacks, result := true } :=
          Or.inr (Or.inr (Or.inr rfl))
        have hq : c.shared.queue call.queue = [] := by
          rcases hinv.block with ⟨k, b, hk, hb, hs⟩ | ⟨hno, -⟩
          · have h1 : ({ c.shared with lock := 0 } : Shared T).queue call.queue = [] := by
              rw [hs]; exact stage_queue _ _ _
            cases hc : call.queue <;> rw [hc] at h1 <;> exact h1
          · exact absurd hp (hno i _ hi)
        simp only [Thread.step, if_true, hq]
        exact ⟨_, rfl, Conf.Inv.update c hinv i _ _ _ hi rfl (fun _ => Or.inr (Or.inr rfl))
          (Or.inl ⟨rfl, rfl⟩) (fun h => h)
          (Or.inr (Or.inl ⟨hp, Or.inr (Or.inr (Or.inr rfl)), fun h => h⟩))
          (fun hn _ => absurd (Or.inr (Or.inr (Or.inr rfl))) hn)⟩
      | false =>
        simp only [Thread.step, Bool.false_eq_true, if_false]
        refine ⟨_, rfl, Conf.Inv.update c hinv i _ _ _ hi rfl (fun h => by cases h)
          (Or.inl ⟨rfl, rfl⟩) (fun h => h) (Or.inl ⟨?_, ?_, rfl⟩)
          (fun _ _ => hinv.lost i _ hi ?_ (Or.inr (Or.inl rfl)))⟩
        · rintro (h | h | h | h) <;> cases h
        · rintro (h | h | h | h) <;> cases h
        · rintro (h | h | h | h) <;> cases h
    | done =>
      simp only [Thread.step]
      exact ⟨_, rfl, hstay⟩

theorem Conf.Inv.queue_empty (c : Conf T) (hinv : c.Inv) (q : Queue) : c.shared.queue q = [] := by
  have h1 : ({ c.shared with lock := 0 } : Shared T).queue q = [] := by
    rcases hinv.block with ⟨k, b, -, -, hs⟩ | ⟨-, hs⟩
    · rw [hs]; exact stage_queue _ _ _
    · rw [hs]; cases q <;> rfl
  cases q <;> exact h1

theorem Conf.init_inv (calls : List (Action T)) (hcalls : ∀ a ∈ calls, a.target.isSome = true) :
    (Conf.init calls).Inv := by
  have hth : ∀ (i : Nat) (a : Thread T), (Conf.init calls).threads[i]? = some a →
      a.call ∈ calls ∧ a.pc = .acquire ∧ a.result = false := by
    intro i a hi
    simp only [Conf.init, List.getElem?_map, Option.map_eq_some'] at hi
    obtain ⟨x, hx, rfl⟩ := hi
    exact ⟨List.getElem?_mem hx, rfl, rfl⟩
  have hnp : ∀ (i : Nat) (a : Thread T), (Conf.init calls).threads[i]? = some a → ¬ a.Past := by
    intro i a hi hp
    obtain ⟨-, h1, h2⟩ := hth i a hi
    rcases hp with h | h | h | h
    · rw [h1] at h; cases h
    · rw [h1] at h; cases h
    · rw [h1] at h; cases h
    · rw [h2] at h; cases h
  have hnh : ∀ (i : Nat) (a : Thread T), (Conf.init calls).threads[i]? = some a →
      a.pc.holds = false := by
    intro i a hi
    rw [(hth i a hi).2.1]
    rfl
  constructor
  · intro i a hi
    obtain ⟨h0, -, h2⟩ := hth i a hi
    exact ⟨hcalls _ h0, fun h => by rw [h2] at h; cases h⟩
  · intro i j a b hi _ ha _
    rw [hnh i a hi] at ha
    cases ha
  · exact Or.inr ⟨rfl, hnh⟩
  · intro i j a b hi _ ha _
    exact absurd ha (hnp i a hi)
  · exact Or.inr ⟨hnp, rfl⟩
  · intro i a hi _ hpc
    rw [(hth i a hi).2.1] at hpc
    rcases hpc with h | h | h <;> cases h

theorem Thread.step_call (th th1 : Thread T) (s s1 : Shared T)
    (h : th.step s = .ok (th1, s1)) : th1.call = th.call := by
  obtain ⟨call, pc, result⟩ := th
  cases pc <;> simp only [Thread.step] at h
  · split at h <;> simp only [Except.ok.injEq, Prod.mk.injEq] at h <;> rw [← h.1]
  · split at h
    · split at h <;> simp only [Except.ok.injEq, Prod.mk.injEq] at h <;> rw [← h.1]
    · simp only [Except.ok.injEq, Prod.mk.injEq] at h; rw [← h.1]
  · simp only [Except.ok.injEq, Prod.mk.injEq] at h; rw [← h.1]
  · simp only [Except.ok.injEq, Prod.mk.injEq] at h; rw [← h.1]
  · simp only [Except.ok.injEq, Prod.mk.injEq] at h; rw [← h.1]
  · split at h
    · cases h
    · simp only [Except.ok.injEq, Prod.mk.injEq] at h; rw [← h.1]
  · split at h
    · split at h <;> simp only [Except.ok.injEq, Prod.mk.injEq] at h <;> rw [← h.1]
    · simp only [Except.ok.injEq, Prod.mk.injEq] at h; rw [← h.1]
  · simp only [Except.ok.injEq, Prod.mk.injEq] at h; rw [← h.1]

theorem Conf.step_some (c c1 : Conf T) (i : Nat) (a : Thread T) (hi : c.threads[i]? = some a)
    (h : Conf.step i c = .ok c1) :
    ∃ a1 s1, a.step c.shared = .ok (a1, s1) ∧
      c1 = { shared := s1, threads := c.threads.set i a1 } := by
  simp only [Conf.step, hi] at h
  split at h
  · cases h
  · rename_i a1 s1 h1
    simp only [Except.ok.injEq] at h
    exact ⟨a1, s1, h1, h.symm⟩

theorem Conf.step_calls (c c1 : Conf T) (i : Nat) (h : Conf.step i c = .ok c1) :
    c1.threads.map Thread.call = c.threads.map Thread.call := by
  cases hi : c.threads[i]? with
  | none =>
    simp only [Conf.step, hi, Except.ok.injEq] at h
    rw [← h]
  | some a =>
    obtain ⟨a1, s1, h1, rfl⟩ := Conf.step_some c c1 i a hi h
    simp only [List.map_set, Thread.step_call a a1 _ _ h1]
    exact set_self _ i _ (by simp [List.getElem?_map, hi])

/-- Every interleaving runs without a failed assertion and keeps the invariant
and the calls. -/
theorem Conf.Inv.run : ∀ (schedule : List Nat) (c : Conf T), c.Inv →
    ∃ c1, Conf.run schedule c = .ok c1 ∧ c1.Inv ∧
      c1.threads.map Thread.call = c.threads.map Thread.call
  | [], c, hinv => ⟨c, rfl, hinv, rfl⟩
  | i :: schedule, c, hinv => by
    obtain ⟨c1, h1, hinv1⟩ := Conf.Inv.step c hinv i
    obtain ⟨c2, h2, hinv2, hc2⟩ := Conf.Inv.run schedule c1 hinv1
    refine ⟨c2, ?_, hinv2, hc2.trans (Conf.step_calls c c1 i h1)⟩
    simp only [Conf.run, h1]
    exact h2

theorem Conf.run_append : ∀ (s1 s2 : List Nat) (c c1 : Conf T), Conf.run s1 c = .ok c1 →
    Conf.run (s1 ++ s2) c = Conf.run s2 c1
  | [], s2, c, c1, h => by
    simp only [Conf.run, Except.ok.injEq] at h
    subst h
    rfl
  | i :: s1, s2, c, c1, h => by
    simp only [Conf.run] at h
    simp only [List.cons_append, Conf.run]
    split at h
    · cases h
    · rename_i c2 h2
      exact Conf.run_append s1 s2 c2 c1 h

/-- When every call has returned, exactly one returned true, and the block is
the fresh block settled by that call. -/
theorem Conf.Inv.winner (c : Conf T) (hinv : c.Inv) (hd : c.allDone) (hne : c.threads ≠ []) :
    ∃ (i : Nat) (a : Thread T), c.threads[i]? = some a ∧ a.result = true ∧
      c.shared = (Future.init : Shared T).settle a.call ∧
      ∀ (j : Nat) (b : Thread T), c.threads[j]? = some b → j ≠ i → b.result = false := by
  have hdone : ∀ (j : Nat) (b : Thread T), c.threads[j]? = some b → b.pc = .done :=
    fun j b hj => hd b (List.getElem?_mem hj)
  have hl : c.shared.lock = 0 := by
    rcases hinv.lock with ⟨-, k, b, hk, hb⟩ | ⟨h, -⟩
    · rw [hdone k b hk] at hb; cases hb
    · exact h
  have hex : ∃ (k : Nat) (b : Thread T), c.threads[k]? = some b ∧ b.Past ∧
      ({ c.shared with lock := 0 } : Shared T) = stage b.call b.pc := by
    rcases hinv.block with h | ⟨hno, hs⟩
    · exact h
    · exfalso
      obtain ⟨x, hx⟩ : ∃ x, c.threads[0]? = some x := by
        cases hc : c.threads with
        | nil => exact absurd hc hne
        | cons x rest => exact ⟨x, by simp⟩
      have hst := hinv.lost 0 x hx (hno 0 x hx) (Or.inr (Or.inr (hdone 0 x hx)))
      apply hst
      have : ({ c.shared with lock := 0 } : Shared T).state = .PENDING := by rw [hs]; rfl
      exact this
  obtain ⟨k, b, hk, hb, hs⟩ := hex
  have hpc := hdone k b hk
  have hres : b.result = true := by
    rcases hb with h | h | h | h
    · rw [hpc] at h; cases h
    · rw [hpc] at h; cases h
    · rw [hpc] at h; cases h
    · exact h
  refine ⟨k, b, hk, hres, ?_, fun j d hj hjk => ?_⟩
  · rw [hpc] at hs
    have h1 : c.shared = { ({ c.shared with lock := 0 } : Shared T) with lock := c.shared.lock } := rfl
    rw [h1, hs, hl]
    cases b.call <;> rfl
  · cases hr : d.result
    · rfl
    · exact absurd (hinv.one j k d b hj hk (Or.inr (Or.inr (Or.inr hr))) hb) hjk

theorem Thread.step_progress (a : Thread T) (s : Shared T)
    (h : (a.pc.holds = true ∧ s.lock = 1) ∨ (a.pc = .acquire ∧ s.lock = 0) ∨
      (a.pc = .callbacks ∧ s.queue a.call.queue = [])) :
    ∃ a1 s1, a.step s = .ok (a1, s1) ∧ a1.pc.left < a.pc.left := by
  obtain ⟨call, pc, result⟩ := a
  cases pc with
  | acquire =>
    rcases h with ⟨h, -⟩ | ⟨-, hl⟩ | ⟨h, -⟩
    · cases h
    · have h1 : Thread.step ⟨call, .acquire, result⟩ s =
          .ok (⟨call, .test, result⟩, { s with lock := 1 }) := by
        simp only [Thread.step, internal.acquire, hl, if_true]
      exact ⟨_, _, h1, by simp [Pc.left]⟩
    · cases h
  | test =>
    by_cases hp : s.state = .PENDING
    · cases call with
      | discard =>
        have h1 : Thread.step ⟨.discard, .test, result⟩ s =
            .ok (⟨.discard, .tag, result⟩, s) := by
          simp only [Thread.step, hp, if_true]
        exact ⟨_, _, h1, by simp [Pc.left]⟩
      | set v =>
        have h1 : Thread.step ⟨.set v, .test, result⟩ s = .ok (⟨.set v, .write, result⟩, s) := by
          simp only [Thread.step, hp, if_true]
        exact ⟨_, _, h1, by simp [Pc.left]⟩
      | fail m =>
        have h1 : Thread.step ⟨.fail m, .test, result⟩ s =
            .ok (⟨.fail m, .write, result⟩, s) := by
          simp only [Thread.step, hp, if_true]
        exact ⟨_, _, h1, by simp [Pc.left]⟩
      | onReady c =>
        have h1 : Thread.step ⟨.onReady c, .test, result⟩ s =
            .ok (⟨.onReady c, .write, result⟩, s) := by
          simp only [Thread.step, hp, if_true]
        exact ⟨_, _, h1, by simp [Pc.left]⟩
      | onFailed c =>
        have h1 : Thread.step ⟨.onFailed c, .test, result⟩ s =
            .ok (⟨.onFailed c, .write, result⟩, s) := by
          simp only [Thread.step, hp, if_true]
        exact ⟨_, _, h1, by simp [Pc.left]⟩
      | onDiscarded c =>
        have h1 : Thread.step ⟨.onDiscarded c, .test, result⟩ s =
            .ok (⟨.onDiscarded c, .write, result⟩, s) := by
          simp only [Thread.step, hp, if_true]
        exact ⟨_, _, h1, by simp [Pc.left]⟩
      | copy =>
        have h1 : Thread.step ⟨.copy, .test, result⟩ s = .ok (⟨.copy, .write, result⟩, s) := by
          simp only [Thread.step, hp, if_true]
        exact ⟨_, _, h1, by simp [Pc.left]⟩
      | cleanup =>
        have h1 : Thread.step ⟨.cleanup, .test, result⟩ s =
            .ok (⟨.cleanup, .write, result⟩, s) := by
          simp only [Thread.step, hp, if_true]
        exact ⟨_, _, h1, by simp [Pc.left]⟩
    · have h1 : Thread.step ⟨call, .test, result⟩ s = .ok (⟨call, .release, result⟩, s) := by
        simp only [Thread.step, hp, if_false]
      exact ⟨_, _, h1, by simp [Pc.left]⟩
  | write => exact ⟨_, _, rfl, by simp [Pc.left]⟩
  | tag => exact ⟨_, _, rfl, by simp [Pc.left]⟩
  | trigger => exact ⟨_, _, rfl, by simp [Pc.left]⟩
  | release =>
    rcases h with ⟨-, hl⟩ | ⟨h, -⟩ | ⟨h, -⟩
    · have h1 : Thread.step ⟨call, .release, result⟩ s =
          .ok (⟨call, .callbacks, result⟩, { s with lock := 0 }) := by
        simp only [Thread.step, internal.release, hl, if_true]
      exact ⟨_, _, h1, by simp [Pc.left]⟩
    · cases h
    · cases h
  | callbacks =>
    rcases h with ⟨h, -⟩ | ⟨h, -⟩ | ⟨-, hq⟩
    · cases h
    · cases h
    · simp only at hq
      have h1 : Thread.step ⟨call, .callbacks, result⟩ s = .ok (⟨call, .done, result⟩, s) := by
        cases result
        · simp only [Thread.step, Bool.false_eq_true, if_false]
        · simp only [Thread.step, if_true, hq]
      exact ⟨_, _, h1, by simp [Pc.left]⟩
  | done =>
    rcases h with ⟨h, -⟩ | ⟨h, -⟩ | ⟨h, -⟩ <;> cases h

theorem left_set : ∀ (ths : List (Thread T)) (i : Nat) (a a1 : Thread T), ths[i]? = some a →
    a1.pc.left < a.pc.left →
    ((ths.set i a1).map fun th => th.pc.left).sum < (ths.map fun th => th.pc.left).sum
  | [], _, _, _, h, _ => by simp at h
  | x :: ths, 0, a, a1, h, hlt => by
    simp only [List.getElem?_cons_zero, Option.some.injEq] at h
    subst h
    simp only [List.set_cons_zero, List.map_cons, List.sum_cons]
    omega
  | x :: ths, i + 1, a, a1, h, hlt => by
    simp only [List.getElem?_cons_succ] at h
    have := left_set ths i a a1 h hlt
    simp only [List.set_cons_succ, List.map_cons, List.sum_cons]
    omega

/-- While some call has not returned, some thread can take a step that brings
its call nearer to the return: the holder of the lock if there is one, any
unfinished thread otherwise. -/
theorem Conf.Inv.progress (c : Conf T) (hinv : c.Inv) (hnd : ¬ c.allDone) :
    ∃ i c1, Conf.step i c = .ok c1 ∧ c1.left < c.left := by
  have hpick : ∃ (i : Nat) (a : Thread T), c.threads[i]? = some a ∧
      ((a.pc.holds = true ∧ c.shared.lock = 1) ∨ (a.pc = .acquire ∧ c.shared.lock = 0) ∨
        (a.pc = .callbacks ∧ c.shared.queue a.call.queue = [])) := by
    rcases hinv.lock with ⟨hl, k, b, hk, hb⟩ | ⟨hl, hno⟩
    · exact ⟨k, b, hk, Or.inl ⟨hb, hl⟩⟩
    · unfold Conf.allDone at hnd
      push_neg at hnd
      obtain ⟨th, hm, hpc⟩ := hnd
      obtain ⟨j, hj⟩ := List.mem_iff_getElem?.1 hm
      have hh := hno j th hj
      refine ⟨j, th, hj, ?_⟩
      cases hp : th.pc <;> rw [hp] at hh hpc <;> first
        | exact Or.inr (Or.inl ⟨rfl, hl⟩)
        | exact Or.inr (Or.inr ⟨rfl, hinv.queue_empty c _⟩)
        | exact absurd rfl hpc
        | cases hh
  obtain ⟨i, a, hi, hcase⟩ := hpick
  obtain ⟨a1, s1, h1, hlt⟩ := Thread.step_progress a c.shared hcase
  refine ⟨i, { shared := s1, threads := c.threads.set i a1 }, ?_, left_set c.threads i a a1 hi hlt⟩
  simp only [Conf.step, hi, h1]

/-- From a configuration of the invariant some schedule lets every call
return. -/
theorem Conf.Inv.complete : ∀ (n : Nat) (c : Conf T), c.Inv → c.left ≤ n →
    ∃ schedule c1, Conf.run schedule c = .ok c1 ∧ c1.allDone := by
  intro n
  induction n with
  | zero =>
    intro c hinv hn
    by_cases hd : c.allDone
    · exact ⟨[], c, rfl, hd⟩
    · obtain ⟨i, c1, -, hlt⟩ := hinv.progress c hd
      omega
  | succ n ih =>
    intro c hinv hn
    by_cases hd : c.allDone
    · exact ⟨[], c, rfl, hd⟩
    · obtain ⟨i, c1, h1, hlt⟩ := hinv.progress c hd
      obtain ⟨c2, h2, hinv2⟩ := Conf.Inv.step c hinv i
      have hc : c2 = c1 := by
        have := h2.symm.trans h1
        simpa using this
      subst hc
      obtain ⟨schedule, c3, h3, hd3⟩ := ih c2 hinv2 (by omega)
      refine ⟨i :: schedule, c3, ?_, hd3⟩
      simp only [Conf.run, h1]
      exact h3

theorem neat_init : Neat Promise.init := by
  refine ⟨by decide, rfl, fun q => by cases q <;> rfl, by decide, by decide⟩

theorem neat_refs (p : World Nat) (r : Int) (h : Neat p) :
    Neat { p with fut := { p.fut with refs := r } } := by
  obtain ⟨h1, h2, h3, h4, h5⟩ := h
  exact ⟨h1, h2, fun q => by have := h3 q; cases q <;> exact this, h4, h5⟩

theorem neat_copy (p : World Nat) (h : Neat p) : Neat (Future.copy p) :=
  neat_refs p _ h

theorem neat_settle_set (p : World Nat) (i : Nat) (h : Neat p) :
    Neat { p with fut := p.fut.settle (.set i) } := by
  obtain ⟨h1, h2, h3, h4, h5⟩ := h
  refine ⟨by simp [Shared.settle], h2, fun q => by have := h3 q; cases q <;> exact this,
    by simp [Shared.settle], by simp [Shared.settle, Latch.trigger]⟩

theorem neat_settle_discard (p : World Nat) (h : Neat p) (hp : p.fut.state = .PENDING) :
    Neat { p with fut := p.fut.settle .discard } := by
  obtain ⟨h1, h2, h3, h4, h5⟩ := h
  refine ⟨by simp [Shared.settle], h2, fun q => by have := h3 q; cases q <;> exact this, ?_,
    by simp [Shared.settle, Latch.trigger]⟩
  have : ¬ p.fut.t.isSome = true := fun ht => by
    have := h4.1 ht
    rw [hp] at this
    cases this
  simp [Shared.settle, this]

/-- A transition on a pending promise of `select`: nothing is queued, so it
only settles the block. -/
theorem promise_settle (p : World Nat) (a : Action Nat) (ha : a.target.isSome = true)
    (h : Neat p) (hp : p.fut.state = .PENDING) :
    exec idle 1 a p = .ok (true, { p with fut := p.fut.settle a }) := by
  have hq : ({ p with fut := p.fut.settle a } : World Nat).fut.queue a.queue = [] := by
    rw [(settle_state p.fut a ha).2.2.1]
    exact h.2.2.1 _
  simp only [exec, perform_transition_pending _ 0 a ha p hp h.2.1, drain_nil _ _ 0 _ hq]

theorem promise_terminal (p : World Nat) (a : Action Nat) (ha : a.target.isSome = true)
    (h : Neat p) (hp : p.fut.state ≠ .PENDING) : exec idle 1 a p = .ok (false, p) :=
  exec_transition_terminal idle 0 a ha p hp h.2.1

/-- The callback of `select` on a READY future, and on one that is not. -/
theorem callbacks_select_ready (future : Shared T) (i : Nat) (p : World Nat) (h : Neat p)
    (hf : future.state = .READY) :
    internal.callbacks.select future i p =
      .ok (if p.fut.state = .PENDING then { p with fut := p.fut.settle (.set i) } else p) := by
  have h1 : Future.ready future = true := by simp [Future.ready, hf]
  have h2 : Future.failed p.fut = false := by simp [Future.failed, h.1]
  by_cases hp : p.fut.state = .PENDING
  · have h3 : Future.ready p.fut = false := by simp [Future.ready, hp]
    have h4 : Future.discarded p.fut = false := by simp [Future.discarded, hp]
    simp only [internal.callbacks.select, h1, h2, h3, h4, promise_settle p (.set i) rfl h hp, hp]
    rfl
  · have h3 : (!Future.ready p.fut && !Future.discarded p.fut) = false := by
      have := h.1
      cases hs : p.fut.state <;> simp_all [Future.ready, Future.discarded]
    simp only [internal.callbacks.select, h1, h2, h3, hp]
    rfl

theorem callbacks_select_assert (future : Shared T) (i : Nat) (p : World Nat)
    (hf : future.state ≠ .READY) :
    internal.callbacks.select future i p = .error .assertion := by
  have h1 : Future.ready future = false := by simp [Future.ready, hf]
  simp [internal.callbacks.select, h1]

theorem settled_of_step (i : Nat) (p : World Nat) :
    Settled i p (if p.fut.state = .PENDING then { p with fut := p.fut.settle (.set i) } else p) := by
  by_cases hp : p.fut.state = .PENDING
  · rw [if_pos hp]
    exact ⟨fun _ => ⟨rfl, rfl⟩, fun h => absurd hp h⟩
  · rw [if_neg hp]
    exact ⟨fun h => absurd h hp, fun _ => ⟨rfl, rfl⟩⟩

theorem settled_refs (i : Nat) (p p1 : World Nat) (r : Int) (h : Settled i p p1) :
    Settled i p { p1 with fut := { p1.fut with refs := r } } := h

theorem settled_trans (i : Nat) (p p1 p2 : World Nat) (h1 : Settled i p p1)
    (h2 : Settled i p1 p2) : Settled i p p2 := by
  constructor
  · intro hp
    obtain ⟨hs, ht⟩ := h1.1 hp
    have := h2.2 (by rw [hs]; simp)
    exact ⟨this.1.trans hs, this.2.trans ht⟩
  · intro hp
    obtain ⟨hs, ht⟩ := h1.2 hp
    have := h2.2 (by rw [hs]; exact hp)
    exact ⟨this.1.trans hs, this.2.trans ht⟩

/-- The relay of the invocations `l` returns exactly when every invocation of
`sel` among them was handed a READY future; then the promise is untouched if
there is none, and settled for input `i` otherwise. -/
theorem relay_spec (sel : Callback) (queued : Bool) (i : Nat) :
    ∀ (l : List (Event T)) (p : World Nat), Neat p →
      ((∃ e ∈ l, e.callback = sel ∧ e.arg.state ≠ .READY) ∧
        relay sel queued i l p = .error .assertion) ∨
      ((∀ e ∈ l, e.callback = sel → e.arg.state = .READY) ∧
        ∃ p1, relay sel queued i l p = .ok p1 ∧ Neat p1 ∧
          ((∀ e ∈ l, e.callback ≠ sel) → p1 = p) ∧
          ((∃ e ∈ l, e.callback = sel) → Settled i p p1 ∧ p1.fut.state ≠ .PENDING) ∧
          (p1.fut.state = .DISCARDED → p.fut.state = .DISCARDED) ∧
          (p.fut.state ≠ .PENDING → p1.fut.state = p.fut.state ∧ p1.fut.t = p.fut.t)) := by
  intro l
  induction l with
  | nil =>
    intro p hp
    exact Or.inr ⟨fun e he => (by cases he), p, rfl, hp, fun _ => rfl,
      fun ⟨e, he, _⟩ => (by cases he), fun h => h, fun _ => ⟨rfl, rfl⟩⟩
  | cons e l ih =>
    intro p hp
    by_cases hc : e.callback = sel
    · by_cases hr : e.arg.state = .READY
      · -- the callback runs on the promise
        have hcb := callbacks_select_ready e.arg i p hp hr
        have hp1 : Neat (if p.fut.state = .PENDING then
            ({ p with fut := p.fut.settle (.set i) } : World Nat) else p) := by
          split
          · exact neat_settle_set p i hp
          · exact hp
        have hs1 := settled_of_step i p
        have ht1 : (if p.fut.state = .PENDING then
            ({ p with fut := p.fut.settle (.set i) } : World Nat) else p).fut.state ≠ .PENDING := by
          split
          · simp [Shared.settle]
          · assumption
        generalize (if p.fut.state = .PENDING then
            ({ p with fut := p.fut.settle (.set i) } : World Nat) else p) = p1 at hcb hp1 hs1 ht1
        have hstep : ∃ p2, (if queued then exec idle 1 .cleanup p1 else .ok (true, p1)) =
            .ok (true, p2) ∧ Neat p2 ∧ Settled i p p2 ∧ p2.fut.state ≠ .PENDING := by
          cases queued
          · exact ⟨p1, rfl, hp1, hs1, ht1⟩
          · exact ⟨{ p1 with fut := { p1.fut with
                refs := if p1.fut.refs = 1 then -1 else p1.fut.refs - 1 } },
              by simp only [if_true]; exact exec_cleanup_terminal idle 0 p1 ht1,
              neat_refs p1 _ hp1, settled_refs i p p1 _ hs1, ht1⟩
        obtain ⟨p2, hstep, hp2, hs2, ht2⟩ := hstep
        have hrel : relay sel queued i (e :: l) p = relay sel queued i l p2 := by
          simp only [relay, hc, if_true, hcb, hstep]
        rw [hrel]
        rcases ih p2 hp2 with ⟨⟨e1, he1, hb1⟩, herr⟩ | ⟨hall, p3, h3, hn3, hsame, hset, hdis, hkeep⟩
        · exact Or.inl ⟨⟨e1, List.mem_cons_of_mem _ he1, hb1⟩, herr⟩
        · refine Or.inr ⟨?_, p3, h3, hn3, ?_, ?_, ?_, ?_⟩
          · intro e1 he1 hc1
            rcases List.mem_cons.1 he1 with rfl | he1
            · exact hr
            · exact hall e1 he1 hc1
          · intro hno
            exact absurd hc (hno e (List.mem_cons_self _ _))
          · intro _
            have h23 := hkeep ht2
            refine ⟨?_, by rw [h23.1]; exact ht2⟩
            constructor
            · intro hpp
              obtain ⟨a1, a2⟩ := hs2.1 hpp
              exact ⟨h23.1.trans a1, h23.2.trans a2⟩
            · intro hpp
              obtain ⟨a1, a2⟩ := hs2.2 hpp
              exact ⟨h23.1.trans a1, h23.2.trans a2⟩
          · intro hd
            have h23 := hkeep ht2
            rw [h23.1] at hd
            by_contra hnd
            by_cases hpp : p.fut.state = .PENDING
            · have := (hs2.1 hpp).1
              rw [this] at hd
              cases hd
            · have := (hs2.2 hpp).1
              rw [this] at hd
              exact hnd hd
          · intro hpp
            have h23 := hkeep ht2
            obtain ⟨a1, a2⟩ := hs2.2 hpp
            exact ⟨h23.1.trans a1, h23.2.trans a2⟩
      · refine Or.inl ⟨⟨e, List.mem_cons_self _ _, hc, hr⟩, ?_⟩
        simp only [relay, hc, if_true, callbacks_select_assert e.arg i p hr]
    · have hrel : relay sel queued i (e :: l) p = relay sel queued i l p := by
        simp only [relay, hc, if_false]
      rw [hrel]
      rcases ih p hp with ⟨⟨e1, he1, hb1⟩, herr⟩ | ⟨hall, p3, h3, hn3, hsame, hset, hdis, hkeep⟩
      · exact Or.inl ⟨⟨e1, List.mem_cons_of_mem _ he1, hb1⟩, herr⟩
      · refine Or.inr ⟨?_, p3, h3, hn3, ?_, ?_, hdis, hkeep⟩
        · intro e1 he1 hc1
          rcases List.mem_cons.1 he1 with rfl | he1
          · exact absurd hc1 hc
          · exact hall e1 he1 hc1
        · intro hno
          exact hsame fun e1 he1 => hno e1 (List.mem_cons_of_mem _ he1)
        · rintro ⟨e1, he1, hc1⟩
          rcases List.mem_cons.1 he1 with rfl | he1
          · exact absurd hc1 hc
          · exact hset ⟨e1, he1, hc1⟩

/-- The invocations an operation logs are all handed the future in the state
the operation leaves it in. -/
theorem exec_new_events (prog : Callback → List (Action T)) (n : Nat) (a : Action T)
    (w : World T) (b : Bool) (w1 : World T) (h : exec prog n a w = .ok (b, w1)) :
    ∃ l, w1.log = w.log ++ l ∧ w1.log.drop w.log.length = l ∧
      ∀ e ∈ l, e.arg.state = w1.fut.state := by
  have hdrop : ∀ l, w1.log = w.log ++ l → w1.log.drop w.log.length = l := fun l hl => by
    rw [hl, List.drop_left]
  rcases exec_cases prog n a w b w1 h with ⟨-, hf, -⟩ | ⟨-, a1, -, w2, hor, hd⟩ | ⟨-, -, -, hl, -⟩
  · obtain ⟨hag, -, l, hl, he⟩ := hf
    exact ⟨l, hl, hdrop l hl, fun e hm => (he e hm).2.1.trans hag.1.symm⟩
  · obtain ⟨hc, -, -, -, l, hl, he, -⟩ := hd
    have hst : ∀ e ∈ l, e.arg.state = w2.fut.state := fun e hm => (he e hm).2.1.trans hc.1.symm
    rcases hor with ⟨-, -, rfl⟩ | ⟨-, -, -, rfl⟩
    · exact ⟨l, hl, hdrop l hl, hst⟩
    · exact ⟨l, hl, hdrop l hl, hst⟩
  · exact ⟨[], by rw [hl, List.append_nil], by rw [hl]; simp, fun e hm => by cases hm⟩

/-- An operation that leaves the future pending found it pending, and only
appended what it registers to the queues. -/
theorem exec_pending_stays (prog : Callback → List (Action T)) (n : Nat) (a : Action T)
    (w : World T) (b : Bool) (w1 : World T) (h : exec prog n a w = .ok (b, w1))
    (hp : w1.fut.state = .PENDING) :
    w.fut.state = .PENDING ∧ w1.log = w.log ∧
      ∀ q, w1.fut.queue q = w.fut.queue q ++ a.pushed q := by
  have hw : w.fut.state = .PENDING := by
    by_contra hw
    exact hw (((exec_core prog n a w b w1 h).2.2 hw).symm.trans hp)
  refine ⟨hw, ?_⟩
  have htrans : a.target.isSome = true → False := by
    intro ha
    obtain ⟨hb, -, htrue⟩ := exec_transition prog n a ha w b w1 h
    have hd := htrue (hb.2 hw)
    have : w1.fut.state ≠ .PENDING := by
      rw [hd.1.1]
      exact settle_terminal w.fut a ha
    exact this hp
  have hon : ∀ (q : Queue) (c : Callback), a = q.on c →
      w1.log = w.log ∧ ∀ q1, w1.fut.queue q1 = w.fut.queue q1 ++ (q.on c : Action T).pushed q1 := by
    intro q c hq
    subst hq
    cases n with
    | zero => simp [exec] at h
    | succ n =>
      by_cases hl : w.fut.lock = 0
      · rw [exec, perform_on_pending _ n q c w hw hl] at h
        simp only [Except.ok.injEq, Prod.mk.injEq] at h
        obtain ⟨-, rfl⟩ := h
        refine ⟨rfl, fun q1 => ?_⟩
        obtain ⟨h1, h2, -⟩ := push_spec w.fut q c
        by_cases hq1 : q1 = q
        · subst hq1
          rw [h1]
          cases q1 <;> rfl
        · rw [h2 q1 hq1]
          cases q <;> cases q1 <;> first
            | exact absurd rfl hq1
            | simp [Queue.on, Action.pushed]
      · rw [exec, perform_on_spin _ n q c w hl] at h
        cases h
  cases a with
  | set v => exact (htrans rfl).elim
  | fail m => exact (htrans rfl).elim
  | discard => exact (htrans rfl).elim
  | onReady c => exact hon .ready c rfl
  | onFailed c => exact hon .failed c rfl
  | onDiscarded c => exact hon .discarded c rfl
  | copy =>
    cases n with
    | zero => simp [exec] at h
    | succ n =>
      simp only [exec, perform, Except.ok.injEq, Prod.mk.injEq] at h
      obtain ⟨-, rfl⟩ := h
      exact ⟨rfl, fun q => by cases q <;> simp [Action.pushed, Future.copy, Shared.queue]⟩
  | cleanup =>
    by_cases h1 : w.fut.refs = 1
    · obtain ⟨w2, hd, rfl⟩ := exec_cleanup_last prog n w hw h1 b w1 h
      obtain ⟨-, -, htrue⟩ := exec_transition prog n .discard rfl w true w2 hd
      have hd2 := htrue rfl
      have : w2.fut.state ≠ .PENDING := by
        rw [hd2.1.1]
        simp [Shared.settle]
      exact (this hp).elim
    · cases n with
      | zero => simp [exec] at h
      | succ n =>
        simp only [exec, perform, cleanup_nonlast_eq _ n w h1] at h
        simp only [Except.map, Except.ok.injEq, Prod.mk.injEq] at h
        obtain ⟨-, rfl⟩ := h
        exact ⟨rfl, fun q => by cases q <;> simp [Action.pushed, Shared.queue]⟩

theorem Group.act_none (prog : Callback → List (Action T)) (sel : Callback) (n : Nat)
    (queued : Bool) (i : Nat) (a : Action T) (g : Group T) (hi : g.inputs[i]? = none) :
    Group.act prog sel n queued i a g = .ok (false, g) := by
  simp only [Group.act, hi]

/-- What one operation on input `i` does to the group. -/
theorem Group.act_some (prog : Callback → List (Action T)) (sel : Callback) (n : Nat)
    (queued : Bool) (i : Nat) (a : Action T) (g : Group T) (w : World T)
    (hi : g.inputs[i]? = some w) (hN : Neat g.promise) (b : Bool) (g1 : Group T)
    (h : Group.act prog sel n queued i a g = .ok (b, g1)) :
    ∃ w1 l, exec (withSel prog sel) n a w = .ok (b, w1) ∧ w1.log.drop w.log.length = l ∧
      (∀ e ∈ l, e.arg.state = w1.fut.state) ∧ g1.inputs = g.inputs.set i w1 ∧
      (∀ e ∈ l, e.callback = sel → w1.fut.state = .READY) ∧ Neat g1.promise ∧
      ((∀ e ∈ l, e.callback ≠ sel) → g1.promise = g.promise) ∧
      ((∃ e ∈ l, e.callback = sel) →
        Settled i g.promise g1.promise ∧ g1.promise.fut.state ≠ .PENDING) ∧
      (g1.promise.fut.state = .DISCARDED → g.promise.fut.state = .DISCARDED) ∧
      (g.promise.fut.state ≠ .PENDING →
        g1.promise.fut.state = g.promise.fut.state ∧ g1.promise.fut.t = g.promise.fut.t) := by
  simp only [Group.act, hi] at h
  split at h
  · cases h
  · rename_i b1 w1 hex
    obtain ⟨l, -, hdrop, hst⟩ := exec_new_events _ n a w b1 w1 hex
    rw [hdrop] at h
    rcases relay_spec sel queued i l g.promise hN with ⟨-, herr⟩ |
      ⟨hall, p1, hrel, hn1, hsame, hset, hdis, hkeep⟩
    · rw [herr] at h
      cases h
    · rw [hrel] at h
      simp only [Except.ok.injEq, Prod.mk.injEq] at h
      obtain ⟨rfl, rfl⟩ := h
      exact ⟨w1, l, hex, hdrop, hst, rfl, fun e he hc => (hst e he).symm.trans (hall e he hc),
        hn1, hsame, hset, hdis, hkeep⟩

theorem Group.Evolves.evolves_refl (g : Group T) : g.Evolves g :=
  ⟨rfl, fun j w w1 h h1 _ => by rw [h] at h1; cases h1; rfl, fun h => h, fun _ => ⟨rfl, rfl⟩⟩

theorem Group.Evolves.evolves_trans {g g1 g2 : Group T} (h1 : g.Evolves g1)
    (h2 : g1.Evolves g2) : g.Evolves g2 := by
  refine ⟨h2.1.trans h1.1, fun j w w2 hj hj2 hw => ?_, fun h => h1.2.2.1 (h2.2.2.1 h),
    fun h => ?_⟩
  · have hlt : j < g1.inputs.length := by
      rw [h1.1]
      by_contra hn
      rw [List.getElem?_eq_none (by omega)] at hj
      cases hj
    have hj1 : g1.inputs[j]? = some (g1.inputs.get ⟨j, hlt⟩) := List.getElem?_eq_getElem hlt
    have hs1 := h1.2.1 j w _ hj hj1 hw
    have hs2 := h2.2.1 j _ w2 hj1 hj2 (by rw [hs1]; exact hw)
    exact hs2.trans hs1
  · obtain ⟨a1, a2⟩ := h1.2.2.2 h
    obtain ⟨b1, b2⟩ := h2.2.2.2 (by rw [a1]; exact h)
    exact ⟨b1.trans a1, b2.trans a2⟩

/-- One operation keeps the promise neat and the group sound. -/
theorem Group.act_keeps (prog : Callback → List (Action T)) (sel : Callback) (n : Nat)
    (queued : Bool) (i : Nat) (a : Action T) (g : Group T) (hN : Neat g.promise)
    (hS : g.Sound) (b : Bool) (g1 : Group T)
    (h : Group.act prog sel n queued i a g = .ok (b, g1)) :
    Neat g1.promise ∧ g1.Sound ∧ g.Evolves g1 := by
  cases hi : g.inputs[i]? with
  | none =>
    rw [Group.act_none prog sel n queued i a g hi] at h
    simp only [Except.ok.injEq, Prod.mk.injEq] at h
    obtain ⟨-, rfl⟩ := h
    exact ⟨hN, hS, Group.Evolves.evolves_refl g⟩
  | some w =>
    obtain ⟨w1, l, hex, -, -, hin, hready, hn1, hsame, hset, hdis, hkeep⟩ :=
      Group.act_some prog sel n queued i a g w hi hN b g1 h
    have hlook := set_lookup g.inputs i w w1 hi
    have hstable : ∀ (k : Nat) (w0 : World T), g.inputs[k]? = some w0 →
        w0.fut.state = .READY → ∃ w2, g1.inputs[k]? = some w2 ∧ w2.fut.state = .READY := by
      intro k w0 hk hr
      by_cases hki : k = i
      · subst hki
        rw [hi] at hk
        cases hk
        refine ⟨w1, by rw [hin]; exact (hlook k w1).2 (Or.inl ⟨rfl, rfl⟩), ?_⟩
        rw [(exec_core _ n a w b w1 hex).2.2 (by rw [hr]; simp)]
        exact hr
      · exact ⟨w0, by rw [hin]; exact (hlook k w0).2 (Or.inr ⟨hki, hk⟩), hr⟩
    refine ⟨hn1, ?_, ?_, ?_, hdis, hkeep⟩
    · intro k hk
      by_cases hev : ∃ e ∈ l, e.callback = sel
      · obtain ⟨hsettled, -⟩ := hset hev
        obtain ⟨e, he, hc⟩ := hev
        by_cases hp : g.promise.fut.state = .PENDING
        · have := (hsettled.1 hp).2
          rw [this] at hk
          cases hk
          exact ⟨w1, by rw [hin]; exact (hlook i w1).2 (Or.inl ⟨rfl, rfl⟩), hready e he hc⟩
        · rw [(hsettled.2 hp).2] at hk
          obtain ⟨w0, hk0, hr0⟩ := hS k hk
          exact hstable k w0 hk0 hr0
      · have hno : ∀ e ∈ l, e.callback ≠ sel := fun e he hc => hev ⟨e, he, hc⟩
        rw [hsame hno] at hk
        obtain ⟨w0, hk0, hr0⟩ := hS k hk
        exact hstable k w0 hk0 hr0
    · rw [hin]
      exact List.length_set _ _ _
    · intro j w0 w2 hj hj2 hw0
      rw [hin] at hj2
      rcases (hlook j w2).1 hj2 with ⟨rfl, rfl⟩ | ⟨-, hj3⟩
      · rw [hi] at hj
        cases hj
        exact (exec_core _ n a _ b _ hex).2.2 hw0
      · rw [hj] at hj3
        cases hj3
        rfl

/-- The operations of the other threads keep the promise neat and the group
sound. -/
theorem Group.run_keeps (prog : Callback → List (Action T)) (sel : Callback) (n : Nat) :
    ∀ (ops : List (Nat × Action T)) (g g1 : Group T), Neat g.promise → g.Sound →
      Group.run prog sel n ops g = .ok g1 → Neat g1.promise ∧ g1.Sound ∧ g.Evolves g1 := by
  intro ops
  induction ops with
  | nil =>
    intro g g1 hN hS h
    simp only [Group.run, Except.ok.injEq] at h
    subst h
    exact ⟨hN, hS, Group.Evolves.evolves_refl g⟩
  | cons op ops ih =>
    intro g g1 hN hS h
    obtain ⟨i, a⟩ := op
    simp only [Group.run] at h
    split at h
    · cases h
    · rename_i b g2 h2
      obtain ⟨hN2, hS2, hE2⟩ := Group.act_keeps prog sel n true i a g hN hS b g2 h2
      obtain ⟨hN1, hS1, hE1⟩ := ih g2 g1 hN2 hS2 h
      exact ⟨hN1, hS1, hE2.evolves_trans hE1⟩

theorem Group.copy_keeps (g : Group T) (hN : Neat g.promise) (hS : g.Sound) :
    Neat (Future.copy g.promise) ∧
      Group.Sound { g with promise := Future.copy g.promise } ∧
      g.Evolves { g with promise := Future.copy g.promise } :=
  ⟨neat_copy _ hN, hS, rfl, fun j w w1 h h1 _ => by rw [h] at h1; cases h1; rfl, fun h => h,
    fun _ => ⟨rfl, rfl⟩⟩

/-- The end of `select` on a promise that is not pending: the three locals go,
and nothing but the reference count changes. -/
theorem Group.leave_spec (g : Group T) (hN : Neat g.promise)
    (hp : g.promise.fut.state ≠ .PENDING) :
    ∃ g1, g.leave = .ok g1 ∧ g1.inputs = g.inputs ∧ Neat g1.promise ∧
      g1.promise.fut.state = g.promise.fut.state ∧ g1.promise.fut.t = g.promise.fut.t := by
  have h1 := exec_cleanup_terminal idle 0 g.promise hp
  generalize hq1 : ({ g.promise with fut := { g.promise.fut with
    refs := if g.promise.fut.refs = 1 then -1 else g.promise.fut.refs - 1 } } : World Nat) = p1
    at h1
  have hp1 : p1.fut.state = g.promise.fut.state ∧ p1.fut.t = g.promise.fut.t ∧ Neat p1 := by
    rw [← hq1]
    exact ⟨rfl, rfl, neat_refs _ _ hN⟩
  have h2 := exec_cleanup_terminal idle 0 p1 (by rw [hp1.1]; exact hp)
  generalize hq2 : ({ p1 with fut := { p1.fut with
    refs := if p1.fut.refs = 1 then -1 else p1.fut.refs - 1 } } : World Nat) = p2 at h2
  have hp2 : p2.fut.state = g.promise.fut.state ∧ p2.fut.t = g.promise.fut.t ∧ Neat p2 := by
    rw [← hq2]
    exact ⟨hp1.1, hp1.2.1, neat_refs _ _ hp1.2.2⟩
  have h3 := exec_cleanup_terminal idle 0 p2 (by rw [hp2.1]; exact hp)
  refine ⟨{ g with promise := { p2 with fut := { p2.fut with
    refs := if p2.fut.refs = 1 then -1 else p2.fut.refs - 1 } } }, ?_, rfl,
    neat_refs _ _ hp2.2.2, hp2.1, hp2.2.1⟩
  simp only [Group.leave]
  rw [show exec idle 1 .cleanup g.promise = _ from h1]
  simp only []
  rw [show exec idle 1 .cleanup p1 = _ from h2]
  simp only []
  rw [show exec idle 1 .cleanup p2 = _ from h3]

/-- A registration neither settles a future nor unsettles it. -/
theorem exec_on_state (prog : Callback → List (Action T)) (n : Nat) (c : Callback)
    (w : World T) (b : Bool) (w1 : World T) (h : exec prog n (.onReady c) w = .ok (b, w1)) :
    w1.fut.state = w.fut.state := by
  rcases exec_cases prog n _ w b w1 h with ⟨-, hf, -⟩ | ⟨-, a1, ha1, w2, hor, -⟩ |
    ⟨-, -, hc, -, -⟩
  · exact hf.1.1
  · rcases hor with ⟨rfl, -, -⟩ | ⟨h1, -⟩
    · simp [Action.target] at ha1
    · cases h1
  · exact hc.1

theorem Group.Holds.holds_refl (g : Group T) : g.Holds g :=
  fun _ w h => ⟨w, h, rfl, fun _ _ hc => hc⟩

theorem Group.Holds.holds_trans {g g1 g2 : Group T} (h1 : g.Holds g1) (h2 : g1.Holds g2) :
    g.Holds g2 := by
  intro j w hj
  obtain ⟨w1, hj1, hs1, hq1⟩ := h1 j w hj
  obtain ⟨w2, hj2, hs2, hq2⟩ := h2 j w1 hj1
  exact ⟨w2, hj2, hs2.trans hs1, fun hp c hc => hq2 hp c (hq1 (hs2.symm.trans hp) c hc)⟩

/-- The call `future.onReady(callback)` of `select` on input `i`. -/
theorem Group.act_register (prog : Callback → List (Action T)) (sel : Callback) (n : Nat)
    (i : Nat) (g : Group T) (w : World T) (hi : g.inputs[i]? = some w) (hN : Neat g.promise)
    (b : Bool) (g1 : Group T)
    (h : Group.act prog sel n false i (.onReady sel) g = .ok (b, g1)) :
    g.Holds g1 ∧ ∃ w1, g1.inputs[i]? = some w1 ∧
      (w1.fut.state = .PENDING → sel ∈ w1.fut.onReadyCallbacks ∧ g1.promise = g.promise) := by
  obtain ⟨w1, l, hex, hdrop, -, hin, -, -, hsame, -, -, -⟩ :=
    Group.act_some prog sel n false i _ g w hi hN b g1 h
  have hlook := set_lookup g.inputs i w w1 hi
  have hst := exec_on_state _ n sel w b w1 hex
  have hi1 : g1.inputs[i]? = some w1 := by
    rw [hin]
    exact (hlook i w1).2 (Or.inl ⟨rfl, rfl⟩)
  refine ⟨fun j w0 hj => ?_, w1, hi1, fun hp => ?_⟩
  · by_cases hji : j = i
    · subst hji
      rw [hi] at hj
      cases hj
      refine ⟨w1, hi1, hst, fun hp c hc => ?_⟩
      have := (exec_pending_stays _ n _ _ b w1 hex hp).2.2 .ready
      have h2 : c ∈ w1.fut.queue .ready := by
        rw [this]
        exact List.mem_append_left _ hc
      exact h2
    · exact ⟨w0, by rw [hin]; exact (hlook j w0).2 (Or.inr ⟨hji, hj⟩), rfl, fun _ _ hc => hc⟩
  · obtain ⟨-, hlog, hq⟩ := exec_pending_stays _ n _ w b w1 hex hp
    constructor
    · have h2 : sel ∈ w1.fut.queue .ready := by
        rw [hq .ready]
        exact List.mem_append_right _ (by simp [Action.pushed])
      exact h2
    · apply hsame
      rw [← hdrop, hlog]
      simp

/-- The registration loop of `select`. -/
theorem registerAll_keeps (prog : Callback → List (Action T)) (sel : Callback) (n : Nat) :
    ∀ (is : List Nat) (g g1 : Group T), Neat g.promise → g.Sound →
      registerAll prog sel n is g = .ok g1 →
      Neat g1.promise ∧ g1.Sound ∧ g.Evolves g1 ∧ g.Holds g1 ∧
        ∀ i ∈ is, ∀ w1, g1.inputs[i]? = some w1 → w1.fut.state = .PENDING →
          sel ∈ w1.fut.onReadyCallbacks := by
  intro is
  induction is with
  | nil =>
    intro g g1 hN hS h
    simp only [registerAll, Except.ok.injEq] at h
    subst h
    exact ⟨hN, hS, Group.Evolves.evolves_refl g, Group.Holds.holds_refl g,
      fun i hi => by cases hi⟩
  | cons i rest ih =>
    intro g g1 hN hS h
    simp only [registerAll] at h
    cases hi : g.inputs[i]? with
    | none =>
      simp only [hi] at h
      obtain ⟨a1, a2, a3, a4, a5⟩ := ih g g1 hN hS h
      refine ⟨a1, a2, a3, a4, fun k hk w1 hk1 hp => ?_⟩
      rcases List.mem_cons.1 hk with rfl | hk
      · exfalso
        have hlen : g1.inputs.length = g.inputs.length := a3.1
        have : k < g1.inputs.length := by
          by_contra hn
          rw [List.getElem?_eq_none (by omega)] at hk1
          cases hk1
        rw [List.getElem?_eq_none_iff] at hi
        omega
      · exact a5 k hk w1 hk1 hp
    | some w =>
      simp only [hi] at h
      split at h
      · cases h
      · rename_i b g2 h2
        obtain ⟨hN2, hS2, hE2⟩ := Group.act_keeps prog sel n false i _ g hN hS b g2 h2
        obtain ⟨hH2, w2, hi2, harm⟩ := Group.act_register prog sel n i g w hi hN b g2 h2
        generalize hg3 : (if w.fut.state = .PENDING then
          ({ g2 with promise := Future.copy g2.promise } : Group T) else g2) = g3 at h
        have h3 : g3.inputs = g2.inputs ∧ Neat g3.promise ∧ g3.Sound ∧ g2.Evolves g3 := by
          rw [← hg3]
          split
          · exact ⟨rfl, (Group.copy_keeps g2 hN2 hS2).1, (Group.copy_keeps g2 hN2 hS2).2.1,
              (Group.copy_keeps g2 hN2 hS2).2.2⟩
          · exact ⟨rfl, hN2, hS2, Group.Evolves.evolves_refl g2⟩
        obtain ⟨hin3, hN3, hS3, hE3⟩ := h3
        have hH3 : g2.Holds g3 := fun j w0 hj => ⟨w0, by rw [hin3]; exact hj, rfl, fun _ _ hc => hc⟩
        obtain ⟨a1, a2, a3, a4, a5⟩ := ih g3 g1 hN3 hS3 h
        refine ⟨a1, a2, (hE2.evolves_trans hE3).evolves_trans a3,
          (hH2.holds_trans hH3).holds_trans a4, fun k hk w1 hk1 hp => ?_⟩
        rcases List.mem_cons.1 hk with rfl | hk
        · obtain ⟨w4, hk4, hs4, hq4⟩ := a4 k w2 (by rw [hin3]; exact hi2)
          rw [hk1] at hk4
          cases hk4
          exact hq4 hp sel (harm (hs4.symm.trans hp)).1
        · exact a5 k hk w1 hk1 hp

/-- The wait of `select`: it reports true exactly when it leaves the promise
not pending. -/
theorem Group.await_keeps (prog : Callback → List (Action T)) (sel : Callback) (n : Nat)
    (during : List (Nat × Action T)) (secs : Secs) (g : Group T) (hN : Neat g.promise)
    (hS : g.Sound) (awaited : Bool) (g1 : Group T)
    (h : Group.await prog sel n during secs g = .ok (awaited, g1)) :
    Neat g1.promise ∧ g1.Sound ∧ g.Evolves g1 ∧
      (awaited = true ↔ g1.promise.fut.state ≠ .PENDING) ∧
      ((g.promise.fut.state ≠ .PENDING ∧ g1 = g) ∨
        (g.promise.fut.state = .PENDING ∧ Group.run prog sel n during g = .ok g1)) := by
  unfold Group.await at h
  by_cases hp : g.promise.fut.state = .PENDING
  · have hc : (!Future.ready g.promise.fut && !Future.discarded g.promise.fut
        && !Future.failed g.promise.fut) = true := by
      simp [Future.ready, Future.discarded, Future.failed, hp]
    rw [if_pos hc] at h
    split at h
    · cases h
    · rename_i g2 h2
      simp only [Except.ok.injEq, Prod.mk.injEq] at h
      obtain ⟨rfl, rfl⟩ := h
      obtain ⟨a1, a2, a3⟩ := Group.run_keeps prog sel n during g g2 hN hS h2
      exact ⟨a1, a2, a3, a1.2.2.2.2, Or.inr ⟨hp, h2⟩⟩
  · have hc : ¬ (!Future.ready g.promise.fut && !Future.discarded g.promise.fut
        && !Future.failed g.promise.fut) = true := by
      cases hs : g.promise.fut.state <;> simp_all [Future.ready, Future.discarded, Future.failed]
    rw [if_neg hc] at h
    simp only [Except.ok.injEq, Prod.mk.injEq] at h
    obtain ⟨rfl, rfl⟩ := h
    exact ⟨hN, hS, Group.Evolves.evolves_refl _, ⟨fun _ => hp, fun _ => rfl⟩, Or.inl ⟨hp, rfl⟩⟩

/-- With a latch that is never waited on to the end, `get` returns only on a
READY future. -/
theorem get_blocked {V : Type} (s : Shared V) (v : V) (s1 : Shared V)
    (h : Future.get (fun _ _ => .error .blocked) s = .ok (v, s1)) :
    s.state = .READY ∧ s.t = some v := by
  by_cases hr : s.state = .READY
  · cases ht : s.t with
    | none => simp [Future.get, Future.ready, hr, ht] at h
    | some v1 =>
      simp [Future.get, Future.ready, hr, ht] at h
      exact ⟨hr, by rw [h.1]⟩
  · exfalso
    cases hs : s.state <;>
      simp_all [Future.get, Future.await, Future.ready, Future.discarded, Future.failed]

theorem select_start_neat :
    Neat (Future.copy (Promise.init : World Nat)) := neat_copy _ neat_init

theorem select_start_sound (futures : List (World T)) :
    Group.Sound ({ inputs := futures, promise := Future.copy Promise.init } : Group T) := by
  intro i hi
  cases hi

/-- The path of `select` up to the end of its wait. -/
theorem select_waited (prog : Callback → List (Action T)) (sel : Callback) (n : Nat)
    (during : List (Nat × Action T)) (secs : Secs) (futures : List (World T))
    (g1 : Group T) (awaited : Bool) (g2 : Group T)
    (h1 : registerAll prog sel n (List.range futures.length)
      { inputs := futures, promise := Future.copy Promise.init } = .ok g1)
    (h2 : Group.await prog sel n during secs { g1 with promise := Future.copy g1.promise } =
      .ok (awaited, g2)) :
    Neat g2.promise ∧ g2.Sound ∧
      Group.Evolves { inputs := futures, promise := Future.copy Promise.init } g2 ∧
      (awaited = true ↔ g2.promise.fut.state ≠ .PENDING) := by
  obtain ⟨a1, a2, a3, -, -⟩ := registerAll_keeps prog sel n _ _ g1 select_start_neat
    (select_start_sound futures) h1
  obtain ⟨b1, b2, b3⟩ := Group.copy_keeps g1 a1 a2
  obtain ⟨c1, c2, c3, c4, -⟩ := Group.await_keeps prog sel n during secs
    { g1 with promise := Future.copy g1.promise } b1 b2 awaited g2 h2
  exact ⟨c1, c2, (a3.evolves_trans b3).evolves_trans c3, c4⟩

/-- The path of `select` when it returns a future. -/
theorem select_some (prog : Callback → List (Action T)) (sel : Callback) (n : Nat)
    (during late : List (Nat × Action T)) (secs : Secs) (futures : List (World T)) (i : Nat)
    (g : Group T) (h : select prog sel n during late secs futures = .ok (some i, g)) :
    ∃ g1 g2, registerAll prog sel n (List.range futures.length)
        { inputs := futures, promise := Future.copy Promise.init } = .ok g1 ∧
      Group.await prog sel n during secs { g1 with promise := Future.copy g1.promise } =
        .ok (true, g2) ∧
      g2.promise.fut.state = .READY ∧ g.inputs = g2.inputs ∧ Neat g.promise ∧ g.Sound ∧
      g.promise.fut.state = .READY ∧ g.promise.fut.t = some i ∧
      Group.Evolves { inputs := futures, promise := Future.copy Promise.init } g := by
  unfold select at h
  split at h
  · cases h
  · rename_i g1 h1
    split at h
    · cases h
    · rename_i awaited g2 h2
      obtain ⟨hN2, hS2, hE2, haw⟩ := select_waited prog sel n during secs futures g1 awaited g2 h1 h2
      cases awaited with
      | false =>
        simp only [Bool.false_eq_true, if_false] at h
        split at h
        · cases h
        · split at h
          · cases h
          · split at h
            · cases h
            · cases h
      | true =>
        simp only [if_true] at h
        split at h
        · cases h
        · rename_i i1 s1 hget
          obtain ⟨hr, ht⟩ := get_blocked _ _ _ hget
          obtain ⟨g3, hl3, hin3, hN3, hs3, ht3⟩ := Group.leave_spec g2 hN2 (by rw [hr]; simp)
          rw [hl3] at h
          simp only [Except.ok.injEq, Prod.mk.injEq, Option.some.injEq] at h
          obtain ⟨rfl, rfl⟩ := h
          have hS3 : g3.Sound := by
            intro k hk
            rw [ht3] at hk
            rw [hin3]
            exact hS2 k hk
          have hE3 : g2.Evolves g3 :=
            ⟨by rw [hin3], fun j w w1 hj hj1 _ => by
              rw [hin3, hj] at hj1; cases hj1; rfl,
              fun hd => by rw [hs3] at hd; exact hd, fun _ => ⟨hs3, ht3⟩⟩
          exact ⟨g1, g2, h1, h2, hr, hin3, hN3, hS3, hs3.trans hr, ht3.trans ht,
            hE2.evolves_trans hE3⟩

/-- The path of `select` when it returns none. -/
theorem select_none (prog : Callback → List (Action T)) (sel : Callback) (n : Nat)
    (during late : List (Nat × Action T)) (secs : Secs) (futures : List (World T))
    (g : Group T) (h : select prog sel n during late secs futures = .ok (none, g)) :
    ∃ g1 g2 g3, registerAll prog sel n (List.range futures.length)
        { inputs := futures, promise := Future.copy Promise.init } = .ok g1 ∧
      Group.await prog sel n during secs { g1 with promise := Future.copy g1.promise } =
        .ok (false, g2) ∧
      g2.promise.fut.state = .PENDING ∧ Group.run prog sel n late g2 = .ok g3 ∧
      g.inputs = g3.inputs ∧ Neat g.promise ∧ g.Sound ∧
      (g3.promise.fut.state = .PENDING →
        g.promise.fut.state = .DISCARDED ∧ g.promise.fut.t = none) ∧
      (g3.promise.fut.state ≠ .PENDING →
        g.promise.fut.state = g3.promise.fut.state ∧ g.promise.fut.t = g3.promise.fut.t) ∧
      g.promise.fut.state ≠ .PENDING ∧
      Group.Evolves { inputs := futures, promise := Future.copy Promise.init } g3 := by
  unfold select at h
  split at h
  · cases h
  · rename_i g1 h1
    split at h
    · cases h
    · rename_i awaited g2 h2
      obtain ⟨hN2, hS2, hE2, haw⟩ := select_waited prog sel n during secs futures g1 awaited g2 h1 h2
      cases awaited with
      | true =>
        simp only [if_true] at h
        split at h
        · cases h
        · split at h
          · cases h
          · cases h
      | false =>
        simp only [Bool.false_eq_true, if_false] at h
        have hp2 : g2.promise.fut.state = .PENDING := by
          by_contra hn
          have := haw.2 hn
          cases this
        split at h
        · cases h
        · rename_i g3 h3
          obtain ⟨hN3, hS3, hE3⟩ := Group.run_keeps prog sel n late g2 g3 hN2 hS2 h3
          -- the discard
          have hdis : ∃ p, exec idle 1 .discard g3.promise = .ok (decide (g3.promise.fut.state = .PENDING), p) ∧
              Neat p ∧ p.fut.state ≠ .PENDING ∧
              (g3.promise.fut.state = .PENDING → p.fut.state = .DISCARDED ∧ p.fut.t = none) ∧
              (g3.promise.fut.state ≠ .PENDING → p = g3.promise) := by
            by_cases hp3 : g3.promise.fut.state = .PENDING
            · refine ⟨_, by rw [promise_settle g3.promise .discard rfl hN3 hp3]; simp [hp3],
                neat_settle_discard g3.promise hN3 hp3, by simp [Shared.settle],
                fun _ => ⟨rfl, ?_⟩, fun hn => absurd hp3 hn⟩
              have hnone : ¬ g3.promise.fut.t.isSome = true := fun ht => by
                have := hN3.2.2.2.1.1 ht
                rw [hp3] at this
                cases this
              show g3.promise.fut.t = none
              cases ht : g3.promise.fut.t with
              | none => rfl
              | some v => rw [ht] at hnone; exact absurd rfl hnone
            · exact ⟨g3.promise, by rw [promise_terminal g3.promise .discard rfl hN3 hp3]; simp [hp3],
                hN3, hp3, fun hp => absurd hp hp3, fun _ => rfl⟩
          obtain ⟨p, hd, hNp, hpt, hp1, hp2'⟩ := hdis
          rw [hd] at h
          simp only at h
          obtain ⟨g4, hl4, hin4, hN4, hs4, ht4⟩ :=
            Group.leave_spec { g3 with promise := p } hNp hpt
          rw [hl4] at h
          simp only [Except.ok.injEq, Prod.mk.injEq, true_and] at h
          subst h
          have hS4 : g4.Sound := by
            intro k hk
            rw [ht4] at hk
            rw [hin4]
            by_cases hp3 : g3.promise.fut.state = .PENDING
            · have := (hp1 hp3).2
              simp only at hk
              rw [this] at hk
              cases hk
            · have := hp2' hp3
              simp only at hk
              rw [this] at hk
              exact hS3 k hk
          refine ⟨g1, g2, g3, h1, h2, hp2, h3, hin4, hN4, hS4, ?_, ?_, ?_,
            hE2.evolves_trans hE3⟩
          · intro hp3
            exact ⟨hs4.trans (hp1 hp3).1, ht4.trans (hp1 hp3).2⟩
          · intro hp3
            have := hp2' hp3
            exact ⟨hs4.trans (by rw [this]), ht4.trans (by rw [this])⟩
          · rw [hs4]
            exact hpt

/-- A neat promise of a sound group with no READY input is pending, unless it
was discarded. -/
theorem Group.pending_of_none_ready (g : Group T) (hN : Neat g.promise) (hS : g.Sound)
    (hD : g.promise.fut.state ≠ .DISCARDED) (hno : ∀ w ∈ g.inputs, w.fut.state ≠ .READY) :
    g.promise.fut.state = .PENDING := by
  cases hs : g.promise.fut.state with
  | PENDING => rfl
  | FAILED => exact absurd hs hN.1
  | DISCARDED => exact absurd hs hD
  | READY =>
    exfalso
    have ht := hN.2.2.2.1.2 hs
    cases hv : g.promise.fut.t with
    | none => rw [hv] at ht; cases ht
    | some k =>
      obtain ⟨w, hk, hr⟩ := hS k hv
      exact hno w (List.getElem?_mem hk) hr

/-- Between a wait that timed out and the discard, another thread can still
make an input READY: the callback settles the promise, the discard finds it
READY, and `select` returns none all the same. -/
theorem select_none_after_late_set :
    ∃ g, select idle 7 3 [(1, .fail "x"), (0, .discard)] [(2, .set 3)] 1
        [World.init, World.init, World.init] = .ok (none, g) ∧
      g.promise.fut.state = .READY ∧ g.promise.fut.t = some 2 :=
  ⟨_, rfl, rfl, rfl⟩

theorem suffixes_length (cs : List Callback) : (suffixes cs).length = cs.length := by
  induction cs with
  | nil => rfl
  | cons c cs ih => simp [suffixes, ih]

/-- The drain loop hands the callbacks the queue less the entries already
invoked: the invocations of the loop itself see the successive suffixes, the
invocations nested in them see the suffix of their iteration, and the other
queues are those of the start. -/
theorem drain_suffixes (call : Callback → World T → Except Fault (World T))
    (hcall : ∀ c w w1, w.fut.state ≠ .PENDING → call c w = .ok w1 → Called c w w1)
    (q : Queue) : ∀ (k : Nat) (w w1 : World T), w.fut.state ≠ .PENDING →
      drain call q k w = .ok w1 →
      ∃ l, w1.log = w.log ++ l ∧
        (l.filter fun e => decide (e.depth = w.depth)).map (fun e => e.arg.queue q) =
          suffixes (w.fut.queue q) ∧
        (∀ e ∈ l, ∃ j, j < (w.fut.queue q).length ∧ e.arg.queue q = (w.fut.queue q).drop j) ∧
        ∀ e ∈ l, ∀ q1, q1 ≠ q → e.arg.queue q1 = w.fut.queue q1 := by
  intro k
  induction k with
  | zero =>
    intro w w1 _ h
    simp only [drain] at h
    cases hq : w.fut.queue q with
    | nil =>
      rw [hq] at h
      simp only [Except.ok.injEq] at h
      subst h
      exact ⟨[], by simp, by simp [suffixes], fun e he => (by cases he),
        fun e he => (by cases he)⟩
    | cons c rest => rw [hq] at h; cases h
  | succ k ih =>
    intro w w1 hw h
    simp only [drain] at h
    cases hq : w.fut.queue q with
    | nil =>
      rw [hq] at h
      simp only [Except.ok.injEq] at h
      subst h
      exact ⟨[], by simp, by simp [suffixes], fun e he => (by cases he),
        fun e he => (by cases he)⟩
    | cons c rest =>
      rw [hq] at h
      simp only at h
      cases hc : call c w with
      | error e => rw [hc] at h; cases h
      | ok w2 =>
        rw [hc] at h
        simp only at h
        obtain ⟨ha, hd, l, hl, he⟩ := hcall c w w2 hw hc
        have hw2 : ({ w2 with fut := w2.fut.pop q } : World T).fut.state ≠ .PENDING := by
          have := (Shared.pop_core w2.fut q).1
          simp only
          rw [this, ha.1]; exact hw
        obtain ⟨l2, hl2, hf2, hs2, ho2⟩ := ih _ w1 hw2 h
        have hq2 : ({ w2 with fut := w2.fut.pop q } : World T).fut.queue q = rest := by
          simp only
          rw [Shared.pop_queue, ha.queue, hq]
          rfl
        have hq3 : ∀ q1, q1 ≠ q →
            ({ w2 with fut := w2.fut.pop q } : World T).fut.queue q1 = w.fut.queue q1 := by
          intro q1 hne
          simp only
          rw [Shared.pop_queue_ne _ _ _ hne, ha.queue]
        rw [hq2] at hf2 hs2
        refine ⟨{ callback := c, depth := w.depth, arg := w.fut } :: l ++ l2, ?_, ?_, ?_, ?_⟩
        · rw [hl2]; simp only; rw [hl]; simp
        · have hfl : l.filter (fun e => decide (e.depth = w.depth)) = [] := by
            rw [List.filter_eq_nil_iff]
            intro e hel
            have := (he e hel).1
            simp only [decide_eq_true_eq]
            omega
          simp only at hf2
          rw [hd] at hf2
          simp only [List.cons_append, List.filter_cons, decide_True, if_true, List.filter_append,
            hfl, List.nil_append, List.map_cons, hf2, suffixes, hq]
        · intro e hel
          simp only [List.cons_append, List.mem_cons, List.mem_append] at hel
          rcases hel with h1 | h1 | h1
          · subst h1
            exact ⟨0, by simp, by simp [hq]⟩
          · refine ⟨0, by simp, ?_⟩
            rw [(he e h1).2.queue q, hq]
            rfl
          · obtain ⟨j, hj, hjq⟩ := hs2 e h1
            exact ⟨j + 1, by simp; omega, by rw [hjq]; rfl⟩
        · intro e hel q1 hne
          simp only [List.cons_append, List.mem_cons, List.mem_append] at hel
          rcases hel with h1 | h1 | h1
          · subst h1; rfl
          · exact (he e h1).2.queue q1
          · rw [ho2 e h1 q1 hne, hq3 q1 hne]

/-- A winning transition: what its drain loop hands the callbacks. -/
theorem exec_suffixes (prog : Callback → List (Action T)) (n : Nat) (a : Action T)
    (ha : a.target.isSome = true) (w : World T) (hw : w.fut.state = .PENDING) (b : Bool)
    (w1 : World T) (h : exec prog n a w = .ok (b, w1)) :
    ∃ l, w1.log = w.log ++ l ∧
      (l.filter fun e => decide (e.depth = w.depth)).map (fun e => e.arg.queue a.queue) =
        suffixes (w.fut.queue a.queue) ∧
      (∀ e ∈ l, ∃ j, j < (w.fut.queue a.queue).length ∧
        e.arg.queue a.queue = (w.fut.queue a.queue).drop j) ∧
      ∀ e ∈ l, ∀ q1, q1 ≠ a.queue → e.arg.queue q1 = w.fut.queue q1 := by
  cases n with
  | zero => simp [exec] at h
  | succ n =>
    have hl : w.fut.lock = 0 := by
      by_contra hl
      rw [exec, perform_transition_spin _ n a ha w hl] at h
      cases h
    rw [exec, perform_transition_pending _ n a ha w hw hl] at h
    split at h
    · cases h
    · rename_i w2 hd
      simp only [Except.ok.injEq, Prod.mk.injEq] at h
      obtain ⟨-, rfl⟩ := h
      have hq : ∀ q, ({ w with fut := w.fut.settle a } : World T).fut.queue q = w.fut.queue q :=
        (settle_state w.fut a ha).2.2.1
      obtain ⟨l, h1, h2, h3, h4⟩ := drain_suffixes _
        (fun c w0 w3 h0 hc => callWith_called prog n c w0 w3 h0 hc) a.queue n
        { w with fut := w.fut.settle a } w2 (settle_terminal w.fut a ha) hd
      rw [hq] at h2 h3
      exact ⟨l, h1, h2, h3, fun e he q1 hne => by rw [h4 e he q1 hne, hq]⟩

/-- With the table `looping`, a registration on a READY future never returns:
the callback is invoked at once and registers itself again. -/
theorem looping_onReady : ∀ (n : Nat) (c : Callback) (w : World Nat), w.fut.state = .READY →
    w.fut.lock = 0 → exec looping n (.onReady c) w = .error .fuel := by
  intro n
  induction n with
  | zero => intro c w _ _; rfl
  | succ n ih =>
    intro c w hs hl
    have hterm : w.fut.state ≠ .PENDING := by rw [hs]; simp
    have h1 := ih c { fut := w.fut, log := w.log ++ [{ callback := c, depth := w.depth, arg := w.fut }],
                      depth := w.depth + 1 } hs hl
    simp only [exec, perform, onReady_terminal_eq _ c w hterm hl, hs, if_true, callWith, invoke,
      looping, runBody, h1]
    rfl

/-- With the table `looping`, `set` on the pending future `waiting`, whose
ready queue holds a callback, never returns. -/
theorem looping_set (n : Nat) : exec looping n (.set 5) waiting = .error .fuel := by
  cases n with
  | zero => rfl
  | succ n =>
    rw [exec, perform_transition_pending _ n (.set 5) rfl waiting rfl rfl]
    cases n with
    | zero => rfl
    | succ n =>
      have h1 := looping_onReady (n + 1) 1
        { fut := { waiting.fut with t := some 5, state := .READY,
                                    latch := waiting.fut.latch.trigger },
          log := [{ callback := 1, depth := 0,
                    arg := { waiting.fut with t := some 5, state := .READY,
                                              latch := waiting.fut.latch.trigger } }],
          depth := 1 } rfl rfl
      simp only [drain, waiting, Shared.settle, Shared.queue, Action.queue, callWith, invoke,
        looping, runBody] at h1 ⊢
      simp only [List.nil_append, Nat.zero_add] at h1 ⊢
      rw [h1]

theorem lateFor_on (q : Queue) (c : Callback) (st : State) :
    (q.on c : Action T).lateFor st = if st = q.state then some c else none := by
  cases q <;> rfl

theorem runBody_fed (prog : Callback → List (Action T))
    (step : Action T → World T → Except Fault (Bool × World T))
    (hstep : ∀ a w r, w.fut.state ≠ .PENDING → step a w = .ok r →
      Frozen w r.2 ∧ ∃ l, r.2.log = w.log ++ l ∧
        ∀ e ∈ l, a.lateFor w.fut.state = some e.callback ∨ Fed prog w.fut.state e.callback) :
    ∀ (body : List (Action T)) (w w1 : World T), w.fut.state ≠ .PENDING →
      runBody step body w = .ok w1 →
      ∃ l, w1.log = w.log ++ l ∧
        ∀ e ∈ l, (∃ a ∈ body, a.lateFor w.fut.state = some e.callback) ∨
          Fed prog w.fut.state e.callback := by
  intro body
  induction body with
  | nil =>
    intro w w1 _ h
    simp only [runBody, Except.ok.injEq] at h
    subst h
    exact ⟨[], by simp, fun e he => (by cases he)⟩
  | cons a rest ih =>
    intro w w1 hw h
    simp only [runBody] at h
    cases hs : step a w with
    | error e => rw [hs] at h; cases h
    | ok r =>
      obtain ⟨b, w2⟩ := r
      rw [hs] at h
      obtain ⟨hf, l1, hl1, he1⟩ := hstep a w (b, w2) hw hs
      simp only at hl1
      have hst : w2.fut.state = w.fut.state := hf.state
      obtain ⟨l2, hl2, he2⟩ := ih w2 w1 (by rw [hst]; exact hw) h
      refine ⟨l1 ++ l2, by rw [hl2, hl1, List.append_assoc], fun e he => ?_⟩
      rcases List.mem_append.1 he with h1 | h1
      · rcases he1 e h1 with h2 | h2
        · exact Or.inl ⟨a, List.mem_cons_self _ _, h2⟩
        · exact Or.inr h2
      · rcases he2 e h1 with ⟨a1, ha1, h2⟩ | h2
        · exact Or.inl ⟨a1, List.mem_cons_of_mem _ ha1, by rw [← hst]; exact h2⟩
        · exact Or.inr (by rw [← hst]; exact h2)

theorem invoke_fed (prog : Callback → List (Action T))
    (step : Action T → World T → Except Fault (Bool × World T))
    (hstep : ∀ a w r, w.fut.state ≠ .PENDING → step a w = .ok r →
      Frozen w r.2 ∧ ∃ l, r.2.log = w.log ++ l ∧
        ∀ e ∈ l, a.lateFor w.fut.state = some e.callback ∨ Fed prog w.fut.state e.callback)
    (c : Callback) (w w1 : World T) (hw : w.fut.state ≠ .PENDING)
    (h : invoke step (prog c) c w = .ok w1) :
    ∃ l, w1.log = w.log ++ l ∧ ∀ e ∈ l, e.callback = c ∨ Fed prog w.fut.state e.callback := by
  unfold invoke at h
  cases hb : runBody step (prog c)
      { w with log := w.log ++ [{ callback := c, depth := w.depth, arg := w.fut }],
               depth := w.depth + 1 } with
  | error e => rw [hb] at h; cases h
  | ok w2 =>
    rw [hb] at h
    simp only [Except.ok.injEq] at h
    subst h
    obtain ⟨l, hl, he⟩ := runBody_fed prog step hstep (prog c)
      { w with log := w.log ++ [{ callback := c, depth := w.depth, arg := w.fut }],
               depth := w.depth + 1 } w2 hw hb
    refine ⟨{ callback := c, depth := w.depth, arg := w.fut } :: l,
      by simp only [hl, List.append_assoc, List.singleton_append], fun e hm => ?_⟩
    rcases List.mem_cons.1 hm with h1 | h1
    · subst h1
      exact Or.inl rfl
    · rcases he e h1 with ⟨a, ha, h2⟩ | h2
      · exact Or.inr ⟨c, a, ha, h2⟩
      · exact Or.inr h2

theorem perform_fed (prog : Callback → List (Action T))
    (call : Callback → World T → Except Fault (World T))
    (hcall : ∀ c w w1, w.fut.state ≠ .PENDING → call c w = .ok w1 →
      ∃ l, w1.log = w.log ++ l ∧ ∀ e ∈ l, e.callback = c ∨ Fed prog w.fut.state e.callback)
    (k : Nat) (a : Action T) (w : World T) (r : Bool × World T) (hw : w.fut.state ≠ .PENDING)
    (h : perform call k a w = .ok r) :
    ∃ l, r.2.log = w.log ++ l ∧
      ∀ e ∈ l, a.lateFor w.fut.state = some e.callback ∨ Fed prog w.fut.state e.callback := by
  have hreg : ∀ (q : Queue) (c : Callback), a = q.on c →
      ∃ l, r.2.log = w.log ++ l ∧
        ∀ e ∈ l, a.lateFor w.fut.state = some e.callback ∨ Fed prog w.fut.state e.callback := by
    intro q c hq
    subst hq
    have hl : w.fut.lock = 0 := by
      by_contra hl
      rw [perform_on_spin _ k q c w hl] at h; cases h
    rw [perform_on_terminal _ k q c w hw hl] at h
    by_cases hst : w.fut.state = q.state
    · rw [if_pos hst] at h
      cases hc : call c w with
      | error e => rw [hc] at h; cases h
      | ok w2 =>
        rw [hc] at h
        simp only [Except.map, Except.ok.injEq] at h
        subst h
        obtain ⟨l, hl1, he⟩ := hcall c w w2 hw hc
        refine ⟨l, hl1, fun e hm => ?_⟩
        rcases he e hm with h1 | h1
        · exact Or.inl (by rw [lateFor_on, if_pos hst, h1])
        · exact Or.inr h1
    · rw [if_neg hst] at h
      simp only [Except.ok.injEq] at h
      subst h
      exact ⟨[], by simp, fun e hm => (by cases hm)⟩
  have htrans : a.target.isSome = true →
      ∃ l, r.2.log = w.log ++ l ∧
        ∀ e ∈ l, a.lateFor w.fut.state = some e.callback ∨ Fed prog w.fut.state e.callback := by
    intro ha
    have hl : w.fut.lock = 0 := by
      by_contra hl
      rw [perform_transition_spin _ k a ha w hl] at h; cases h
    rw [perform_transition_terminal _ k a ha w hw hl] at h
    simp only [Except.ok.injEq] at h
    subst h
    exact ⟨[], by simp, fun e hm => (by cases hm)⟩
  cases a with
  | set v => exact htrans rfl
  | fail m => exact htrans rfl
  | discard => exact htrans rfl
  | onReady c => exact hreg .ready c rfl
  | onFailed c => exact hreg .failed c rfl
  | onDiscarded c => exact hreg .discarded c rfl
  | copy =>
    simp only [perform, Except.ok.injEq] at h
    subst h
    exact ⟨[], by simp [Future.copy], fun e hm => (by cases hm)⟩
  | cleanup =>
    simp only [perform, cleanup_terminal_eq call k w hw, Except.map, Except.ok.injEq] at h
    subst h
    exact ⟨[], by simp, fun e hm => (by cases hm)⟩

/-- On a terminal future an operation only invokes the callback it registers
for the state of the future and callbacks that callback bodies register for
that state. -/
theorem exec_fed (prog : Callback → List (Action T)) :
    ∀ (n : Nat) (a : Action T) (w : World T) (r : Bool × World T),
      w.fut.state ≠ .PENDING → exec prog n a w = .ok r →
      ∃ l, r.2.log = w.log ++ l ∧
        ∀ e ∈ l, a.lateFor w.fut.state = some e.callback ∨ Fed prog w.fut.state e.callback := by
  intro n
  induction n with
  | zero => intro a w r _ h; simp [exec] at h
  | succ n ih =>
    intro a w r hw h
    simp only [exec] at h
    exact perform_fed prog _
      (fun c w0 w1 hw0 hc => invoke_fed prog (exec prog n)
        (fun a1 w2 r2 hw2 h2 => ⟨exec_frozen prog n a1 w2 r2 hw2 h2, ih a1 w2 r2 hw2 h2⟩)
        c w0 w1 hw0 hc) n a w r hw h

theorem callWith_fed (prog : Callback → List (Action T)) (n : Nat) (c : Callback)
    (w w1 : World T) (hw : w.fut.state ≠ .PENDING)
    (h : callWith prog (exec prog n) c w = .ok w1) :
    ∃ l, w1.log = w.log ++ l ∧ ∀ e ∈ l, e.callback = c ∨ Fed prog w.fut.state e.callback :=
  invoke_fed prog (exec prog n)
    (fun a1 w2 r2 hw2 h2 => ⟨exec_frozen prog n a1 w2 r2 hw2 h2, exec_fed prog n a1 w2 r2 hw2 h2⟩)
    c w w1 hw h

theorem drain_fed (prog : Callback → List (Action T))
    (call : Callback → World T → Except Fault (World T))
    (hcall : ∀ c w w1, w.fut.state ≠ .PENDING → call c w = .ok w1 → Called c w w1 ∧
      ∃ l, w1.log = w.log ++ l ∧ ∀ e ∈ l, e.callback = c ∨ Fed prog w.fut.state e.callback)
    (q : Queue) : ∀ (k : Nat) (w w1 : World T), w.fut.state ≠ .PENDING →
      drain call q k w = .ok w1 →
      ∃ l, w1.log = w.log ++ l ∧
        ∀ e ∈ l, e.callback ∈ w.fut.queue q ∨ Fed prog w.fut.state e.callback := by
  intro k
  induction k with
  | zero =>
    intro w w1 _ h
    simp only [drain] at h
    cases hq : w.fut.queue q with
    | nil =>
      rw [hq] at h
      simp only [Except.ok.injEq] at h
      subst h
      exact ⟨[], by simp, fun e he => (by cases he)⟩
    | cons c rest => rw [hq] at h; cases h
  | succ k ih =>
    intro w w1 hw h
    simp only [drain] at h
    cases hq : w.fut.queue q with
    | nil =>
      rw [hq] at h
      simp only [Except.ok.injEq] at h
      subst h
      exact ⟨[], by simp, fun e he => (by cases he)⟩
    | cons c rest =>
      rw [hq] at h
      simp only at h
      cases hc : call c w with
      | error e => rw [hc] at h; cases h
      | ok w2 =>
        rw [hc] at h
        simp only at h
        obtain ⟨⟨ha, -, -⟩, l, hl, he⟩ := hcall c w w2 hw hc
        have hs2 : ({ w2 with fut := w2.fut.pop q } : World T).fut.state = w.fut.state := by
          have := (Shared.pop_core w2.fut q).1
          simp only
          rw [this, ha.1]
        obtain ⟨l2, hl2, he2⟩ := ih _ w1 (by rw [hs2]; exact hw) h
        have hq2 : ({ w2 with fut := w2.fut.pop q } : World T).fut.queue q = rest := by
          simp only
          rw [Shared.pop_queue, ha.queue, hq]
          rfl
        rw [hq2, hs2] at he2
        refine ⟨l ++ l2, ?_, fun e hm => ?_⟩
        · rw [hl2]; simp only; rw [hl, List.append_assoc]
        · rcases List.mem_append.1 hm with h1 | h1
          · rcases he e h1 with h2 | h2
            · exact Or.inl (by rw [h2]; exact List.mem_cons_self _ _)
            · exact Or.inr h2
          · rcases he2 e h1 with h2 | h2
            · exact Or.inl (List.mem_cons_of_mem _ h2)
            · exact Or.inr h2

theorem target_queue_state (a : Action T) (ha : a.target.isSome = true) :
    a.target = some a.queue.state := by
  cases a <;> simp [Action.target] at ha <;> rfl

theorem queue_state_terminal (q : Queue) : q.state ≠ .PENDING := by
  cases q <;> simp [Queue.state]

theorem pushed_lateFor (a : Action T) (q : Queue) (c : Callback) (h : c ∈ a.pushed q) :
    a.lateFor q.state = some c := by
  cases a <;> cases q <;> simp [Action.pushed] at h <;> subst h <;> rfl

/-- A winning transition only invokes callbacks of the queue it drains and
callbacks that callback bodies register for the state reached. -/
theorem exec_transition_fed (prog : Callback → List (Action T)) (n : Nat) (a : Action T)
    (ha : a.target.isSome = true) (w : World T) (hw : w.fut.state = .PENDING) (b : Bool)
    (w1 : World T) (h : exec prog n a w = .ok (b, w1)) :
    w1.fut.state = a.queue.state ∧
      ∃ l, w1.log = w.log ++ l ∧
        ∀ e ∈ l, e.callback ∈ w.fut.queue a.queue ∨ Fed prog a.queue.state e.callback := by
  obtain ⟨hb, -, htrue⟩ := exec_transition prog n a ha w b w1 h
  obtain ⟨hc, -⟩ := htrue (hb.2 hw)
  have hst : (w.fut.settle a).state = a.queue.state := by
    have h1 := (settle_state w.fut a ha).1
    rw [target_queue_state a ha] at h1
    exact Option.some.inj h1
  refine ⟨by rw [hc.1]; exact hst, ?_⟩
  cases n with
  | zero => simp [exec] at h
  | succ n =>
    have hl : w.fut.lock = 0 := by
      by_contra hl
      rw [exec, perform_transition_spin _ n a ha w hl] at h
      cases h
    rw [exec, perform_transition_pending _ n a ha w hw hl] at h
    split at h
    · cases h
    · rename_i w2 hd
      simp only [Except.ok.injEq, Prod.mk.injEq] at h
      obtain ⟨-, rfl⟩ := h
      obtain ⟨l, h1, h2⟩ := drain_fed prog _
        (fun c w0 w3 h0 hc => ⟨callWith_called prog n c w0 w3 h0 hc,
          callWith_fed prog n c w0 w3 h0 hc⟩) a.queue n
        { w with fut := w.fut.settle a } w2 (settle_terminal w.fut a ha) hd
      simp only at h2
      rw [hst, settle_queue] at h2
      exact ⟨l, h1, h2⟩

/-- Whatever an operation invokes was queued for the state the future is left
in, or is registered for that state by the operation or by a callback body. -/
theorem exec_sources (prog : Callback → List (Action T)) (n : Nat) (a : Action T)
    (w : World T) (b : Bool) (w1 : World T) (h : exec prog n a w = .ok (b, w1)) :
    ∃ l, w1.log = w.log ++ l ∧
      ∀ e ∈ l, (∃ q, q.state = w1.fut.state ∧ e.callback ∈ w.fut.queue q) ∨
        a.lateFor w1.fut.state = some e.callback ∨ Fed prog w1.fut.state e.callback := by
  rcases exec_cases prog n a w b w1 h with ⟨hw, hf, -⟩ | ⟨hw, a1, ha1, w2, hor, -⟩ |
    ⟨-, -, -, hlog, -⟩
  · obtain ⟨l, hl, he⟩ := exec_fed prog n a w (b, w1) hw h
    have hst : w1.fut.state = w.fut.state := hf.state
    refine ⟨l, hl, fun e hm => ?_⟩
    rw [hst]
    exact Or.inr (he e hm)
  · rcases hor with ⟨rfl, -, rfl⟩ | ⟨rfl, rfl, h1, -⟩
    · obtain ⟨hst, l, hl, he⟩ := exec_transition_fed prog n a1 ha1 w hw b w1 h
      refine ⟨l, hl, fun e hm => ?_⟩
      rw [hst]
      rcases he e hm with h2 | h2
      · exact Or.inl ⟨a1.queue, rfl, h2⟩
      · exact Or.inr (Or.inr h2)
    · obtain ⟨w3, hd, rfl⟩ := exec_cleanup_last prog n w hw h1 b w1 h
      obtain ⟨hst, l, hl, he⟩ := exec_transition_fed prog n .discard rfl w hw true w3 hd
      refine ⟨l, hl, fun e hm => ?_⟩
      simp only
      rw [hst]
      rcases he e hm with h2 | h2
      · exact Or.inl ⟨(Action.discard : Action T).queue, rfl, h2⟩
      · exact Or.inr (Or.inr h2)
  · exact ⟨[], by rw [hlog, List.append_nil], fun e hm => (by cases hm)⟩

/-- What an operation leaves in a queue was there before or is pushed by it. -/
theorem exec_queue_mem (prog : Callback → List (Action T)) (n : Nat) (a : Action T)
    (w : World T) (b : Bool) (w1 : World T) (h : exec prog n a w = .ok (b, w1)) (q : Queue)
    (c : Callback) (hc : c ∈ w1.fut.queue q) : c ∈ w.fut.queue q ∨ c ∈ a.pushed q := by
  by_cases hp : w1.fut.state = .PENDING
  · obtain ⟨-, -, hq⟩ := exec_pending_stays prog n a w b w1 h hp
    rw [hq q] at hc
    exact List.mem_append.1 hc
  · left
    rcases exec_cases prog n a w b w1 h with ⟨-, hf, -⟩ | ⟨-, a1, -, w2, hor, hd⟩ |
      ⟨hw, -, hcore, -, -⟩
    · rw [hf.1.queue q] at hc
      exact hc
    · have hq2 : w1.fut.queue q = w2.fut.queue q := by
        rcases hor with ⟨-, -, rfl⟩ | ⟨-, -, -, rfl⟩
        · rfl
        · cases q <;> rfl
      rw [hq2] at hc
      by_cases hqq : q = a1.queue
      · subst hqq
        rw [hd.2.1] at hc
        cases hc
      · rw [hd.2.2.1 q hqq] at hc
        simp only at hc
        rw [settle_queue] at hc
        exact hc
    · exact absurd (hcore.1.trans hw) hp

/-- An operation leaves in place, at the front, every queue that is not the one
of the state the future is left in. -/
theorem exec_queue_stays (prog : Callback → List (Action T)) (n : Nat) (a : Action T)
    (w : World T) (b : Bool) (w1 : World T) (h : exec prog n a w = .ok (b, w1)) (q : Queue)
    (hq : q.state ≠ w1.fut.state) : ∃ rest, w1.fut.queue q = w.fut.queue q ++ rest := by
  by_cases hp : w1.fut.state = .PENDING
  · obtain ⟨-, -, hq1⟩ := exec_pending_stays prog n a w b w1 h hp
    exact ⟨_, hq1 q⟩
  · rcases exec_cases prog n a w b w1 h with ⟨-, hf, -⟩ | ⟨hw, a1, ha1, w2, hor, hd⟩ |
      ⟨hw, -, hcore, -, -⟩
    · exact ⟨[], by rw [hf.1.queue q, List.append_nil]⟩
    · have hq2 : w1.fut.queue q = w2.fut.queue q ∧ w1.fut.state = w2.fut.state := by
        rcases hor with ⟨-, -, rfl⟩ | ⟨-, -, -, rfl⟩
        · exact ⟨rfl, rfl⟩
        · exact ⟨by cases q <;> rfl, rfl⟩
      have hst : w2.fut.state = a1.queue.state := by
        rw [hd.1.1]
        have h1 := (settle_state w.fut a1 ha1).1
        rw [target_queue_state a1 ha1] at h1
        exact Option.some.inj h1
      have hne : q ≠ a1.queue := by
        rintro rfl
        exact hq (by rw [hq2.2, hst])
      refine ⟨[], ?_⟩
      rw [hq2.1, hd.2.2.1 q hne, List.append_nil]
      simp only
      rw [settle_queue]
    · exact absurd (hcore.1.trans hw) hp

/-- A sequence of operations: the queues of the other states stay in place, and
whatever is invoked was queued for the state the future is left in, or is
registered for that state by one of the operations or by a callback body. -/
theorem execAll_sources (prog : Callback → List (Action T)) (n : Nat) :
    ∀ (ops : List (Action T)) (w w2 : World T) (bs : List Bool),
      execAll prog n ops w = .ok (bs, w2) →
      (∀ q, q.state ≠ w2.fut.state → ∃ rest, w2.fut.queue q = w.fut.queue q ++ rest) ∧
      ∃ l, w2.log = w.log ++ l ∧
        ∀ e ∈ l, e.arg.state = w2.fut.state ∧
          ((∃ q, q.state = w2.fut.state ∧ e.callback ∈ w.fut.queue q) ∨
            (∃ a ∈ ops, a.lateFor w2.fut.state = some e.callback) ∨
            Fed prog w2.fut.state e.callback) := by
  intro ops
  induction ops with
  | nil =>
    intro w w2 bs h
    simp only [execAll, Except.ok.injEq, Prod.mk.injEq] at h
    obtain ⟨-, rfl⟩ := h
    exact ⟨fun q _ => ⟨[], by simp⟩, [], by simp, fun e hm => (by cases hm)⟩
  | cons a rest ih =>
    intro w w2 bs h
    obtain ⟨b, w1, bs1, h1, h2, rfl⟩ := execAll_cons_inv prog n a rest w w2 bs h
    obtain ⟨hq2, l2, hl2, he2⟩ := ih w1 w2 bs1 h2
    obtain ⟨l1, hl1, he1⟩ := exec_sources prog n a w b w1 h1
    obtain ⟨l0, hl0, -, hs0⟩ := exec_new_events prog n a w b w1 h1
    have hll : l0 = l1 := List.append_cancel_left (hl0.symm.trans hl1)
    subst hll
    have hterm : w1.fut.state ≠ .PENDING → w2.fut.state = w1.fut.state := fun hp =>
      (execAll_frozen prog n rest w1 w2 bs1 hp h2).1.state
    have hnil : w1.fut.state = .PENDING → l0 = [] := by
      intro hp
      have hlog := (exec_pending_stays prog n a w b w1 h1 hp).2.1
      rw [hl1] at hlog
      exact List.append_right_eq_self.1 hlog
    refine ⟨fun q hq => ?_, l0 ++ l2, by rw [hl2, hl1, List.append_assoc], fun e hm => ?_⟩
    · obtain ⟨r2, hr2⟩ := hq2 q hq
      have hq1 : q.state ≠ w1.fut.state := by
        by_cases hp : w1.fut.state = .PENDING
        · rw [hp]; exact queue_state_terminal q
        · rw [← hterm hp]; exact hq
      obtain ⟨r1, hr1⟩ := exec_queue_stays prog n a w b w1 h1 q hq1
      exact ⟨r1 ++ r2, by rw [hr2, hr1, List.append_assoc]⟩
    · rcases List.mem_append.1 hm with hm1 | hm1
      · have hp : w1.fut.state ≠ .PENDING := by
          intro hp
          rw [hnil hp] at hm1
          cases hm1
        rw [hterm hp]
        refine ⟨hs0 e hm1, ?_⟩
        rcases he1 e hm1 with h3 | h3 | h3
        · exact Or.inl h3
        · exact Or.inr (Or.inl ⟨a, List.mem_cons_self _ _, h3⟩)
        · exact Or.inr (Or.inr h3)
      · obtain ⟨h3, h4⟩ := he2 e hm1
        refine ⟨h3, ?_⟩
        rcases h4 with ⟨q, hq, hc⟩ | ⟨a1, ha1, hc⟩ | hc
        · rcases exec_queue_mem prog n a w b w1 h1 q _ hc with h5 | h5
          · exact Or.inl ⟨q, hq, h5⟩
          · exact Or.inr (Or.inl ⟨a, List.mem_cons_self _ _, by
              rw [← hq]; exact pushed_lateFor a q _ h5⟩)
        · exact Or.inr (Or.inl ⟨a1, List.mem_cons_of_mem _ ha1, hc⟩)
        · exact Or.inr (Or.inr hc)

/-- After a wait that timed out and whatever the other threads did since,
`select` discards its promise and returns none. -/
theorem select_timeout (prog : Callback → List (Action T)) (sel : Callback)
    (n : Nat) (during late : List (Nat × Action T)) (secs : Secs) (futures : List (World T))
    (g1 g2 g3 : Group T)
    (hreg : registerAll prog sel n (List.range futures.length)
      { inputs := futures, promise := Future.copy Promise.init } = .ok g1)
    (hwait : Group.await prog sel n during secs { g1 with promise := Future.copy g1.promise } =
      .ok (false, g2))
    (hlate : Group.run prog sel n late g2 = .ok g3) :
    ∃ g, select prog sel n during late secs futures = .ok (none, g) ∧ g.inputs = g3.inputs := by
  obtain ⟨hN2, hS2, -, -⟩ := select_waited prog sel n during secs futures g1 false g2 hreg hwait
  obtain ⟨hN3, -, -⟩ := Group.run_keeps prog sel n late g2 g3 hN2 hS2 hlate
  have hdis : ∃ b p, exec idle 1 .discard g3.promise = .ok (b, p) ∧ Neat p ∧
      p.fut.state ≠ .PENDING := by
    by_cases hp3 : g3.promise.fut.state = .PENDING
    · exact ⟨_, _, promise_settle g3.promise .discard rfl hN3 hp3,
        neat_settle_discard g3.promise hN3 hp3, by simp [Shared.settle]⟩
    · exact ⟨_, _, promise_terminal g3.promise .discard rfl hN3 hp3, hN3, hp3⟩
  obtain ⟨b0, p, hd, hNp, hpt⟩ := hdis
  obtain ⟨g, hl, hin, -, -, -⟩ := Group.leave_spec { g3 with promise := p } hNp hpt
  have h : select prog sel n during late secs futures = .ok (none, g) := by
    simp only [select, hreg, hwait, Bool.false_eq_true, if_false, hlate, hd, hl]
  exact ⟨g, h, hin⟩

/-- While no input is READY the promise of `select` is pending and empty. -/
theorem Group.unset_of_none_ready (g0 g : Group T) (hN : Neat g.promise) (hS : g.Sound)
    (hE : g0.Evolves g) (h0 : g0.promise.fut.state = .PENDING)
    (hno : ∀ w ∈ g.inputs, w.fut.state ≠ .READY) :
    g.promise.fut.state = .PENDING ∧ g.promise.fut.t = none ∧
      g.promise.fut.latch.triggered = false := by
  have hD : g.promise.fut.state ≠ .DISCARDED := by
    intro hd
    have := hE.2.2.1 hd
    rw [h0] at this
    cases this
  have hp := Group.pending_of_none_ready g hN hS hD hno
  refine ⟨hp, ?_, ?_⟩
  · cases hv : g.promise.fut.t with
    | none => rfl
    | some k =>
      have := hN.2.2.2.1.1 (by rw [hv]; rfl)
      rw [hp] at this
      cases this
  · cases ht : g.promise.fut.latch.triggered with
    | false => rfl
    | true => exact absurd hp (hN.2.2.2.2.1 ht)

/-- An input that is not READY in the end never was. -/
theorem Group.Evolves.none_ready {g0 g : Group T} (hE : g0.Evolves g)
    (hno : ∀ w ∈ g.inputs, w.fut.state ≠ .READY) : ∀ w ∈ g0.inputs, w.fut.state ≠ .READY := by
  intro w hw hr
  obtain ⟨j, hj, hjw⟩ := List.getElem_of_mem hw
  have hj1 : j < g.inputs.length := by rw [hE.1]; exact hj
  have h0 : g0.inputs[j]? = some w := by rw [List.getElem?_eq_getElem hj, hjw]
  have h1 : g.inputs[j]? = some (g.inputs[j]) := List.getElem?_eq_getElem hj1
  have := hE.2.1 j w _ h0 h1 (by rw [hr]; decide)
  exact hno _ (List.getElem_mem hj1) (this.trans hr)

/-- One step of the registration loop of `select`, on an input with the guard
free: a pending input gets the callback at the end of its ready queue, a READY
input has it invoked at once, which sets the promise if it is still pending,
and a failed or discarded input is left alone. -/
theorem Group.act_register_eq (prog : Callback → List (Action T)) (sel : Callback) (n : Nat)
    (i : Nat) (g : Group T) (w : World T) (hi : g.inputs[i]? = some w) (hl : w.fut.lock = 0)
    (hN : Neat g.promise) :
    Group.act prog sel (n + 1) false i (.onReady sel) g = .ok (true,
      { inputs := g.inputs.set i
          (if w.fut.state = .PENDING then { w with fut := w.fut.push .ready sel }
           else if w.fut.state = .READY then
             { w with log := w.log ++ [{ callback := sel, depth := w.depth, arg := w.fut }] }
           else w),
        promise := if w.fut.state = .READY ∧ g.promise.fut.state = .PENDING then
            { g.promise with fut := g.promise.fut.settle (.set i) } else g.promise }) := by
  have hon : (Action.onReady sel : Action T) = Queue.ready.on sel := rfl
  unfold Group.act
  rw [hi]
  simp only
  by_cases hp : w.fut.state = .PENDING
  · have hnr : ¬ (w.fut.state = .READY ∧ g.promise.fut.state = .PENDING) := by
      rw [hp]; simp
    rw [exec, hon, perform_on_pending _ n .ready sel w hp hl, if_pos hp, if_neg hnr]
    simp [relay]
  · by_cases hr : w.fut.state = .READY
    · have hq : w.fut.state = (Queue.ready).state := hr
      rw [exec, hon, perform_on_terminal _ n .ready sel w hp hl, if_neg hp, if_pos hr, if_pos hq]
      have hcall : callWith (withSel prog sel) (exec (withSel prog sel) n) sel w =
          .ok { w with log := w.log ++ [{ callback := sel, depth := w.depth, arg := w.fut }] } := by
        simp [callWith, invoke, withSel, runBody]
      rw [hcall]
      simp only [Except.map, List.drop_left, relay, if_true,
        callbacks_select_ready w.fut i g.promise hN hr]
      by_cases hpp : g.promise.fut.state = .PENDING
      · simp [hpp, hr]
      · simp [hpp]
    · have hnr : ¬ (w.fut.state = .READY ∧ g.promise.fut.state = .PENDING) := fun h => hr h.1
      have hq : ¬ (w.fut.state = (Queue.ready).state) := hr
      rw [exec, hon, perform_on_terminal _ n .ready sel w hp hl, if_neg hp, if_neg hr, if_neg hnr,
        if_neg hq]
      simp [relay]

theorem registered_state (sel : Callback) (w : World T) :
    (registered sel w).fut.state = w.fut.state ∧ (registered sel w).fut.lock = w.fut.lock := by
  unfold registered
  split
  · exact ⟨(push_spec w.fut .ready sel).2.2.1.1, (push_spec w.fut .ready sel).2.2.1.2.2.2.2.1⟩
  · split <;> exact ⟨rfl, rfl⟩

/-- The registration loop of `select` from position `done.length` on, on
inputs with the guard free. -/
theorem registerAll_from (prog : Callback → List (Action T)) (sel : Callback) (n : Nat) :
    ∀ (todo done : List (World T)) (p : World Nat), Neat p →
      (∀ w ∈ todo, w.fut.lock = 0) →
      registerAll prog sel (n + 1) (List.range' done.length todo.length)
          { inputs := done ++ todo, promise := p } =
        .ok { inputs := done ++ todo.map (registered sel),
              promise := promiseAfter done.length todo p } ∧
      Neat (promiseAfter done.length todo p) := by
  intro todo
  induction todo with
  | nil =>
    intro done p hN _
    exact ⟨by simp [registerAll, promiseAfter], hN⟩
  | cons w rest ih =>
    intro done p hN hl
    have hi : (done ++ w :: rest)[done.length]? = some w := by
      rw [List.getElem?_append_right (Nat.le_refl _)]
      simp
    have hstep := Group.act_register_eq prog sel n done.length
      { inputs := done ++ w :: rest, promise := p } w hi (hl w (List.mem_cons_self _ _)) hN
    have hset : (done ++ w :: rest).set done.length (registered sel w) =
        (done ++ [registered sel w]) ++ rest := by simp
    have hN1 : Neat (if w.fut.state = .PENDING then Future.copy p
        else if w.fut.state = .READY ∧ p.fut.state = .PENDING then
          { p with fut := p.fut.settle (.set done.length) }
        else p) := by
      split
      · exact neat_copy p hN
      · split
        · rename_i h2
          exact neat_settle_set p done.length hN
        · exact hN
    obtain ⟨h1, h2⟩ := ih (done ++ [registered sel w]) _ hN1
      (fun w1 hw1 => hl w1 (List.mem_cons_of_mem _ hw1))
    have hlen : (done ++ [registered sel w]).length = done.length + 1 := by simp
    rw [hlen] at h1 h2
    refine ⟨?_, h2⟩
    simp only at hstep
    rw [show (if w.fut.state = .PENDING then { w with fut := w.fut.push .ready sel }
           else if w.fut.state = .READY then
             { w with log := w.log ++ [{ callback := sel, depth := w.depth, arg := w.fut }] }
           else w) = registered sel w from rfl, hset] at hstep
    simp only [List.length_cons, List.range'_succ, registerAll, hi, hstep]
    by_cases hp : w.fut.state = .PENDING
    · have hnr : ¬ (w.fut.state = .READY ∧ p.fut.state = .PENDING) := by rw [hp]; simp
      simp only [hp, if_true] at h1 ⊢
      simp only [reduceCtorEq, false_and, if_false] at h1 ⊢
      rw [h1]
      simp [promiseAfter, hp]
    · simp only [hp, if_false] at h1 ⊢
      rw [h1]
      simp [promiseAfter, hp]

/-- The registration loop of `select`, in closed form. -/
theorem registerAll_eq (prog : Callback → List (Action T)) (sel : Callback) (n : Nat)
    (futures : List (World T)) (hl : ∀ w ∈ futures, w.fut.lock = 0) :
    registerAll prog sel (n + 1) (List.range futures.length)
        { inputs := futures, promise := Future.copy Promise.init } =
      .ok { inputs := futures.map (registered sel),
            promise := promiseAfter 0 futures (Future.copy Promise.init) } := by
  have h := (registerAll_from prog sel n futures [] _ select_start_neat hl).1
  simp only [List.length_nil, List.nil_append] at h
  rw [List.range_eq_range']
  exact h

theorem lateFor_registered (a : Action T) (st : State) (c : Callback)
    (h : a.lateFor st = some c) : c ∈ a.registered := by
  cases a <;> simp only [Action.lateFor] at h <;> try cases h
  all_goals
    split at h
    · simp only [Option.some.injEq] at h
      subst h
      simp [Action.registered]
    · cases h

theorem Private.not_fed {sel : Callback} {prog : Callback → List (Action T)}
    (h : Private sel prog) (st : State) : ¬ Fed (withSel prog sel) st sel := by
  rintro ⟨c1, a, ha, hl⟩
  unfold withSel at ha
  split at ha
  · cases ha
  · exact h c1 a ha (lateFor_registered a st sel hl)

theorem invoke_nested_fed (prog : Callback → List (Action T))
    (step : Action T → World T → Except Fault (Bool × World T))
    (hstep : ∀ a w r, w.fut.state ≠ .PENDING → step a w = .ok r →
      Frozen w r.2 ∧ ∃ l, r.2.log = w.log ++ l ∧
        ∀ e ∈ l, a.lateFor w.fut.state = some e.callback ∨ Fed prog w.fut.state e.callback)
    (c : Callback) (w w1 : World T) (hw : w.fut.state ≠ .PENDING)
    (h : invoke step (prog c) c w = .ok w1) :
    ∃ l, w1.log = w.log ++ { callback := c, depth := w.depth, arg := w.fut } :: l ∧
      ∀ e ∈ l, Fed prog w.fut.state e.callback := by
  unfold invoke at h
  cases hb : runBody step (prog c)
      { w with log := w.log ++ [{ callback := c, depth := w.depth, arg := w.fut }],
               depth := w.depth + 1 } with
  | error e => rw [hb] at h; cases h
  | ok w2 =>
    rw [hb] at h
    simp only [Except.ok.injEq] at h
    subst h
    obtain ⟨l, hl, he⟩ := runBody_fed prog step hstep (prog c)
      { w with log := w.log ++ [{ callback := c, depth := w.depth, arg := w.fut }],
               depth := w.depth + 1 } w2 hw hb
    refine ⟨l, by simp only [hl, List.append_assoc, List.singleton_append], fun e hm => ?_⟩
    rcases he e hm with ⟨a, ha, h2⟩ | h2
    · exact ⟨c, a, ha, h2⟩
    · exact h2

theorem callWith_nested_fed (prog : Callback → List (Action T)) (n : Nat) (c : Callback)
    (w w1 : World T) (hw : w.fut.state ≠ .PENDING)
    (h : callWith prog (exec prog n) c w = .ok w1) :
    ∃ l, w1.log = w.log ++ { callback := c, depth := w.depth, arg := w.fut } :: l ∧
      ∀ e ∈ l, w.depth < e.depth ∧ Fed prog w.fut.state e.callback := by
  obtain ⟨l, hl, he⟩ := invoke_nested_fed prog (exec prog n)
    (fun a1 w2 r2 hw2 h2 => ⟨exec_frozen prog n a1 w2 r2 hw2 h2, exec_fed prog n a1 w2 r2 hw2 h2⟩)
    c w w1 hw h
  obtain ⟨-, -, l2, hl2, he2⟩ := callWith_called prog n c w w1 hw h
  have hll : l2 = l := by
    have := List.append_cancel_left (hl2.symm.trans hl)
    simpa using this
  subst hll
  exact ⟨l2, hl, fun e hm => ⟨(he2 e hm).1, he e hm⟩⟩

theorem drain_nested_fed (prog : Callback → List (Action T))
    (call : Callback → World T → Except Fault (World T))
    (hcall : ∀ c w w1, w.fut.state ≠ .PENDING → call c w = .ok w1 → Called c w w1 ∧
      ∃ l, w1.log = w.log ++ { callback := c, depth := w.depth, arg := w.fut } :: l ∧
        ∀ e ∈ l, w.depth < e.depth ∧ Fed prog w.fut.state e.callback)
    (q : Queue) : ∀ (k : Nat) (w w1 : World T), w.fut.state ≠ .PENDING →
      drain call q k w = .ok w1 →
      ∃ l, w1.log = w.log ++ l ∧
        ∀ e ∈ l, e.depth = w.depth ∨ Fed prog w.fut.state e.callback := by
  intro k
  induction k with
  | zero =>
    intro w w1 _ h
    simp only [drain] at h
    cases hq : w.fut.queue q with
    | nil =>
      rw [hq] at h
      simp only [Except.ok.injEq] at h
      subst h
      exact ⟨[], by simp, fun e he => (by cases he)⟩
    | cons c rest => rw [hq] at h; cases h
  | succ k ih =>
    intro w w1 hw h
    simp only [drain] at h
    cases hq : w.fut.queue q with
    | nil =>
      rw [hq] at h
      simp only [Except.ok.injEq] at h
      subst h
      exact ⟨[], by simp, fun e he => (by cases he)⟩
    | cons c rest =>
      rw [hq] at h
      simp only at h
      cases hc : call c w with
      | error e => rw [hc] at h; cases h
      | ok w2 =>
        rw [hc] at h
        simp only at h
        obtain ⟨⟨ha, hd, -⟩, l, hl, he⟩ := hcall c w w2 hw hc
        have hs2 : ({ w2 with fut := w2.fut.pop q } : World T).fut.state = w.fut.state := by
          have := (Shared.pop_core w2.fut q).1
          simp only
          rw [this, ha.1]
        obtain ⟨l2, hl2, he2⟩ := ih _ w1 (by rw [hs2]; exact hw) h
        rw [hs2] at he2
        simp only at he2
        rw [hd] at he2
        refine ⟨{ callback := c, depth := w.depth, arg := w.fut } :: l ++ l2, ?_, fun e hm => ?_⟩
        · rw [hl2]; simp only; rw [hl]; simp
        · simp only [List.cons_append, List.mem_cons, List.mem_append] at hm
          rcases hm with h1 | h1 | h1
          · subst h1; exact Or.inl rfl
          · exact Or.inr (he e h1).2
          · exact he2 e h1

theorem hits_eq_count (sel : Callback) (d : Nat) : ∀ (l : List (Event T)) (cs : List Callback),
    (l.filter fun e => decide (e.depth = d)).map Event.callback = cs →
    (∀ e ∈ l, e.depth ≠ d → e.callback ≠ sel) → hits sel l = cs.count sel
  | [], cs, hf, _ => by
    simp only [List.filter_nil, List.map_nil] at hf
    subst hf
    rfl
  | e :: l, cs, hf, hn => by
    have hn2 : ∀ e1 ∈ l, e1.depth ≠ d → e1.callback ≠ sel := fun e1 h1 =>
      hn e1 (List.mem_cons_of_mem _ h1)
    by_cases hd : e.depth = d
    · simp only [List.filter_cons, hd, decide_True, if_true, List.map_cons] at hf
      subst hf
      have ih := hits_eq_count sel d l _ rfl hn2
      unfold hits at ih ⊢
      rw [List.countP_cons, List.count_cons, ih]
      by_cases hc : e.callback = sel <;> simp [hc]
    · simp only [List.filter_cons, hd, decide_False, Bool.false_eq_true, if_false] at hf
      have ih := hits_eq_count sel d l cs hf hn2
      have hc : e.callback ≠ sel := hn e (List.mem_cons_self _ _) hd
      unfold hits at ih ⊢
      rw [List.countP_cons, ih]
      simp [hc]

theorem hits_zero (sel : Callback) (l : List (Event T)) (h : ∀ e ∈ l, e.callback ≠ sel) :
    hits sel l = 0 := by
  unfold hits
  rw [List.countP_eq_zero]
  intro e he
  simpa using h e he

/-- A winning transition invokes the callback `sel`, which no callback body
registers, once for each of its entries in the queue drained. -/
theorem exec_transition_hits (prog : Callback → List (Action T)) (sel : Callback) (n : Nat)
    (a : Action T) (ha : a.target.isSome = true) (w : World T) (hw : w.fut.state = .PENDING)
    (hnf : ¬ Fed prog a.queue.state sel) (b : Bool) (w1 : World T)
    (h : exec prog n a w = .ok (b, w1)) :
    hits sel (w1.log.drop w.log.length) = (w.fut.queue a.queue).count sel := by
  obtain ⟨hb, -, htrue⟩ := exec_transition prog n a ha w b w1 h
  obtain ⟨-, -, -, -, l, hl, -, hf⟩ := htrue (hb.2 hw)
  simp only at hf hl
  rw [settle_queue] at hf
  have hst : (w.fut.settle a).state = a.queue.state := by
    have h1 := (settle_state w.fut a ha).1
    rw [target_queue_state a ha] at h1
    exact Option.some.inj h1
  have hnested : ∀ e ∈ l, e.depth ≠ w.depth → e.callback ≠ sel := by
    cases n with
    | zero => simp [exec] at h
    | succ n =>
      have hlk : w.fut.lock = 0 := by
        by_contra hlk
        rw [exec, perform_transition_spin _ n a ha w hlk] at h
        cases h
      rw [exec, perform_transition_pending _ n a ha w hw hlk] at h
      split at h
      · cases h
      · rename_i w2 hd
        simp only [Except.ok.injEq, Prod.mk.injEq] at h
        obtain ⟨-, rfl⟩ := h
        obtain ⟨l2, h1, h2⟩ := drain_nested_fed prog _
          (fun c w0 w3 h0 hc => ⟨callWith_called prog n c w0 w3 h0 hc,
            callWith_nested_fed prog n c w0 w3 h0 hc⟩) a.queue n
          { w with fut := w.fut.settle a } w2 (settle_terminal w.fut a ha) hd
        simp only at h1 h2
        have hll : l2 = l := List.append_cancel_left (h1.symm.trans hl)
        subst hll
        intro e hm hdep hc
        rcases h2 e hm with h3 | h3
        · exact hdep h3
        · rw [hst, hc] at h3
          exact hnf h3
  rw [hl, List.drop_left]
  exact hits_eq_count sel w.depth l _ hf hnested

theorem pushed_registered (a : Action T) (q : Queue) (c : Callback) (h : c ∈ a.pushed q) :
    c ∈ a.registered := lateFor_registered a q.state c (pushed_lateFor a q c h)

/-- What a winning transition does to the entries of a callback `sel` that no
callback body registers and that is in no queue but the ready queue. -/
theorem exec_transition_entries (prog : Callback → List (Action T)) (sel : Callback) (n : Nat)
    (a : Action T) (ha : a.target.isSome = true) (w : World T) (hw : w.fut.state = .PENDING)
    (hnf : ∀ st, ¬ Fed prog st sel)
    (hq : sel ∉ w.fut.onFailedCallbacks ∧ sel ∉ w.fut.onDiscardedCallbacks) (b : Bool)
    (w1 : World T) (h : exec prog n a w = .ok (b, w1)) :
    hits sel (w1.log.drop w.log.length) + w1.fut.onReadyCallbacks.count sel =
        w.fut.onReadyCallbacks.count sel ∧
      sel ∉ w1.fut.onFailedCallbacks ∧ sel ∉ w1.fut.onDiscardedCallbacks := by
  have hh := exec_transition_hits prog sel n a ha w hw (hnf _) b w1 h
  obtain ⟨hb, -, htrue⟩ := exec_transition prog n a ha w b w1 h
  obtain ⟨-, hq1, ho, -⟩ := htrue (hb.2 hw)
  have hos : ∀ q1, q1 ≠ a.queue → w1.fut.queue q1 = w.fut.queue q1 := fun q1 hne => by
    rw [ho q1 hne]
    exact settle_queue w.fut a q1
  cases a with
  | set v =>
    have e1 : w1.fut.onReadyCallbacks = [] := hq1
    have e2 : w1.fut.onFailedCallbacks = w.fut.onFailedCallbacks := hos .failed (by simp [Action.queue])
    have e3 : w1.fut.onDiscardedCallbacks = w.fut.onDiscardedCallbacks :=
      hos .discarded (by simp [Action.queue])
    rw [e1, e2, e3, hh]
    exact ⟨by simp [Action.queue, Shared.queue], hq.1, hq.2⟩
  | fail m =>
    have e1 : w1.fut.onFailedCallbacks = [] := hq1
    have e2 : w1.fut.onReadyCallbacks = w.fut.onReadyCallbacks := hos .ready (by simp [Action.queue])
    have e3 : w1.fut.onDiscardedCallbacks = w.fut.onDiscardedCallbacks :=
      hos .discarded (by simp [Action.queue])
    have e4 : (w.fut.queue (Action.fail m : Action T).queue).count sel = 0 :=
      List.count_eq_zero_of_not_mem hq.1
    rw [e1, e2, e3, hh, e4]
    exact ⟨by simp, by simp, hq.2⟩
  | discard =>
    have e1 : w1.fut.onDiscardedCallbacks = [] := hq1
    have e2 : w1.fut.onReadyCallbacks = w.fut.onReadyCallbacks := hos .ready (by simp [Action.queue])
    have e3 : w1.fut.onFailedCallbacks = w.fut.onFailedCallbacks := hos .failed (by simp [Action.queue])
    have e4 : (w.fut.queue (Action.discard : Action T).queue).count sel = 0 :=
      List.count_eq_zero_of_not_mem hq.2
    rw [e1, e2, e3, hh, e4]
    exact ⟨by simp, hq.1, by simp⟩
  | onReady c => simp [Action.target] at ha
  | onFailed c => simp [Action.target] at ha
  | onDiscarded c => simp [Action.target] at ha
  | copy => simp [Action.target] at ha
  | cleanup => simp [Action.target] at ha

/-- What an operation that does not register `sel` does to the entries of
`sel`: each invocation of `sel` takes one entry from the ready queue. -/
theorem exec_hits (prog : Callback → List (Action T)) (sel : Callback) (n : Nat)
    (a : Action T) (ha : sel ∉ a.registered) (w : World T) (hnf : ∀ st, ¬ Fed prog st sel)
    (hq : sel ∉ w.fut.onFailedCallbacks ∧ sel ∉ w.fut.onDiscardedCallbacks) (b : Bool)
    (w1 : World T) (h : exec prog n a w = .ok (b, w1)) :
    hits sel (w1.log.drop w.log.length) + w1.fut.onReadyCallbacks.count sel =
        w.fut.onReadyCallbacks.count sel ∧
      sel ∉ w1.fut.onFailedCallbacks ∧ sel ∉ w1.fut.onDiscardedCallbacks := by
  rcases exec_cases prog n a w b w1 h with ⟨hw, hf, -⟩ | ⟨hw, a1, ha1, w2, hor, -⟩ |
    ⟨hw, -, hcore, hlog, -⟩
  · obtain ⟨l, hl, he⟩ := exec_fed prog n a w (b, w1) hw h
    simp only at hl
    have hz : hits sel (w1.log.drop w.log.length) = 0 := by
      rw [hl, List.drop_left]
      apply hits_zero
      intro e hm hc
      rcases he e hm with h1 | h1
      · exact ha (lateFor_registered a _ sel (by rw [hc] at h1; exact h1))
      · exact hnf _ (by rw [hc] at h1; exact h1)
    have e1 : w1.fut.onReadyCallbacks = w.fut.onReadyCallbacks := hf.1.queue .ready
    have e2 : w1.fut.onFailedCallbacks = w.fut.onFailedCallbacks := hf.1.queue .failed
    have e3 : w1.fut.onDiscardedCallbacks = w.fut.onDiscardedCallbacks := hf.1.queue .discarded
    rw [hz, e1, e2, e3]
    exact ⟨by simp, hq.1, hq.2⟩
  · rcases hor with ⟨rfl, -, rfl⟩ | ⟨rfl, rfl, h1, -⟩
    · exact exec_transition_entries prog sel n a1 ha1 w hw hnf hq b w1 h
    · obtain ⟨w3, hd, rfl⟩ := exec_cleanup_last prog n w hw h1 b w1 h
      exact exec_transition_entries prog sel n .discard rfl w hw hnf hq true w3 hd
  · have hp : w1.fut.state = .PENDING := hcore.1.trans hw
    obtain ⟨-, -, hqs⟩ := exec_pending_stays prog n a w b w1 h hp
    have hno : ∀ q, sel ∉ a.pushed q := fun q hm => ha (pushed_registered a q sel hm)
    have e1 : w1.fut.onReadyCallbacks = w.fut.onReadyCallbacks ++ a.pushed .ready := hqs .ready
    have e2 : w1.fut.onFailedCallbacks = w.fut.onFailedCallbacks ++ a.pushed .failed :=
      hqs .failed
    have e3 : w1.fut.onDiscardedCallbacks = w.fut.onDiscardedCallbacks ++ a.pushed .discarded :=
      hqs .discarded
    rw [hlog, e1, e2, e3, List.count_append, List.count_eq_zero_of_not_mem (hno .ready)]
    refine ⟨by simp [hits], ?_, ?_⟩
    · intro hm
      rcases List.mem_append.1 hm with h1 | h1
      · exact hq.1 h1
      · exact hno _ h1
    · intro hm
      rcases List.mem_append.1 hm with h1 | h1
      · exact hq.2 h1
      · exact hno _ h1

/-- The callback of `select`, invoked from queue entries on READY inputs, gives
back one handle of the promise for each invocation. -/
theorem relay_refs (sel : Callback) (i : Nat) : ∀ (l : List (Event T)) (p : World Nat),
    Neat p → (∀ e ∈ l, e.callback = sel → e.arg.state = .READY) →
    (hits sel l : Int) < p.fut.refs →
    ∃ p1, relay sel true i l p = .ok p1 ∧ p1.fut.refs = p.fut.refs - hits sel l ∧
      p1.fut.freed = p.fut.freed
  | [], p, _, _, _ => ⟨p, rfl, by simp [hits], rfl⟩
  | e :: l, p, hN, hr, hlt => by
    have hr2 : ∀ e1 ∈ l, e1.callback = sel → e1.arg.state = .READY := fun e1 h1 =>
      hr e1 (List.mem_cons_of_mem _ h1)
    by_cases hc : e.callback = sel
    · have hh : hits sel (e :: l) = hits sel l + 1 := by
        unfold hits
        rw [List.countP_cons]
        simp [hc]
      rw [hh] at hlt ⊢
      have hsel := callbacks_select_ready e.arg i p hN (hr e (List.mem_cons_self _ _) hc)
      have key : ∀ p0 : World Nat, Neat p0 → p0.fut.state ≠ .PENDING →
          p0.fut.refs = p.fut.refs → p0.fut.freed = p.fut.freed →
          internal.callbacks.select e.arg i p = .ok p0 →
          ∃ p1, relay sel true i (e :: l) p = .ok p1 ∧
            p1.fut.refs = p.fut.refs - ((hits sel l + 1 : Nat) : Int) ∧
            p1.fut.freed = p.fut.freed := by
        intro p0 hN0 ht0 hr0 hf0 hs0
        have hne : p0.fut.refs ≠ 1 := by
          have : (0 : Int) ≤ hits sel l := Int.natCast_nonneg _
          push_cast at hlt
          omega
        have hcl := exec_cleanup_terminal idle 0 p0 ht0
        rw [if_neg hne] at hcl
        obtain ⟨p1, h1, h2, h3⟩ := relay_refs sel i l
          { p0 with fut := { p0.fut with refs := p0.fut.refs - 1 } } (neat_refs p0 _ hN0) hr2
          (by simp only; push_cast at hlt; omega)
        refine ⟨p1, ?_, ?_, ?_⟩
        · simp only [relay, hc, if_true, hs0, hcl, h1]
        · rw [h2]; simp only; push_cast; omega
        · rw [h3, ← hf0]
      by_cases hp : p.fut.state = .PENDING
      · rw [if_pos hp] at hsel
        exact key _ (neat_settle_set p i hN) (by simp [Shared.settle]) rfl rfl hsel
      · rw [if_neg hp] at hsel
        exact key p hN hp rfl rfl hsel
    · have hh : hits sel (e :: l) = hits sel l := by
        unfold hits
        rw [List.countP_cons]
        simp [hc]
      rw [hh] at hlt ⊢
      obtain ⟨p1, h1, h2, h3⟩ := relay_refs sel i l p hN hr2 hlt
      exact ⟨p1, by simp only [relay, hc, if_false, h1], h2, h3⟩

theorem entries_set (sel : Callback) : ∀ (ws : List (World T)) (i : Nat) (w w1 : World T),
    ws[i]? = some w →
    entries sel (ws.set i w1) + w.fut.onReadyCallbacks.count sel =
      entries sel ws + w1.fut.onReadyCallbacks.count sel
  | [], i, w, w1, h => by simp at h
  | w0 :: ws, 0, w, w1, h => by
    simp only [List.getElem?_cons_zero, Option.some.injEq] at h
    subst h
    simp only [entries, List.set_cons_zero, List.map_cons, List.sum_cons]
    omega
  | w0 :: ws, i + 1, w, w1, h => by
    have ih := entries_set sel ws i w w1 (by simpa using h)
    simp only [entries, List.set_cons_succ, List.map_cons, List.sum_cons] at ih ⊢
    omega

theorem entries_ge (sel : Callback) : ∀ (ws : List (World T)) (i : Nat) (w : World T),
    ws[i]? = some w → w.fut.onReadyCallbacks.count sel ≤ entries sel ws
  | [], i, w, h => by simp at h
  | w0 :: ws, 0, w, h => by
    simp only [List.getElem?_cons_zero, Option.some.injEq] at h
    subst h
    simp only [entries, List.map_cons, List.sum_cons]
    omega
  | w0 :: ws, i + 1, w, h => by
    have ih := entries_ge sel ws i w (by simpa using h)
    simp only [entries, List.map_cons, List.sum_cons] at ih ⊢
    omega

/-- An operation of another thread keeps the handles of the promise of `select`
accounted for. -/
theorem Group.act_counted (prog : Callback → List (Action T)) (sel : Callback)
    (hP : Private sel prog) (n : Nat) (i : Nat) (a : Action T) (ha : sel ∉ a.registered)
    (g : Group T) (hN : Neat g.promise) (k : Int) (hk : 1 ≤ k) (hC : g.Counted sel k) (b : Bool)
    (g1 : Group T) (h : Group.act prog sel n true i a g = .ok (b, g1)) : g1.Counted sel k := by
  cases hi : g.inputs[i]? with
  | none =>
    rw [Group.act_none prog sel n true i a g hi] at h
    simp only [Except.ok.injEq, Prod.mk.injEq] at h
    rw [← h.2]
    exact hC
  | some w =>
    obtain ⟨w1, l, hex, hdrop, hst, hin, hrd, -⟩ :=
      Group.act_some prog sel n true i a g w hi hN b g1 h
    obtain ⟨hrefs, hfreed, hclean⟩ := hC
    obtain ⟨hh, hq1⟩ := exec_hits (withSel prog sel) sel n a ha w (fun st => hP.not_fed st)
      (hclean w (List.getElem?_mem hi)) b w1 hex
    rw [hdrop] at hh
    have hle := entries_ge sel g.inputs i w hi
    have hset := entries_set sel g.inputs i w w1 hi
    obtain ⟨p1, hrel, hr1, hf1⟩ := relay_refs sel i l g.promise hN
      (fun e hm hc => (hst e hm).trans (hrd e hm hc)) (by rw [hrefs]; omega)
    simp only [Group.act, hi, hex, hdrop, hrel, Except.ok.injEq, Prod.mk.injEq] at h
    obtain ⟨-, rfl⟩ := h
    refine ⟨?_, by rw [hf1]; exact hfreed, fun w2 hw2 => ?_⟩
    · simp only
      rw [hr1, hrefs]
      omega
    · rcases List.mem_or_eq_of_mem_set hw2 with h2 | h2
      · exact hclean w2 h2
      · rw [h2]; exact hq1

theorem Group.run_counted (prog : Callback → List (Action T)) (sel : Callback)
    (hP : Private sel prog) (n : Nat) (k : Int) (hk : 1 ≤ k) :
    ∀ (ops : List (Nat × Action T)) (g g1 : Group T), (∀ op ∈ ops, sel ∉ op.2.registered) →
      Neat g.promise → g.Sound → g.Counted sel k → Group.run prog sel n ops g = .ok g1 →
      g1.Counted sel k := by
  intro ops
  induction ops with
  | nil =>
    intro g g1 _ _ _ hC h
    simp only [Group.run, Except.ok.injEq] at h
    subst h
    exact hC
  | cons op ops ih =>
    intro g g1 hops hN hS hC h
    obtain ⟨i, a⟩ := op
    simp only [Group.run] at h
    split at h
    · cases h
    · rename_i b g2 h2
      obtain ⟨hN2, hS2, -⟩ := Group.act_keeps prog sel n true i a g hN hS b g2 h2
      exact ih g2 g1 (fun op hop => hops op (List.mem_cons_of_mem _ hop)) hN2 hS2
        (Group.act_counted prog sel hP n i a (hops (i, a) (List.mem_cons_self _ _)) g hN k hk hC
          b g2 h2) h

theorem registered_queues (sel : Callback) (w : World T) :
    (registered sel w).fut.onFailedCallbacks = w.fut.onFailedCallbacks ∧
      (registered sel w).fut.onDiscardedCallbacks = w.fut.onDiscardedCallbacks ∧
      (registered sel w).fut.onReadyCallbacks =
        if w.fut.state = .PENDING then w.fut.onReadyCallbacks ++ [sel]
        else w.fut.onReadyCallbacks := by
  unfold registered
  by_cases hp : w.fut.state = .PENDING
  · simp only [hp, if_true]
    exact ⟨rfl, rfl, rfl⟩
  · simp only [hp, if_false]
    split <;> exact ⟨rfl, rfl, rfl⟩

theorem promiseAfter_refs : ∀ (ws : List (World T)) (i : Nat) (p : World Nat),
    (promiseAfter i ws p).fut.refs = p.fut.refs + pendings ws ∧
      (promiseAfter i ws p).fut.freed = p.fut.freed
  | [], _, _ => by simp [promiseAfter, pendings]
  | w :: ws, i, p => by
    simp only [promiseAfter, pendings, List.countP_cons]
    by_cases hp : w.fut.state = .PENDING
    · obtain ⟨h1, h2⟩ := promiseAfter_refs ws (i + 1) (Future.copy p)
      simp only [hp, if_true, decide_True]
      rw [h1, h2]
      simp only [Future.copy, pendings]
      exact ⟨by push_cast; omega, trivial⟩
    · simp only [hp, if_false, decide_False, Bool.false_eq_true]
      by_cases hr : w.fut.state = .READY ∧ p.fut.state = .PENDING
      · obtain ⟨h1, h2⟩ := promiseAfter_refs ws (i + 1) { p with fut := p.fut.settle (.set i) }
        rw [if_pos hr, h1, h2]
        simp only [pendings, Shared.settle]
        exact ⟨by push_cast; omega, trivial⟩
      · obtain ⟨h1, h2⟩ := promiseAfter_refs ws (i + 1) p
        rw [if_neg hr, h1, h2]
        simp only [pendings]
        exact ⟨by push_cast; omega, trivial⟩

theorem entries_registered (sel : Callback) : ∀ ws : List (World T),
    entries sel (ws.map (registered sel)) = entries sel ws + pendings ws
  | [] => rfl
  | w :: ws => by
    have ih := entries_registered sel ws
    simp only [entries, pendings, List.map_cons, List.sum_cons, List.countP_cons] at ih ⊢
    rw [ih, (registered_queues sel w).2.2]
    by_cases hp : w.fut.state = .PENDING
    · simp only [hp, if_true, decide_True, List.count_append, List.count_singleton_self]
      omega
    · simp only [hp, if_false, decide_False, Bool.false_eq_true]
      omega

theorem entries_fresh (sel : Callback) : ∀ ws : List (World T),
    (∀ w ∈ ws, sel ∉ w.fut.onReadyCallbacks) → entries sel ws = 0
  | [], _ => rfl
  | w :: ws, h => by
    have ih := entries_fresh sel ws fun w1 h1 => h w1 (List.mem_cons_of_mem _ h1)
    simp only [entries, List.map_cons, List.sum_cons] at ih ⊢
    rw [ih, List.count_eq_zero_of_not_mem (h w (List.mem_cons_self _ _))]

/-- The three destructions at the end of `select`, with the handles of the
promise accounted for. -/
theorem Group.leave_counted (sel : Callback) (g : Group T)
    (hp : g.promise.fut.state ≠ .PENDING) (hC : g.Counted sel 3) :
    g.leave = .ok { g with promise := { g.promise with fut := { g.promise.fut with
      refs := if entries sel g.inputs = 0 then -1 else (entries sel g.inputs : Int) } } } := by
  obtain ⟨hr, -, -⟩ := hC
  have h1 := exec_cleanup_terminal idle 0 g.promise hp
  have hne1 : g.promise.fut.refs ≠ 1 := by omega
  rw [if_neg hne1] at h1
  have h2 := exec_cleanup_terminal idle 0
    { g.promise with fut := { g.promise.fut with refs := g.promise.fut.refs - 1 } } hp
  have hne2 : g.promise.fut.refs - 1 ≠ 1 := by omega
  simp only at h2
  rw [if_neg hne2] at h2
  have h3 := exec_cleanup_terminal idle 0
    { g.promise with fut := { g.promise.fut with refs := g.promise.fut.refs - 1 - 1 } } hp
  simp only at h3
  simp only [Group.leave, h1, h2, h3]
  by_cases he : entries sel g.inputs = 0
  · have : g.promise.fut.refs - 1 - 1 = 1 := by omega
    simp only [this, if_true, he]
  · have : ¬ (g.promise.fut.refs - 1 - 1 = 1) := by omega
    have h4 : g.promise.fut.refs - 1 - 1 - 1 = (entries sel g.inputs : Int) := by omega
    simp only [this, if_false, he, h4]

/-- An operation leaves an input pending only if it was, and then adds to its
ready queue only the callback it registers with `onReady`. -/
theorem Group.act_pending_queue (prog : Callback → List (Action T)) (sel : Callback) (n : Nat)
    (queued : Bool) (i : Nat) (a : Action T) (g : Group T) (hN : Neat g.promise) (b : Bool)
    (g1 : Group T) (h : Group.act prog sel n queued i a g = .ok (b, g1)) (j : Nat)
    (w w1 : World T) (hj : g.inputs[j]? = some w) (hj1 : g1.inputs[j]? = some w1)
    (hp : w1.fut.state = .PENDING) :
    w.fut.state = .PENDING ∧
      ∃ rest, w1.fut.onReadyCallbacks = w.fut.onReadyCallbacks ++ rest ∧
        ∀ c ∈ rest, j = i ∧ a = .onReady c := by
  cases hi : g.inputs[i]? with
  | none =>
    rw [Group.act_none prog sel n queued i a g hi] at h
    simp only [Except.ok.injEq, Prod.mk.injEq] at h
    rw [← h.2, hj] at hj1
    cases hj1
    exact ⟨hp, [], by simp, fun c hc => (by cases hc)⟩
  | some wi =>
    obtain ⟨wi1, l, hex, -, -, hin, -⟩ := Group.act_some prog sel n queued i a g wi hi hN b g1 h
    rw [hin] at hj1
    rcases (set_lookup g.inputs i wi wi1 hi j w1).1 hj1 with ⟨rfl, rfl⟩ | ⟨-, h2⟩
    · rw [hi] at hj
      cases hj
      obtain ⟨hw, -, hq⟩ := exec_pending_stays _ n a w b w1 hex hp
      refine ⟨hw, a.pushed .ready, hq .ready, fun c hc => ⟨rfl, ?_⟩⟩
      cases a <;> simp [Action.pushed] at hc
      rw [hc]
    · rw [hj] at h2
      cases h2
      exact ⟨hp, [], by simp, fun c hc => (by cases hc)⟩

theorem Group.run_pending_queue (prog : Callback → List (Action T)) (sel : Callback) (n : Nat) :
    ∀ (ops : List (Nat × Action T)) (g g1 : Group T), Neat g.promise → g.Sound →
      Group.run prog sel n ops g = .ok g1 →
      ∀ (j : Nat) (w w1 : World T), g.inputs[j]? = some w → g1.inputs[j]? = some w1 →
        w1.fut.state = .PENDING →
        w.fut.state = .PENDING ∧
          ∃ rest, w1.fut.onReadyCallbacks = w.fut.onReadyCallbacks ++ rest ∧
            ∀ c ∈ rest, (j, Action.onReady c) ∈ ops := by
  intro ops
  induction ops with
  | nil =>
    intro g g1 _ _ h j w w1 hj hj1 hp
    simp only [Group.run, Except.ok.injEq] at h
    subst h
    rw [hj] at hj1
    cases hj1
    exact ⟨hp, [], by simp, fun c hc => (by cases hc)⟩
  | cons op ops ih =>
    intro g g1 hN hS h j w w1 hj hj1 hp
    obtain ⟨i, a⟩ := op
    simp only [Group.run] at h
    split at h
    · cases h
    · rename_i b g2 h2
      obtain ⟨hN2, hS2, hE⟩ := Group.act_keeps prog sel n true i a g hN hS b g2 h2
      have hlt : j < g2.inputs.length := by
        rw [hE.1]
        by_contra hn
        rw [List.getElem?_eq_none (by omega)] at hj
        cases hj
      have hj2 : g2.inputs[j]? = some (g2.inputs[j]) := List.getElem?_eq_getElem hlt
      obtain ⟨hp2, r2, hr2, hm2⟩ := ih g2 g1 hN2 hS2 h j _ w1 hj2 hj1 hp
      obtain ⟨hp1, r1, hr1, hm1⟩ := Group.act_pending_queue prog sel n true i a g hN b g2 h2 j w
        _ hj hj2 hp2
      refine ⟨hp1, r1 ++ r2, by rw [hr2, hr1, List.append_assoc], fun c hc => ?_⟩
      rcases List.mem_append.1 hc with h3 | h3
      · obtain ⟨rfl, rfl⟩ := hm1 c h3
        exact List.mem_cons_self _ _
      · exact List.mem_cons_of_mem _ (hm2 c h3)

theorem int32_eq (x : Int) (h1 : -(2 ^ 31) ≤ x) (h2 : x ≤ 2 ^ 31 - 1) : int32 x = x := by
  unfold int32
  omega

theorem copy32_eq (w : World T) (h1 : -(2 ^ 31) ≤ w.fut.refs + 1)
    (h2 : w.fut.refs + 1 ≤ 2 ^ 31 - 1) : Future.copy32 w = Future.copy w := by
  unfold Future.copy32 Future.copy
  rw [int32_eq _ h1 h2]

theorem Handle.Bounded.count_le : ∀ (ops : List Handle.Op) (h : Int),
    Handle.Bounded h ops → Handle.count h ops ≤ 2 ^ 31 - 1 ∧ h ≤ 2 ^ 31 - 1
  | [], _, hb => ⟨hb, hb⟩
  | op :: rest, h, hb => ⟨(Handle.Bounded.count_le rest (h + op.delta) hb.2).1, hb.1⟩

theorem firstSel_append (sel : Callback) (l1 l2 : List (Nat × Event T)) :
    firstSel sel (l1 ++ l2) =
      match firstSel sel l1 with
      | some i => some i
      | none => firstSel sel l2 := by
  induction l1 with
  | nil => rfl
  | cons e l ih =>
    by_cases he : e.2.callback = sel
    · simp [firstSel, he]
    · simp [firstSel, he, ih]

theorem Shared.Stays.stays_refl (s : Shared T) : s.Stays s := fun _ => ⟨rfl, rfl, rfl⟩

theorem Shared.Stays.stays_trans {s s1 s2 : Shared T} (h1 : s.Stays s1) (h2 : s1.Stays s2) :
    s.Stays s2 := by
  intro hs
  obtain ⟨a, b, c⟩ := h1 hs
  obtain ⟨a2, b2, c2⟩ := h2 (by rw [a]; exact hs)
  exact ⟨a2.trans a, b2.trans b, c2.trans c⟩

theorem relayed_refl (sel : Callback) (p : World Nat) : Relayed (T := T) sel [] p p :=
  ⟨fun _ => ⟨rfl, rfl⟩, fun hp => ⟨fun _ => ⟨Or.inl hp, rfl⟩, fun i hi => by cases hi⟩⟩

/-- A step that logs nothing and leaves the promise as it is, or discards it
while pending. -/
theorem relayed_quiet (sel : Callback) (p p1 : World Nat)
    (h1 : p.fut.state ≠ .PENDING → p1.fut.state = p.fut.state ∧ p1.fut.t = p.fut.t)
    (h2 : p.fut.state = .PENDING →
      (p1.fut.state = .PENDING ∨ p1.fut.state = .DISCARDED) ∧ p1.fut.t = p.fut.t) :
    Relayed (T := T) sel [] p p1 :=
  ⟨h1, fun hp => ⟨fun _ => h2 hp, fun i hi => by cases hi⟩⟩

theorem relayed_trans (sel : Callback) (l1 l2 : List (Nat × Event T)) (p p1 p2 : World Nat)
    (h1 : Relayed sel l1 p p1) (h2 : Relayed sel l2 p1 p2) : Relayed sel (l1 ++ l2) p p2 := by
  constructor
  · intro hp
    obtain ⟨a, b⟩ := h1.1 hp
    obtain ⟨a2, b2⟩ := h2.1 (by rw [a]; exact hp)
    exact ⟨a2.trans a, b2.trans b⟩
  · intro hp
    obtain ⟨hn, hs⟩ := h1.2 hp
    rw [firstSel_append]
    cases hf : firstSel sel l1 with
    | none =>
      obtain ⟨hst, ht⟩ := hn hf
      rcases hst with hst | hst
      · obtain ⟨hn2, hs2⟩ := h2.2 hst
        refine ⟨fun h0 => ?_, fun i hi => ?_⟩
        · obtain ⟨x, y⟩ := hn2 h0
          exact ⟨x, y.trans ht⟩
        · rcases hs2 i hi with x | ⟨x, y⟩
          · exact Or.inl x
          · exact Or.inr ⟨x, y.trans ht⟩
      · obtain ⟨a2, b2⟩ := h2.1 (by rw [hst]; decide)
        refine ⟨fun _ => ⟨Or.inr (a2.trans hst), b2.trans ht⟩,
          fun i _ => Or.inr ⟨a2.trans hst, b2.trans ht⟩⟩
    | some j =>
      have hj := hs j hf
      have hne : p1.fut.state ≠ .PENDING := by
        rcases hj with ⟨x, -⟩ | ⟨x, -⟩ <;> rw [x] <;> decide
      obtain ⟨a2, b2⟩ := h2.1 hne
      refine ⟨fun h0 => (by cases h0), fun i hi => ?_⟩
      simp only [Option.some.injEq] at hi
      subst hi
      rcases hj with ⟨x, y⟩ | ⟨x, y⟩
      · exact Or.inl ⟨a2.trans x, b2.trans y⟩
      · exact Or.inr ⟨a2.trans x, b2.trans y⟩

/-- A logged invocation stays seen while the futures that are not pending
stay. -/
theorem Heap.Seen.seen_mono (sel : Callback) (h h1 : Heap T) (e : Nat × Event T)
    (hs : h.Seen sel e)
    (hk : ∀ (i : Nat) (s : Shared T), h.futures[i]? = some s →
      ∃ s1, h1.futures[i]? = some s1 ∧ s.Stays s1) :
    h1.Seen sel e := by
  obtain ⟨a, b, s, hs1, hs2, hs3, hs4⟩ := hs
  obtain ⟨s1, hg, hst⟩ := hk _ s hs1
  obtain ⟨x, y, z⟩ := hst (by rw [hs2]; exact a)
  exact ⟨a, b, s1, hg, x.trans hs2, y.trans hs3, z.trans hs4⟩

theorem Heap.Moves.moves_refl (sel : Callback) (h : Heap T) : h.Moves sel h :=
  ⟨rfl, rfl, fun _ s hs => ⟨s, hs, Shared.Stays.stays_refl s⟩, [], by simp,
    fun e he => (by cases he), relayed_refl sel _⟩

theorem Heap.Moves.moves_trans {sel : Callback} {h h1 h2 : Heap T} (a : h.Moves sel h1)
    (b : h1.Moves sel h2) : h.Moves sel h2 := by
  obtain ⟨al, ad, ak, l1, alog, ase, ar⟩ := a
  obtain ⟨bl, bd, bk, l2, blog, bse, br⟩ := b
  refine ⟨bl.trans al, bd.trans ad, fun i s hs => ?_, l1 ++ l2, ?_, ?_, relayed_trans sel _ _ _ _ _ ar br⟩
  · obtain ⟨s1, h1s, hst⟩ := ak i s hs
    obtain ⟨s2, h2s, hst2⟩ := bk i s1 h1s
    exact ⟨s2, h2s, hst.stays_trans hst2⟩
  · rw [blog, alog, List.append_assoc]
  · intro e he
    rcases List.mem_append.1 he with he | he
    · exact ⟨(ase e he).1, (ase e he).2.seen_mono sel h1 h2 e bk⟩
    · have := bse e he
      exact ⟨by rw [← ad]; exact this.1, this.2⟩

theorem Heap.Queued.queued_refl (P : Nat → Queue → Prop) (h : Heap T) : Heap.Queued P h h := by
  intro i s s1 q hs hs1 _ _
  rw [hs] at hs1
  cases hs1
  rfl

theorem Heap.Queued.queued_trans {sel : Callback} {P : Nat → Queue → Prop} {h h1 h2 : Heap T}
    (m : h.Moves sel h1) (a : Heap.Queued P h h1) (b : Heap.Queued P h1 h2) :
    Heap.Queued P h h2 := by
  intro i s s2 q hs hs2 hst hP
  obtain ⟨s1, h1s, hstay⟩ := m.2.2.1 i s hs
  rw [b i s1 s2 q h1s hs2 (by rw [(hstay hst).1]; exact hst) hP, a i s s1 q hs h1s hst hP]

theorem Heap.Grows.grows_refl (sel : Callback) (h : Heap T) : h.Grows sel h :=
  ⟨Heap.Moves.moves_refl sel h, Heap.Queued.queued_refl _ h⟩

theorem Heap.Grows.grows_trans {sel : Callback} {h h1 h2 : Heap T} (a : h.Grows sel h1)
    (b : h1.Grows sel h2) : h.Grows sel h2 :=
  ⟨a.1.moves_trans b.1, Heap.Queued.queued_trans a.1 a.2 b.2⟩

/-- The call `set(i)` on the promise of `select`. -/
theorem promise_set_cases (p p1 : World Nat) (i : Nat) (won : Bool)
    (h : exec idle 1 (.set i) p = .ok (won, p1)) :
    (p.fut.state = .PENDING → won = true ∧ p1.fut.state = .READY ∧ p1.fut.t = some i) ∧
      (p.fut.state ≠ .PENDING → won = false ∧ p1 = p) := by
  obtain ⟨hb, hf, ht⟩ := exec_transition idle 1 (.set i) rfl p won p1 h
  constructor
  · intro hp
    have hw := hb.2 hp
    obtain ⟨hc, -⟩ := ht hw
    exact ⟨hw, hc.1, hc.2.1⟩
  · intro hp
    have hw : won = false := by
      cases won with
      | false => rfl
      | true => exact absurd (hb.1 rfl) hp
    exact ⟨hw, hf hw⟩

/-- The destruction of a handle of the promise of `select`, and the call
`discard()` on it: neither sets it. -/
theorem promise_quiet (a : Action Nat) (ha : a = .cleanup ∨ a = .discard) (p p1 : World Nat)
    (b : Bool) (h : exec idle 1 a p = .ok (b, p1)) :
    (p.fut.state ≠ .PENDING → p1.fut.state = p.fut.state ∧ p1.fut.t = p.fut.t) ∧
      (p.fut.state = .PENDING →
        (p1.fut.state = .PENDING ∨ p1.fut.state = .DISCARDED) ∧ p1.fut.t = p.fut.t) := by
  rcases exec_cases idle 1 a p b p1 h with ⟨hw, hf, -⟩ | ⟨hw, a1, ha1, w2, hor, hd⟩ |
    ⟨hw, -, hc, -, -⟩
  · exact ⟨fun _ => ⟨hf.1.1, hf.1.2.1⟩, fun hp => absurd hp hw⟩
  · refine ⟨fun hp => absurd hw hp, fun _ => ?_⟩
    have ha1d : a1 = .discard := by
      rcases hor with ⟨h1, -, -⟩ | ⟨-, h1, -⟩
      · rcases ha with rfl | rfl
        · subst h1; simp [Action.target] at ha1
        · exact h1
      · exact h1
    subst ha1d
    obtain ⟨hc, -⟩ := hd
    have h2 : p1.fut.state = w2.fut.state ∧ p1.fut.t = w2.fut.t := by
      rcases hor with ⟨-, -, rfl⟩ | ⟨-, -, -, rfl⟩ <;> exact ⟨rfl, rfl⟩
    exact ⟨Or.inr (h2.1.trans hc.1), h2.2.trans hc.2.1⟩
  · exact ⟨fun hp => absurd hw hp, fun _ => ⟨Or.inl (hc.1.trans hw), hc.2.1⟩⟩

theorem relayed_promise_quiet (sel : Callback) (a : Action Nat)
    (ha : a = .cleanup ∨ a = .discard) (p p1 : World Nat) (b : Bool)
    (h : exec idle 1 a p = .ok (b, p1)) : Relayed (T := T) sel [] p p1 :=
  relayed_quiet sel p p1 (promise_quiet a ha p p1 b h).1 (promise_quiet a ha p p1 b h).2

theorem relayed_copy (sel : Callback) (p : World Nat) :
    Relayed (T := T) sel [] p (Future.copy p) :=
  relayed_quiet sel p _ (fun _ => ⟨rfl, rfl⟩) (fun hp => ⟨Or.inl hp, rfl⟩)

theorem relayed_cons_other (sel : Callback) (e : Nat × Event T) (l : List (Nat × Event T))
    (p p1 : World Nat) (he : e.2.callback ≠ sel) (h : Relayed sel l p p1) :
    Relayed sel (e :: l) p p1 := by
  refine ⟨h.1, fun hp => ?_⟩
  have : firstSel sel (e :: l) = firstSel sel l := by simp [firstSel, he]
  rw [this]
  exact h.2 hp

theorem Heap.put_futures_self (h : Heap T) (i : Nat) (s s0 : Shared T)
    (hs : h.futures[i]? = some s0) : (h.put i s).futures[i]? = some s := by
  obtain ⟨hlt, -⟩ := List.getElem?_eq_some.1 hs
  exact List.getElem?_set_self hlt

theorem Heap.put_futures_ne (h : Heap T) (i j : Nat) (s : Shared T) (hne : i ≠ j) :
    (h.put i s).futures[j]? = h.futures[j]? :=
  List.getElem?_set_ne hne

theorem Heap.put_same (h : Heap T) (i : Nat) (s : Shared T) (hs : h.futures[i]? = some s) :
    h.put i s = h := by
  obtain ⟨hlt, he⟩ := List.getElem?_eq_some.1 hs
  have : h.futures.set i s = h.futures := by
    apply List.ext_getElem?
    intro j
    by_cases hj : i = j
    · subst hj
      rw [List.getElem?_set_self hlt, hs]
    · rw [List.getElem?_set_ne hj]
  unfold Heap.put
  rw [this]

/-- Replacing a block by one that stays, with the promise moved quietly. -/
theorem Heap.moves_put (sel : Callback) (h : Heap T) (i : Nat) (s s2 : Shared T)
    (p : World Nat) (hs : h.futures[i]? = some s) (hst : s.Stays s2)
    (hp : Relayed (T := T) sel [] h.promise p) :
    h.Moves sel { h.put i s2 with promise := p } := by
  refine ⟨List.length_set _ _ _, rfl, fun j s0 hj => ?_, [], (by simp [Heap.put]),
    fun e he => (by cases he), hp⟩
  by_cases hij : i = j
  · subst hij
    rw [hs] at hj
    cases hj
    exact ⟨s2, Heap.put_futures_self h i s2 s hs, hst⟩
  · exact ⟨s0, (Heap.put_futures_ne h i j s2 hij).trans hj, Shared.Stays.stays_refl s0⟩

theorem Heap.queued_put (P : Nat → Queue → Prop) (h : Heap T) (i : Nat) (s s2 : Shared T)
    (p : World Nat) (hs : h.futures[i]? = some s)
    (hq : s.state ≠ .PENDING → ∀ q, P i q → s2.queue q = s.queue q) :
    Heap.Queued P h { h.put i s2 with promise := p } := by
  intro j s0 s1 q hj hj1 hst hP
  by_cases hij : i = j
  · subst hij
    have e : s = s0 := by rw [hs] at hj; exact Option.some.inj hj
    subst e
    have := Heap.put_futures_self h i s2 s hs
    rw [show ({ h.put i s2 with promise := p } : Heap T).futures[i]? = (h.put i s2).futures[i]?
      from rfl, this] at hj1
    cases hj1
    exact hq hst q hP
  · rw [show ({ h.put i s2 with promise := p } : Heap T).futures[j]? = (h.put i s2).futures[j]?
      from rfl, Heap.put_futures_ne h i j s2 hij, hj] at hj1
    cases hj1
    rfl

theorem Heap.grows_put (sel : Callback) (h : Heap T) (i : Nat) (s s2 : Shared T)
    (p : World Nat) (hs : h.futures[i]? = some s) (hst : s.Stays s2)
    (hq : s.state ≠ .PENDING → ∀ q, s2.queue q = s.queue q)
    (hp : Relayed (T := T) sel [] h.promise p) :
    h.Grows sel { h.put i s2 with promise := p } :=
  ⟨Heap.moves_put sel h i s s2 p hs hst hp,
    Heap.queued_put _ h i s s2 p hs fun hne q _ => hq hne q⟩

theorem Heap.runBody_grows (sel : Callback)
    (step : Nat × Action T → Heap T → Except Fault (Bool × Heap T))
    (hstep : ∀ x h b h1, step x h = .ok (b, h1) → h.Grows sel h1) :
    ∀ (body : Body T) (h h1 : Heap T), Heap.runBody step body h = .ok h1 → h.Grows sel h1 := by
  intro body
  induction body with
  | nil =>
    intro h h1 hr
    simp only [Heap.runBody, Except.ok.injEq] at hr
    subst hr
    exact Heap.Grows.grows_refl sel h
  | cons x rest ih =>
    intro h h1 hr
    simp only [Heap.runBody] at hr
    cases hx : step x h with
    | error e => rw [hx] at hr; cases hr
    | ok r =>
      obtain ⟨b, h2⟩ := r
      rw [hx] at hr
      exact (hstep x h b h2 hx).grows_trans (ih h2 h1 hr)

/-- The callback of `select` on the future at position `i`: the future is
READY, only its count may change, and a pending promise becomes READY naming
`i`. -/
theorem Heap.callbacksSelect_spec (i : Nat) (h h1 : Heap T) (s : Shared T)
    (hs : h.futures[i]? = some s) (hc : Heap.callbacksSelect i h = .ok h1) :
    s.state = .READY ∧ ∃ s2 p, h1 = { h.put i s2 with promise := p } ∧
      s2.state = s.state ∧ s2.t = s.t ∧ s2.message = s.message ∧
      (∀ q, s2.queue q = s.queue q) ∧
      (h.promise.fut.state = .PENDING → p.fut.state = .READY ∧ p.fut.t = some i) ∧
      (h.promise.fut.state ≠ .PENDING → p = h.promise) := by
  unfold Heap.callbacksSelect at hc
  rw [hs] at hc
  simp only at hc
  cases hr : Future.ready s with
  | false => simp [hr] at hc
  | true =>
    have hsr : s.state = .READY := by simpa [Future.ready] using hr
    refine ⟨hsr, ?_⟩
    cases hf : Future.failed h.promise.fut with
    | true => simp [hr, hf] at hc
    | false =>
      cases hp : (!Future.ready h.promise.fut && !Future.discarded h.promise.fut) with
      | true =>
        simp only [hr, hf, hp, Bool.not_true, Bool.false_eq_true, if_false, if_true] at hc
        cases hx : process.exec idle 1 (.set i) h.promise with
        | error e => rw [hx] at hc; cases hc
        | ok r =>
          obtain ⟨won, p⟩ := r
          rw [hx] at hc
          simp only at hc
          obtain ⟨hpend, hterm⟩ := promise_set_cases h.promise p i won hx
          have hpe : h.promise.fut.state = .PENDING := by
            cases hst : h.promise.fut.state <;>
              simp_all [Future.ready, Future.discarded, Future.failed]
          obtain ⟨hw, h2, h3⟩ := hpend hpe
          subst hw
          simp only [if_true, Except.ok.injEq] at hc
          exact ⟨_, p, hc.symm, rfl, rfl, rfl, fun q => by cases q <;> rfl,
            fun _ => ⟨h2, h3⟩, fun hn => absurd hpe hn⟩
      | false =>
        simp only [hr, hf, hp, Bool.not_true, Bool.false_eq_true, if_false,
          Except.ok.injEq] at hc
        have hpe : h.promise.fut.state ≠ .PENDING := by
          intro hst
          simp [Future.ready, Future.discarded, hst] at hp
        refine ⟨s, h.promise, ?_, rfl, rfl, rfl, fun _ => rfl, fun hn => absurd hn hpe,
          fun _ => rfl⟩
        rw [Heap.put_same h i s hs, ← hc]

theorem seen_depth (sel : Callback) (h : Heap T) (d : Nat) (e : Nat × Event T) :
    Heap.Seen sel { h with depth := d } e ↔ Heap.Seen sel h e := Iff.rfl

/-- The call `callback(*this)` on a future that is not pending. -/
theorem Heap.invoke_grows (sel : Callback)
    (step : Nat × Action T → Heap T → Except Fault (Bool × Heap T))
    (hstep : ∀ x h b h1, step x h = .ok (b, h1) → h.Grows sel h1)
    (prog : Callback → Nat → Body T) (c : Callback) (i : Nat) (h h1 : Heap T) (s : Shared T)
    (hs : h.futures[i]? = some s) (hne : s.state ≠ .PENDING)
    (hi : Heap.invoke step prog sel c i h = .ok h1) :
    h.Grows sel h1 ∧ ∃ l, h1.log = h.log ++ (i, { callback := c, depth := h.depth, arg := s }) :: l
      ∧ ∀ e ∈ l, h.depth < e.2.depth := by
  unfold Heap.invoke at hi
  rw [hs] at hi
  simp only at hi
  by_cases hc : c = sel
  · simp only [hc, if_true] at hi
    cases hx : Heap.callbacksSelect i
        { h with log := h.log ++ [(i, { callback := sel, depth := h.depth, arg := s })],
                 depth := h.depth + 1 } with
    | error e => rw [hx] at hi; cases hi
    | ok hb =>
      rw [hx] at hi
      simp only [Except.ok.injEq] at hi
      obtain ⟨hready, s2, p, hhb, h2, h3, h4, h5, h6, h7⟩ :=
        Heap.callbacksSelect_spec i
          { h with log := h.log ++ [(i, { callback := sel, depth := h.depth, arg := s })],
                   depth := h.depth + 1 } hb s hs hx
      subst hhb
      subst hi
      subst hc
      have hget : (h.put i s2).futures[i]? = some s2 := Heap.put_futures_self h i s2 s hs
      refine ⟨⟨⟨List.length_set _ _ _, rfl, fun j s0 hj => ?_, [(i, _)], rfl, ?_, ?_⟩, ?_⟩,
        [], rfl, fun e he => (by cases he)⟩
      · by_cases hij : i = j
        · subst hij
          rw [hs] at hj
          cases hj
          exact ⟨s2, hget, fun _ => ⟨h2, h3, h4⟩⟩
        · exact ⟨s0, (Heap.put_futures_ne h i j s2 hij).trans hj, Shared.Stays.stays_refl s0⟩
      · intro e he
        simp only [List.mem_singleton] at he
        subst he
        exact ⟨Nat.le_refl _, hne, fun _ => hready, s2, hget, h2, h3, h4⟩
      · constructor
        · intro hp
          rw [h7 hp]
          exact ⟨rfl, rfl⟩
        · intro hp
          refine ⟨fun h0 => ?_, fun j hj => Or.inl ?_⟩
          · simp [firstSel] at h0
          · simp only [firstSel, if_true, Option.some.injEq] at hj
            subst hj
            exact h6 hp
      · exact Heap.queued_put _ _ i s s2 p hs fun _ q _ => h5 q
  · simp only [hc, if_false] at hi
    cases hx : Heap.runBody step (prog c i)
        { h with log := h.log ++ [(i, { callback := c, depth := h.depth, arg := s })],
                 depth := h.depth + 1 } with
    | error e => rw [hx] at hi; cases hi
    | ok hb =>
      rw [hx] at hi
      simp only [Except.ok.injEq] at hi
      subst hi
      obtain ⟨⟨hlen, hdep, hstay, l, hlog, hev, hrel⟩, hq⟩ :=
        Heap.runBody_grows sel step hstep _ _ hb hx
      obtain ⟨s1, hs1, hst1⟩ := hstay i s hs
      refine ⟨⟨⟨hlen, rfl, hstay, (i, { callback := c, depth := h.depth, arg := s }) :: l, ?_,
        ?_, ?_⟩, hq⟩, l, ?_, fun e he => (hev e he).1⟩
      · show hb.log = _
        rw [hlog]
        simp
      · intro e he
        rcases List.mem_cons.1 he with rfl | he
        · exact ⟨Nat.le_refl _, hne, fun h0 => absurd h0 hc, s1, hs1, hst1 hne⟩
        · exact ⟨Nat.le_of_lt (hev e he).1, (hev e he).2⟩
      · exact relayed_cons_other sel _ l _ _ hc hrel
      · show hb.log = _
        rw [hlog]
        simp

theorem Heap.Queued.queued_mono {P P1 : Nat → Queue → Prop} {h h1 : Heap T}
    (hP : ∀ i q, P i q → P1 i q) (a : Heap.Queued P1 h h1) : Heap.Queued P h h1 :=
  fun i s s1 q hs hs1 hst hp => a i s s1 q hs hs1 hst (hP i q hp)

theorem fired_of_log (h h1 : Heap T) (l : List (Nat × Event T)) (hl : h1.log = h.log ++ l) :
    Heap.fired h h1 =
      (l.filter fun e => decide (e.2.depth = h.depth)).map fun e => (e.1, e.2.callback) := by
  unfold Heap.fired
  rw [hl, List.drop_left]

theorem filter_deeper (d : Nat) (l : List (Nat × Event T)) (h : ∀ e ∈ l, d < e.2.depth) :
    (l.filter fun e => decide (e.2.depth = d)) = [] := by
  rw [List.filter_eq_nil_iff]
  intro e he
  have := h e he
  simp only [decide_eq_true_eq]
  omega

theorem pop_empty (s : Shared T) (q : Queue) (h : s.queue q = []) : s.pop q = s := by
  cases s
  cases q <;> simp_all [Shared.queue, Shared.pop]

theorem pop_stays (s : Shared T) (q : Queue) : s.Stays (s.pop q) := by
  intro _
  cases q <;> exact ⟨rfl, rfl, rfl⟩

/-- The call `queue->pop()`: the block loses the front entry of the queue and
the promise moves quietly. -/
theorem Heap.pop_spec (sel : Callback) (i : Nat) (q : Queue) (h h1 : Heap T) (s : Shared T)
    (hs : h.futures[i]? = some s) (hp : Heap.pop sel i q h = .ok h1) :
    ∃ p, Relayed (T := T) sel [] h.promise p ∧ h1 = { h.put i (s.pop q) with promise := p } := by
  unfold Heap.pop at hp
  rw [hs] at hp
  simp only at hp
  cases hq : s.queue q with
  | nil =>
    rw [hq] at hp
    simp only [Except.ok.injEq] at hp
    refine ⟨h.promise, relayed_refl sel _, ?_⟩
    rw [pop_empty s q hq, Heap.put_same h i s hs, ← hp]
  | cons c rest =>
    rw [hq] at hp
    simp only at hp
    by_cases hc : c = sel
    · simp only [hc, if_true] at hp
      cases hx : process.exec idle 1 .cleanup h.promise with
      | error e => rw [hx] at hp; cases hp
      | ok r =>
        obtain ⟨b, p⟩ := r
        rw [hx] at hp
        simp only [Except.ok.injEq] at hp
        exact ⟨p, relayed_promise_quiet sel .cleanup (Or.inl rfl) _ p b hx, hp.symm⟩
    · simp only [hc, if_false, Except.ok.injEq] at hp
      exact ⟨h.promise, relayed_refl sel _, hp.symm⟩

/-- The drain loop on a future that is not pending: the queue ends empty, the
other queues and the other futures' queues are as whole operations leave them,
and the invocations logged at the depth of the loop are those of the queued
callbacks, in queue order, on this future. -/
theorem Heap.drain_moves (sel : Callback)
    (call : Callback → Nat → Heap T → Except Fault (Heap T))
    (hcall : ∀ c i h h1 s, h.futures[i]? = some s → s.state ≠ .PENDING →
      call c i h = .ok h1 → Heap.Called sel c i s h h1)
    (i : Nat) (q : Queue) : ∀ (k : Nat) (h h1 : Heap T) (s : Shared T),
      h.futures[i]? = some s → s.state ≠ .PENDING → Heap.drain call sel i q k h = .ok h1 →
      h.Moves sel h1 ∧ Heap.Queued (fun j q1 => ¬ (j = i ∧ q1 = q)) h h1 ∧
        (∃ s1, h1.futures[i]? = some s1 ∧ s1.queue q = []) ∧
        Heap.fired h h1 = (s.queue q).map fun c => (i, c) := by
  have hnil : ∀ (h : Heap T) (s : Shared T), h.futures[i]? = some s → s.queue q = [] →
      h.Moves sel h ∧ Heap.Queued (fun j q1 => ¬ (j = i ∧ q1 = q)) h h ∧
        (∃ s1, h.futures[i]? = some s1 ∧ s1.queue q = []) ∧
        Heap.fired h h = (s.queue q).map fun c => (i, c) := by
    intro h s hs hq
    refine ⟨Heap.Moves.moves_refl sel h, Heap.Queued.queued_refl _ h, ⟨s, hs, hq⟩, ?_⟩
    rw [fired_of_log h h [] (by simp), hq]
    rfl
  intro k
  induction k with
  | zero =>
    intro h h1 s hs _ hd
    simp only [Heap.drain, hs] at hd
    cases hq : s.queue q with
    | nil =>
      rw [hq] at hd
      simp only [Except.ok.injEq] at hd
      subst hd
      have := hnil h s hs hq
      rw [hq] at this
      exact this
    | cons c rest => rw [hq] at hd; cases hd
  | succ k ih =>
    intro h h1 s hs hne hd
    simp only [Heap.drain, hs] at hd
    cases hq : s.queue q with
    | nil =>
      rw [hq] at hd
      simp only [Except.ok.injEq] at hd
      subst hd
      have := hnil h s hs hq
      rw [hq] at this
      exact this
    | cons c rest =>
      rw [hq] at hd
      simp only at hd
      cases hx : call c i h with
      | error e => rw [hx] at hd; cases hd
      | ok ha =>
        rw [hx] at hd
        simp only at hd
        obtain ⟨hg, l, hlog, hdeep⟩ := hcall c i h ha s hs hne hx
        obtain ⟨sa, hsa, hstay⟩ := hg.1.2.2.1 i s hs
        have hsane : sa.state ≠ .PENDING := by rw [(hstay hne).1]; exact hne
        have hqa : ∀ q1, sa.queue q1 = s.queue q1 := fun q1 => hg.2 i s sa q1 hs hsa hne trivial
        cases hy : Heap.pop sel i q ha with
        | error e => rw [hy] at hd; cases hd
        | ok hb =>
          rw [hy] at hd
          simp only at hd
          obtain ⟨p, hrel, hhb⟩ := Heap.pop_spec sel i q ha hb sa hsa hy
          have hsb : hb.futures[i]? = some (sa.pop q) := by
            rw [hhb]
            exact Heap.put_futures_self ha i _ sa hsa
          have hsbne : (sa.pop q).state ≠ .PENDING := by
            rw [((pop_stays sa q) hsane).1]; exact hsane
          obtain ⟨m2, q2, e2, f2⟩ := ih hb h1 (sa.pop q) hsb hsbne hd
          have mab : ha.Moves sel hb := by
            rw [hhb]
            exact Heap.moves_put sel ha i sa _ p hsa (pop_stays sa q) hrel
          have qab : Heap.Queued (fun j q1 => ¬ (j = i ∧ q1 = q)) ha hb := by
            rw [hhb]
            refine Heap.queued_put _ ha i sa _ p hsa fun _ q1 hq1 => ?_
            exact Shared.pop_queue_ne sa q q1 fun h0 => hq1 ⟨rfl, h0⟩
          have mhb : h.Moves sel hb := hg.1.moves_trans mab
          have qhb : Heap.Queued (fun j q1 => ¬ (j = i ∧ q1 = q)) h hb :=
            Heap.Queued.queued_trans hg.1 (Heap.Queued.queued_mono (fun _ _ _ => trivial) hg.2)
              qab
          refine ⟨mhb.moves_trans m2, Heap.Queued.queued_trans mhb qhb q2, e2, ?_⟩
          obtain ⟨-, -, -, l2, hlog2, -, -⟩ := m2
          have hblog : hb.log = ha.log := by rw [hhb]; rfl
          have hbdep : hb.depth = h.depth := by rw [hhb]; exact hg.1.2.1
          rw [fired_of_log hb h1 l2 hlog2, hbdep, Shared.pop_queue, hqa q, hq] at f2
          have hfull : h1.log = h.log ++
              ((i, { callback := c, depth := h.depth, arg := s }) :: l ++ l2) := by
            rw [hlog2, hblog, hlog]
            simp
          rw [fired_of_log h h1 _ hfull, List.cons_append, List.filter_cons]
          simp only [decide_True, if_true, List.filter_append, filter_deeper h.depth l hdeep,
            List.nil_append, List.map_cons]
          rw [f2]
          rfl

theorem Heap.transition_none (call : Callback → Nat → Heap T → Except Fault (Heap T))
    (sel : Callback) (k i : Nat) (a : Action T) (h : Heap T) (hs : h.futures[i]? = none) :
    Heap.transition call sel k i a h = .ok (false, h) := by
  simp [Heap.transition, hs]

theorem Heap.transition_spin (call : Callback → Nat → Heap T → Except Fault (Heap T))
    (sel : Callback) (k i : Nat) (a : Action T) (h : Heap T) (s : Shared T)
    (hs : h.futures[i]? = some s) (hl : s.lock ≠ 0) :
    Heap.transition call sel k i a h = .error .spin := by
  simp [Heap.transition, hs, internal.acquire, hl]

theorem Heap.transition_terminal (call : Callback → Nat → Heap T → Except Fault (Heap T))
    (sel : Callback) (k i : Nat) (a : Action T) (h : Heap T) (s : Shared T)
    (hs : h.futures[i]? = some s) (hl : s.lock = 0) (hp : s.state ≠ .PENDING) :
    Heap.transition call sel k i a h = .ok (false, h) := by
  have hsame : ({ s with lock := 0 } : Shared T) = s := by
    cases s
    simp_all
  simp only [Heap.transition, hs, internal.acquire, hl, if_true, hp, if_false,
    internal.release, decide_False, Bool.false_eq_true]
  rw [hsame, Heap.put_same h i s hs]

theorem Heap.transition_pending (call : Callback → Nat → Heap T → Except Fault (Heap T))
    (sel : Callback) (k i : Nat) (a : Action T) (h : Heap T) (s : Shared T)
    (hs : h.futures[i]? = some s) (hl : s.lock = 0) (hp : s.state = .PENDING) :
    Heap.transition call sel k i a h =
      match Heap.drain call sel i a.queue k (h.put i (s.settle a)) with
      | .error e => .error e
      | .ok h1 => .ok (true, h1) := by
  obtain ⟨a1, a2, a3, a4, a5, a6, a7, a8, a9, a10⟩ := s
  simp only at hl hp
  subst hl
  subst hp
  cases a <;> simp [Heap.transition, hs, internal.acquire, internal.release, Shared.settle]

theorem Heap.register_none (call : Callback → Nat → Heap T → Except Fault (Heap T))
    (sel : Callback) (i : Nat) (q : Queue) (c : Callback) (h : Heap T)
    (hs : h.futures[i]? = none) : Heap.register call sel i q c h = .ok h := by
  simp [Heap.register, hs]

theorem Heap.register_spin (call : Callback → Nat → Heap T → Except Fault (Heap T))
    (sel : Callback) (i : Nat) (q : Queue) (c : Callback) (h : Heap T) (s : Shared T)
    (hs : h.futures[i]? = some s) (hl : s.lock ≠ 0) :
    Heap.register call sel i q c h = .error .spin := by
  simp [Heap.register, hs, internal.acquire, hl]

/-- A registration for the state the future is in runs the callback at once. -/
theorem Heap.register_run (call : Callback → Nat → Heap T → Except Fault (Heap T))
    (sel : Callback) (i : Nat) (q : Queue) (c : Callback) (h : Heap T) (s : Shared T)
    (hs : h.futures[i]? = some s) (hl : s.lock = 0) (hp : s.state = q.state) :
    Heap.register call sel i q c h = call c i h := by
  have hh : ({ h.put i s with promise := h.promise } : Heap T) = h := by
    rw [Heap.put_same h i s hs]
  obtain ⟨a1, a2, a3, a4, a5, a6, a7, a8, a9, a10⟩ := s
  simp only at hl hp
  subst hl
  subst hp
  simp only [Heap.register, hs, internal.acquire, internal.release, if_true, decide_True,
    ne_eq, not_true_eq_false, false_and, if_false]
  rw [hh]

/-- A registration on a pending future pushes the callback, with a copy of the
promise when the callback is that of `select`. -/
theorem Heap.register_push (call : Callback → Nat → Heap T → Except Fault (Heap T))
    (sel : Callback) (i : Nat) (q : Queue) (c : Callback) (h : Heap T) (s : Shared T)
    (hs : h.futures[i]? = some s) (hl : s.lock = 0) (hp : s.state = .PENDING) :
    Heap.register call sel i q c h =
      .ok { h.put i (s.push q c) with
        promise := if c = sel then Future.copy h.promise else h.promise } := by
  obtain ⟨a1, a2, a3, a4, a5, a6, a7, a8, a9, a10⟩ := s
  simp only at hl hp
  subst hl
  subst hp
  cases q <;> by_cases hc : c = sel <;>
    simp [Heap.register, hs, internal.acquire, internal.release, Queue.state, Shared.push, hc]

/-- A registration for another terminal state than the one the future is in
does nothing. -/
theorem Heap.register_skip (call : Callback → Nat → Heap T → Except Fault (Heap T))
    (sel : Callback) (i : Nat) (q : Queue) (c : Callback) (h : Heap T) (s : Shared T)
    (hs : h.futures[i]? = some s) (hl : s.lock = 0) (hp : s.state ≠ .PENDING)
    (hq : s.state ≠ q.state) : Heap.register call sel i q c h = .ok h := by
  have hh : ({ h.put i s with promise := h.promise } : Heap T) = h := by
    rw [Heap.put_same h i s hs]
  obtain ⟨a1, a2, a3, a4, a5, a6, a7, a8, a9, a10⟩ := s
  simp only at hl hp hq
  subst hl
  simp only [Heap.register, hs, internal.acquire, internal.release, if_true, hq, hp,
    if_false, decide_False, Bool.false_eq_true, ne_eq, not_false_eq_true, true_and, false_and]
  rw [hh]

/-- The methods `set`, `fail` and `discard` on a future of the heap. -/
theorem Heap.transition_grows (sel : Callback)
    (call : Callback → Nat → Heap T → Except Fault (Heap T))
    (hcall : ∀ c i h h1 s, h.futures[i]? = some s → s.state ≠ .PENDING →
      call c i h = .ok h1 → Heap.Called sel c i s h h1)
    (k i : Nat) (a : Action T) (ha : a.target.isSome = true) (h h1 : Heap T) (b : Bool)
    (ht : Heap.transition call sel k i a h = .ok (b, h1)) :
    h.Grows sel h1 ∧
      ∀ s, h.futures[i]? = some s →
        (s.state ≠ .PENDING → b = false ∧ h1 = h) ∧
        (s.state = .PENDING → b = true ∧
          (∃ s1, h1.futures[i]? = some s1 ∧ some s1.state = a.target ∧
            s1.t = (s.settle a).t ∧ s1.message = (s.settle a).message ∧
            s1.queue a.queue = []) ∧
          Heap.fired h h1 = (s.queue a.queue).map fun c => (i, c)) := by
  cases hs : h.futures[i]? with
  | none =>
    rw [Heap.transition_none call sel k i a h hs] at ht
    simp only [Except.ok.injEq, Prod.mk.injEq] at ht
    rw [← ht.2]
    exact ⟨Heap.Grows.grows_refl sel h, fun s h0 => by cases h0⟩
  | some s0 =>
    by_cases hl : s0.lock = 0
    · by_cases hp : s0.state = .PENDING
      · rw [Heap.transition_pending call sel k i a h s0 hs hl hp] at ht
        cases hx : Heap.drain call sel i a.queue k (h.put i (s0.settle a)) with
        | error e => rw [hx] at ht; cases ht
        | ok hd =>
          rw [hx] at ht
          simp only [Except.ok.injEq, Prod.mk.injEq] at ht
          obtain ⟨hb, hh⟩ := ht
          subst hh
          have hget := Heap.put_futures_self h i (s0.settle a) s0 hs
          have hterm : (s0.settle a).state ≠ .PENDING := settle_terminal _ a ha
          obtain ⟨m, qd, ⟨s1, hs1, he1⟩, f⟩ :=
            Heap.drain_moves sel call hcall i a.queue k _ hd _ hget hterm hx
          have m0 : h.Moves sel (h.put i (s0.settle a)) :=
            Heap.moves_put sel h i s0 _ h.promise hs (fun hn => absurd hp hn)
              (relayed_refl sel _)
          refine ⟨⟨m0.moves_trans m, ?_⟩, fun s hs2 => ?_⟩
          · intro j s sj q1 hj hj1 hjn _
            have hij : j ≠ i := by
              rintro rfl
              rw [hs] at hj
              cases hj
              exact hjn hp
            have hj0 : (h.put i (s0.settle a)).futures[j]? = some s := by
              rw [Heap.put_futures_ne h i j _ (Ne.symm hij)]
              exact hj
            exact qd j s sj q1 hj0 hj1 hjn fun h0 => hij h0.1
          · cases hs2
            refine ⟨fun hn => absurd hp hn, fun _ => ⟨hb.symm, ?_, ?_⟩⟩
            · obtain ⟨s2, hs2, hst2⟩ := m.2.2.1 i _ hget
              rw [hs1] at hs2
              cases hs2
              obtain ⟨x, y, z⟩ := hst2 hterm
              refine ⟨s1, hs1, ?_, y, z, he1⟩
              rw [x]
              exact (settle_state _ a ha).1
            · have : Heap.fired h hd = Heap.fired (h.put i (s0.settle a)) hd := rfl
              rw [this, f, settle_queue]
      · rw [Heap.transition_terminal call sel k i a h s0 hs hl hp] at ht
        simp only [Except.ok.injEq, Prod.mk.injEq] at ht
        obtain ⟨hb, hh⟩ := ht
        subst hh
        refine ⟨Heap.Grows.grows_refl sel h, fun s hs2 => ?_⟩
        cases hs2
        exact ⟨fun _ => ⟨hb.symm, rfl⟩, fun hn => absurd hn hp⟩
    · rw [Heap.transition_spin call sel k i a h s0 hs hl] at ht
      cases ht

/-- The methods `onReady`, `onFailed` and `onDiscarded` on a future of the
heap. -/
theorem Heap.register_grows (sel : Callback)
    (call : Callback → Nat → Heap T → Except Fault (Heap T))
    (hcall : ∀ c i h h1 s, h.futures[i]? = some s → s.state ≠ .PENDING →
      call c i h = .ok h1 → Heap.Called sel c i s h h1)
    (i : Nat) (q : Queue) (c : Callback) (h h1 : Heap T)
    (hr : Heap.register call sel i q c h = .ok h1) : h.Grows sel h1 := by
  cases hs : h.futures[i]? with
  | none =>
    rw [Heap.register_none call sel i q c h hs] at hr
    cases hr
    exact Heap.Grows.grows_refl sel h
  | some s =>
    by_cases hl : s.lock = 0
    · by_cases hq : s.state = q.state
      · rw [Heap.register_run call sel i q c h s hs hl hq] at hr
        exact (hcall c i h h1 s hs (by rw [hq]; exact queue_state_terminal q) hr).1
      · by_cases hp : s.state = .PENDING
        · rw [Heap.register_push call sel i q c h s hs hl hp] at hr
          cases hr
          refine Heap.grows_put sel h i s _ _ hs (fun hn => absurd hp hn)
            (fun hn => absurd hp hn) ?_
          by_cases hc : c = sel
          · rw [if_pos hc]
            exact relayed_copy sel _
          · rw [if_neg hc]
            exact relayed_refl sel _
        · rw [Heap.register_skip call sel i q c h s hs hl hp hq] at hr
          cases hr
          exact Heap.Grows.grows_refl sel h
    · rw [Heap.register_spin call sel i q c h s hs hl] at hr
      cases hr

theorem Heap.copy_grows (sel : Callback) (i : Nat) (h : Heap T) : h.Grows sel (Heap.copy i h) := by
  unfold Heap.copy
  cases hs : h.futures[i]? with
  | none => exact Heap.Grows.grows_refl sel h
  | some s =>
    exact Heap.grows_put sel h i s _ h.promise hs (fun _ => ⟨rfl, rfl, rfl⟩)
      (fun _ q => by cases q <;> rfl) (relayed_refl sel _)

/-- A block with another count and `freed` flag. -/
theorem Heap.grows_count (sel : Callback) (i : Nat) (h : Heap T) (s : Shared T) (r : Int)
    (f : Bool) (hs : h.futures[i]? = some s) :
    h.Grows sel (h.put i { s with refs := r, freed := f }) :=
  Heap.grows_put sel h i s _ h.promise hs (fun _ => ⟨rfl, rfl, rfl⟩)
    (fun _ q => by cases q <;> rfl) (relayed_refl sel _)

/-- The method `cleanup` on a handle of a future of the heap. -/
theorem Heap.cleanup_grows (sel : Callback)
    (call : Callback → Nat → Heap T → Except Fault (Heap T))
    (hcall : ∀ c i h h1 s, h.futures[i]? = some s → s.state ≠ .PENDING →
      call c i h = .ok h1 → Heap.Called sel c i s h h1)
    (k i : Nat) (h h1 : Heap T) (hc : Heap.cleanup call sel k i h = .ok h1) :
    h.Grows sel h1 := by
  unfold Heap.cleanup at hc
  cases hs : h.futures[i]? with
  | none =>
    rw [hs] at hc
    cases hc
    exact Heap.Grows.grows_refl sel h
  | some s =>
    rw [hs] at hc
    simp only at hc
    have hdec : h.Grows sel (h.put i { s with refs := s.refs - 1 }) :=
      Heap.grows_count sel i h s (s.refs - 1) s.freed hs
    by_cases hz : s.refs - 1 = 0
    · simp only [hz, if_true] at hc
      have hmid : ∀ h2, (if s.state = .PENDING then
            match Heap.transition call sel k i .discard (h.put i { s with refs := 1 }) with
            | .error e => .error e
            | .ok (_, h2) => .ok h2
          else .ok (h.put i { s with refs := 0 })) = Except.ok h2 → h.Grows sel h2 := by
        intro h2 hm
        by_cases hp : s.state = .PENDING
        · rw [if_pos hp] at hm
          cases hx : Heap.transition call sel k i .discard (h.put i { s with refs := 1 }) with
          | error e => rw [hx] at hm; cases hm
          | ok r =>
            obtain ⟨b, h3⟩ := r
            rw [hx] at hm
            cases hm
            exact (Heap.grows_count sel i h s 1 s.freed hs).grows_trans
              (Heap.transition_grows sel call hcall k i .discard rfl _ _ b hx).1
        · rw [if_neg hp] at hm
          cases hm
          exact Heap.grows_count sel i h s 0 s.freed hs
      cases hx : (if s.state = .PENDING then
            match Heap.transition call sel k i .discard (h.put i { s with refs := 1 }) with
            | .error e => .error e
            | .ok (_, h2) => .ok h2
          else .ok (h.put i { s with refs := 0 }) : Except Fault (Heap T)) with
      | error e => rw [hx] at hc; cases hc
      | ok h2 =>
        rw [hx] at hc
        simp only at hc
        have g2 := hmid h2 hx
        cases hs2 : h2.futures[i]? with
        | none =>
          rw [hs2] at hc
          cases hc
          exact g2
        | some s2 =>
          rw [hs2] at hc
          simp only at hc
          by_cases hz2 : s2.refs - 1 = 0
          · rw [if_pos hz2] at hc
            cases hc
            exact g2.grows_trans (Heap.grows_count sel i h2 s2 _ true hs2)
          · rw [if_neg hz2] at hc
            cases hc
            exact g2.grows_trans (Heap.grows_count sel i h2 s2 _ s2.freed hs2)
    · rw [if_neg hz] at hc
      cases hc
      exact hdec

theorem Heap.perform_grows (sel : Callback)
    (call : Callback → Nat → Heap T → Except Fault (Heap T))
    (hcall : ∀ c i h h1 s, h.futures[i]? = some s → s.state ≠ .PENDING →
      call c i h = .ok h1 → Heap.Called sel c i s h h1)
    (k i : Nat) (a : Action T) (h h1 : Heap T) (b : Bool)
    (hp : Heap.perform call sel k i a h = .ok (b, h1)) : h.Grows sel h1 := by
  have hreg : ∀ q c, (Heap.register call sel i q c h).map (fun h1 => (true, h1)) = .ok (b, h1) →
      h.Grows sel h1 := by
    intro q c hm
    cases hx : Heap.register call sel i q c h with
    | error e => rw [hx] at hm; cases hm
    | ok h2 =>
      rw [hx] at hm
      simp only [Except.map, Except.ok.injEq, Prod.mk.injEq] at hm
      rw [← hm.2]
      exact Heap.register_grows sel call hcall i q c h h2 hx
  cases a with
  | set v => exact (Heap.transition_grows sel call hcall k i (.set v) rfl h h1 b hp).1
  | fail m => exact (Heap.transition_grows sel call hcall k i (.fail m) rfl h h1 b hp).1
  | discard => exact (Heap.transition_grows sel call hcall k i .discard rfl h h1 b hp).1
  | onReady c => exact hreg .ready c hp
  | onFailed c => exact hreg .failed c hp
  | onDiscarded c => exact hreg .discarded c hp
  | copy =>
    simp only [Heap.perform, Except.ok.injEq, Prod.mk.injEq] at hp
    rw [← hp.2]
    exact Heap.copy_grows sel i h
  | cleanup =>
    simp only [Heap.perform] at hp
    cases hx : Heap.cleanup call sel k i h with
    | error e => rw [hx] at hp; cases hp
    | ok h2 =>
      rw [hx] at hp
      simp only [Except.map, Except.ok.injEq, Prod.mk.injEq] at hp
      rw [← hp.2]
      exact Heap.cleanup_grows sel call hcall k i h h2 hx

/-- Every operation of the interpreter takes the heap to one that grew from
it. -/
theorem Heap.exec_grows (prog : Callback → Nat → Body T) (sel : Callback) :
    ∀ (n : Nat) (x : Nat × Action T) (h : Heap T) (b : Bool) (h1 : Heap T),
      Heap.exec prog sel n x h = .ok (b, h1) → h.Grows sel h1 := by
  intro n
  induction n with
  | zero => intro x h b h1 he; simp [Heap.exec] at he
  | succ n ih =>
    intro x h b h1 he
    simp only [Heap.exec] at he
    refine Heap.perform_grows sel _ (fun c i h0 h2 s hs hne hc => ?_) n x.1 x.2 h h1 b he
    exact Heap.invoke_grows sel (Heap.exec prog sel n) ih prog c i h0 h2 s hs hne hc

theorem Heap.run_grows (prog : Callback → Nat → Body T) (sel : Callback) (n : Nat) :
    ∀ (ops : Body T) (h h1 : Heap T), Heap.run prog sel n ops h = .ok h1 → h.Grows sel h1 := by
  intro ops
  induction ops with
  | nil =>
    intro h h1 hr
    simp only [Heap.run, Except.ok.injEq] at hr
    subst hr
    exact Heap.Grows.grows_refl sel h
  | cons x rest ih =>
    intro h h1 hr
    simp only [Heap.run] at hr
    cases hx : Heap.exec prog sel n x h with
    | error e => rw [hx] at hr; cases hr
    | ok r =>
      obtain ⟨b, h2⟩ := r
      rw [hx] at hr
      exact (Heap.exec_grows prog sel n x h b h2 hx).grows_trans (ih h2 h1 hr)

/-- The invocation of a callback by the interpreter, on a future that is not
pending. -/
theorem Heap.invoke_spec (prog : Callback → Nat → Body T) (sel : Callback) (n : Nat)
    (c : Callback) (i : Nat) (h h1 : Heap T) (s : Shared T) (hs : h.futures[i]? = some s)
    (hne : s.state ≠ .PENDING)
    (hi : Heap.invoke (Heap.exec prog sel n) prog sel c i h = .ok h1) :
    Heap.Called sel c i s h h1 :=
  Heap.invoke_grows sel (Heap.exec prog sel n) (Heap.exec_grows prog sel n) prog c i h h1 s hs
    hne hi

/-- A transition through the interpreter: on a future that is not pending it
returns false and changes nothing; on a pending one it returns true, the future
is in the state selected, its queue for that state is empty and the callbacks
of that queue were invoked in order. -/
theorem Heap.exec_transition_spec (prog : Callback → Nat → Body T) (sel : Callback) (n i : Nat)
    (a : Action T) (ha : a.target.isSome = true) (h h1 : Heap T) (b : Bool)
    (he : Heap.exec prog sel n (i, a) h = .ok (b, h1)) :
    ∀ s, h.futures[i]? = some s →
      (s.state ≠ .PENDING → b = false ∧ h1 = h) ∧
      (s.state = .PENDING → b = true ∧
        (∃ s1, h1.futures[i]? = some s1 ∧ some s1.state = a.target ∧
          s1.t = (s.settle a).t ∧ s1.message = (s.settle a).message ∧
          s1.queue a.queue = []) ∧
        Heap.fired h h1 = (s.queue a.queue).map fun c => (i, c)) := by
  cases n with
  | zero => simp [Heap.exec] at he
  | succ n =>
    simp only [Heap.exec] at he
    have ht : Heap.transition (fun c i h1 => Heap.invoke (Heap.exec prog sel n) prog sel c i h1)
        sel n i a h = .ok (b, h1) := by
      cases a <;> first | exact he | simp [Action.target] at ha
    exact (Heap.transition_grows sel _
      (fun c i h0 h2 s hs hne hc => Heap.invoke_spec prog sel n c i h0 h2 s hs hne hc)
      n i a ha h h1 b ht).2

theorem Heap.put_put (h : Heap T) (i : Nat) (s s1 : Shared T) :
    (h.put i s).put i s1 = h.put i s1 := by
  simp [Heap.put]

/-- The destruction of a handle of a future that is not pending only changes
the count: the last handle leaves -1 and frees nothing. -/
theorem Heap.cleanup_terminal (call : Callback → Nat → Heap T → Except Fault (Heap T))
    (sel : Callback) (k i : Nat) (h : Heap T) (s : Shared T) (hs : h.futures[i]? = some s)
    (hne : s.state ≠ .PENDING) :
    Heap.cleanup call sel k i h =
      .ok (h.put i { s with refs := if s.refs = 1 then -1 else s.refs - 1 }) := by
  by_cases hz : s.refs = 1
  · obtain ⟨a1, a2, a3, a4, a5, a6, a7, a8, a9, a10⟩ := s
    simp only at hz hne
    subst hz
    have hget := Heap.put_futures_self h i
      ({ refs := 0, lock := a2, state := a3, t := a4, message := a5, onReadyCallbacks := a6,
         onFailedCallbacks := a7, onDiscardedCallbacks := a8, latch := a9, freed := a10 } :
        Shared T) _ hs
    simp [Heap.cleanup, hs, hne, hget, Heap.put_put]
  · have h1 : ¬ (s.refs - 1 = 0) := by omega
    simp only [Heap.cleanup, hs, h1, if_false, hz]

theorem Heap.exec_cleanup_count (prog : Callback → Nat → Body T) (sel : Callback) (n i : Nat)
    (h h1 : Heap T) (b : Bool) (s : Shared T) (hs : h.futures[i]? = some s)
    (hne : s.state ≠ .PENDING) (he : Heap.exec prog sel n (i, .cleanup) h = .ok (b, h1)) :
    ∃ r, h1 = h.put i { s with refs := r } := by
  cases n with
  | zero => simp [Heap.exec] at he
  | succ n =>
    simp only [Heap.exec, Heap.perform, Heap.cleanup_terminal _ sel n i h s hs hne, Except.map,
      Except.ok.injEq, Prod.mk.injEq] at he
    exact ⟨_, he.2.symm⟩

theorem Heap.drain_done (call : Callback → Nat → Heap T → Except Fault (Heap T))
    (sel : Callback) (i : Nat) (q : Queue) (k : Nat) (h : Heap T) (s : Shared T)
    (hs : h.futures[i]? = some s) (hq : s.queue q = []) :
    Heap.drain call sel i q k h = .ok h := by
  cases k <;> simp only [Heap.drain, hs, hq]

theorem cleanup32_eq (call : Callback → World T → Except Fault (World T)) (k : Nat)
    (w : World T) (h1 : 2 ≤ w.fut.refs) (h2 : w.fut.refs ≤ 2 ^ 31 - 1) :
    Future.cleanup32 call k w = Future.cleanup call k w := by
  have e : int32 (w.fut.refs - 1) = w.fut.refs - 1 := int32_eq _ (by omega) (by omega)
  have hne : ¬ (w.fut.refs - 1 = 0) := by omega
  simp only [Future.cleanup32, Future.cleanup, e, hne, if_false]

/-- While the number of live handles stays within the `int` and the last handle
is not taken away, a handle operation on the `int` is the operation on the
integers. -/
theorem handle_step32 (prog : Callback → List (Action T)) (n : Nat) (op : Handle.Op)
    (w : World T) (h1 : 1 ≤ w.fut.refs) (hv : Handle.Valid w.fut.refs [op])
    (hb : Handle.Bounded w.fut.refs [op]) :
    Handle.step32 prog n op w = Handle.step prog n op w := by
  obtain ⟨hv, -⟩ := hv
  obtain ⟨hb1, hb2⟩ := hb
  simp only [Handle.Bounded] at hb2
  cases op with
  | copy =>
    simp only [Handle.Op.delta] at hb2
    simp only [Handle.step32, Handle.step, copy32_eq w (by omega) hb2]
  | future =>
    simp only [Handle.Op.delta] at hb2
    simp only [Handle.step32, Handle.step, copy32_eq w (by omega) hb2]
  | destroy =>
    simp only at hv
    simp only [Handle.step32, Handle.step, cleanup32_eq _ n w hv hb1]
  | assign sameObject thisHere thatHere =>
    simp only at hv
    cases sameObject with
    | true => simp [Handle.step32, Handle.step, Future.assign32, Future.assign]
    | false =>
      cases thisHere with
      | false =>
        cases thatHere with
        | false => simp [Handle.step32, Handle.step, Future.assign32, Future.assign]
        | true =>
          simp only [Handle.Op.delta] at hb2
          have := copy32_eq w (by omega) (by simpa using hb2)
          simp [Handle.step32, Handle.step, Future.assign32, Future.assign, this]
      | true =>
        have h2 : 2 ≤ w.fut.refs := by simpa using hv
        have hne : w.fut.refs ≠ 1 := by omega
        have hc := cleanup_nonlast_eq (callWith prog (exec prog n)) n w hne
        cases thatHere with
        | false =>
          simp [Handle.step32, Handle.step, Future.assign32, Future.assign,
            cleanup32_eq _ n w h2 hb1, hc]
        | true =>
          have := copy32_eq ({ w with fut := { w.fut with refs := w.fut.refs - 1 } } : World T)
            (by show -(2 ^ 31) ≤ w.fut.refs - 1 + 1; omega)
            (by show w.fut.refs - 1 + 1 ≤ 2 ^ 31 - 1; omega)
          simp [Handle.step32, Handle.step, Future.assign32, Future.assign,
            cleanup32_eq _ n w h2 hb1, hc, this]

theorem handle_run32 (prog : Callback → List (Action T)) (n : Nat) :
    ∀ (ops : List Handle.Op) (w : World T), 1 ≤ w.fut.refs → Handle.Valid w.fut.refs ops →
      Handle.Bounded w.fut.refs ops → Handle.run32 prog n ops w = Handle.run prog n ops w := by
  intro ops
  induction ops with
  | nil => intro w _ _ _; rfl
  | cons op rest ih =>
    intro w h1 hv hb
    have hstep := handle_step prog n op w h1 ⟨hv.1, trivial⟩
    have hb0 : Handle.Bounded w.fut.refs [op] :=
      ⟨hb.1, (Handle.Bounded.count_le rest _ hb.2).2⟩
    have h32 := handle_step32 prog n op w h1 ⟨hv.1, trivial⟩ hb0
    simp only [Handle.run32, Handle.run, h32, hstep.1]
    exact ih _ hstep.2 hv.2 hb.2

theorem Heap.discard_cons (prog : Callback → Nat → Body T) (sel : Callback) (n : Nat)
    (between : Nat → Body T) (i : Nat) (rest : List Nat) (h : Heap T) :
    Heap.discard prog sel n between (i :: rest) h =
      match Heap.discard prog sel n between [i] h with
      | .error e => .error e
      | .ok h1 => Heap.discard prog sel n between rest h1 := by
  simp only [Heap.discard]
  cases Heap.run prog sel n (between i) h with
  | error e => rfl
  | ok h0 =>
    simp only
    cases Heap.exec prog sel n (i, .discard) (Heap.copy i h0) with
    | error e => rfl
    | ok r =>
      obtain ⟨b, h1⟩ := r
      simp only
      cases Heap.exec prog sel n (i, .cleanup) h1 with
      | error e => rfl
      | ok r2 => rfl

theorem Heap.discard_append (prog : Callback → Nat → Body T) (sel : Callback) (n : Nat)
    (between : Nat → Body T) : ∀ (a b : List Nat) (h : Heap T),
      Heap.discard prog sel n between (a ++ b) h =
        match Heap.discard prog sel n between a h with
        | .error e => .error e
        | .ok h1 => Heap.discard prog sel n between b h1 := by
  intro a
  induction a with
  | nil => intro b h; rfl
  | cons i rest ih =>
    intro b h
    rw [List.cons_append, Heap.discard_cons, Heap.discard_cons prog sel n between i rest]
    cases Heap.discard prog sel n between [i] h with
    | error e => rfl
    | ok h1 => exact ih b h1

/-- One iteration of `discard` on a set, `ha` being the heap as the other
threads leave it before the iteration: the element is not pending afterwards,
and if the iteration found it pending it is DISCARDED, with value and message
untouched, its discarded queue is empty and the callbacks of that queue were
invoked in order. -/
theorem Heap.discard_one (prog : Callback → Nat → Body T) (sel : Callback) (n : Nat)
    (between : Nat → Body T) (i : Nat) (h h1 : Heap T)
    (hd : Heap.discard prog sel n between [i] h = .ok h1) :
    h.Grows sel h1 ∧ ∃ ha, Heap.run prog sel n (between i) h = .ok ha ∧
      ∀ s, ha.futures[i]? = some s →
        ∃ s1, h1.futures[i]? = some s1 ∧ s1.state ≠ .PENDING ∧
          (s.state = .PENDING → s1.state = .DISCARDED ∧ s1.t = s.t ∧ s1.message = s.message ∧
            s1.onDiscardedCallbacks = [] ∧
            Heap.fired ha h1 = s.onDiscardedCallbacks.map fun c => (i, c)) := by
  simp only [Heap.discard] at hd
  cases hrun : Heap.run prog sel n (between i) h with
  | error e => rw [hrun] at hd; cases hd
  | ok h0 =>
    rw [hrun] at hd
    simp only at hd
    cases hx : Heap.exec prog sel n (i, .discard) (Heap.copy i h0) with
    | error e => rw [hx] at hd; cases hd
    | ok r =>
      obtain ⟨b, ha⟩ := r
      rw [hx] at hd
      simp only at hd
      cases hy : Heap.exec prog sel n (i, .cleanup) ha with
      | error e => rw [hy] at hd; cases hd
      | ok r2 =>
        obtain ⟨b2, hb⟩ := r2
        rw [hy] at hd
        simp only [Except.ok.injEq] at hd
        subst hd
        refine ⟨(Heap.run_grows prog sel n _ h h0 hrun).grows_trans
          ((Heap.copy_grows sel i h0).grows_trans
            ((Heap.exec_grows prog sel n _ _ b ha hx).grows_trans
              (Heap.exec_grows prog sel n _ _ b2 hb hy))), h0, rfl, fun s hs => ?_⟩
        have hcopy : Heap.copy i h0 = h0.put i { s with refs := s.refs + 1 } := by
          simp [Heap.copy, hs]
        rw [hcopy] at hx
        have hget := Heap.put_futures_self h0 i { s with refs := s.refs + 1 } s hs
        obtain ⟨hterm, hpend⟩ :=
          Heap.exec_transition_spec prog sel n i .discard rfl _ ha b hx _ hget
        by_cases hp : s.state = .PENDING
        · obtain ⟨-, ⟨sa, hsa, h1a, h2a, h3a, h4a⟩, hf⟩ := hpend hp
          have hsd : sa.state = .DISCARDED := by
            simp only [Action.target, Option.some.injEq] at h1a
            exact h1a
          obtain ⟨r, hr⟩ := Heap.exec_cleanup_count prog sel n i ha hb b2 sa hsa
            (by rw [hsd]; decide) hy
          subst hr
          refine ⟨_, Heap.put_futures_self ha i _ sa hsa, by rw [show
            ({ sa with refs := r } : Shared T).state = sa.state from rfl, hsd]; decide,
            fun _ => ⟨hsd, h2a, h3a, h4a, ?_⟩⟩
          have : Heap.fired h0 (ha.put i { sa with refs := r }) =
              Heap.fired (h0.put i { s with refs := s.refs + 1 }) ha := rfl
          rw [this, hf]
          rfl
        · obtain ⟨-, hsame⟩ := hterm hp
          subst hsame
          obtain ⟨r, hr⟩ := Heap.exec_cleanup_count prog sel n i _ hb b2 _ hget hp hy
          subst hr
          exact ⟨_, Heap.put_futures_self _ i _ _ hget, hp, fun h0 => absurd h0 hp⟩

theorem Heap.discard_grows (prog : Callback → Nat → Body T) (sel : Callback) (n : Nat)
    (between : Nat → Body T) : ∀ (is : List Nat) (h h1 : Heap T),
      Heap.discard prog sel n between is h = .ok h1 → h.Grows sel h1 := by
  intro is
  induction is with
  | nil =>
    intro h h1 hd
    simp only [Heap.discard, Except.ok.injEq] at hd
    subst hd
    exact Heap.Grows.grows_refl sel h
  | cons i rest ih =>
    intro h h1 hd
    rw [Heap.discard_cons] at hd
    cases hx : Heap.discard prog sel n between [i] h with
    | error e => rw [hx] at hd; cases hd
    | ok ha =>
      rw [hx] at hd
      exact (Heap.discard_one prog sel n between i h ha hx).1.grows_trans (ih ha h1 hd)

theorem Heap.discard_settles (prog : Callback → Nat → Body T) (sel : Callback) (n : Nat)
    (between : Nat → Body T) : ∀ (is : List Nat) (h h1 : Heap T),
      Heap.discard prog sel n between is h = .ok h1 →
      ∀ i ∈ is, ∀ s1, h1.futures[i]? = some s1 → s1.state ≠ .PENDING := by
  intro is
  induction is with
  | nil => intro h h1 _ i hi; cases hi
  | cons j rest ih =>
    intro h h1 hd i hi s1 hs1
    rw [Heap.discard_cons] at hd
    cases hx : Heap.discard prog sel n between [j] h with
    | error e => rw [hx] at hd; cases hd
    | ok ha =>
      rw [hx] at hd
      rcases List.mem_cons.1 hi with rfl | hi
      · have hg := Heap.discard_grows prog sel n between rest ha h1 hd
        obtain ⟨g1, h0, hrun, hspec⟩ := Heap.discard_one prog sel n between i h ha hx
        have g0 := Heap.run_grows prog sel n _ h h0 hrun
        have hlen : i < h0.futures.length := by
          have := (List.getElem?_eq_some.1 hs1).1
          rw [hg.1.1, g1.1.1, ← g0.1.1] at this
          exact this
        obtain ⟨sa, hsa, hne, -⟩ := hspec _ (List.getElem?_eq_getElem hlen)
        obtain ⟨s2, hs2, hst⟩ := hg.1.2.2.1 i sa hsa
        rw [hs1] at hs2
        cases hs2
        rw [(hst hne).1]
        exact hne
      · exact ih ha h1 hd i hi s1 hs1

/-- More fuel, and callbacks that return wherever they did, do not change what
a drain loop returns. -/
theorem Heap.drain_mono (call call1 : Callback → Nat → Heap T → Except Fault (Heap T))
    (hle : ∀ c i h r, call c i h = .ok r → call1 c i h = .ok r) (sel : Callback) (i : Nat)
    (q : Queue) : ∀ (k : Nat) (h r : Heap T), Heap.drain call sel i q k h = .ok r →
      ∀ k1, k ≤ k1 → Heap.drain call1 sel i q k1 h = .ok r := by
  intro k
  induction k with
  | zero =>
    intro h r hd k1 _
    simp only [Heap.drain] at hd
    cases hs : h.futures[i]? with
    | none => rw [hs] at hd; cases hd
    | some s =>
      rw [hs] at hd
      simp only at hd
      cases hq : s.queue q with
      | nil =>
        rw [hq] at hd
        cases k1 <;> simp only [Heap.drain, hs, hq] <;> exact hd
      | cons c rest => rw [hq] at hd; cases hd
  | succ k ih =>
    intro h r hd k1 hk
    obtain ⟨k2, rfl⟩ : ∃ k2, k1 = k2 + 1 := ⟨k1 - 1, by omega⟩
    simp only [Heap.drain] at hd ⊢
    cases hs : h.futures[i]? with
    | none => rw [hs] at hd; cases hd
    | some s =>
      rw [hs] at hd
      simp only at hd ⊢
      cases hq : s.queue q with
      | nil =>
        rw [hq] at hd
        exact hd
      | cons c rest =>
        rw [hq] at hd
        simp only at hd ⊢
        cases hx : call c i h with
        | error e => rw [hx] at hd; cases hd
        | ok ha =>
          rw [hx] at hd
          rw [hle c i h ha hx]
          simp only at hd ⊢
          cases hy : Heap.pop sel i q ha with
          | error e => rw [hy] at hd; cases hd
          | ok hb =>
            rw [hy] at hd
            simp only at hd ⊢
            exact ih hb r hd k2 (by omega)

theorem Heap.transition_mono (call call1 : Callback → Nat → Heap T → Except Fault (Heap T))
    (hle : ∀ c i h r, call c i h = .ok r → call1 c i h = .ok r) (sel : Callback)
    (k k1 : Nat) (hk : k ≤ k1) (i : Nat) (a : Action T) (h : Heap T) (r : Bool × Heap T)
    (ht : Heap.transition call sel k i a h = .ok r) :
    Heap.transition call1 sel k1 i a h = .ok r := by
  cases hs : h.futures[i]? with
  | none =>
    rw [Heap.transition_none call sel k i a h hs] at ht
    rw [Heap.transition_none call1 sel k1 i a h hs]
    exact ht
  | some s =>
    by_cases hl : s.lock = 0
    · by_cases hp : s.state = .PENDING
      · rw [Heap.transition_pending call sel k i a h s hs hl hp] at ht
        rw [Heap.transition_pending call1 sel k1 i a h s hs hl hp]
        cases hx : Heap.drain call sel i a.queue k (h.put i (s.settle a)) with
        | error e => rw [hx] at ht; cases ht
        | ok hd =>
          rw [hx] at ht
          rw [Heap.drain_mono call call1 hle sel i a.queue k _ hd hx k1 hk]
          exact ht
      · rw [Heap.transition_terminal call sel k i a h s hs hl hp] at ht
        rw [Heap.transition_terminal call1 sel k1 i a h s hs hl hp]
        exact ht
    · rw [Heap.transition_spin call sel k i a h s hs hl] at ht
      cases ht

theorem Heap.register_mono (call call1 : Callback → Nat → Heap T → Except Fault (Heap T))
    (hle : ∀ c i h r, call c i h = .ok r → call1 c i h = .ok r) (sel : Callback)
    (i : Nat) (q : Queue) (c : Callback) (h r : Heap T)
    (hr : Heap.register call sel i q c h = .ok r) :
    Heap.register call1 sel i q c h = .ok r := by
  cases hs : h.futures[i]? with
  | none =>
    rw [Heap.register_none call sel i q c h hs] at hr
    rw [Heap.register_none call1 sel i q c h hs]
    exact hr
  | some s =>
    by_cases hl : s.lock = 0
    · by_cases hq : s.state = q.state
      · rw [Heap.register_run call sel i q c h s hs hl hq] at hr
        rw [Heap.register_run call1 sel i q c h s hs hl hq]
        exact hle c i h r hr
      · by_cases hp : s.state = .PENDING
        · rw [Heap.register_push call sel i q c h s hs hl hp] at hr
          rw [Heap.register_push call1 sel i q c h s hs hl hp]
          exact hr
        · rw [Heap.register_skip call sel i q c h s hs hl hp hq] at hr
          rw [Heap.register_skip call1 sel i q c h s hs hl hp hq]
          exact hr
    · rw [Heap.register_spin call sel i q c h s hs hl] at hr
      cases hr

theorem Heap.cleanup_mono (call call1 : Callback → Nat → Heap T → Except Fault (Heap T))
    (hle : ∀ c i h r, call c i h = .ok r → call1 c i h = .ok r) (sel : Callback)
    (k k1 : Nat) (hk : k ≤ k1) (i : Nat) (h r : Heap T)
    (hc : Heap.cleanup call sel k i h = .ok r) : Heap.cleanup call1 sel k1 i h = .ok r := by
  unfold Heap.cleanup at hc ⊢
  cases hs : h.futures[i]? with
  | none => rw [hs] at hc; exact hc
  | some s =>
    rw [hs] at hc
    simp only at hc ⊢
    by_cases hz : s.refs - 1 = 0
    · rw [if_pos hz] at hc ⊢
      by_cases hp : s.state = .PENDING
      · rw [if_pos hp] at hc ⊢
        cases hx : Heap.transition call sel k i .discard (h.put i { s with refs := 1 }) with
        | error e => rw [hx] at hc; cases hc
        | ok r2 =>
          rw [hx] at hc
          rw [Heap.transition_mono call call1 hle sel k k1 hk i .discard _ r2 hx]
          exact hc
      · rw [if_neg hp] at hc ⊢
        exact hc
    · rw [if_neg hz] at hc ⊢
      exact hc

theorem Heap.perform_mono (call call1 : Callback → Nat → Heap T → Except Fault (Heap T))
    (hle : ∀ c i h r, call c i h = .ok r → call1 c i h = .ok r) (sel : Callback)
    (k k1 : Nat) (hk : k ≤ k1) (i : Nat) (a : Action T) (h : Heap T) (r : Bool × Heap T)
    (hp : Heap.perform call sel k i a h = .ok r) : Heap.perform call1 sel k1 i a h = .ok r := by
  have hreg : ∀ q c, (Heap.register call sel i q c h).map (fun h1 => (true, h1)) = .ok r →
      (Heap.register call1 sel i q c h).map (fun h1 => (true, h1)) = .ok r := by
    intro q c hm
    cases hx : Heap.register call sel i q c h with
    | error e => rw [hx] at hm; cases hm
    | ok h2 =>
      rw [hx] at hm
      rw [Heap.register_mono call call1 hle sel i q c h h2 hx]
      exact hm
  cases a with
  | set v => exact Heap.transition_mono call call1 hle sel k k1 hk i _ h r hp
  | fail m => exact Heap.transition_mono call call1 hle sel k k1 hk i _ h r hp
  | discard => exact Heap.transition_mono call call1 hle sel k k1 hk i _ h r hp
  | onReady c => exact hreg .ready c hp
  | onFailed c => exact hreg .failed c hp
  | onDiscarded c => exact hreg .discarded c hp
  | copy => exact hp
  | cleanup =>
    simp only [Heap.perform] at hp ⊢
    cases hx : Heap.cleanup call sel k i h with
    | error e => rw [hx] at hp; cases hp
    | ok h2 =>
      rw [hx] at hp
      rw [Heap.cleanup_mono call call1 hle sel k k1 hk i h h2 hx]
      exact hp

theorem Heap.runBody_mono (step step1 : Nat × Action T → Heap T → Except Fault (Bool × Heap T))
    (hle : ∀ x h r, step x h = .ok r → step1 x h = .ok r) :
    ∀ (body : Body T) (h r : Heap T), Heap.runBody step body h = .ok r →
      Heap.runBody step1 body h = .ok r := by
  intro body
  induction body with
  | nil => intro h r hr; exact hr
  | cons x rest ih =>
    intro h r hr
    simp only [Heap.runBody] at hr ⊢
    cases hx : step x h with
    | error e => rw [hx] at hr; cases hr
    | ok r2 =>
      obtain ⟨b, h2⟩ := r2
      rw [hx] at hr
      rw [hle x h _ hx]
      exact ih h2 r hr

theorem Heap.invoke_mono (step step1 : Nat × Action T → Heap T → Except Fault (Bool × Heap T))
    (hle : ∀ x h r, step x h = .ok r → step1 x h = .ok r) (prog : Callback → Nat → Body T)
    (sel c : Callback) (i : Nat) (h r : Heap T)
    (hi : Heap.invoke step prog sel c i h = .ok r) : Heap.invoke step1 prog sel c i h = .ok r := by
  unfold Heap.invoke at hi ⊢
  cases hs : h.futures[i]? with
  | none => rw [hs] at hi; cases hi
  | some s =>
    rw [hs] at hi
    simp only at hi ⊢
    by_cases hc : c = sel
    · simp only [hc, if_true] at hi ⊢
      exact hi
    · simp only [hc, if_false] at hi ⊢
      cases hx : Heap.runBody step (prog c i)
          { h with log := h.log ++ [(i, { callback := c, depth := h.depth, arg := s })],
                   depth := h.depth + 1 } with
      | error e => rw [hx] at hi; cases hi
      | ok hb =>
        rw [hx] at hi
        rw [Heap.runBody_mono step step1 hle _ _ hb hx]
        exact hi

/-- What an operation returns with some fuel it returns with more. -/
theorem Heap.exec_mono (prog : Callback → Nat → Body T) (sel : Callback) :
    ∀ (n m : Nat), n ≤ m → ∀ (x : Nat × Action T) (h : Heap T) (r : Bool × Heap T),
      Heap.exec prog sel n x h = .ok r → Heap.exec prog sel m x h = .ok r := by
  intro n
  induction n with
  | zero => intro m _ x h r he; simp [Heap.exec] at he
  | succ n ih =>
    intro m hm x h r he
    obtain ⟨m1, rfl⟩ : ∃ m1, m = m1 + 1 := ⟨m - 1, by omega⟩
    simp only [Heap.exec] at he ⊢
    refine Heap.perform_mono _ _ (fun c i h0 r0 hc => ?_) sel n m1 (by omega) x.1 x.2 h r he
    exact Heap.invoke_mono _ _ (ih m1 (by omega)) prog sel c i h0 r0 hc

theorem Heap.run_mono (prog : Callback → Nat → Body T) (sel : Callback) (n m : Nat)
    (hm : n ≤ m) : ∀ (ops : Body T) (h r : Heap T), Heap.run prog sel n ops h = .ok r →
      Heap.run prog sel m ops h = .ok r := by
  intro ops
  induction ops with
  | nil => intro h r hr; exact hr
  | cons x rest ih =>
    intro h r hr
    simp only [Heap.run] at hr ⊢
    cases hx : Heap.exec prog sel n x h with
    | error e => rw [hx] at hr; cases hr
    | ok r2 =>
      obtain ⟨b, h2⟩ := r2
      rw [hx] at hr
      rw [Heap.exec_mono prog sel n m hm x h _ hx]
      exact ih h2 r hr

theorem Heap.free_put (sel : Callback) (h : Heap T) (i : Nat) (s2 : Shared T) (p : World Nat)
    (hF : Heap.Free sel h) (h2 : s2.lock = 0 ∧ ∀ q, sel ∉ s2.queue q) :
    Heap.Free sel { h.put i s2 with promise := p } := by
  intro j s hj
  have hj2 : (h.futures.set i s2)[j]? = some s := hj
  rw [List.getElem?_set] at hj2
  by_cases hij : i = j
  · rw [if_pos hij] at hj2
    by_cases hlt : i < h.futures.length
    · rw [if_pos hlt] at hj2
      cases hj2
      exact h2
    · rw [if_neg hlt] at hj2
      cases hj2
  · rw [if_neg hij] at hj2
    exact hF j s hj2

theorem Heap.runBody_free (sel : Callback)
    (step : Nat × Action T → Heap T → Except Fault (Bool × Heap T))
    (hstep : ∀ x h b h1, sel ∉ x.2.registered → Heap.Free sel h → step x h = .ok (b, h1) →
      Heap.Free sel h1) :
    ∀ (body : Body T) (h h1 : Heap T), (∀ x ∈ body, sel ∉ x.2.registered) → Heap.Free sel h →
      Heap.runBody step body h = .ok h1 → Heap.Free sel h1 := by
  intro body
  induction body with
  | nil =>
    intro h h1 _ hF hr
    simp only [Heap.runBody, Except.ok.injEq] at hr
    subst hr
    exact hF
  | cons x rest ih =>
    intro h h1 hb hF hr
    simp only [Heap.runBody] at hr
    cases hx : step x h with
    | error e => rw [hx] at hr; cases hr
    | ok r =>
      obtain ⟨b, h2⟩ := r
      rw [hx] at hr
      exact ih h2 h1 (fun y hy => hb y (List.mem_cons_of_mem _ hy))
        (hstep x h b h2 (hb x (List.mem_cons_self _ _)) hF hx) hr

theorem Heap.invoke_free (sel : Callback)
    (step : Nat × Action T → Heap T → Except Fault (Bool × Heap T))
    (hstep : ∀ x h b h1, sel ∉ x.2.registered → Heap.Free sel h → step x h = .ok (b, h1) →
      Heap.Free sel h1)
    (prog : Callback → Nat → Body T) (hA : Heap.Apart sel prog) (c : Callback) (i : Nat)
    (h h1 : Heap T) (hc : c ≠ sel) (hF : Heap.Free sel h)
    (hi : Heap.invoke step prog sel c i h = .ok h1) : Heap.Free sel h1 := by
  unfold Heap.invoke at hi
  cases hs : h.futures[i]? with
  | none => rw [hs] at hi; cases hi
  | some s =>
    rw [hs] at hi
    simp only [hc, if_false] at hi
    cases hx : Heap.runBody step (prog c i)
        { h with log := h.log ++ [(i, { callback := c, depth := h.depth, arg := s })],
                 depth := h.depth + 1 } with
    | error e => rw [hx] at hi; cases hi
    | ok hb =>
      rw [hx] at hi
      simp only [Except.ok.injEq] at hi
      subst hi
      exact Heap.runBody_free sel step hstep (prog c i)
        { h with log := h.log ++ [(i, { callback := c, depth := h.depth, arg := s })],
                 depth := h.depth + 1 } hb (hA c i) hF hx

theorem shared_pop_free (sel : Callback) (s : Shared T) (q : Queue)
    (h : s.lock = 0 ∧ ∀ q1, sel ∉ s.queue q1) :
    (s.pop q).lock = 0 ∧ ∀ q1, sel ∉ (s.pop q).queue q1 := by
  refine ⟨by cases q <;> exact h.1, fun q1 hm => ?_⟩
  by_cases hq : q1 = q
  · subst hq
    rw [Shared.pop_queue] at hm
    exact h.2 q1 (List.mem_of_mem_tail hm)
  · rw [Shared.pop_queue_ne s q q1 hq] at hm
    exact h.2 q1 hm

theorem Heap.pop_free (sel : Callback) (i : Nat) (q : Queue) (h h1 : Heap T)
    (hF : Heap.Free sel h) (hp : Heap.pop sel i q h = .ok h1) : Heap.Free sel h1 := by
  cases hs : h.futures[i]? with
  | none => simp [Heap.pop, hs] at hp
  | some s =>
    obtain ⟨p, -, rfl⟩ := Heap.pop_spec (T := T) sel i q h h1 s hs hp
    exact Heap.free_put sel h i _ p hF (shared_pop_free sel s q (hF i s hs))

theorem Heap.drain_free (sel : Callback)
    (call : Callback → Nat → Heap T → Except Fault (Heap T))
    (hcall : ∀ c i h h1, c ≠ sel → Heap.Free sel h → call c i h = .ok h1 → Heap.Free sel h1)
    (i : Nat) (q : Queue) : ∀ (k : Nat) (h h1 : Heap T), Heap.Free sel h →
      Heap.drain call sel i q k h = .ok h1 → Heap.Free sel h1 := by
  intro k
  induction k with
  | zero =>
    intro h h1 hF hd
    simp only [Heap.drain] at hd
    cases hs : h.futures[i]? with
    | none => rw [hs] at hd; cases hd
    | some s =>
      rw [hs] at hd
      simp only at hd
      cases hq : s.queue q with
      | nil =>
        rw [hq] at hd
        cases hd
        exact hF
      | cons c rest => rw [hq] at hd; cases hd
  | succ k ih =>
    intro h h1 hF hd
    simp only [Heap.drain] at hd
    cases hs : h.futures[i]? with
    | none => rw [hs] at hd; cases hd
    | some s =>
      rw [hs] at hd
      simp only at hd
      cases hq : s.queue q with
      | nil =>
        rw [hq] at hd
        cases hd
        exact hF
      | cons c rest =>
        rw [hq] at hd
        simp only at hd
        have hc : c ≠ sel := by
          rintro rfl
          exact (hF i s hs).2 q (by rw [hq]; exact List.mem_cons_self _ _)
        cases hx : call c i h with
        | error e => rw [hx] at hd; cases hd
        | ok ha =>
          rw [hx] at hd
          simp only at hd
          cases hy : Heap.pop sel i q ha with
          | error e => rw [hy] at hd; cases hd
          | ok hb =>
            rw [hy] at hd
            simp only at hd
            exact ih hb h1 (Heap.pop_free sel i q ha hb (hcall c i h ha hc hF hx) hy) hd

theorem shared_settle_free (sel : Callback) (s : Shared T) (a : Action T)
    (h : s.lock = 0 ∧ ∀ q1, sel ∉ s.queue q1) :
    (s.settle a).lock = 0 ∧ ∀ q1, sel ∉ (s.settle a).queue q1 := by
  refine ⟨by cases a <;> exact h.1, fun q1 => ?_⟩
  rw [settle_queue]
  exact h.2 q1

theorem Heap.transition_free (sel : Callback)
    (call : Callback → Nat → Heap T → Except Fault (Heap T))
    (hcall : ∀ c i h h1, c ≠ sel → Heap.Free sel h → call c i h = .ok h1 → Heap.Free sel h1)
    (k i : Nat) (a : Action T) (h h1 : Heap T) (b : Bool) (hF : Heap.Free sel h)
    (ht : Heap.transition call sel k i a h = .ok (b, h1)) : Heap.Free sel h1 := by
  cases hs : h.futures[i]? with
  | none =>
    rw [Heap.transition_none call sel k i a h hs] at ht
    cases ht
    exact hF
  | some s =>
    have hl := (hF i s hs).1
    by_cases hp : s.state = .PENDING
    · rw [Heap.transition_pending call sel k i a h s hs hl hp] at ht
      cases hx : Heap.drain call sel i a.queue k (h.put i (s.settle a)) with
      | error e => rw [hx] at ht; cases ht
      | ok hd =>
        rw [hx] at ht
        cases ht
        exact Heap.drain_free sel call hcall i a.queue k _ _
          (Heap.free_put sel h i _ h.promise hF (shared_settle_free sel s a (hF i s hs))) hx
    · rw [Heap.transition_terminal call sel k i a h s hs hl hp] at ht
      cases ht
      exact hF

theorem Heap.register_free (sel : Callback)
    (call : Callback → Nat → Heap T → Except Fault (Heap T))
    (hcall : ∀ c i h h1, c ≠ sel → Heap.Free sel h → call c i h = .ok h1 → Heap.Free sel h1)
    (i : Nat) (q : Queue) (c : Callback) (hc : c ≠ sel) (h h1 : Heap T) (hF : Heap.Free sel h)
    (hr : Heap.register call sel i q c h = .ok h1) : Heap.Free sel h1 := by
  cases hs : h.futures[i]? with
  | none =>
    rw [Heap.register_none call sel i q c h hs] at hr
    cases hr
    exact hF
  | some s =>
    have hl := (hF i s hs).1
    by_cases hq : s.state = q.state
    · rw [Heap.register_run call sel i q c h s hs hl hq] at hr
      exact hcall c i h h1 hc hF hr
    · by_cases hp : s.state = .PENDING
      · rw [Heap.register_push call sel i q c h s hs hl hp] at hr
        cases hr
        refine Heap.free_put sel h i _ _ hF ⟨(push_spec s q c).2.2.1.2.2.2.2.1.trans hl,
          fun q1 hm => ?_⟩
        by_cases hq1 : q1 = q
        · subst hq1
          rw [(push_spec s q1 c).1] at hm
          rcases List.mem_append.1 hm with hm | hm
          · exact (hF i s hs).2 q1 hm
          · simp only [List.mem_singleton] at hm
            exact hc hm.symm
        · rw [(push_spec s q c).2.1 q1 hq1] at hm
          exact (hF i s hs).2 q1 hm
      · rw [Heap.register_skip call sel i q c h s hs hl hp hq] at hr
        cases hr
        exact hF

theorem Heap.cleanup_free (sel : Callback)
    (call : Callback → Nat → Heap T → Except Fault (Heap T))
    (hcall : ∀ c i h h1, c ≠ sel → Heap.Free sel h → call c i h = .ok h1 → Heap.Free sel h1)
    (k i : Nat) (h h1 : Heap T) (hF : Heap.Free sel h)
    (hc : Heap.cleanup call sel k i h = .ok h1) : Heap.Free sel h1 := by
  have hcount : ∀ (h0 : Heap T) (s : Shared T) (r : Int) (f : Bool), Heap.Free sel h0 →
      h0.futures[i]? = some s → Heap.Free sel (h0.put i { s with refs := r, freed := f }) := by
    intro h0 s r f hF0 hs
    exact Heap.free_put sel h0 i _ h0.promise hF0
      ⟨(hF0 i s hs).1, fun q hm => (hF0 i s hs).2 q (by cases q <;> exact hm)⟩
  have hlast : ∀ (h2 : Heap T), Heap.Free sel h2 →
      (match h2.futures[i]? with
        | none => Except.ok h2
        | some s2 =>
          if s2.refs - 1 = 0 then
            Except.ok (h2.put i { s2 with refs := s2.refs - 1, freed := true })
          else Except.ok (h2.put i { s2 with refs := s2.refs - 1 }) :
            Except Fault (Heap T)) = Except.ok h1 →
      Heap.Free sel h1 := by
    intro h2 g2 hc
    cases hs2 : h2.futures[i]? with
    | none =>
      rw [hs2] at hc
      cases hc
      exact g2
    | some s2 =>
      rw [hs2] at hc
      simp only at hc
      by_cases hz2 : s2.refs - 1 = 0
      · rw [if_pos hz2] at hc
        cases hc
        exact hcount h2 s2 _ true g2 hs2
      · rw [if_neg hz2] at hc
        cases hc
        exact hcount h2 s2 _ s2.freed g2 hs2
  unfold Heap.cleanup at hc
  cases hs : h.futures[i]? with
  | none =>
    rw [hs] at hc
    cases hc
    exact hF
  | some s =>
    rw [hs] at hc
    simp only at hc
    by_cases hz : s.refs - 1 = 0
    · rw [if_pos hz] at hc
      by_cases hp : s.state = .PENDING
      · rw [if_pos hp] at hc
        cases hx : Heap.transition call sel k i .discard (h.put i { s with refs := 1 }) with
        | error e => rw [hx] at hc; cases hc
        | ok r =>
          obtain ⟨b, h3⟩ := r
          rw [hx] at hc
          exact hlast h3 (Heap.transition_free sel call hcall k i .discard _ _ b
            (hcount h s 1 s.freed hF hs) hx) hc
      · rw [if_neg hp] at hc
        exact hlast _ (hcount h s _ s.freed hF hs) hc
    · rw [if_neg hz] at hc
      cases hc
      exact hcount h s _ s.freed hF hs

theorem Heap.perform_free (sel : Callback)
    (call : Callback → Nat → Heap T → Except Fault (Heap T))
    (hcall : ∀ c i h h1, c ≠ sel → Heap.Free sel h → call c i h = .ok h1 → Heap.Free sel h1)
    (k i : Nat) (a : Action T) (ha : sel ∉ a.registered) (h h1 : Heap T) (b : Bool)
    (hF : Heap.Free sel h) (hp : Heap.perform call sel k i a h = .ok (b, h1)) :
    Heap.Free sel h1 := by
  have hreg : ∀ q c, c ≠ sel →
      (Heap.register call sel i q c h).map (fun h1 => (true, h1)) = .ok (b, h1) →
      Heap.Free sel h1 := by
    intro q c hc hm
    cases hx : Heap.register call sel i q c h with
    | error e => rw [hx] at hm; cases hm
    | ok h2 =>
      rw [hx] at hm
      simp only [Except.map, Except.ok.injEq, Prod.mk.injEq] at hm
      rw [← hm.2]
      exact Heap.register_free sel call hcall i q c hc h h2 hF hx
  cases a with
  | set v => exact Heap.transition_free sel call hcall k i _ h h1 b hF hp
  | fail m => exact Heap.transition_free sel call hcall k i _ h h1 b hF hp
  | discard => exact Heap.transition_free sel call hcall k i _ h h1 b hF hp
  | onReady c =>
    exact hreg .ready c (fun h0 => ha (by rw [h0]; simp [Action.registered])) hp
  | onFailed c =>
    exact hreg .failed c (fun h0 => ha (by rw [h0]; simp [Action.registered])) hp
  | onDiscarded c =>
    exact hreg .discarded c (fun h0 => ha (by rw [h0]; simp [Action.registered])) hp
  | copy =>
    simp only [Heap.perform, Except.ok.injEq, Prod.mk.injEq] at hp
    rw [← hp.2]
    unfold Heap.copy
    cases hs : h.futures[i]? with
    | none => exact hF
    | some s =>
      exact Heap.free_put sel h i _ h.promise hF
        ⟨(hF i s hs).1, fun q hm => (hF i s hs).2 q (by cases q <;> exact hm)⟩
  | cleanup =>
    simp only [Heap.perform] at hp
    cases hx : Heap.cleanup call sel k i h with
    | error e => rw [hx] at hp; cases hp
    | ok h2 =>
      rw [hx] at hp
      simp only [Except.map, Except.ok.injEq, Prod.mk.injEq] at hp
      rw [← hp.2]
      exact Heap.cleanup_free sel call hcall k i h h2 hF hx

/-- While no `select` is under way and no callback registers its callback, the
operations leave the guards free and its callback out of the queues. -/
theorem Heap.exec_free (prog : Callback → Nat → Body T) (sel : Callback)
    (hA : Heap.Apart sel prog) :
    ∀ (n : Nat) (x : Nat × Action T) (h : Heap T) (b : Bool) (h1 : Heap T),
      sel ∉ x.2.registered → Heap.Free sel h → Heap.exec prog sel n x h = .ok (b, h1) →
      Heap.Free sel h1 := by
  intro n
  induction n with
  | zero => intro x h b h1 _ _ he; simp [Heap.exec] at he
  | succ n ih =>
    intro x h b h1 hx hF he
    simp only [Heap.exec] at he
    refine Heap.perform_free sel _ (fun c i h0 h2 hc hF0 hi => ?_) n x.1 x.2 hx h h1 b hF he
    exact Heap.invoke_free sel (Heap.exec prog sel n) ih prog hA c i h0 h2 hc hF0 hi

theorem countP_le_of_pointwise (p : Shared T → Bool) :
    ∀ (l l1 : List (Shared T)), l1.length = l.length →
      (∀ (i : Nat) (s s1 : Shared T), l[i]? = some s → l1[i]? = some s1 → p s1 = true →
        p s = true) → l1.countP p ≤ l.countP p := by
  intro l
  induction l with
  | nil =>
    intro l1 hlen _
    have : l1 = [] := List.length_eq_zero.1 hlen
    subst this
    exact Nat.le_refl _
  | cons a l ih =>
    intro l1 hlen hp
    cases l1 with
    | nil => cases hlen
    | cons b l1 =>
      have h1 := ih l1 (by simpa using hlen) fun i s s1 hs hs1 =>
        hp (i + 1) s s1 (by simpa using hs) (by simpa using hs1)
      have h0 := hp 0 a b (by simp) (by simp)
      rw [List.countP_cons, List.countP_cons]
      by_cases hb : p b = true
      · rw [if_pos hb, if_pos (h0 hb)]
        omega
      · rw [if_neg hb]
        split <;> omega

theorem countP_set_lt (p : Shared T → Bool) :
    ∀ (l : List (Shared T)) (i : Nat) (s s2 : Shared T), l[i]? = some s → p s = true →
      p s2 = false → (l.set i s2).countP p < l.countP p := by
  intro l
  induction l with
  | nil => intro i s s2 hs; cases hs
  | cons a l ih =>
    intro i s s2 hs hps hps2
    cases i with
    | zero =>
      simp only [List.getElem?_cons_zero, Option.some.injEq] at hs
      subst hs
      rw [List.set_cons_zero, List.countP_cons, List.countP_cons, if_pos hps]
      simp [hps2]
    | succ i =>
      have := ih i s s2 (by simpa using hs) hps hps2
      rw [List.set_cons_succ, List.countP_cons, List.countP_cons]
      omega

/-- Operations do not raise the number of pending futures. -/
theorem Heap.pendings_le (sel : Callback) (h h1 : Heap T) (g : h.Grows sel h1) :
    h1.pendings ≤ h.pendings := by
  refine countP_le_of_pointwise _ h.futures h1.futures g.1.1 fun i s s1 hs hs1 hp => ?_
  obtain ⟨s2, hs2, hst⟩ := g.1.2.2.1 i s hs
  rw [hs1] at hs2
  cases hs2
  by_contra hne
  have hne2 : s.state ≠ .PENDING := by simpa using hne
  rw [(hst hne2).1] at hp
  exact hne hp

theorem Heap.pendings_put_lt (h : Heap T) (i : Nat) (s s2 : Shared T)
    (hs : h.futures[i]? = some s) (hp : s.state = .PENDING) (h2 : s2.state ≠ .PENDING) :
    (h.put i s2).pendings < h.pendings :=
  countP_set_lt _ h.futures i s s2 hs (by simp [hp]) (by simp [h2])

theorem Heap.pendings_put_eq (h : Heap T) (i : Nat) (s s2 : Shared T) (p : World Nat)
    (hs : h.futures[i]? = some s) (h2 : s2.state = s.state) :
    ({ h.put i s2 with promise := p } : Heap T).pendings ≤ h.pendings := by
  refine countP_le_of_pointwise _ h.futures _ (List.length_set _ _ _) fun j sj s1 hj hj1 hp => ?_
  have hj2 : (h.futures.set i s2)[j]? = some s1 := hj1
  rw [List.getElem?_set] at hj2
  by_cases hij : i = j
  · subst hij
    rw [if_pos rfl] at hj2
    rw [hs] at hj
    cases hj
    split at hj2
    · cases hj2
      rw [← h2]
      exact hp
    · cases hj2
  · rw [if_neg hij, hj] at hj2
    cases hj2
    exact hp

theorem Heap.invoke_fuel (prog : Callback → Nat → Body T) (sel : Callback) (n m : Nat)
    (hm : n ≤ m) (c : Callback) (i : Nat) (h r : Heap T)
    (hi : Heap.invoke (Heap.exec prog sel n) prog sel c i h = .ok r) :
    Heap.invoke (Heap.exec prog sel m) prog sel c i h = .ok r :=
  Heap.invoke_mono _ _ (Heap.exec_mono prog sel n m hm) prog sel c i h r hi

theorem Heap.pop_other (sel : Callback) (i : Nat) (q : Queue) (h : Heap T) (s : Shared T)
    (c : Callback) (rest : List Callback) (hs : h.futures[i]? = some s)
    (hq : s.queue q = c :: rest) (hc : c ≠ sel) :
    Heap.pop sel i q h = .ok (h.put i (s.pop q)) := by
  simp only [Heap.pop, hs, hq, hc, if_false]

theorem Heap.free_depth (sel : Callback) (h : Heap T) (l : List (Nat × Event T)) (d : Nat)
    (hF : Heap.Free sel h) : Heap.Free sel { h with log := l, depth := d } := hF

/-- With callbacks that return on every heap with fewer than `P` pending
futures, the drain loop on a future that is not pending returns, given enough
fuel. -/
theorem Heap.drain_returns (prog : Callback → Nat → Body T) (sel : Callback)
    (hA : Heap.Apart sel prog) (P : Nat)
    (hlow : ∀ (c : Callback) (i : Nat) (h : Heap T), c ≠ sel → Heap.Free sel h →
      h.pendings < P → (∃ s, h.futures[i]? = some s) →
      ∃ N h1, Heap.invoke (Heap.exec prog sel N) prog sel c i h = .ok h1)
    (i : Nat) (q : Queue) : ∀ (cs : List Callback) (h : Heap T) (s : Shared T),
      h.futures[i]? = some s → s.state ≠ .PENDING → s.queue q = cs → Heap.Free sel h →
      h.pendings < P →
      ∃ N h1, Heap.drain (fun c i h1 => Heap.invoke (Heap.exec prog sel N) prog sel c i h1)
        sel i q N h = .ok h1 := by
  intro cs
  induction cs with
  | nil =>
    intro h s hs _ hq _ _
    exact ⟨0, h, Heap.drain_done _ sel i q 0 h s hs hq⟩
  | cons c rest ih =>
    intro h s hs hne hq hF hP
    have hc : c ≠ sel := by
      rintro rfl
      exact (hF i s hs).2 q (by rw [hq]; exact List.mem_cons_self _ _)
    obtain ⟨N1, ha, hinv⟩ := hlow c i h hc hF hP ⟨s, hs⟩
    obtain ⟨hg, -⟩ := Heap.invoke_spec prog sel N1 c i h ha s hs hne hinv
    obtain ⟨sa, hsa, hstay⟩ := hg.1.2.2.1 i s hs
    have hsane : sa.state ≠ .PENDING := by rw [(hstay hne).1]; exact hne
    have hqa : sa.queue q = c :: rest := (hg.2 i s sa q hs hsa hne trivial).trans hq
    have hFa : Heap.Free sel ha :=
      Heap.invoke_free sel _ (Heap.exec_free prog sel hA N1) prog hA c i h ha hc hF hinv
    have hPa : ha.pendings ≤ h.pendings := Heap.pendings_le sel h ha hg
    have hpop := Heap.pop_other sel i q ha sa c rest hsa hqa hc
    have hsb : (ha.put i (sa.pop q)).futures[i]? = some (sa.pop q) :=
      Heap.put_futures_self ha i _ sa hsa
    have hFb : Heap.Free sel (ha.put i (sa.pop q)) :=
      Heap.free_put sel ha i _ ha.promise hFa (shared_pop_free sel sa q (hFa i sa hsa))
    have hPb : (ha.put i (sa.pop q)).pendings ≤ ha.pendings :=
      Heap.pendings_put_eq ha i sa _ ha.promise hsa (pop_stays sa q hsane).1
    obtain ⟨N2, h1, hd⟩ := ih (ha.put i (sa.pop q)) (sa.pop q) hsb
      (by rw [(pop_stays sa q hsane).1]; exact hsane)
      (by rw [Shared.pop_queue, hqa]; rfl) hFb (by omega)
    refine ⟨max N1 N2 + 1, h1, ?_⟩
    simp only [Heap.drain, hs, hq,
      Heap.invoke_fuel prog sel N1 (max N1 N2 + 1) (by omega) c i h ha hinv, hpop]
    exact Heap.drain_mono _ _
      (fun c0 i0 h0 r0 h2 => Heap.invoke_fuel prog sel N2 (max N1 N2 + 1) (by omega) c0 i0 h0 r0 h2)
      sel i q N2 _ h1 hd (max N1 N2) (by omega)

theorem Heap.transition_returns (prog : Callback → Nat → Body T) (sel : Callback)
    (hA : Heap.Apart sel prog) (P : Nat)
    (hlow : ∀ (c : Callback) (i : Nat) (h : Heap T), c ≠ sel → Heap.Free sel h →
      h.pendings < P → (∃ s, h.futures[i]? = some s) →
      ∃ N h1, Heap.invoke (Heap.exec prog sel N) prog sel c i h = .ok h1)
    (i : Nat) (a : Action T) (ha : a.target.isSome = true) (h : Heap T) (hF : Heap.Free sel h)
    (hP : h.pendings ≤ P) :
    ∃ N b h1, Heap.transition
      (fun c i h1 => Heap.invoke (Heap.exec prog sel N) prog sel c i h1) sel N i a h =
        .ok (b, h1) := by
  cases hs : h.futures[i]? with
  | none => exact ⟨0, false, h, Heap.transition_none _ sel 0 i a h hs⟩
  | some s =>
    have hl := (hF i s hs).1
    by_cases hp : s.state = .PENDING
    · have hterm : (s.settle a).state ≠ .PENDING := settle_terminal s a ha
      obtain ⟨N, h1, hd⟩ := Heap.drain_returns prog sel hA P hlow i a.queue _ (h.put i (s.settle a))
        (s.settle a) (Heap.put_futures_self h i _ s hs) hterm rfl
        (Heap.free_put sel h i _ h.promise hF (shared_settle_free sel s a (hF i s hs)))
        (Nat.lt_of_lt_of_le (Heap.pendings_put_lt h i s _ hs hp hterm) hP)
      refine ⟨N, true, h1, ?_⟩
      rw [Heap.transition_pending _ sel N i a h s hs hl hp, hd]
    · exact ⟨0, false, h, Heap.transition_terminal _ sel 0 i a h s hs hl hp⟩

/-- One operation returns, given enough fuel, when the callbacks it can invoke
do: those queued, on heaps with fewer pending futures, and the one it
registers, of rank below `r`. -/
theorem Heap.exec_returns_step (prog : Callback → Nat → Body T) (sel : Callback)
    (hA : Heap.Apart sel prog) (rank : Callback → Nat) (P r : Nat)
    (hlow : ∀ (c : Callback) (i : Nat) (h : Heap T), c ≠ sel → Heap.Free sel h →
      h.pendings < P → (∃ s, h.futures[i]? = some s) →
      ∃ N h1, Heap.invoke (Heap.exec prog sel N) prog sel c i h = .ok h1)
    (hrank : ∀ (c : Callback) (i : Nat) (h : Heap T), rank c < r → c ≠ sel → Heap.Free sel h →
      h.pendings ≤ P → (∃ s, h.futures[i]? = some s) →
      ∃ N h1, Heap.invoke (Heap.exec prog sel N) prog sel c i h = .ok h1)
    (x : Nat × Action T) (h : Heap T) (hx : ∀ c1 ∈ x.2.registered, rank c1 < r ∧ c1 ≠ sel)
    (hF : Heap.Free sel h) (hP : h.pendings ≤ P) :
    ∃ N b h1, Heap.exec prog sel N x h = .ok (b, h1) := by
  obtain ⟨i, a⟩ := x
  have htrans : a.target.isSome = true →
      (∀ N, Heap.exec prog sel (N + 1) (i, a) h = Heap.transition
        (fun c i h1 => Heap.invoke (Heap.exec prog sel N) prog sel c i h1) sel N i a h) →
      ∃ N b h1, Heap.exec prog sel N (i, a) h = .ok (b, h1) := by
    intro ha he
    obtain ⟨N, b, h1, ht⟩ := Heap.transition_returns prog sel hA P hlow i a ha h hF hP
    exact ⟨N + 1, b, h1, (he N).trans ht⟩
  have hreg : ∀ (q : Queue) (c : Callback), rank c < r ∧ c ≠ sel →
      ∃ N h1, Heap.register
        (fun c i h1 => Heap.invoke (Heap.exec prog sel N) prog sel c i h1) sel i q c h =
          .ok h1 := by
    intro q c hc
    cases hs : h.futures[i]? with
    | none => exact ⟨0, h, Heap.register_none _ sel i q c h hs⟩
    | some s =>
      have hl := (hF i s hs).1
      by_cases hq : s.state = q.state
      · obtain ⟨N, h1, hi⟩ := hrank c i h hc.1 hc.2 hF hP ⟨s, hs⟩
        exact ⟨N, h1, (Heap.register_run _ sel i q c h s hs hl hq).trans hi⟩
      · by_cases hp : s.state = .PENDING
        · exact ⟨0, _, Heap.register_push _ sel i q c h s hs hl hp⟩
        · exact ⟨0, h, Heap.register_skip _ sel i q c h s hs hl hp hq⟩
  cases a with
  | set v => exact htrans rfl fun N => rfl
  | fail m => exact htrans rfl fun N => rfl
  | discard => exact htrans rfl fun N => rfl
  | onReady c =>
    obtain ⟨N, h1, hr⟩ := hreg .ready c (hx c (by simp [Action.registered]))
    exact ⟨N + 1, true, h1, by simp only [Heap.exec, Heap.perform, hr]; rfl⟩
  | onFailed c =>
    obtain ⟨N, h1, hr⟩ := hreg .failed c (hx c (by simp [Action.registered]))
    exact ⟨N + 1, true, h1, by simp only [Heap.exec, Heap.perform, hr]; rfl⟩
  | onDiscarded c =>
    obtain ⟨N, h1, hr⟩ := hreg .discarded c (hx c (by simp [Action.registered]))
    exact ⟨N + 1, true, h1, by simp only [Heap.exec, Heap.perform, hr]; rfl⟩
  | copy => exact ⟨1, true, Heap.copy i h, rfl⟩
  | cleanup =>
    have hout : ∀ N h1, Heap.cleanup
        (fun c i h1 => Heap.invoke (Heap.exec prog sel N) prog sel c i h1) sel N i h = .ok h1 →
        ∃ N b h1, Heap.exec prog sel N (i, .cleanup) h = .ok (b, h1) := by
      intro N h1 hc
      exact ⟨N + 1, true, h1, by simp only [Heap.exec, Heap.perform, hc]; rfl⟩
    cases hs : h.futures[i]? with
    | none => exact hout 0 h (by simp [Heap.cleanup, hs])
    | some s =>
      by_cases hp : s.state = .PENDING
      · by_cases hz : s.refs - 1 = 0
        · have hF1 : Heap.Free sel (h.put i { s with refs := 1 }) :=
            Heap.free_put sel h i _ h.promise hF
              ⟨(hF i s hs).1, fun q hm => (hF i s hs).2 q (by cases q <;> exact hm)⟩
          have hP1 : (h.put i { s with refs := 1 }).pendings ≤ h.pendings :=
            Heap.pendings_put_eq h i s _ h.promise hs rfl
          obtain ⟨N, b, h2, ht⟩ := Heap.transition_returns prog sel hA P hlow i .discard rfl
            (h.put i { s with refs := 1 }) hF1 (by omega)
          have hcl : ∃ h1, Heap.cleanup
              (fun c i h1 => Heap.invoke (Heap.exec prog sel N) prog sel c i h1) sel N i h =
                .ok h1 := by
            unfold Heap.cleanup
            rw [hs]
            simp only
            rw [if_pos hz, if_pos hp, ht]
            simp only
            cases h2.futures[i]? with
            | none => exact ⟨_, rfl⟩
            | some s2 =>
              simp only
              by_cases hz2 : s2.refs - 1 = 0
              · rw [if_pos hz2]
                exact ⟨_, rfl⟩
              · rw [if_neg hz2]
                exact ⟨_, rfl⟩
          obtain ⟨h1, hc⟩ := hcl
          exact hout N h1 hc
        · refine hout 0 (h.put i { s with refs := s.refs - 1 }) ?_
          unfold Heap.cleanup
          rw [hs]
          simp only
          rw [if_neg hz]
      · exact hout 0 _ (Heap.cleanup_terminal _ sel 0 i h s hs hp)

theorem Heap.runBody_returns (prog : Callback → Nat → Body T) (sel : Callback)
    (hA : Heap.Apart sel prog) (P : Nat) :
    ∀ (body : Body T), (∀ x ∈ body, sel ∉ x.2.registered) →
      (∀ x ∈ body, ∀ (h : Heap T), Heap.Free sel h → h.pendings ≤ P →
        ∃ N b h1, Heap.exec prog sel N x h = .ok (b, h1)) →
      ∀ (h : Heap T), Heap.Free sel h → h.pendings ≤ P →
        ∃ N h1, Heap.runBody (Heap.exec prog sel N) body h = .ok h1 := by
  intro body
  induction body with
  | nil => intro _ _ h _ _; exact ⟨0, h, rfl⟩
  | cons x rest ih =>
    intro hb hex h hF hP
    obtain ⟨N1, b, ha, h1⟩ := hex x (List.mem_cons_self _ _) h hF hP
    have hFa := Heap.exec_free prog sel hA N1 x h b ha (hb x (List.mem_cons_self _ _)) hF h1
    have hPa := Heap.pendings_le sel h ha (Heap.exec_grows prog sel N1 x h b ha h1)
    obtain ⟨N2, hr, h2⟩ := ih (fun y hy => hb y (List.mem_cons_of_mem _ hy))
      (fun y hy => hex y (List.mem_cons_of_mem _ hy)) ha hFa (by omega)
    refine ⟨max N1 N2, hr, ?_⟩
    simp only [Heap.runBody, Heap.exec_mono prog sel N1 (max N1 N2) (by omega) x h _ h1]
    exact Heap.runBody_mono _ _ (Heap.exec_mono prog sel N2 (max N1 N2) (by omega)) rest ha hr h2

/-- With ranked callbacks that do not register the callback of `select`, every
callback returns on every heap with free guards, given enough fuel. -/
theorem Heap.call_returns (prog : Callback → Nat → Body T) (sel : Callback)
    (hA : Heap.Apart sel prog) (rank : Callback → Nat) (hR : Heap.Ranked prog rank) :
    ∀ (P r : Nat) (c : Callback) (i : Nat) (h : Heap T), rank c < r → c ≠ sel →
      Heap.Free sel h → h.pendings ≤ P → (∃ s, h.futures[i]? = some s) →
      ∃ N h1, Heap.invoke (Heap.exec prog sel N) prog sel c i h = .ok h1 := by
  have hstep : ∀ P : Nat,
      (∀ (c : Callback) (i : Nat) (h : Heap T), c ≠ sel → Heap.Free sel h →
        h.pendings < P → (∃ s, h.futures[i]? = some s) →
        ∃ N h1, Heap.invoke (Heap.exec prog sel N) prog sel c i h = .ok h1) →
      ∀ (r : Nat) (c : Callback) (i : Nat) (h : Heap T), rank c < r → c ≠ sel →
        Heap.Free sel h → h.pendings ≤ P → (∃ s, h.futures[i]? = some s) →
        ∃ N h1, Heap.invoke (Heap.exec prog sel N) prog sel c i h = .ok h1 := by
    intro P hlow r
    induction r with
    | zero => intro c i h hr; omega
    | succ r ihr =>
      intro c i h hr hc hF hP hex
      obtain ⟨s, hs⟩ := hex
      have hbody := Heap.runBody_returns prog sel hA P (prog c i) (hA c i)
        (fun x hx h0 hF0 hP0 => Heap.exec_returns_step prog sel hA rank P (rank c) hlow
          (fun c1 i1 h1 hr1 hc1 hF1 hP1 he1 => ihr c1 i1 h1 (by omega) hc1 hF1 hP1 he1)
          x h0 (fun c1 hc1 => ⟨hR c i x hx c1 hc1, fun h2 => hA c i x hx (h2 ▸ hc1)⟩) hF0 hP0)
        { h with log := h.log ++ [(i, { callback := c, depth := h.depth, arg := s })],
                 depth := h.depth + 1 } hF hP
      obtain ⟨N, hb, hrun⟩ := hbody
      refine ⟨N, { hb with depth := h.depth }, ?_⟩
      simp only [Heap.invoke, hs, hc, if_false, hrun]
  intro P
  induction P with
  | zero =>
    exact hstep 0 fun c i h _ _ hP _ => absurd hP (Nat.not_lt_zero _)
  | succ P ihP =>
    exact hstep (P + 1) fun c i h hc hF hP hex =>
      ihP (rank c + 1) c i h (Nat.lt_succ_self _) hc hF (by omega) hex

theorem rank_le_sum (rank : Callback → Nat) :
    ∀ (l : List Callback) (c : Callback), c ∈ l → rank c ≤ (l.map rank).sum := by
  intro l
  induction l with
  | nil => intro c hc; cases hc
  | cons a l ih =>
    intro c hc
    rcases List.mem_cons.1 hc with rfl | hc
    · simp
    · have := ih c hc
      simp only [List.map_cons, List.sum_cons]
      omega

/-- With ranked callbacks, free guards and no `select` under way, every
operation returns, given enough fuel. -/
theorem Heap.exec_returns (prog : Callback → Nat → Body T) (sel : Callback)
    (hA : Heap.Apart sel prog) (rank : Callback → Nat) (hR : Heap.Ranked prog rank)
    (x : Nat × Action T) (h : Heap T) (hx : sel ∉ x.2.registered) (hF : Heap.Free sel h) :
    ∃ N b h1, Heap.exec prog sel N x h = .ok (b, h1) := by
  refine Heap.exec_returns_step prog sel hA rank h.pendings ((x.2.registered.map rank).sum + 1)
    (fun c i h0 hc hF0 hP0 he => Heap.call_returns prog sel hA rank hR h.pendings (rank c + 1)
      c i h0 (Nat.lt_succ_self _) hc hF0 (by omega) he)
    (fun c i h0 _ hc hF0 hP0 he => Heap.call_returns prog sel hA rank hR h.pendings (rank c + 1)
      c i h0 (Nat.lt_succ_self _) hc hF0 hP0 he)
    x h (fun c1 hc1 => ⟨?_, fun h2 => hx (h2 ▸ hc1)⟩) hF (Nat.le_refl _)
  have := rank_le_sum rank _ c1 hc1
  omega

theorem Heap.run_free (prog : Callback → Nat → Body T) (sel : Callback)
    (hA : Heap.Apart sel prog) (n : Nat) : ∀ (ops : Body T) (h h1 : Heap T),
      (∀ x ∈ ops, sel ∉ x.2.registered) → Heap.Free sel h →
      Heap.run prog sel n ops h = .ok h1 → Heap.Free sel h1 := by
  intro ops
  induction ops with
  | nil =>
    intro h h1 _ hF hr
    simp only [Heap.run, Except.ok.injEq] at hr
    subst hr
    exact hF
  | cons x rest ih =>
    intro h h1 hb hF hr
    simp only [Heap.run] at hr
    cases hx : Heap.exec prog sel n x h with
    | error e => rw [hx] at hr; cases hr
    | ok r =>
      obtain ⟨b, h2⟩ := r
      rw [hx] at hr
      exact ih h2 h1 (fun y hy => hb y (List.mem_cons_of_mem _ hy))
        (Heap.exec_free prog sel hA n x h b h2 (hb x (List.mem_cons_self _ _)) hF hx) hr

theorem Heap.run_returns (prog : Callback → Nat → Body T) (sel : Callback)
    (hA : Heap.Apart sel prog) (rank : Callback → Nat) (hR : Heap.Ranked prog rank) :
    ∀ (ops : Body T) (h : Heap T), (∀ x ∈ ops, sel ∉ x.2.registered) → Heap.Free sel h →
      ∃ N h1, Heap.run prog sel N ops h = .ok h1 := by
  intro ops
  induction ops with
  | nil => intro h _ _; exact ⟨0, h, rfl⟩
  | cons x rest ih =>
    intro h hb hF
    obtain ⟨N1, b, ha, h1⟩ := Heap.exec_returns prog sel hA rank hR x h
      (hb x (List.mem_cons_self _ _)) hF
    have hFa := Heap.exec_free prog sel hA N1 x h b ha (hb x (List.mem_cons_self _ _)) hF h1
    obtain ⟨N2, hr, h2⟩ := ih ha (fun y hy => hb y (List.mem_cons_of_mem _ hy)) hFa
    refine ⟨max N1 N2, hr, ?_⟩
    simp only [Heap.run, Heap.exec_mono prog sel N1 (max N1 N2) (by omega) x h _ h1]
    exact Heap.run_mono prog sel N2 (max N1 N2) (by omega) rest ha hr h2

theorem Heap.discard_mono (prog : Callback → Nat → Body T) (sel : Callback) (n m : Nat)
    (hm : n ≤ m) (between : Nat → Body T) : ∀ (is : List Nat) (h r : Heap T),
      Heap.discard prog sel n between is h = .ok r →
      Heap.discard prog sel m between is h = .ok r := by
  intro is
  induction is with
  | nil => intro h r hr; exact hr
  | cons i rest ih =>
    intro h r hr
    simp only [Heap.discard] at hr ⊢
    cases hrun : Heap.run prog sel n (between i) h with
    | error e => rw [hrun] at hr; cases hr
    | ok h0 =>
      rw [hrun] at hr
      rw [Heap.run_mono prog sel n m hm _ h h0 hrun]
      simp only at hr ⊢
      cases hx : Heap.exec prog sel n (i, .discard) (Heap.copy i h0) with
      | error e => rw [hx] at hr; cases hr
      | ok r1 =>
        obtain ⟨b, ha⟩ := r1
        rw [hx] at hr
        rw [Heap.exec_mono prog sel n m hm _ _ _ hx]
        simp only at hr ⊢
        cases hy : Heap.exec prog sel n (i, .cleanup) ha with
        | error e => rw [hy] at hr; cases hr
        | ok r2 =>
          obtain ⟨b2, hb⟩ := r2
          rw [hy] at hr
          rw [Heap.exec_mono prog sel n m hm _ _ _ hy]
          exact ih hb r hr

/-- With ranked callbacks, free guards and no `select` under way, `discard` on
a set of futures returns, given enough fuel. -/
theorem Heap.discard_returns (prog : Callback → Nat → Body T) (sel : Callback)
    (hA : Heap.Apart sel prog) (rank : Callback → Nat) (hR : Heap.Ranked prog rank)
    (between : Nat → Body T) (hB : ∀ i, ∀ x ∈ between i, sel ∉ x.2.registered) :
    ∀ (is : List Nat) (h : Heap T), Heap.Free sel h →
      ∃ N h1, Heap.discard prog sel N between is h = .ok h1 := by
  intro is
  induction is with
  | nil => intro h _; exact ⟨0, h, rfl⟩
  | cons i rest ih =>
    intro h hF
    obtain ⟨N0, h0, hrun⟩ := Heap.run_returns prog sel hA rank hR (between i) h (hB i) hF
    have hF0 := Heap.run_free prog sel hA N0 _ h h0 (hB i) hF hrun
    have hFc : Heap.Free sel (Heap.copy i h0) := by
      unfold Heap.copy
      cases hs : h0.futures[i]? with
      | none => exact hF0
      | some s =>
        exact Heap.free_put sel h0 i _ h0.promise hF0
          ⟨(hF0 i s hs).1, fun q hm => (hF0 i s hs).2 q (by cases q <;> exact hm)⟩
    obtain ⟨N1, b, ha, h1⟩ := Heap.exec_returns prog sel hA rank hR (i, .discard) (Heap.copy i h0)
      (by simp [Action.registered]) hFc
    have hFa := Heap.exec_free prog sel hA N1 _ _ b ha (by simp [Action.registered]) hFc h1
    obtain ⟨N2, b2, hb, h2⟩ := Heap.exec_returns prog sel hA rank hR (i, .cleanup) ha
      (by simp [Action.registered]) hFa
    have hFb := Heap.exec_free prog sel hA N2 _ _ b2 hb (by simp [Action.registered]) hFa h2
    obtain ⟨N3, hr, h3⟩ := ih hb hFb
    refine ⟨max (max N0 N1) (max N2 N3), hr, ?_⟩
    simp only [Heap.discard,
      Heap.run_mono prog sel N0 (max (max N0 N1) (max N2 N3)) (by omega) _ h h0 hrun,
      Heap.exec_mono prog sel N1 (max (max N0 N1) (max N2 N3)) (by omega) _ _ _ h1,
      Heap.exec_mono prog sel N2 (max (max N0 N1) (max N2 N3)) (by omega) _ _ _ h2]
    exact Heap.discard_mono prog sel N3 _ (by omega) between rest hb hr h3

end Lemmas

/-! ## The claims -/

section Claims

/-- C1: with the guard free at the call, `set(v)`, `fail(m)` and `discard()`
each return true exactly when the state is PENDING at the call, and a call that
returns true leaves the state READY with value `v`, FAILED with message `m`,
DISCARDED respectively; with callbacks whose registrations are well founded
each call does return once the fuel covers the queues and ranks. -/
theorem C1_transition_true_iff_pending {T : Type} (prog : Callback → List (Action T))
    (w : World T) (v : T) (m : String) (hl : w.fut.lock = 0) :
    (∀ n b w1, exec prog n (.set v) w = .ok (b, w1) →
      (b = true ↔ w.fut.state = .PENDING) ∧
        (b = true → w1.fut.state = .READY ∧ w1.fut.t = some v)) ∧
    (∀ n b w1, exec prog n (.fail m) w = .ok (b, w1) →
      (b = true ↔ w.fut.state = .PENDING) ∧
        (b = true → w1.fut.state = .FAILED ∧ w1.fut.message = some m)) ∧
    (∀ n b w1, exec prog n .discard w = .ok (b, w1) →
      (b = true ↔ w.fut.state = .PENDING) ∧ (b = true → w1.fut.state = .DISCARDED)) ∧
    (∀ rank, Ranked prog rank → ∀ a ∈ [Action.set v, .fail m, .discard], ∀ n,
      fuelFor rank a w ≤ n → ∃ b w1, exec prog n a w = .ok (b, w1)) := by
  refine ⟨?_, ?_, ?_, ?_⟩
  · intro n b w1 h
    obtain ⟨h1, -, h3⟩ := exec_transition prog n (.set v) rfl w b w1 h
    refine ⟨h1, fun hb => ?_⟩
    obtain ⟨hc, -⟩ := h3 hb
    exact ⟨hc.1, hc.2.1⟩
  · intro n b w1 h
    obtain ⟨h1, -, h3⟩ := exec_transition prog n (.fail m) rfl w b w1 h
    refine ⟨h1, fun hb => ?_⟩
    obtain ⟨hc, -⟩ := h3 hb
    exact ⟨hc.1, hc.2.2.1⟩
  · intro n b w1 h
    obtain ⟨h1, -, h3⟩ := exec_transition prog n .discard rfl w b w1 h
    refine ⟨h1, fun hb => ?_⟩
    obtain ⟨hc, -⟩ := h3 hb
    exact hc.1
  · intro rank hr a _ n hn
    obtain ⟨⟨b, w1⟩, h⟩ := exec_total prog rank hr a w hl n hn
    exact ⟨b, w1, h⟩

/-- On a pending future with the re-entrant callback 1 queued, `set 42`
returns true and leaves the state READY with value 42. -/
theorem C1_witness :
    ∃ b w1, exec reentrant 3 (.set 42)
        { (World.init : World Nat) with fut := { Future.init with onReadyCallbacks := [1] } }
        = .ok (b, w1)
      ∧ b = true ∧ w1.fut.state = .READY ∧ w1.fut.t = some 42 := by
  have h := C1_transition_true_iff_pending reentrant
    { (World.init : World Nat) with fut := { Future.init with onReadyCallbacks := [1] } }
    42 "late" rfl
  obtain ⟨b, w1, hx⟩ := h.2.2.2 id ranked_reentrant (.set 42) (by simp) 3 (by decide)
  have hb : b = true := (h.1 3 b w1 hx).1.2 rfl
  exact ⟨b, w1, hx, hb, (h.1 3 b w1 hx).2 hb⟩


/-- C2: on a future that is already READY, FAILED or DISCARDED (guard free),
`set`, `fail` and `discard` return false and hand back the very same world:
state tag, value, message, the three queues, the latch, the reference count
and the record of callback invocations are all unchanged. -/
theorem C2_terminal_transition_is_noop {T : Type} (prog : Callback → List (Action T))
    (w : World T) (v : T) (m : String) (n : Nat) (hw : w.fut.state ≠ .PENDING)
    (hl : w.fut.lock = 0) :
    exec prog (n + 1) (.set v) w = .ok (false, w) ∧
    exec prog (n + 1) (.fail m) w = .ok (false, w) ∧
    exec prog (n + 1) .discard w = .ok (false, w) :=
  ⟨exec_transition_terminal prog n (.set v) rfl w hw hl,
   exec_transition_terminal prog n (.fail m) rfl w hw hl,
   exec_transition_terminal prog n .discard rfl w hw hl⟩

/-- The scenario of the spec: on a fresh promise `set(42)` succeeds, then
`set(43)` returns false, changes nothing, and `get()` is still 42. -/
theorem C2_witness :
    ∃ w1 : World Nat, exec idle 1 (.set 42) Promise.init = .ok (true, w1) ∧
      exec idle 1 (.set 43) w1 = .ok (false, w1) ∧
      ∀ latchAwait, Future.get latchAwait w1.fut = .ok (42, w1.fut) :=
  ⟨answered, rfl,
    (C2_terminal_transition_is_noop idle answered 43 "no" 0 (by decide) rfl).1,
    fun latchAwait => get_ready latchAwait _ 42 rfl rfl⟩

/-- C3: for every finite sequence of `set`/`fail` calls through copies of a
promise and `discard` calls through futures obtained from it (handle copies and
`future()` calls in between), starting from a freshly constructed promise, all
calls return, the first transition call returns true, every later one returns
false, and the final state is the one selected by the first: READY with its
value, FAILED with its message, or DISCARDED. -/
theorem C3_first_transition_wins {T : Type} (prog : Callback → List (Action T))
    (calls : List (Promise.Call T)) (n : Nat) :
    ∃ bs w, execAll prog (n + 1) (calls.map Promise.Call.action) Promise.init = .ok (bs, w) ∧
      bs.length = calls.length ∧
      match calls.filter Promise.Call.isTransition with
      | [] => Promise.results calls bs = [] ∧ w.fut.state = .PENDING
      | first :: later =>
        Promise.results calls bs = true :: later.map (fun _ => false) ∧
          Promise.Selected first w.fut :=
  calls_from_pending prog n calls Promise.init rfl rfl (fun q => by cases q <;> rfl) rfl rfl

/-- The spec scenario behind C3: `f.discard()` returns true on a fresh promise,
the state is DISCARDED, and a following `p.set(1)` returns false. -/
theorem C3_witness :
    ∃ bs, ∃ w : World Nat, execAll idle 1
        ([Promise.Call.future, .discard, .set 1].map Promise.Call.action) Promise.init
        = .ok (bs, w) ∧
      Promise.results [Promise.Call.future, .discard, .set 1] bs = [true, false]
      ∧ Future.discarded w.fut = true := by
  obtain ⟨bs, w, h1, -, h3⟩ := C3_first_transition_wins idle
    [Promise.Call.future, .discard, .set 1] 0
  have h4 : Promise.results [Promise.Call.future, .discard, .set 1] bs = [true, false] ∧
      Promise.Selected (Promise.Call.discard : Promise.Call Nat) w.fut := h3
  exact ⟨bs, w, h1, h4.1, by simp [Future.discarded, h4.2.1]⟩

/-- C4: once the state is READY, FAILED or DISCARDED no operation of the
interface changes the state tag: `set`, `fail`, `discard`, `onReady`,
`onFailed`, `onDiscarded`, copying a handle and destroying one (all through
`exec`, whatever the callbacks do), `await`, `get` and assignment; `failure`
and the four state tests are functions of the block and return no new block.
With well-founded callbacks and the guard free the operations do return. -/
theorem C4_state_tag_monotonic {T : Type} (prog : Callback → List (Action T)) (w : World T)
    (hw : w.fut.state ≠ .PENDING) :
    (∀ n a b w1, exec prog n a w = .ok (b, w1) → w1.fut.state = w.fut.state) ∧
    (∀ latchAwait secs, Future.await latchAwait secs w.fut = .ok (true, w.fut)) ∧
    (∀ latchAwait v s1, Future.get latchAwait w.fut = .ok (v, s1) → s1.state = w.fut.state) ∧
    (∀ n sameObject thisHere thatHere w1,
      Future.assign (callWith prog (exec prog n)) n sameObject thisHere thatHere w = .ok w1 →
        w1.fut.state = w.fut.state) ∧
    (∀ rank, Ranked prog rank → w.fut.lock = 0 → ∀ a n, fuelFor rank a w ≤ n →
      ∃ b w1, exec prog n a w = .ok (b, w1)) := by
  refine ⟨?_, ?_, ?_, ?_, ?_⟩
  · intro n a b w1 h
    exact (exec_frozen prog n a w (b, w1) hw h).state
  · intro latchAwait secs
    exact await_terminal latchAwait secs w.fut hw
  · intro latchAwait v s1 h
    rw [get_terminal_block latchAwait w.fut hw v s1 h]
  · intro n sameObject thisHere thatHere w1 h
    exact assign_terminal_state _ n sameObject thisHere thatHere w w1 hw h
  · intro rank hr hl a n hn
    obtain ⟨⟨b, w1⟩, h⟩ := exec_total prog rank hr a w hl n hn
    exact ⟨b, w1, h⟩

/-- On the failed future `broken`, registering the re-entrant callback 1 with
`onFailed` runs it at once, and the state is still FAILED afterwards. -/
theorem C4_witness :
    ∃ b w1, exec reentrant 3 (.onFailed 1) broken = .ok (b, w1) ∧
      w1.log.length = 2 ∧ w1.fut.state = .FAILED := by
  have h := C4_state_tag_monotonic reentrant broken (by decide)
  obtain ⟨b, w1, hx⟩ := h.2.2.2.2 id ranked_reentrant rfl (.onFailed 1) 3 (by decide)
  refine ⟨b, w1, hx, ?_, h.1 3 (.onFailed 1) b w1 hx⟩
  have h4 : ∃ r, exec reentrant 3 (.onFailed 1) broken = .ok r ∧ r.2.log.length = 2 :=
    ⟨_, rfl, rfl⟩
  obtain ⟨r, h5, h6⟩ := h4
  rw [h5] at hx
  simp only [Except.ok.injEq] at hx
  subst hx
  exact h6

/-- C5: in every world reachable from a freshly constructed future (default or
valued constructor) by any sequence of operations, whatever the callbacks do,
the value slot is non-null exactly when the state is READY and the message slot
is non-null exactly when the state is FAILED, so the two are never both
populated; the same holds of every block a callback was handed. -/
theorem C5_slots_match_state {T : Type} (prog : Callback → List (Action T)) (w : World T)
    (h : Reachable prog w) :
    (w.fut.t.isSome = true ↔ w.fut.state = .READY) ∧
    (w.fut.message.isSome = true ↔ w.fut.state = .FAILED) ∧
    ¬ (w.fut.t.isSome = true ∧ w.fut.message.isSome = true) ∧
    ∀ e ∈ w.log, (e.arg.t.isSome = true ↔ e.arg.state = .READY) ∧
      (e.arg.message.isSome = true ↔ e.arg.state = .FAILED) := by
  obtain ⟨⟨h1, h2⟩, h3⟩ := reachable_sound prog w h
  refine ⟨h1, h2, ?_, fun e he => h3 e he⟩
  rintro ⟨h4, h5⟩
  rw [h1] at h4
  rw [h2, h4] at h5
  cases h5

/-- The failed future `broken` is reachable (a fresh future, then
`fail("boom")`), its message slot is populated and its value slot is not. -/
theorem C5_witness :
    Reachable idle broken ∧ broken.fut.message.isSome = true ∧ broken.fut.t.isSome = false := by
  have hr : Reachable idle broken :=
    Reachable.step 1 (.fail "boom") World.init true broken Reachable.init rfl
  have h := C5_slots_match_state idle broken hr
  refine ⟨hr, h.2.1.2 rfl, ?_⟩
  cases ht : broken.fut.t.isSome with
  | false => rfl
  | true => exact absurd (h.1.1 ht) (by decide)

/-- C6: once `set(v)` has succeeded, `ready()` is true and `get()` returns `v`
whatever the latch would do (it neither waits nor aborts); this stays so after
any later operations through any handle (copies included): every later `set`,
`fail` or `discard` returns false, and `get()` still returns `v`. -/
theorem C6_get_returns_set_value {T : Type} (prog : Callback → List (Action T)) (w : World T)
    (v : T) (n : Nat) (w1 : World T) (hset : exec prog n (.set v) w = .ok (true, w1)) :
    Future.ready w1.fut = true ∧
    (∀ latchAwait, Future.get latchAwait w1.fut = .ok (v, w1.fut)) ∧
    ∀ k ops bs w2, execAll prog k ops w1 = .ok (bs, w2) →
      Future.ready w2.fut = true ∧
      (∀ latchAwait, Future.get latchAwait w2.fut = .ok (v, w2.fut)) ∧
      ∀ p ∈ ops.zip bs, p.1.target.isSome = true → p.2 = false := by
  obtain ⟨h1, h2⟩ := set_won prog n v w w1 hset
  refine ⟨by simp [Future.ready, h1], fun latchAwait => get_ready latchAwait _ v h1 h2, ?_⟩
  intro k ops bs w2 h
  obtain ⟨hf, hb⟩ := execAll_frozen prog k ops w1 w2 bs (by rw [h1]; decide) h
  have h3 : w2.fut.state = .READY := by rw [hf.state, h1]
  have h4 : w2.fut.t = some v := by rw [hf.1.2.1, h2]
  exact ⟨by simp [Future.ready, h3], fun latchAwait => get_ready latchAwait _ v h3 h4, hb⟩

/-- After `set(42)` succeeded on a fresh promise, a failed `fail`, a handle
copy and a failed `discard` later, `get()` is still 42. -/
theorem C6_witness :
    exec idle 1 (.set 42) World.init = .ok (true, answered) ∧
      ∃ bs w2, execAll idle 1 [.fail "late", .copy, .discard] answered = .ok (bs, w2) ∧
        ∀ latchAwait, Future.get latchAwait w2.fut = .ok (42, w2.fut) := by
  have h := C6_get_returns_set_value idle World.init 42 1 answered rfl
  have h4 : ∃ r, execAll idle 1 [.fail "late", .copy, .discard] answered = .ok r := ⟨_, rfl⟩
  obtain ⟨⟨bs, w2⟩, h5⟩ := h4
  exact ⟨rfl, bs, w2, h5, (h.2.2 1 _ bs w2 h5).2.1⟩

/-- C7: after any sequence of operations on a freshly constructed future,
`failure()` returns `some m` exactly when the state is FAILED and `m` is the
message of the `fail(m)` call that returned true; in state FAILED it does
return a message, and in states PENDING, READY and DISCARDED it returns
none. -/
theorem C7_failure_is_failed_message {T : Type} (prog : Callback → List (Action T)) (n : Nat)
    (ops : List (Action T)) (bs : List Bool) (w : World T)
    (h : execAll prog n ops World.init = .ok (bs, w)) :
    (∀ m, Future.failure w.fut = some m ↔
      w.fut.state = .FAILED ∧ (Action.fail m, true) ∈ ops.zip bs) ∧
    (w.fut.state = .FAILED → ∃ m, Future.failure w.fut = some m) ∧
    (w.fut.state = .PENDING ∨ w.fut.state = .READY ∨ w.fut.state = .DISCARDED →
      Future.failure w.fut = none) := by
  obtain ⟨-, hs2⟩ := (execAll_sound prog n ops World.init w bs init_sound h).1
  have hmsg := fun m => execAll_message prog n m ops World.init w bs init_sound h
  refine ⟨?_, ?_, ?_⟩
  · intro m
    have hinit : (World.init : World T).fut.message = none ∧
        (World.init : World T).fut.state = .PENDING := ⟨rfl, rfl⟩
    have hm2 : w.fut.message = some m ↔ (Action.fail m, true) ∈ ops.zip bs := by
      rw [hmsg m, hinit.1, hinit.2]; simp
    rw [failure_eq]
    constructor
    · intro h1
      exact ⟨hs2.1 (by rw [h1]; rfl), hm2.1 h1⟩
    · intro h1; exact hm2.2 h1.2
  · intro hf
    have h1 := hs2.2 hf
    cases hm : w.fut.message with
    | none => rw [hm] at h1; cases h1
    | some m => exact ⟨m, by rw [failure_eq, hm]⟩
  · intro hst
    rw [failure_eq]
    cases hm : w.fut.message with
    | none => rfl
    | some m =>
      have h1 := hs2.1 (by rw [hm]; rfl)
      rw [h1] at hst
      simp at hst

/-- On a fresh future, `fail("boom")` wins, a later `fail("late")` and `set`
lose, and `failure()` is `some "boom"`. -/
theorem C7_witness :
    ∃ bs, ∃ w : World Nat,
      execAll idle 2 [.onFailed 3, .fail "boom", .fail "late", .set 7] World.init = .ok (bs, w) ∧
      Future.failure w.fut = some "boom" ∧ Future.failure w.fut ≠ some "late" := by
  have h4 : ∃ r, execAll idle 2 [.onFailed 3, .fail "boom", .fail "late", .set 7]
      (World.init : World Nat) = .ok r ∧ r.1 = [true, true, false, false] ∧
      r.2.fut.state = .FAILED := ⟨_, rfl, rfl, rfl⟩
  obtain ⟨⟨bs, w⟩, h5, h6, h7⟩ := h4
  simp only at h6 h7
  have h := C7_failure_is_failed_message idle 2 _ bs w h5
  refine ⟨bs, w, h5, (h.1 "boom").2 ⟨h7, by rw [h6]; decide⟩, ?_⟩
  intro h8
  have h9 := ((h.1 "late").1 h8).2
  rw [h6] at h9
  revert h9
  decide

/-- C8: `get()` ends in `abort()` exactly when the future is not READY after
its wait.  On a FAILED or DISCARDED future it aborts; on a READY future it does
not abort, and it returns the stored value when the slot is populated (as it is
on every reachable READY block); on a PENDING future whose wait ends with the
block `s1`, it aborts exactly when `s1` is not READY, and if the wait never
ends neither does `get()`; whenever `get()` returns a value the block is READY
with that value. -/
theorem C8_get_aborts_unless_ready {T : Type}
    (latchAwait : Secs → Shared T → Except Fault (Bool × Shared T)) (s : Shared T) :
    (s.state = .FAILED ∨ s.state = .DISCARDED → Future.get latchAwait s = .error .abort) ∧
    (s.state = .READY → Future.get latchAwait s ≠ .error .abort ∧
      ∀ v, s.t = some v → Future.get latchAwait s = .ok (v, s)) ∧
    (s.state = .PENDING → ∀ b s1, latchAwait 0 s = .ok (b, s1) →
      (Future.get latchAwait s = .error .abort ↔ s1.state ≠ .READY)) ∧
    (s.state = .PENDING → ∀ e, latchAwait 0 s = .error e → Future.get latchAwait s = .error e) ∧
    (∀ v s1, Future.get latchAwait s = .ok (v, s1) → s1.state = .READY ∧ s1.t = some v) := by
  refine ⟨?_, ?_, ?_, ?_, ?_⟩
  · intro h
    apply get_not_ready latchAwait s <;> rcases h with h | h <;> rw [h] <;> decide
  · intro h
    refine ⟨?_, fun v hv => get_ready latchAwait s v h hv⟩
    cases ht : s.t with
    | none => simp [Future.get, Future.ready, h, ht]
    | some v => rw [get_ready latchAwait s v h ht]; simp
  · intro h b s1 hl
    rw [get_pending latchAwait s h, hl]
    by_cases hr : s1.state = .READY
    · simp only [if_pos hr]
      cases s1.t <;> simp [hr]
    · simp [hr]
  · intro h e hl
    rw [get_pending latchAwait s h, hl]
  · intro v s1 h
    exact get_ok_ready latchAwait s v s1 h

/-- The three outcomes on concrete futures: `get()` aborts on the failed future
`broken`; on a fresh future that is discarded while `get()` waits it aborts;
on a fresh future that is set to 7 while `get()` waits it does not abort; on a
fresh future that nobody resolves it blocks. -/
theorem C8_witness :
    Future.get neverWakes broken.fut = .error .abort ∧
    Future.get discardedMeanwhile Future.init = .error .abort ∧
    Future.get setMeanwhile Future.init ≠ .error .abort ∧
    Future.get neverWakes Future.init = .error .blocked :=
  ⟨(C8_get_aborts_unless_ready neverWakes broken.fut).1 (Or.inl rfl),
   ((C8_get_aborts_unless_ready discardedMeanwhile Future.init).2.2.1 rfl true _ rfl).2
     (by decide),
   fun h => ((C8_get_aborts_unless_ready setMeanwhile Future.init).2.2.1 rfl true _ rfl).1 h rfl,
   (C8_get_aborts_unless_ready neverWakes Future.init).2.2.2.1 rfl _ rfl⟩

/-- C9: for every timeout, `await` on a READY, FAILED or DISCARDED future
returns true with the block untouched, whatever the latch would answer (it is
not consulted); on a PENDING future it returns exactly what `latch->await`
returns for that timeout. -/
theorem C9_await_terminal_or_latch {T : Type}
    (latchAwait : Secs → Shared T → Except Fault (Bool × Shared T)) (secs : Secs)
    (s : Shared T) :
    (s.state ≠ .PENDING → Future.await latchAwait secs s = .ok (true, s)) ∧
    (s.state = .PENDING → Future.await latchAwait secs s = latchAwait secs s) :=
  ⟨await_terminal latchAwait secs s, await_pending latchAwait secs s⟩

/-- On the failed future `broken`, `await` returns true even with a latch that
would block for ever; on a fresh future it blocks with that latch. -/
theorem C9_witness :
    Future.await neverWakes 5 broken.fut = .ok (true, broken.fut) ∧
    Future.await neverWakes 5 Future.init = .error .blocked :=
  ⟨(C9_await_terminal_or_latch neverWakes 5 broken.fut).1 (by decide),
   (C9_await_terminal_or_latch neverWakes 5 Future.init).2 rfl⟩

/-- C10: let callbacks `cs` be registered with `onReady`, in that order, on a
PENDING future (guard free).  Each registration returns and appends to the
ready queue.  A `set(v)` that follows returns true, and the callbacks it
invokes itself (the invocations logged at the caller's depth; deeper ones are
made by the callbacks) are those queued before followed by `cs`, in that order
and each exactly once, each handed the future in state READY with value `v`;
the ready queue is empty afterwards.  The same holds for `onFailed` with
`fail(m)` and for `onDiscarded` with `discard()`.  With well-founded callbacks
the three transitions do return. -/
theorem C10_queued_callbacks_fire_in_order {T : Type} (prog : Callback → List (Action T))
    (w : World T) (cs : List Callback) (v : T) (m : String)
    (hw : w.fut.state = .PENDING) (hl : w.fut.lock = 0) :
    (∀ k, execAll prog (k + 1) (cs.map Action.onReady) w =
        .ok (cs.map (fun _ => true), { w with fut := w.fut.pushAll .ready cs }) ∧
      execAll prog (k + 1) (cs.map Action.onFailed) w =
        .ok (cs.map (fun _ => true), { w with fut := w.fut.pushAll .failed cs }) ∧
      execAll prog (k + 1) (cs.map Action.onDiscarded) w =
        .ok (cs.map (fun _ => true), { w with fut := w.fut.pushAll .discarded cs })) ∧
    ((w.fut.pushAll .ready cs).onReadyCallbacks = w.fut.onReadyCallbacks ++ cs ∧
      (w.fut.pushAll .failed cs).onFailedCallbacks = w.fut.onFailedCallbacks ++ cs ∧
      (w.fut.pushAll .discarded cs).onDiscardedCallbacks = w.fut.onDiscardedCallbacks ++ cs) ∧
    (∀ n b w1, exec prog n (.set v) { w with fut := w.fut.pushAll .ready cs } = .ok (b, w1) →
      b = true ∧ w1.fut.onReadyCallbacks = [] ∧
      ∃ l, w1.log = w.log ++ l ∧ firedAt w.depth l = w.fut.onReadyCallbacks ++ cs ∧
        ∀ e ∈ l, w.depth ≤ e.depth ∧ e.arg.state = .READY ∧ e.arg.t = some v) ∧
    (∀ n b w1, exec prog n (.fail m) { w with fut := w.fut.pushAll .failed cs } = .ok (b, w1) →
      b = true ∧ w1.fut.onFailedCallbacks = [] ∧
      ∃ l, w1.log = w.log ++ l ∧ firedAt w.depth l = w.fut.onFailedCallbacks ++ cs ∧
        ∀ e ∈ l, w.depth ≤ e.depth ∧ e.arg.state = .FAILED ∧ e.arg.message = some m) ∧
    (∀ n b w1, exec prog n .discard { w with fut := w.fut.pushAll .discarded cs } = .ok (b, w1) →
      b = true ∧ w1.fut.onDiscardedCallbacks = [] ∧
      ∃ l, w1.log = w.log ++ l ∧ firedAt w.depth l = w.fut.onDiscardedCallbacks ++ cs ∧
        ∀ e ∈ l, w.depth ≤ e.depth ∧ e.arg.state = .DISCARDED) ∧
    (∀ rank, Ranked prog rank → ∀ a ∈ [Action.set v, .fail m, .discard], ∀ n,
      fuelFor rank a { w with fut := w.fut.pushAll a.queue cs } ≤ n →
      ∃ b w1, exec prog n a { w with fut := w.fut.pushAll a.queue cs } = .ok (b, w1)) := by
  refine ⟨fun k => ⟨register_all prog k .ready cs w hw hl, register_all prog k .failed cs w hw hl,
      register_all prog k .discarded cs w hw hl⟩,
    ⟨(pushAll_spec .ready cs w.fut).1, (pushAll_spec .failed cs w.fut).1,
      (pushAll_spec .discarded cs w.fut).1⟩, ?_, ?_, ?_, ?_⟩
  · intro n b w1 h
    obtain ⟨h1, h2, l, h3, h4, h5⟩ := fire_in_order prog (.set v) rfl cs w hw n b w1 h
    exact ⟨h1, h2, l, h3, h4, fun e he => ⟨(h5 e he).1, (h5 e he).2.1, (h5 e he).2.2.1⟩⟩
  · intro n b w1 h
    obtain ⟨h1, h2, l, h3, h4, h5⟩ := fire_in_order prog (.fail m) rfl cs w hw n b w1 h
    exact ⟨h1, h2, l, h3, h4, fun e he => ⟨(h5 e he).1, (h5 e he).2.1, (h5 e he).2.2.2.1⟩⟩
  · intro n b w1 h
    obtain ⟨h1, h2, l, h3, h4, h5⟩ := fire_in_order prog .discard rfl cs w hw n b w1 h
    exact ⟨h1, h2, l, h3, h4, fun e he => ⟨(h5 e he).1, (h5 e he).2.1⟩⟩
  · intro rank hr a _ n hn
    obtain ⟨hc1, -, -, -, hc5, -⟩ := (pushAll_spec a.queue cs w.fut).2.2
    obtain ⟨⟨b, w1⟩, h⟩ := exec_total prog rank hr a
      { w with fut := w.fut.pushAll a.queue cs } (by simp only; rw [hc5]; exact hl) n hn
    exact ⟨b, w1, h⟩

/-- On a fresh future, registering the re-entrant callback 1 and then callback
0 with `onReady` and calling `set(42)`: the set returns true and invokes 1 then
0, while callback 1 itself caused one more, nested, invocation. -/
theorem C10_witness :
    ∃ b w1, exec reentrant 3 (.set 42)
        { (World.init : World Nat) with fut := Shared.pushAll Future.init .ready [1, 0] }
        = .ok (b, w1) ∧
      b = true ∧ w1.fut.onReadyCallbacks = [] ∧
      firedAt 0 w1.log = [1, 0] ∧ w1.log.length = 3 := by
  have h := C10_queued_callbacks_fire_in_order reentrant (World.init : World Nat) [1, 0] 42 "no"
    rfl rfl
  obtain ⟨b, w1, hx⟩ := h.2.2.2.2.2 id ranked_reentrant (.set 42) (by simp) 3 (by decide)
  obtain ⟨h1, h2, l, h3, h4, -⟩ := h.2.2.1 3 b w1 hx
  have hlog : w1.log = l := by rw [h3]; rfl
  refine ⟨b, w1, hx, h1, h2, by rw [hlog]; exact h4, ?_⟩
  have h6 : ∃ r, exec reentrant 3 (.set 42)
      { (World.init : World Nat) with fut := Shared.pushAll Future.init .ready [1, 0] } = .ok r ∧
      r.2.log.length = 3 := ⟨_, rfl, rfl⟩
  obtain ⟨r, h7, h8⟩ := h6
  have h9 : (Except.ok (b, w1) : Except Fault (Bool × World Nat)) = .ok r := hx.symm.trans h7
  simp only [Except.ok.injEq] at h9
  subst h9
  exact h8

/-- C11: registering a callback with `onReady` on a future that is already
READY (resp. `onFailed` on FAILED, `onDiscarded` on DISCARDED) invokes that
callback inside the registration call: the call logs the invocation of `c` on
the future as it is, every further invocation it logs is nested (made by the
body of `c`), so at the caller's depth `c` is the only callback invoked and it
is invoked once; no queue changes and the state stays.  With well-founded
callbacks and the guard free the registration returns. -/
theorem C11_late_registration_runs_at_once {T : Type} (prog : Callback → List (Action T))
    (w : World T) (c : Callback) :
    (∀ a ∈ [(Action.onReady c, State.READY), (.onFailed c, .FAILED),
        (.onDiscarded c, .DISCARDED)],
      w.fut.state = a.2 → ∀ n b w1, exec prog n a.1 w = .ok (b, w1) →
        w1.fut.state = w.fut.state ∧
        w1.fut.onReadyCallbacks = w.fut.onReadyCallbacks ∧
        w1.fut.onFailedCallbacks = w.fut.onFailedCallbacks ∧
        w1.fut.onDiscardedCallbacks = w.fut.onDiscardedCallbacks ∧
        ∃ l, w1.log = w.log ++ { callback := c, depth := w.depth, arg := w.fut } :: l ∧
          (∀ e ∈ l, w.depth < e.depth) ∧
          firedAt w.depth ({ callback := c, depth := w.depth, arg := w.fut } :: l) = [c]) ∧
    (∀ rank, Ranked prog rank → w.fut.lock = 0 →
      ∀ a ∈ [Action.onReady c, .onFailed c, .onDiscarded c], ∀ n, fuelFor rank a w ≤ n →
        ∃ b w1, exec prog n a w = .ok (b, w1)) := by
  constructor
  · intro a ha hst n b w1 h
    have key : ∀ q : Queue, a = (q.on c, q.state) → _ := fun q hq => by
      subst hq
      exact late_registration prog q c w hst n b w1 h
    simp only [List.mem_cons, List.mem_singleton, List.not_mem_nil, or_false] at ha
    have hq : ∃ q : Queue, a = (q.on c, q.state) := by
      rcases ha with rfl | rfl | rfl
      · exact ⟨.ready, rfl⟩
      · exact ⟨.failed, rfl⟩
      · exact ⟨.discarded, rfl⟩
    obtain ⟨q, hq⟩ := hq
    obtain ⟨hag, -, l, hlog, he, hf⟩ := key q hq
    exact ⟨hag.1, hag.2.2.2.2.2.1, hag.2.2.2.2.2.2.1, hag.2.2.2.2.2.2.2.1, l, hlog,
      fun e hel => (he e hel).1, hf⟩
  · intro rank hr hl a _ n hn
    obtain ⟨⟨b, w1⟩, h⟩ := exec_total prog rank hr a w hl n hn
    exact ⟨b, w1, h⟩

/-- On the ready future `answered`, `onReady` of the re-entrant callback 1 runs
it at once: two invocations are logged, callback 1 at depth 0 and, nested, the
callback 0 it registers; the queues stay empty. -/
theorem C11_witness :
    ∃ b w1, exec reentrant 3 (.onReady 1) answered = .ok (b, w1) ∧
      w1.fut.onReadyCallbacks = [] ∧ firedAt 0 w1.log = [1] ∧
      w1.log.map Event.callback = [1, 0] := by
  have h := C11_late_registration_runs_at_once reentrant answered 1
  obtain ⟨b, w1, hx⟩ := h.2 id ranked_reentrant rfl (.onReady 1) (by simp) 3 (by decide)
  obtain ⟨-, h2, -, -, l, h3, -, h5⟩ := h.1 (.onReady 1, .READY) (by simp) rfl 3 b w1 hx
  have h6 : ∃ r, exec reentrant 3 (.onReady 1) answered = .ok r ∧
      r.2.log.map Event.callback = [1, 0] := ⟨_, rfl, rfl⟩
  obtain ⟨r, h7, h8⟩ := h6
  have h9 : (Except.ok (b, w1) : Except Fault (Bool × World Nat)) = .ok r := hx.symm.trans h7
  simp only [Except.ok.injEq] at h9
  subst h9
  refine ⟨b, w1, hx, h2, ?_, h8⟩
  rw [h3]
  exact h5

/-- C12, as stated, fails: on a fresh future register callback 1 with
`onReady` and callback 2 with `onDiscarded`, then `fail("boom")`.  The future is
terminal (FAILED), later `set` and `discard` attempts lose, yet no callback was
ever invoked and both are still queued. -/
theorem C12_counterexample :
    execAll idle 2 [.onReady 1, .onDiscarded 2, .fail "boom", .set 3, .discard] World.init
      = .ok ([true, true, true, false, false], stuck) ∧
    stuck.fut.state = .FAILED ∧ stuck.log = [] ∧
    stuck.fut.onReadyCallbacks = [1] ∧ stuck.fut.onDiscardedCallbacks = [2] :=
  ⟨rfl, rfl, rfl, rfl, rfl⟩

/-- C12, amended: when a transition wins on a PENDING future, the callbacks of
the queue matching the state reached are invoked by it exactly once each, in
queue (registration) order, each on the future already in that terminal state,
and that queue is empty afterwards; the other two queues are left as they were
and nothing is ever taken from a queue again: whatever operations follow, all
three queues stay as they are and the only callbacks invoked at the caller's
depth are those registered late for the state reached. -/
theorem C12_matching_queue_fires_once {T : Type} (prog : Callback → List (Action T))
    (w : World T) (a : Action T) (ha : a.target.isSome = true)
    (hw : w.fut.state = .PENDING) (n : Nat) (b : Bool) (w1 : World T)
    (h : exec prog n a w = .ok (b, w1)) :
    (∃ l, w1.log = w.log ++ l ∧ firedAt w.depth l = w.fut.queue a.queue ∧
      ∀ e ∈ l, e.arg.state ≠ .PENDING ∧ some e.arg.state = a.target) ∧
    some w1.fut.state = a.target ∧
    w1.fut.queue a.queue = [] ∧
    (∀ q, q ≠ a.queue → w1.fut.queue q = w.fut.queue q) ∧
    (∀ k ops bs w2, execAll prog k ops w1 = .ok (bs, w2) →
      (∀ q, w2.fut.queue q = w1.fut.queue q) ∧
      ∃ l2, w2.log = w1.log ++ l2 ∧
        firedAt w.depth l2 = ops.filterMap (Action.lateFor w1.fut.state)) := by
  obtain ⟨h1, -, h3⟩ := exec_transition prog n a ha w b w1 h
  obtain ⟨hc, hq, ho, hd, l, hl, he, hf⟩ := h3 (h1.2 hw)
  obtain ⟨hs1, -, hs3, -⟩ := settle_state w.fut a ha
  have hst : some w1.fut.state = a.target := by rw [hc.1]; exact hs1
  have hterm : w1.fut.state ≠ .PENDING := by rw [hc.1]; exact settle_terminal w.fut a ha
  refine ⟨⟨l, hl, ?_, ?_⟩, hst, hq, ?_, ?_⟩
  · simp only at hf
    rw [hs3] at hf
    exact hf
  · intro e hel
    obtain ⟨-, hce⟩ := he e hel
    exact ⟨by rw [hce.1]; exact settle_terminal w.fut a ha, by rw [hce.1]; exact hs1⟩
  · intro q hne
    rw [ho q hne]
    exact hs3 q
  · intro k ops bs w2 h2
    obtain ⟨hfz, -⟩ := execAll_frozen prog k ops w1 w2 bs hterm h2
    obtain ⟨l2, hl2, hf2⟩ := execAll_late prog k ops w1 w2 bs hterm h2
    refine ⟨fun q => hfz.1.queue q, l2, hl2, ?_⟩
    rw [← hf2]
    simp only at hd
    rw [hd]

/-- On a fresh future with callback 1 queued for readiness and callback 2 for
discard, `set(42)` invokes callback 1 and leaves callback 2 queued. -/
theorem C12_witness :
    ∃ b w1, exec idle 2 (.set 42)
        { (World.init : World Nat) with fut :=
            { Future.init with onReadyCallbacks := [1], onDiscardedCallbacks := [2] } }
        = .ok (b, w1) ∧
      firedAt 0 w1.log = [1] ∧ w1.fut.onDiscardedCallbacks = [2] := by
  have h6 : ∃ r, exec idle 2 (.set 42)
      { (World.init : World Nat) with fut :=
          { Future.init with onReadyCallbacks := [1], onDiscardedCallbacks := [2] } } = .ok r :=
    ⟨_, rfl⟩
  obtain ⟨⟨b, w1⟩, hx⟩ := h6
  obtain ⟨⟨l, h1, h2, -⟩, -, -, h4, -⟩ :=
    C12_matching_queue_fires_once idle _ (.set 42) rfl rfl 2 b w1 hx
  refine ⟨b, w1, hx, ?_, h4 .discarded (by decide)⟩
  have hlog : w1.log = l := by rw [h1]; rfl
  rw [hlog]
  exact h2

/-- C13: whenever a callback is invoked the future it is handed is already
terminal and populated.  In every reachable world each logged invocation was
made on a block that is not PENDING, whose latch is triggered and whose slots
match its state.  In particular every callback invoked in the course of a
winning `set(v)` (at any depth) observes `ready()` and `get() == v` without
waiting, one invoked in the course of a winning `fail(m)` observes `failed()`
and `failure() == some m`, one invoked in the course of a winning `discard()`
observes `discarded()`, each with the latch triggered. -/
theorem C13_callbacks_see_resolved_future {T : Type} (prog : Callback → List (Action T))
    (w : World T) (hr : Reachable prog w) :
    (∀ e ∈ w.log, e.arg.state ≠ .PENDING ∧ e.arg.latch.triggered = true ∧
      (e.arg.state = .READY → e.arg.t.isSome = true) ∧
      (e.arg.state = .FAILED → e.arg.message.isSome = true)) ∧
    (∀ n v w1, exec prog n (.set v) w = .ok (true, w1) →
      ∃ l, w1.log = w.log ++ l ∧ ∀ e ∈ l, Future.ready e.arg = true ∧
        (∀ latchAwait, Future.get latchAwait e.arg = .ok (v, e.arg)) ∧
        e.arg.latch.triggered = true) ∧
    (∀ n m w1, exec prog n (.fail m) w = .ok (true, w1) →
      ∃ l, w1.log = w.log ++ l ∧ ∀ e ∈ l, Future.failed e.arg = true ∧
        Future.failure e.arg = some m ∧ e.arg.latch.triggered = true) ∧
    (∀ n w1, exec prog n .discard w = .ok (true, w1) →
      ∃ l, w1.log = w.log ++ l ∧ ∀ e ∈ l, Future.discarded e.arg = true ∧
        e.arg.latch.triggered = true) := by
  have ht := (reachable_tidy prog w hr).2
  have hs := (reachable_sound prog w hr).2
  refine ⟨?_, ?_, ?_, ?_⟩
  · intro e he
    obtain ⟨⟨-, h2, -⟩, h4⟩ := ht e he
    obtain ⟨h5, h6⟩ := hs e he
    exact ⟨h4, h2.2 h4, h5.2, h6.2⟩
  · intro n v w1 h
    obtain ⟨-, -, -, -, l, hl, he, -⟩ := (exec_transition prog n (.set v) rfl w true w1 h).2.2 rfl
    refine ⟨l, hl, fun e hel => ?_⟩
    obtain ⟨-, h1, h2, -, h4, -⟩ := he e hel
    have h5 : e.arg.state = .READY := h1
    have h6 : e.arg.t = some v := h2
    exact ⟨by simp [Future.ready, h5], fun latchAwait => get_ready latchAwait _ v h5 h6,
      by rw [h4]; rfl⟩
  · intro n m w1 h
    obtain ⟨-, -, -, -, l, hl, he, -⟩ := (exec_transition prog n (.fail m) rfl w true w1 h).2.2 rfl
    refine ⟨l, hl, fun e hel => ?_⟩
    obtain ⟨-, h1, -, h3, h4, -⟩ := he e hel
    have h5 : e.arg.state = .FAILED := h1
    have h6 : e.arg.message = some m := h3
    exact ⟨by simp [Future.failed, h5], by rw [failure_eq, h6], by rw [h4]; rfl⟩
  · intro n w1 h
    obtain ⟨-, -, -, -, l, hl, he, -⟩ := (exec_transition prog n .discard rfl w true w1 h).2.2 rfl
    refine ⟨l, hl, fun e hel => ?_⟩
    obtain ⟨-, h1, -, -, h4, -⟩ := he e hel
    have h5 : e.arg.state = .DISCARDED := h1
    exact ⟨by simp [Future.discarded, h5], by rw [h4]; rfl⟩

/-- After callback 1 was registered on a fresh future (a reachable world), the
`set(42)` that follows logs two invocations (callback 1 and, nested, the
callback 0 it registers), and each of them saw the future READY. -/
theorem C13_witness :
    ∃ w1, exec reentrant 3 (.set 42) waiting = .ok (true, w1) ∧ w1.log.length = 2 ∧
      ∀ e ∈ w1.log, Future.ready e.arg = true := by
  have h6 : ∃ r, exec reentrant 3 (.set 42) waiting = .ok r ∧ r.1 = true ∧
      r.2.log.length = 2 := ⟨_, rfl, rfl, rfl⟩
  obtain ⟨⟨b, w1⟩, hx, hb, hlen⟩ := h6
  simp only at hb hlen
  subst hb
  obtain ⟨l, hl, he⟩ :=
    (C13_callbacks_see_resolved_future reentrant waiting reachable_waiting).2.1 3 42 w1 hx
  refine ⟨w1, hx, hlen, fun e hel => ?_⟩
  rw [hl] at hel
  exact (he e (by simpa [waiting] using hel)).1

/-- C14: in every reachable world the latch has been triggered exactly when
the state is not PENDING, and `trigger` was called once if the state is not
PENDING and never otherwise (so at most once); an operation calls `trigger`
exactly when it moves the state out of PENDING, and then once. -/
theorem C14_latch_triggered_once {T : Type} (prog : Callback → List (Action T))
    (w : World T) (hr : Reachable prog w) :
    (w.fut.latch.triggered = true ↔ w.fut.state ≠ .PENDING) ∧
    w.fut.latch.triggers = (if w.fut.state = .PENDING then 0 else 1) ∧
    w.fut.latch.triggers ≤ 1 ∧
    ∀ n a b w1, exec prog n a w = .ok (b, w1) →
      w1.fut.latch.triggers =
        w.fut.latch.triggers +
          (if w.fut.state = .PENDING ∧ w1.fut.state ≠ .PENDING then 1 else 0) := by
  obtain ⟨⟨-, h2, h3⟩, -⟩ := reachable_tidy prog w hr
  refine ⟨h2, h3, by rw [h3]; split <;> omega, ?_⟩
  intro n a b w1 h
  obtain ⟨⟨-, -, h5⟩, -⟩ := reachable_tidy prog w1 (Reachable.step n a w b w1 hr h)
  obtain ⟨-, -, h6⟩ := exec_core prog n a w b w1 h
  rw [h5, h3]
  by_cases hw : w.fut.state = .PENDING
  · by_cases hw1 : w1.fut.state = .PENDING <;> simp [hw, hw1]
  · have hw1 : w1.fut.state ≠ .PENDING := by rw [h6 hw]; exact hw
    simp [hw, hw1]

/-- On the reachable world `waiting` the latch is untriggered; the `set(42)`
that follows calls `trigger` once. -/
theorem C14_witness :
    waiting.fut.latch.triggers = 0 ∧
      ∃ w1, exec reentrant 3 (.set 42) waiting = .ok (true, w1) ∧
        w1.fut.latch.triggers = 1 := by
  have h := C14_latch_triggered_once reentrant waiting reachable_waiting
  have h6 : ∃ r, exec reentrant 3 (.set 42) waiting = .ok r ∧ r.1 = true ∧
      r.2.fut.state = .READY := ⟨_, rfl, rfl, rfl⟩
  obtain ⟨⟨b, w1⟩, hx, hb, hst⟩ := h6
  simp only at hb hst
  subst hb
  refine ⟨h.2.1, w1, hx, ?_⟩
  rw [h.2.2.2 3 _ true w1 hx, hst]
  rfl

/-- C15: the guard is never held while a callback runs or while a thread
blocks on the latch.  In every reachable world the lock word is 0, it was 0 in
every block handed to a callback, and it is 0 in the block `await` and `get`
hand to the latch; hence no operation, at top level or inside a callback, ever
spins on the lock or fails the assertion of `release`: the only fault of an
operation is running out of fuel, with well-founded callbacks it returns, and
it returns with the lock word 0. -/
theorem C15_guard_free_at_callbacks {T : Type} (prog : Callback → List (Action T))
    (w : World T) (hr : Reachable prog w) :
    w.fut.lock = 0 ∧
    (∀ e ∈ w.log, e.arg.lock = 0) ∧
    (∀ n a b w1, exec prog n a w = .ok (b, w1) →
      w1.fut.lock = 0 ∧ ∀ e ∈ w1.log, e.arg.lock = 0) ∧
    (∀ n a e, exec prog n a w = .error e → e ≠ .spin ∧ e ≠ .assertion) ∧
    (∀ rank, Ranked prog rank → ∀ a n, fuelFor rank a w ≤ n →
      ∃ b w1, exec prog n a w = .ok (b, w1)) ∧
    (∀ (latchAwait : Secs → Shared T → Except Fault (Bool × Shared T)) secs,
      w.fut.state = .PENDING →
        Future.await latchAwait secs w.fut = latchAwait secs w.fut ∧
        Future.get latchAwait w.fut =
          (match latchAwait 0 w.fut with
           | .error e => .error e
           | .ok (_, s1) =>
             if s1.state = .READY then
               match s1.t with
               | none => .error .assertion
               | some v => .ok (v, s1)
             else .error .abort)) := by
  obtain ⟨⟨h1, -⟩, h2⟩ := reachable_tidy prog w hr
  refine ⟨h1, fun e he => (h2 e he).1.1, ?_, ?_, ?_, ?_⟩
  · intro n a b w1 h
    obtain ⟨⟨h3, -⟩, h4⟩ := reachable_tidy prog w1 (Reachable.step n a w b w1 hr h)
    exact ⟨h3, fun e he => (h4 e he).1.1⟩
  · intro n a e h
    rw [exec_fault prog n a w e h1 h]
    exact ⟨by decide, by decide⟩
  · intro rank hrk a n hn
    obtain ⟨⟨b, w1⟩, h⟩ := exec_total prog rank hrk a w h1 n hn
    exact ⟨b, w1, h⟩
  · intro latchAwait secs hw
    exact ⟨await_pending latchAwait secs w.fut hw, get_pending latchAwait w.fut hw⟩

/-- On the reachable world `waiting`, the `set(42)` runs the re-entrant
callback 1, whose body calls `onReady`, `onFailed`, `onDiscarded`, `set`,
`fail` and `discard` on the same future: the call returns, and every callback
ran with the lock word 0. -/
theorem C15_witness :
    ∃ b w1, exec reentrant 3 (.set 42) waiting = .ok (b, w1) ∧ w1.fut.lock = 0 ∧
      w1.log.length = 2 ∧ ∀ e ∈ w1.log, e.arg.lock = 0 := by
  have h := C15_guard_free_at_callbacks reentrant waiting reachable_waiting
  obtain ⟨b, w1, hx⟩ := h.2.2.2.2.1 id ranked_reentrant (.set 42) 3 (by decide)
  have h6 : ∃ r, exec reentrant 3 (.set 42) waiting = .ok r ∧ r.2.log.length = 2 :=
    ⟨_, rfl, rfl⟩
  obtain ⟨r, h7, h8⟩ := h6
  have h9 : (Except.ok (b, w1) : Except Fault (Bool × World Nat)) = .ok r := hx.symm.trans h7
  simp only [Except.ok.injEq] at h9
  subst h9
  exact ⟨b, w1, hx, (h.2.2.1 3 _ b w1 hx).1, h8, (h.2.2.1 3 _ b w1 hx).2⟩

/-- C16: discard on drop.  Destroying the last handle (count 1) of a PENDING
future that was not freed: when the destruction returns, the state is
DISCARDED, the callbacks registered with `onDiscarded` were invoked by it once
each in registration order, each on the future in state DISCARDED and before
anything was freed, and the discarded queue is empty; the block is freed at the
end exactly when the count is then 0, that is when no callback kept a handle.
If no callback body copies or destroys a handle the block is freed.  With
well-founded callbacks and the guard free the destruction returns. -/
theorem C16_discard_on_drop {T : Type} (prog : Callback → List (Action T)) (w : World T)
    (hw : w.fut.state = .PENDING) (h1 : w.fut.refs = 1) (hf : w.fut.freed = false) :
    (∀ n b w1, exec prog n .cleanup w = .ok (b, w1) →
      w1.fut.state = .DISCARDED ∧ w1.fut.onDiscardedCallbacks = [] ∧
      (∃ l, w1.log = w.log ++ l ∧ firedAt w.depth l = w.fut.onDiscardedCallbacks ∧
        ∀ e ∈ l, e.arg.state = .DISCARDED ∧ e.arg.freed = false) ∧
      (w1.fut.freed = true ↔ w1.fut.refs = 0)) ∧
    (Quiet prog → ∀ n b w1, exec prog n .cleanup w = .ok (b, w1) →
      w1.fut.freed = true ∧ w1.fut.refs = 0) ∧
    (∀ rank, Ranked prog rank → w.fut.lock = 0 → ∀ n, fuelFor rank .cleanup w ≤ n →
      ∃ b w1, exec prog n .cleanup w = .ok (b, w1)) := by
  refine ⟨?_, ?_, ?_⟩
  · intro n b w1 h
    obtain ⟨w2, hd, rfl⟩ := exec_cleanup_last prog n w hw h1 b w1 h
    obtain ⟨hc, hq, -, -, l, hl, he, hfi⟩ :=
      (exec_transition prog n .discard rfl w true w2 hd).2.2 rfl
    have hfr : w2.fut.freed = false := by rw [hc.2.2.2.2.2]; exact hf
    refine ⟨hc.1, hq, ⟨l, hl, hfi, fun e hel => ?_⟩, ?_⟩
    · obtain ⟨-, hce⟩ := he e hel
      exact ⟨hce.1, by rw [hce.2.2.2.2.2]; exact hf⟩
    · simp only [hfr, Bool.or_false, decide_eq_true_eq]
  · intro hq n b w1 h
    obtain ⟨w2, hd, rfl⟩ := exec_cleanup_last prog n w hw h1 b w1 h
    have hr := exec_won_refs prog (fun _ => 0)
      (fun n c w0 w3 hw0 _ hc => callWith_quiet prog hq n c w0 w3 hw0 hc)
      n .discard rfl w w2 hw hd
    rw [sum_map_zero, h1] at hr
    simp [hr]
  · intro rank hr hl n hn
    obtain ⟨⟨b, w1⟩, h⟩ := exec_total prog rank hr .cleanup w hl n hn
    exact ⟨b, w1, h⟩

/-- Destroying the only handle of the pending future `watched`, whose
discarded queue holds callbacks 1 and 2 that do nothing: both are invoked, in
that order, and the block is freed. -/
theorem C16_witness :
    ∃ b w1, exec idle 4 .cleanup watched = .ok (b, w1) ∧ w1.fut.state = .DISCARDED ∧
      firedAt 0 w1.log = [1, 2] ∧ w1.fut.freed = true := by
  have h := C16_discard_on_drop idle watched rfl rfl rfl
  obtain ⟨b, w1, hx⟩ := h.2.2 id ranked_idle rfl 4 (by decide)
  obtain ⟨h2, -, ⟨l, h3, h4, -⟩, -⟩ := h.1 4 b w1 hx
  have hlog : w1.log = l := by rw [h3]; rfl
  exact ⟨b, w1, hx, h2, by rw [hlog]; exact h4, (h.2.1 quiet_idle 4 b w1 hx).1⟩

/-- C17 fails on the code: destroying the only handle of the READY future
`answered` leaves the count at -1 and deletes nothing (the second
`__sync_sub_and_fetch` in `cleanup` takes the count from 0 to -1 when the
future was not PENDING). -/
theorem C17_terminal_last_handle_is_not_freed :
    exec idle 1 .cleanup answered = .ok (true, leaked) ∧
    answered.fut.refs = 1 ∧ leaked.fut.refs = -1 ∧ leaked.fut.freed = false :=
  ⟨rfl, rfl, rfl, rfl⟩

/-- C18: destroying the last handle (count 1) of a PENDING future whose
`onDiscarded` callbacks keep copies.  The destruction runs `discard()` with the
count put back at 1; if the callbacks leave the count at `1 + k` with `k ≥ 1`
(they kept `k` copies), the block is not torn down, its state is DISCARDED and
its count is `k` when the destruction returns.  For callbacks that only store
copies or attempt transitions, `k` is the number of copies made by the bodies
of the queued callbacks.  Such callbacks let the destruction return. -/
theorem C18_retained_copies_keep_block {T : Type} (prog : Callback → List (Action T))
    (w : World T) (hw : w.fut.state = .PENDING) (h1 : w.fut.refs = 1) :
    (∀ n b w1, exec prog n .cleanup w = .ok (b, w1) →
      ∃ w2, exec prog n .discard w = .ok (true, w2) ∧
        ∀ k : Int, 1 ≤ k → w2.fut.refs = 1 + k →
          w1.fut.state = .DISCARDED ∧ w1.fut.refs = k ∧ w1.fut.freed = w.fut.freed) ∧
    (Keeping prog → ∀ n b w1, exec prog n .cleanup w = .ok (b, w1) →
      w1.fut.state = .DISCARDED ∧
      w1.fut.refs = (w.fut.onDiscardedCallbacks.map fun c => (kept prog c : Int)).sum ∧
      (1 ≤ (w.fut.onDiscardedCallbacks.map fun c => (kept prog c : Int)).sum →
        w1.fut.freed = w.fut.freed)) ∧
    (Keeping prog → w.fut.lock = 0 → ∀ n, fuelFor (fun _ => 0) .cleanup w ≤ n →
      ∃ b w1, exec prog n .cleanup w = .ok (b, w1)) := by
  refine ⟨?_, ?_, ?_⟩
  · intro n b w1 h
    obtain ⟨w2, hd, rfl⟩ := exec_cleanup_last prog n w hw h1 b w1 h
    obtain ⟨hc, -⟩ := (exec_transition prog n .discard rfl w true w2 hd).2.2 rfl
    refine ⟨w2, hd, fun k hk hr => ⟨hc.1, by simp only; omega, ?_⟩⟩
    have hne : ¬ (w2.fut.refs - 1 = 0) := by omega
    simp only [hne, decide_False, Bool.false_or]
    exact hc.2.2.2.2.2
  · intro hk n b w1 h
    obtain ⟨w2, hd, rfl⟩ := exec_cleanup_last prog n w hw h1 b w1 h
    obtain ⟨hc, -⟩ := (exec_transition prog n .discard rfl w true w2 hd).2.2 rfl
    have hr := exec_won_refs prog (fun c => (kept prog c : Int))
      (fun n c w0 w3 hw0 hl0 hc => callWith_keeping prog hk n c w0 w3 hw0 hl0 hc)
      n .discard rfl w w2 hw hd
    rw [h1] at hr
    have hq : w.fut.queue (Action.discard : Action T).queue = w.fut.onDiscardedCallbacks := rfl
    rw [hq] at hr
    refine ⟨hc.1, by simp only; omega, fun hpos => ?_⟩
    have hne : ¬ (w2.fut.refs - 1 = 0) := by omega
    simp only [hne, decide_False, Bool.false_or]
    exact hc.2.2.2.2.2
  · intro hk hl n hn
    obtain ⟨⟨b, w1⟩, h⟩ := exec_total prog (fun _ => 0) (keeping_ranked prog hk) .cleanup w hl n hn
    exact ⟨b, w1, h⟩

/-- Destroying the only handle of the pending future `watched` when callback 1
stores two copies and callback 2 one: the block is not freed, its state is
DISCARDED and its count is 3. -/
theorem C18_witness :
    ∃ b w1, exec hoarding 4 .cleanup watched = .ok (b, w1) ∧ w1.fut.state = .DISCARDED ∧
      w1.fut.refs = 3 ∧ w1.fut.freed = false := by
  have h := C18_retained_copies_keep_block hoarding watched rfl rfl
  obtain ⟨b, w1, hx⟩ := h.2.2 keeping_hoarding rfl 4 (by decide)
  obtain ⟨h2, h3, h4⟩ := h.2.1 keeping_hoarding 4 b w1 hx
  exact ⟨b, w1, hx, h2, by rw [h3]; decide, by rw [h4 (by decide)]; rfl⟩

/-- C20: a future outlives its promise.  While a handle stays alive (fewer
destructions than the count), destroying the promise and any other handles
neither frees nor discards the block: state, value, message, queues, latch and
`freed` flag are as before, no callback is invoked, only the count went down by
the number of destroyed handles, so `pending`, `ready`, `failed`, `discarded`
and `failure` answer as before. -/
theorem C20_future_outlives_promise {T : Type} (prog : Callback → List (Action T))
    (w : World T) (ops : List Handle.Op) (n : Nat) (hall : ∀ op ∈ ops, op = .destroy)
    (hlen : (ops.length : Int) < w.fut.refs) :
    Handle.run prog n ops w =
      .ok { w with fut := { w.fut with refs := w.fut.refs - ops.length } } ∧
    ∀ w1, Handle.run prog n ops w = .ok w1 →
      w1.fut.freed = w.fut.freed ∧ w1.fut.state = w.fut.state ∧ w1.fut.t = w.fut.t ∧
      w1.fut.message = w.fut.message ∧ w1.log = w.log ∧
      Future.pending w1.fut = Future.pending w.fut ∧
      Future.ready w1.fut = Future.ready w.fut ∧
      Future.failed w1.fut = Future.failed w.fut ∧
      Future.discarded w1.fut = Future.discarded w.fut ∧
      Future.failure w1.fut = Future.failure w.fut := by
  obtain ⟨hv, hc⟩ := destroys_valid ops w.fut.refs hall hlen
  have h1 : 1 ≤ w.fut.refs := by
    have : (0 : Int) ≤ ops.length := Int.natCast_nonneg _
    omega
  obtain ⟨h3, -⟩ := handle_run prog n ops w h1 hv
  rw [hc] at h3
  refine ⟨h3, ?_⟩
  intro w1 hw1
  rw [h3] at hw1
  simp only [Except.ok.injEq] at hw1
  subst hw1
  exact ⟨rfl, rfl, rfl, rfl, rfl, rfl, rfl, rfl, rfl, rfl⟩

/-- With a promise and the future obtained from it (count 2) on a pending
block, destroying the promise leaves the block pending, not freed, with count
1. -/
theorem C20_witness :
    Handle.run idle 0 [.future] Promise.init = .ok shared2 ∧
    Handle.run idle 0 [.destroy] shared2 =
      .ok { shared2 with fut := { shared2.fut with refs := 1 } } ∧
    Future.pending shared2.fut = true :=
  ⟨rfl, by
    have h := (C20_future_outlives_promise idle shared2 [.destroy] 0 (by simp) (by decide)).1
    exact h, rfl⟩

/-- C21, the claim as worded fails: the promise constructed from a value,
`Promise<int> p(42)`, is a newly constructed promise whose shared state is
already READY, not PENDING. -/
theorem C21_counterexample :
    Promise.ofValue idle 42 = .ok (true, answered) ∧ Future.pending answered.fut = false ∧
      Future.ready answered.fut = true ∧ answered.fut.latch.triggered = true := by
  decide

/-- C21, amended: the default-constructed promise owns a fresh block in PENDING
(`pending()` true, `ready()`, `failed()`, `discarded()` false, `failure()` none,
the three queues empty, the lock free, the latch untriggered, the count 1); the
promise constructed from a value `v`, with any table of callbacks, owns a
fresh block that is READY with `v`, the latch triggered, and otherwise as
above. -/
theorem C21_new_promise_state (prog : Callback → List (Action T)) (v : T) :
    (Future.pending (Promise.init : World T).fut = true ∧
      Future.ready (Promise.init : World T).fut = false ∧
      Future.failed (Promise.init : World T).fut = false ∧
      Future.discarded (Promise.init : World T).fut = false ∧
      Future.failure (Promise.init : World T).fut = none ∧
      (∀ q, (Promise.init : World T).fut.queue q = []) ∧
      (Promise.init : World T).fut.lock = 0 ∧
      (Promise.init : World T).fut.latch.triggered = false ∧
      (Promise.init : World T).fut.refs = 1 ∧
      (Promise.init : World T).fut.t = none ∧
      (Promise.init : World T).log = []) ∧
    ∃ w : World T, Promise.ofValue prog v = .ok (true, w) ∧
      Future.ready w.fut = true ∧ w.fut.t = some v ∧
      Future.pending w.fut = false ∧ Future.failed w.fut = false ∧
      Future.discarded w.fut = false ∧ Future.failure w.fut = none ∧
      (∀ q, w.fut.queue q = []) ∧ w.fut.lock = 0 ∧ w.fut.latch.triggered = true ∧
      w.fut.refs = 1 ∧ w.log = [] := by
  refine ⟨⟨rfl, rfl, rfl, rfl, rfl, fun q => by cases q <;> rfl, rfl, rfl, rfl, rfl, rfl⟩,
    ⟨_, rfl, rfl, rfl, rfl, rfl, rfl, rfl, fun q => by cases q <;> rfl, rfl, rfl, rfl, rfl⟩⟩

/-- C21, at the integers: the default promise and `Promise<int> p(7)`. -/
theorem C21_witness :
    Future.pending (Promise.init : World Nat).fut = true ∧
      Promise.ofValue idle 7 = .ok (true, { answered with fut := { answered.fut with t := some 7 } }) :=
  ⟨(C21_new_promise_state idle 7).1.1, by decide⟩

/-- C30: once the state is READY, FAILED or DISCARDED, no sequence of
operations (so no `onReady`, `onFailed` or `onDiscarded`, issued by a thread or
by a callback while the sequence runs) changes any of the three queues: they are
the same after the sequence and in every block handed to a callback meanwhile;
and an operation that leaves the future terminal, the transition included,
never lengthens a queue. -/
theorem C30_terminal_registration_keeps_queues (prog : Callback → List (Action T)) (n : Nat)
    (ops : List (Action T)) (w : World T) (bs : List Bool) (w1 : World T)
    (hs : w.fut.state ≠ .PENDING) (h : execAll prog n ops w = .ok (bs, w1)) :
    (∀ q, w1.fut.queue q = w.fut.queue q) ∧
      (∃ l, w1.log = w.log ++ l ∧ ∀ e ∈ l, ∀ q, e.arg.queue q = w.fut.queue q) ∧
      ∀ (a : Action T) (w0 : World T) (b : Bool) (w2 : World T),
        exec prog n a w0 = .ok (b, w2) → w2.fut.state ≠ .PENDING →
        ∀ q, (w2.fut.queue q).length ≤ (w0.fut.queue q).length := by
  have hf := (execAll_frozen prog n ops w w1 bs hs h).1
  obtain ⟨l, hl, he⟩ := hf.2.2
  exact ⟨fun q => hf.1.queue q, ⟨l, hl, fun e hm q => (he e hm).2.queue q⟩,
    fun a w0 b w2 h2 hs2 q => exec_queue_length prog n a w0 b w2 h2 hs2 q⟩

/-- C30, on the READY future `answered` with the re-entrant table: callback 1,
registered late three times, itself registers callback 0 on every queue, and
the queues stay empty. -/
theorem C30_witness :
    ∃ bs w1, execAll reentrant 3 [.onReady 1, .onFailed 1, .onDiscarded 1] answered = .ok (bs, w1) ∧
      (∀ q, w1.fut.queue q = answered.fut.queue q) ∧ w1.log.length = 2 := by
  have h6 : ∃ r, execAll reentrant 3 [.onReady 1, .onFailed 1, .onDiscarded 1] answered = .ok r ∧
      r.2.log.length = 2 := ⟨_, rfl, rfl⟩
  obtain ⟨⟨bs, w1⟩, h7, h8⟩ := h6
  exact ⟨bs, w1, h7,
    (C30_terminal_registration_keeps_queues reentrant 3 _ answered bs w1 (by decide) h7).1, h8⟩

/-- C22: for handles in use `a`, `b`, `c`, `a == b` returns true exactly when
they are handles of the same block (all nine members equal, which holds as soon
as they share the state word); a copy of `a`, and so `p.future()` for a promise
with member `a`, compares equal to `a` both ways; a newly constructed future
compares unequal to `a` both ways; of `a < b`, `a == b`, `b < a` exactly one
returns true; and `<` is transitive. -/
theorem C22_comparison_is_block_identity (hs : List Pointers) (hl : Live hs)
    (a b c : Pointers) (ha : a ∈ hs) (hb : b ∈ hs) (hc : c ∈ hs) :
    a.equals b = .ok (decide (a = b)) ∧
    (a = b ↔ a.state = b.state) ∧
    (∃ a1, Pointers.copy a = .ok a1 ∧ a1.equals a = .ok true ∧ a.equals a1 = .ok true) ∧
    (∀ p : Pointers, p.Fresh hs → p.equals a = .ok false ∧ a.equals p = .ok false) ∧
    (∃ x y z, a.less b = .ok x ∧ a.equals b = .ok y ∧ b.less a = .ok z ∧
      ((x = true ∧ y = false ∧ z = false) ∨ (x = false ∧ y = true ∧ z = false) ∨
        (x = false ∧ y = false ∧ z = true))) ∧
    (a.less b = .ok true → b.less c = .ok true → a.less c = .ok true) := by
  have ha0 := live_latch hs hl a ha
  have hb0 := live_latch hs hl b hb
  have hc0 := live_latch hs hl c hc
  have hinj := live_latch_inj hs hl a b ha hb
  have hr0 : a.refs > 0 := by
    have h0 := (live_inv hs hl a ha).1
    have hm : a.refs ∈ a.addresses := by simp [Pointers.addresses]
    exact Nat.pos_of_ne_zero fun h => h0 (h ▸ hm)
  refine ⟨?_, ?_, ?_, ?_, ?_, ?_⟩
  · simp only [Pointers.equals, ha0, hb0, if_false]
    congr 1
    exact decide_eq_decide.2 hinj
  · constructor
    · intro h; rw [h]
    · intro h
      exact (live_inv hs hl a ha).2 b hb ⟨a.state, by simp [Pointers.addresses],
        by rw [h]; simp [Pointers.addresses]⟩
  · refine ⟨a, ?_, ?_, ?_⟩
    · simp [Pointers.copy, hr0]
    · simp [Pointers.equals, ha0]
    · simp [Pointers.equals, ha0]
  · intro p hp
    have hp0 : p.latch ≠ 0 := fun h => hp.1 (h ▸ p.latch_mem)
    have hne : p.latch ≠ a.latch := fun h => hp.2.2 a ha p.latch p.latch_mem (h ▸ a.latch_mem)
    constructor
    · simp [Pointers.equals, hp0, ha0, hne]
    · simp [Pointers.equals, hp0, ha0, Ne.symm hne]
  · refine ⟨decide (a.latch < b.latch), decide (a.latch = b.latch), decide (b.latch < a.latch),
      by simp [Pointers.less, ha0, hb0], by simp [Pointers.equals, ha0, hb0],
      by simp [Pointers.less, ha0, hb0], ?_⟩
    rcases Nat.lt_trichotomy a.latch b.latch with h | h | h
    · exact Or.inl ⟨by simp [h], by simp; omega, by simp; omega⟩
    · exact Or.inr (Or.inl ⟨by simp; omega, by simp [h], by simp; omega⟩)
    · exact Or.inr (Or.inr ⟨by simp; omega, by simp; omega, by simp [h]⟩)
  · intro h1 h2
    simp only [Pointers.less, ha0, hb0, hc0, if_false, Except.ok.injEq, decide_eq_true_eq] at h1 h2 ⊢
    omega

/-- C22, on three handles: a future at addresses 10 to 18, and a future at 1
to 9 together with a copy of it. -/
theorem C22_witness :
    (Pointers.at 1).equals (Pointers.at 1) = .ok true ∧
      (Pointers.at 1).equals (Pointers.at 10) = .ok false ∧
      (Pointers.at 1).less (Pointers.at 10) = .ok true ∧
      (Pointers.at 10).less (Pointers.at 1) = .ok false := by
  have h1 : Live [Pointers.at 1] :=
    Live.construct _ _ Live.nil ⟨by decide, by decide, by decide⟩
  have h2 : Live [Pointers.at 1, Pointers.at 1] :=
    Live.copy (Pointers.at 1) _ _ h1 (by decide) (by decide)
  have h3 : Live [Pointers.at 10, Pointers.at 1, Pointers.at 1] :=
    Live.construct _ _ h2 ⟨by decide, by decide, by decide⟩
  have h := C22_comparison_is_block_identity _ h3 (Pointers.at 1) (Pointers.at 10)
    (Pointers.at 1) (by decide) (by decide) (by decide)
  have g := C22_comparison_is_block_identity _ h3 (Pointers.at 1) (Pointers.at 1)
    (Pointers.at 10) (by decide) (by decide) (by decide)
  exact ⟨g.1, h.1, by decide, by decide⟩

/-- C27: threads call `set`, `fail` and `discard`, one call each, on a fresh
future, and step in any order, each compare-and-swap on the lock word and each
statement under the lock being one step.  Every interleaving runs without a
failed assertion; at no point have two calls `result` true; once all calls have
returned, exactly one returned true, all others false, and the block is the
fresh block settled by the winning call (its state, its value or message, the
latch triggered once, the lock free); and every interleaving can be continued
until all calls have returned. -/
theorem C27_one_transition_wins_under_every_interleaving (calls : List (Action T))
    (hcalls : ∀ a ∈ calls, a.target.isSome = true) (schedule : List Nat) :
    ∃ c, Conf.run schedule (Conf.init calls) = .ok c ∧
      c.threads.map Thread.call = calls ∧
      (∀ (i j : Nat) (a b : Thread T), c.threads[i]? = some a → c.threads[j]? = some b →
        a.result = true → b.result = true → i = j) ∧
      (c.allDone → calls ≠ [] →
        ∃ (i : Nat) (a : Thread T), c.threads[i]? = some a ∧ a.result = true ∧
          c.shared = (Future.init : Shared T).settle a.call ∧
          ∀ (j : Nat) (b : Thread T), c.threads[j]? = some b → j ≠ i → b.result = false) ∧
      ∃ rest c1, Conf.run (schedule ++ rest) (Conf.init calls) = .ok c1 ∧ c1.allDone := by
  obtain ⟨c, hrun, hinv, hc⟩ := Conf.Inv.run schedule (Conf.init calls)
    (Conf.init_inv calls hcalls)
  have hcalls0 : (Conf.init calls).threads.map Thread.call = calls := by
    simp only [Conf.init, List.map_map]
    exact List.map_id _
  refine ⟨c, hrun, hc.trans hcalls0, ?_, ?_, ?_⟩
  · intro i j a b hi hj ha hb
    exact hinv.one i j a b hi hj (Or.inr (Or.inr (Or.inr ha))) (Or.inr (Or.inr (Or.inr hb)))
  · intro hd hne
    refine hinv.winner c hd fun h => hne ?_
    rw [← hcalls0, ← hc, h]
    rfl
  · obtain ⟨rest, c1, h1, hd1⟩ := Conf.Inv.complete c.left c hinv (Nat.le_refl _)
    exact ⟨rest, c1, (Conf.run_append schedule rest _ c hrun).trans h1, hd1⟩

/-- C27, with three threads calling `set(42)`, `fail("x")` and `discard()`:
thread 1 spins while thread 0 holds the lock, thread 0 wins, and the future
ends READY with 42. -/
theorem C27_witness :
    ∃ c, Conf.run [0, 1, 2, 0, 0, 0, 1, 1, 0, 0, 0, 2, 2, 1, 1, 1, 2, 2, 2, 1, 1, 1, 1, 1]
        (Conf.init [.set 42, .fail "x", .discard]) = .ok c ∧
      c.threads.map Thread.result = [true, false, false] ∧ c.shared = answered.fut ∧
      c.allDone := by
  obtain ⟨c, h1, -, -, -, -⟩ := C27_one_transition_wins_under_every_interleaving
    [.set 42, .fail "x", .discard] (by decide)
    [0, 1, 2, 0, 0, 0, 1, 1, 0, 0, 0, 2, 2, 1, 1, 1, 2, 2, 2, 1, 1, 1, 1, 1]
  have h6 : ∃ r, Conf.run [0, 1, 2, 0, 0, 0, 1, 1, 0, 0, 0, 2, 2, 1, 1, 1, 2, 2, 2, 1, 1, 1, 1, 1]
        (Conf.init [.set 42, .fail "x", .discard]) = .ok r ∧
      r.threads = [⟨.set 42, .done, true⟩, ⟨.fail "x", .done, false⟩, ⟨.discard, .done, false⟩] ∧
      r.shared = answered.fut := ⟨_, rfl, rfl, rfl⟩
  obtain ⟨r, h7, h8, h9⟩ := h6
  have hr : r = c := by
    have := h7.symm.trans h1
    simpa using this
  subst hr
  refine ⟨r, h1, by rw [h8]; rfl, h9, ?_⟩
  unfold Conf.allDone
  rw [h8]
  decide

/-- C23: whenever `select` returns some future, named by its position `i` in
the set, that position is one of the set, and the future there is READY, so
neither failed nor discarded nor pending; it was pending or READY when `select`
was called; and the promise of `select` is READY and names it.  This holds for
every set, every timeout, all callbacks on the inputs and whatever the other
threads do meanwhile. -/
theorem C23_select_returns_ready_member (prog : Callback → List (Action T)) (sel : Callback)
    (n : Nat) (during late : List (Nat × Action T)) (secs : Secs) (futures : List (World T))
    (i : Nat) (g : Group T)
    (h : select prog sel n during late secs futures = .ok (some i, g)) :
    i < futures.length ∧ g.inputs.length = futures.length ∧
      (∃ w, g.inputs[i]? = some w ∧ Future.ready w.fut = true ∧ Future.failed w.fut = false ∧
        Future.discarded w.fut = false ∧ Future.pending w.fut = false) ∧
      (∀ w0, futures[i]? = some w0 → w0.fut.state = .PENDING ∨ w0.fut.state = .READY) ∧
      g.promise.fut.state = .READY ∧ g.promise.fut.t = some i := by
  obtain ⟨g1, g2, -, -, -, -, -, hS, hs, ht, hE⟩ :=
    select_some prog sel n during late secs futures i g h
  obtain ⟨w, hw, hr⟩ := hS i ht
  have hlen : g.inputs.length = futures.length := hE.1
  have hlt : i < futures.length := by
    by_contra hn
    rw [List.getElem?_eq_none (by omega)] at hw
    cases hw
  refine ⟨hlt, hlen, ⟨w, hw, ?_, ?_, ?_, ?_⟩, ?_, hs, ht⟩
  · simp [Future.ready, hr]
  · simp [Future.failed, hr]
  · simp [Future.discarded, hr]
  · simp [Future.pending, hr]
  · intro w0 hw0
    by_cases hp : w0.fut.state = .PENDING
    · exact Or.inl hp
    · exact Or.inr ((hE.2.1 i w0 w hw0 hw hp).symm.trans hr)

/-- C23, on three fresh futures: another thread sets the second, then the
first, while `select` waits; `select` returns the second, which is READY. -/
theorem C23_witness :
    ∃ g w, select idle 7 3 [(1, .set 5), (0, .set 3)] [] 1
        [World.init, World.init, World.init] = .ok (some 1, g) ∧
      g.inputs[1]? = some w ∧ Future.ready w.fut = true ∧ w.fut.t = some 5 := by
  have h6 : ∃ r, select idle 7 3 [(1, .set 5), (0, .set 3)] [] 1
      [World.init, World.init, World.init] = .ok (some 1, r) ∧
      ∃ w, r.inputs[1]? = some w ∧ w.fut.t = some 5 := ⟨_, rfl, _, rfl, rfl⟩
  obtain ⟨r, h7, w, h8, h9⟩ := h6
  obtain ⟨-, -, ⟨w1, hw1, hr, -⟩, -⟩ :=
    C23_select_returns_ready_member idle 7 3 _ _ 1 _ 1 r h7
  rw [h8] at hw1
  cases hw1
  exact ⟨r, w, h7, h8, hr, h9⟩

/-- C36: for every value `v` and every table of callbacks, the constructors
`Future(v)` and `Promise(v)` return the same fresh block, READY with `v`:
`get()` returns `v` whatever the latch would do, the count is 1, the latch is
triggered once, the lock is free and the queues are empty; and `set`, `fail`
and `discard` on it return false with any fuel and leave it as it is. -/
theorem C36_valued_constructors_are_ready (prog : Callback → List (Action T)) (v : T) :
    ∃ w : World T, Future.ofValue prog v = .ok (true, w) ∧
      Promise.ofValue prog v = .ok (true, w) ∧
      Future.ready w.fut = true ∧
      (∀ latchAwait, Future.get latchAwait w.fut = .ok (v, w.fut)) ∧
      w.fut.refs = 1 ∧ w.fut.latch = { triggered := true, triggers := 1 } ∧ w.fut.lock = 0 ∧
      (∀ q, w.fut.queue q = []) ∧ w.log = [] ∧
      ∀ (n : Nat) (a : Action T), a.target.isSome = true →
        exec prog (n + 1) a w = .ok (false, w) := by
  refine ⟨_, rfl, rfl, rfl, fun latchAwait => get_ready latchAwait _ v rfl rfl, rfl, rfl, rfl,
    fun q => by cases q <;> rfl, rfl, fun n a ha => ?_⟩
  exact exec_transition_terminal prog n a ha _ (by simp [Shared.settle, Future.init, World.init])
    rfl

/-- C36, at the integers: `Future<int> f(42)` is the block `answered`, and
`f.set(7)`, `f.fail("late")` and `f.discard()` return false. -/
theorem C36_witness :
    Future.ofValue reentrant 42 = .ok (true, answered) ∧
      exec reentrant 3 (.set 7) answered = .ok (false, answered) ∧
      exec reentrant 3 (.fail "late") answered = .ok (false, answered) ∧
      exec reentrant 3 .discard answered = .ok (false, answered) := by
  obtain ⟨w, h1, -, -, -, -, -, -, -, -, h2⟩ := C36_valued_constructors_are_ready reentrant 42
  have hw : w = answered := by
    have h3 : Future.ofValue reentrant 42 = .ok (true, answered) := by decide
    have := h1.symm.trans h3
    simpa using this
  subst hw
  exact ⟨h1, h2 2 _ rfl, h2 2 _ rfl, h2 2 _ rfl⟩

/-- C39, the claim as worded fails: with callbacks that register themselves
again with `onReady`, `set` on a pending future whose ready queue holds one
callback returns with no amount of fuel: the callback, invoked by the first
iteration of the drain on the now READY future, is invoked again at once by
its own registration, without end. -/
theorem C39_counterexample : ¬ ∃ n r, exec looping n (.set 5) waiting = .ok r := by
  rintro ⟨n, r, h⟩
  rw [looping_set n] at h
  cases h

/-- C39, amended: whenever `set`, `fail` or `discard` on a pending future
returns, its drain loop has invoked exactly the callbacks the queue held at the
transition, one iteration for each: the invocations of the loop find the queue
shorter by one entry each time, every invocation nested in them finds the queue
of its iteration, no invocation finds another queue changed, and the queue is
empty at the end.  The call does return when every callback only registers
callbacks of smaller rank, the lock is free and the fuel suffices. -/
theorem C39_drain_runs_once_per_queued_callback (prog : Callback → List (Action T))
    (a : Action T) (ha : a.target.isSome = true) (w : World T) (hw : w.fut.state = .PENDING) :
    (∀ n b w1, exec prog n a w = .ok (b, w1) →
      b = true ∧ w1.fut.queue a.queue = [] ∧
        (∀ q1, q1 ≠ a.queue → w1.fut.queue q1 = w.fut.queue q1) ∧
        ∃ l, w1.log = w.log ++ l ∧ firedAt w.depth l = w.fut.queue a.queue ∧
          (firedAt w.depth l).length = (w.fut.queue a.queue).length ∧
          (l.filter fun e => decide (e.depth = w.depth)).map (fun e => e.arg.queue a.queue) =
            suffixes (w.fut.queue a.queue) ∧
          (∀ e ∈ l, ∃ j, j < (w.fut.queue a.queue).length ∧
            e.arg.queue a.queue = (w.fut.queue a.queue).drop j) ∧
          ∀ e ∈ l, ∀ q1, q1 ≠ a.queue → e.arg.queue q1 = w.fut.queue q1) ∧
    ∀ rank : Callback → Nat, Ranked prog rank → w.fut.lock = 0 →
      ∀ n, fuelFor rank a w ≤ n → ∃ w1, exec prog n a w = .ok (true, w1) := by
  constructor
  · intro n b w1 h
    obtain ⟨hb, -, htrue⟩ := exec_transition prog n a ha w b w1 h
    have hbt : b = true := hb.2 hw
    obtain ⟨-, hq, ho, -, l, hl, -, hf⟩ := htrue hbt
    obtain ⟨l2, hl2, h2, h3, h4⟩ := exec_suffixes prog n a ha w hw b w1 h
    have hll : l2 = l := by
      have : w.log ++ l2 = w.log ++ l := hl2.symm.trans hl
      exact List.append_cancel_left this
    subst hll
    have hqs : ∀ q, ({ w with fut := w.fut.settle a } : World T).fut.queue q = w.fut.queue q :=
      (settle_state w.fut a ha).2.2.1
    have hfired : firedAt w.depth l2 = w.fut.queue a.queue := by
      rw [← hqs]
      exact hf
    exact ⟨hbt, hq, fun q1 hne => by rw [ho q1 hne, hqs], l2, hl2, hfired, by rw [hfired], h2, h3,
      h4⟩
  · intro rank hr hl n hn
    obtain ⟨⟨b, w1⟩, h⟩ := exec_total prog rank hr a w hl n hn
    obtain ⟨hb, -, -⟩ := exec_transition prog n a ha w b w1 h
    exact ⟨w1, by rw [h, hb.2 hw]⟩

/-- C39, on the pending future `waiting` with the re-entrant table: callback 1,
which registers callback 0 on every queue and tries all three transitions, is
invoked once by the one iteration of the drain of `set`. -/
theorem C39_witness :
    ∃ w1, exec reentrant 3 (.set 5) waiting = .ok (true, w1) ∧
      firedAt 0 w1.log = [1] ∧ w1.fut.onReadyCallbacks = [] := by
  obtain ⟨w1, h1⟩ := (C39_drain_runs_once_per_queued_callback reentrant (.set 5) rfl waiting
    rfl).2 id ranked_reentrant rfl 3 (by decide)
  obtain ⟨-, hq, -, l, hl, hf, -⟩ := (C39_drain_runs_once_per_queued_callback reentrant (.set 5)
    rfl waiting rfl).1 3 true w1 h1
  refine ⟨w1, h1, ?_, hq⟩
  rw [hl]
  exact hf

/-- C32, as the code has it.  For every block and every table of callbacks:
self-assignment returns the block as it is; on the block the assigned handle
`f` leaves, `f = g` is exactly the destruction of a handle, and on the block of
`g` it is exactly a copy, which adds 1 to the count, after which `f == g`
holds; when `f` and `g` share the block and other handles remain the block is
back as it was.  The release takes 1 from the count when `f` was not the last
handle; when `f` was the last handle of a PENDING block it discards the block
and invokes the callbacks of the discarded queue in order; but when `f` was
the last handle of a READY, FAILED or DISCARDED block the count goes from 1 to
-1, two below, and nothing is freed. -/
theorem C32_assignment_releases_then_adopts (prog : Callback → List (Action T)) (n : Nat)
    (w : World T) :
    (∀ thisHere thatHere, Handle.step prog n (.assign true thisHere thatHere) w = .ok w) ∧
    Handle.step prog n (.assign false true false) w = Handle.step prog n .destroy w ∧
    Handle.step prog n (.assign false false true) w = Handle.step prog n .copy w ∧
    Handle.step prog n .copy w = .ok { w with fut := { w.fut with refs := w.fut.refs + 1 } } ∧
    (∀ that p, Pointers.copy that = .ok p → that.latch ≠ 0 → Pointers.equals p that = .ok true) ∧
    (w.fut.refs ≠ 1 →
      Handle.step prog n .destroy w = .ok { w with fut := { w.fut with refs := w.fut.refs - 1 } } ∧
      Handle.step prog n (.assign false true true) w = .ok w) ∧
    (w.fut.refs = 1 → w.fut.state = .PENDING → ∀ w1, Handle.step prog n .destroy w = .ok w1 →
      w1.fut.state = .DISCARDED ∧ w1.fut.onDiscardedCallbacks = [] ∧
      (∃ l, w1.log = w.log ++ l ∧ firedAt w.depth l = w.fut.onDiscardedCallbacks) ∧
      ∃ w2, exec prog (n + 1) .discard w = .ok (true, w2) ∧ w1.fut.refs = w2.fut.refs - 1) ∧
    (w.fut.refs = 1 → w.fut.state ≠ .PENDING →
      Handle.step prog n .destroy w = .ok { w with fut := { w.fut with refs := -1 } }) := by
  refine ⟨fun _ _ => rfl, ?_, rfl, rfl, ?_, ?_, ?_, ?_⟩
  · simp only [Handle.step, Future.assign, Bool.false_eq_true, if_false, if_true]
    cases Future.cleanup (callWith prog (exec prog n)) n w <;> rfl
  · intro that p hc hl
    have hp : p.latch = that.latch := by
      unfold Pointers.copy at hc
      split at hc
      · simp only [Except.ok.injEq] at hc
        subst hc
        rfl
      · cases hc
    unfold Pointers.equals
    rw [if_neg (by rw [hp]; exact hl), if_neg hl, hp]
    simp
  · intro h1
    have hc := cleanup_nonlast_eq (callWith prog (exec prog n)) n w h1
    refine ⟨hc, ?_⟩
    simp only [Handle.step, Future.assign, Bool.false_eq_true, if_false, if_true, hc, Future.copy,
      sub_add_cancel]
  · intro h1 hw w1 h
    have hx : exec prog (n + 1) .cleanup w = .ok (true, w1) := by
      simp only [Handle.step] at h
      simp only [exec, perform, h]
      rfl
    obtain ⟨w2, hd, rfl⟩ := exec_cleanup_last prog (n + 1) w hw h1 true w1 hx
    obtain ⟨hc, hq, -, -, l, hl, -, hfi⟩ :=
      (exec_transition prog (n + 1) .discard rfl w true w2 hd).2.2 rfl
    exact ⟨hc.1, hq, ⟨l, hl, hfi⟩, w2, hd, rfl⟩
  · intro h1 hw
    simp only [Handle.step, cleanup_terminal_eq _ n w hw, h1, if_true]

/-- C32, the last handle of the READY future `answered` is assigned another
future: the count of its block goes from 1 to -1 and nothing is freed; with a
second handle left, the count goes from 2 to 1. -/
theorem C32_witness :
    Handle.step idle 0 (.assign false true false) answered = .ok leaked ∧
      answered.fut.refs = 1 ∧ leaked.fut.refs = -1 ∧ leaked.fut.freed = false ∧
      Handle.step idle 0 (.assign false true false) (Future.copy answered) = .ok answered := by
  have h := C32_assignment_releases_then_adopts idle 0 answered
  have h2 := C32_assignment_releases_then_adopts idle 0 (Future.copy answered)
  refine ⟨?_, rfl, rfl, rfl, ?_⟩
  · rw [h.2.1, h.2.2.2.2.2.2.2 rfl (by decide)]
    rfl
  · rw [h2.2.1, (h2.2.2.2.2.2.1 (by decide)).1]
    rfl

/-- C35: a callback registered for one event is not invoked when the future
ends otherwise.  Register `c` for the event of queue `q` on a future with the
guard free.  If the future is PENDING the registration appends `c` to queue
`q` and invokes nothing; whatever operations follow, as long as the future is
not in the state `q` waits for, `c` is still queued where it was put, and every
callback invoked meanwhile (at any depth) was handed a future in the state
reached and was queued for that state, or is registered for that state by one
of the operations or by a callback body: so `c` is never invoked unless it was
also registered for the state reached.  If the future already is in another
terminal state the registration changes nothing: `c` is neither invoked nor
queued. -/
theorem C35_unmatched_callback_never_fires (prog : Callback → List (Action T)) (q : Queue)
    (c : Callback) (w : World T) (hl : w.fut.lock = 0) :
    (w.fut.state = .PENDING → ∀ n,
      exec prog (n + 1) (q.on c) w = .ok (true, { w with fut := w.fut.push q c }) ∧
      (w.fut.push q c).queue q = w.fut.queue q ++ [c] ∧
      ∀ k ops bs w2, execAll prog k ops { w with fut := w.fut.push q c } = .ok (bs, w2) →
        w2.fut.state ≠ q.state →
        (∃ rest, w2.fut.queue q = w.fut.queue q ++ c :: rest) ∧
        ∃ l, w2.log = w.log ++ l ∧
          (∀ e ∈ l, e.arg.state = w2.fut.state ∧
            ((∃ q1, q1.state = w2.fut.state ∧ e.callback ∈ w.fut.queue q1) ∨
              (∃ a ∈ ops, a.lateFor w2.fut.state = some e.callback) ∨
              Fed prog w2.fut.state e.callback)) ∧
          ((∀ q1, q1.state = w2.fut.state → c ∉ w.fut.queue q1) →
            (∀ a ∈ ops, a.lateFor w2.fut.state ≠ some c) → ¬ Fed prog w2.fut.state c →
            ∀ e ∈ l, e.callback ≠ c)) ∧
    (w.fut.state ≠ .PENDING → w.fut.state ≠ q.state → ∀ n,
      exec prog (n + 1) (q.on c) w = .ok (true, w)) := by
  constructor
  · intro hw n
    obtain ⟨hq, ho, -⟩ := push_spec w.fut q c
    refine ⟨by rw [exec, perform_on_pending _ n q c w hw hl], hq, ?_⟩
    intro k ops bs w2 h hne
    obtain ⟨hstay, l, hlog, he⟩ := execAll_sources prog k ops _ w2 bs h
    have hsrc : ∀ e ∈ l, e.arg.state = w2.fut.state ∧
        ((∃ q1, q1.state = w2.fut.state ∧ e.callback ∈ w.fut.queue q1) ∨
          (∃ a ∈ ops, a.lateFor w2.fut.state = some e.callback) ∨
          Fed prog w2.fut.state e.callback) := by
      intro e hm
      obtain ⟨h1, h2⟩ := he e hm
      refine ⟨h1, ?_⟩
      rcases h2 with ⟨q1, hq1, hc⟩ | h2 | h2
      · have hqq : q1 ≠ q := by
          rintro rfl
          exact hne hq1.symm
        simp only at hc
        rw [ho q1 hqq] at hc
        exact Or.inl ⟨q1, hq1, hc⟩
      · exact Or.inr (Or.inl h2)
      · exact Or.inr (Or.inr h2)
    refine ⟨?_, l, hlog, hsrc, ?_⟩
    · obtain ⟨rest, hr⟩ := hstay q (Ne.symm hne)
      simp only at hr
      exact ⟨rest, by rw [hr, hq, List.append_assoc]; rfl⟩
    · intro h1 h2 h3 e hm hc
      rcases (hsrc e hm).2 with ⟨q1, hq1, hc1⟩ | ⟨a, ha, hc1⟩ | hc1
      · exact h1 q1 hq1 (by rw [← hc]; exact hc1)
      · exact h2 a ha (by rw [← hc]; exact hc1)
      · exact h3 (by rw [← hc]; exact hc1)
  · intro hw hne n
    rw [exec, perform_on_terminal _ n q c w hw hl, if_neg hne]

/-- C35, with the re-entrant table: callback 7 is registered with `onReady` on
a fresh future, callback 1 with `onFailed`, and the future fails; callbacks 1
and 0 are invoked, callback 7 never is and it is still in the ready queue
after a late `set` and a late `onReady`. -/
theorem C35_witness :
    ∃ bs w2, execAll reentrant 3 [.onFailed 1, .fail "boom", .set 3, .onReady 2]
        { (World.init : World Nat) with fut := (World.init : World Nat).fut.push .ready 7 } =
          .ok (bs, w2) ∧
      w2.fut.state = .FAILED ∧ w2.fut.onReadyCallbacks = [7] ∧ w2.log.length = 2 ∧
      ∀ e ∈ w2.log, e.callback ≠ 7 := by
  have h6 : ∃ r, execAll reentrant 3 [.onFailed 1, .fail "boom", .set 3, .onReady 2]
      { (World.init : World Nat) with fut := (World.init : World Nat).fut.push .ready 7 } =
        .ok r ∧ r.2.fut.state = .FAILED ∧ r.2.fut.onReadyCallbacks = [7] ∧ r.2.log.length = 2 :=
    ⟨_, rfl, rfl, rfl, rfl⟩
  obtain ⟨⟨bs, w2⟩, h7, h8, h9, h10⟩ := h6
  simp only at h8 h9 h10
  obtain ⟨-, l, hl, -, hnever⟩ :=
    ((C35_unmatched_callback_never_fires reentrant .ready 7 World.init rfl).1 rfl 0).2.2
      3 _ bs w2 h7 (by rw [h8]; decide)
  refine ⟨bs, w2, h7, h8, h9, h10, ?_⟩
  have hlog : w2.log = l := by rw [hl]; rfl
  rw [hlog]
  apply hnever
  · intro q1 _
    cases q1 <;> simp [World.init, Future.init, Shared.queue]
  · intro a ha
    rw [h8]
    simp only [List.mem_cons, List.mem_singleton, List.not_mem_nil, or_false] at ha
    rcases ha with rfl | rfl | rfl | rfl <;> simp [Action.lateFor]
  · rw [h8]
    rintro ⟨c1, a, ha, h⟩
    rcases c1 with _ | _ | c1
    · simp only [reentrant, List.mem_singleton] at ha
      subst ha
      simp [Action.lateFor] at h
    · simp only [reentrant, List.mem_cons, List.mem_singleton, List.not_mem_nil, or_false] at ha
      rcases ha with rfl | rfl | rfl | rfl | rfl | rfl | rfl <;> simp [Action.lateFor] at h
    · simp [reentrant] at ha

/-- C31: `select` registers its callback on the inputs, the other threads
perform `during` while it waits and `late` before it discards, and no input is
READY in the end.  Then no input was READY when `select` was called, after the
registration or after the wait; the promise of `select` is PENDING and empty,
its latch untriggered, after the registration, after `during` and after `late`;
the wait times out; and `select` returns none, leaving its promise DISCARDED
without a value. -/
theorem C31_no_ready_input_gives_none (prog : Callback → List (Action T)) (sel : Callback)
    (n : Nat) (during late : List (Nat × Action T)) (secs : Secs) (futures : List (World T))
    (g1 g2 g3 : Group T)
    (hreg : registerAll prog sel n (List.range futures.length)
      { inputs := futures, promise := Future.copy Promise.init } = .ok g1)
    (hduring : Group.run prog sel n during { g1 with promise := Future.copy g1.promise } =
      .ok g2)
    (hlate : Group.run prog sel n late g2 = .ok g3)
    (hno : ∀ w ∈ g3.inputs, w.fut.state ≠ .READY) :
    (∀ w ∈ futures, w.fut.state ≠ .READY) ∧ (∀ w ∈ g1.inputs, w.fut.state ≠ .READY) ∧
      (∀ w ∈ g2.inputs, w.fut.state ≠ .READY) ∧
      (g1.promise.fut.state = .PENDING ∧ g1.promise.fut.t = none ∧
        g1.promise.fut.latch.triggered = false) ∧
      (g2.promise.fut.state = .PENDING ∧ g2.promise.fut.t = none ∧
        g2.promise.fut.latch.triggered = false) ∧
      (g3.promise.fut.state = .PENDING ∧ g3.promise.fut.t = none ∧
        g3.promise.fut.latch.triggered = false) ∧
      Group.await prog sel n during secs { g1 with promise := Future.copy g1.promise } =
        .ok (false, g2) ∧
      ∃ g, select prog sel n during late secs futures = .ok (none, g) ∧
        g.inputs = g3.inputs ∧ g.promise.fut.state = .DISCARDED ∧ g.promise.fut.t = none := by
  obtain ⟨a1, a2, a3, -, -⟩ := registerAll_keeps prog sel n _ _ g1 select_start_neat
    (select_start_sound futures) hreg
  obtain ⟨b1, b2, b3⟩ := Group.copy_keeps g1 a1 a2
  obtain ⟨c1, c2, c3⟩ := Group.run_keeps prog sel n during
    { g1 with promise := Future.copy g1.promise } g2 b1 b2 hduring
  obtain ⟨d1, d2, d3⟩ := Group.run_keeps prog sel n late g2 g3 c1 c2 hlate
  have hstart : ({ inputs := futures, promise := Future.copy Promise.init } :
      Group T).promise.fut.state = .PENDING := rfl
  have hno2 := d3.none_ready hno
  have hno1' := c3.none_ready hno2
  have hno1 : ∀ w ∈ g1.inputs, w.fut.state ≠ .READY := hno1'
  have hno0 := a3.none_ready hno1
  have p1 := Group.unset_of_none_ready _ g1 a1 a2 a3 hstart hno1
  have p2 := Group.unset_of_none_ready _ g2 c1 c2 ((a3.evolves_trans b3).evolves_trans c3)
    hstart hno2
  have p3 := Group.unset_of_none_ready _ g3 d1 d2
    (((a3.evolves_trans b3).evolves_trans c3).evolves_trans d3) hstart hno
  have hwait : Group.await prog sel n during secs
      { g1 with promise := Future.copy g1.promise } = .ok (false, g2) := by
    have hp : (Future.copy g1.promise).fut.state = .PENDING := p1.1
    simp only [Group.await, Future.ready, Future.discarded, Future.failed, hp, hduring, p2.2.2]
    rfl
  obtain ⟨g, hg, hin⟩ := select_timeout prog sel n during late secs futures g1 g2 g3 hreg hwait
    hlate
  refine ⟨hno0, hno1, hno2, p1, p2, p3, hwait, g, hg, hin, ?_⟩
  obtain ⟨g1x, g2x, g3x, e1, e2, -, e4, -, -, -, e8, -⟩ :=
    select_none prog sel n during late secs futures g hg
  have x1 : g1x = g1 := by
    have := e1.symm.trans hreg
    simpa using this
  subst x1
  have x2 : g2x = g2 := by
    have := e2.symm.trans hwait
    simpa using this
  subst x2
  have x3 : g3x = g3 := by
    have := e4.symm.trans hlate
    simpa using this
  subst x3
  exact e8 p3.1

/-- C31, on a failed future and a fresh one: the fresh one is discarded while
`select` waits, and `set` is tried on both after the timeout; `select` returns
none and its promise is DISCARDED without a value. -/
theorem C31_witness :
    ∃ g, select idle 7 3 [(1, .discard)] [(1, .set 3), (0, .set 4)] 1 [broken, World.init] =
        .ok (none, g) ∧
      g.promise.fut.state = .DISCARDED ∧ g.promise.fut.t = none := by
  have h6 : ∃ g1 g2 g3, registerAll idle 7 3 (List.range 2)
        { inputs := [broken, World.init], promise := Future.copy Promise.init } = .ok g1 ∧
      Group.run idle 7 3 [(1, .discard)] { g1 with promise := Future.copy g1.promise } =
        .ok g2 ∧
      Group.run idle 7 3 [(1, .set 3), (0, .set 4)] g2 = .ok g3 ∧
      ∀ w ∈ g3.inputs, w.fut.state ≠ .READY := ⟨_, _, _, rfl, rfl, rfl, by decide⟩
  obtain ⟨g1, g2, g3, hreg, hduring, hlate, hno⟩ := h6
  obtain ⟨-, -, -, -, -, -, -, g, hg, -, hs, ht⟩ := C31_no_ready_input_gives_none idle 7 3
    [(1, .discard)] [(1, .set 3), (0, .set 4)] 1 [broken, World.init] g1 g2 g3 hreg hduring
    hlate hno
  exact ⟨g, hg, hs, ht⟩

/-- C38: `select` never removes the callbacks it registered.  Let the inputs
have the guard free, and let the callback of `select` be its own: it is in no
queue of an input beforehand, and no callback body and no other thread registers
it.  Then whenever `select` returns, with some input or none, every input that
is still PENDING was PENDING at the call, and its ready queue is the queue it
had at the call, then the callback of `select`, then the callbacks other
threads registered on it meanwhile: exactly one entry more when no other thread
registered one, and exactly one entry of `select`.  The promise of `select`
was not freed, and its reference count is the number of entries of the
callback of `select` left in the ready queues of the inputs, so at least 1
while such an input is pending. -/
theorem C38_select_leaves_its_callbacks (prog : Callback → List (Action T)) (sel : Callback)
    (n : Nat) (during late : List (Nat × Action T)) (secs : Secs) (futures : List (World T))
    (r : Option Nat) (g : Group T) (hP : Private sel prog)
    (henv : ∀ op ∈ during ++ late, sel ∉ op.2.registered)
    (hlock : ∀ w ∈ futures, w.fut.lock = 0)
    (hfresh : ∀ w ∈ futures, ∀ q, sel ∉ w.fut.queue q)
    (h : select prog sel (n + 1) during late secs futures = .ok (r, g)) :
    g.promise.fut.freed = false ∧
    g.promise.fut.refs =
      (if entries sel g.inputs = 0 then -1 else (entries sel g.inputs : Int)) ∧
    ∀ (j : Nat) (w0 w1 : World T), futures[j]? = some w0 → g.inputs[j]? = some w1 →
      w1.fut.state = .PENDING →
      w0.fut.state = .PENDING ∧
      (∃ rest, w1.fut.onReadyCallbacks = w0.fut.onReadyCallbacks ++ sel :: rest ∧ sel ∉ rest ∧
        ∀ c ∈ rest, (j, Action.onReady c) ∈ during ++ late) ∧
      ((∀ c, (j, Action.onReady c) ∉ during ++ late) →
        w1.fut.onReadyCallbacks = w0.fut.onReadyCallbacks ++ [sel] ∧
        w1.fut.onReadyCallbacks.length = w0.fut.onReadyCallbacks.length + 1) ∧
      w1.fut.onReadyCallbacks.count sel = 1 ∧
      g.promise.fut.refs = entries sel g.inputs ∧ 1 ≤ g.promise.fut.refs := by
  have hreg := registerAll_eq prog sel n futures hlock
  have hN1 := (registerAll_from prog sel n futures [] _ select_start_neat hlock).2
  simp only [List.length_nil] at hN1
  generalize hg1 : (Group.mk (futures.map (registered sel))
    (promiseAfter 0 futures (Future.copy Promise.init)) : Group T) = g1 at hreg
  have hin1 : g1.inputs = futures.map (registered sel) := by rw [← hg1]
  have hpr1 : g1.promise = promiseAfter 0 futures (Future.copy Promise.init) := by rw [← hg1]
  rw [← hpr1] at hN1
  obtain ⟨-, hS1, -, -, -⟩ := registerAll_keeps prog sel (n + 1) _ _ g1 select_start_neat
    (select_start_sound futures) hreg
  have hC1 : g1.Counted sel 2 := by
    refine ⟨?_, ?_, fun w hw => ?_⟩
    · rw [hpr1, hin1, (promiseAfter_refs futures 0 _).1, entries_registered,
        entries_fresh sel futures (fun w hw => hfresh w hw .ready)]
      simp [Future.copy, Promise.init, World.init, Future.init]
    · rw [hpr1, (promiseAfter_refs futures 0 _).2]
      rfl
    · rw [hin1] at hw
      obtain ⟨w0, hw0, rfl⟩ := List.mem_map.1 hw
      rw [(registered_queues sel w0).1, (registered_queues sel w0).2.1]
      exact ⟨hfresh w0 hw0 .failed, hfresh w0 hw0 .discarded⟩
  obtain ⟨hN1c, hS1c, -⟩ := Group.copy_keeps g1 hN1 hS1
  have hC1c : Group.Counted sel 3 { g1 with promise := Future.copy g1.promise } := by
    refine ⟨?_, hC1.2.1, hC1.2.2⟩
    have := hC1.1
    simp only [Future.copy]
    omega
  have hdur : ∀ op ∈ during, sel ∉ op.2.registered := fun op hop =>
    henv op (List.mem_append_left _ hop)
  have hlat : ∀ op ∈ late, sel ∉ op.2.registered := fun op hop =>
    henv op (List.mem_append_right _ hop)
  -- from the group `select` destroys its locals in
  have key : ∀ gL : Group T, gL.promise.fut.state ≠ .PENDING → gL.Counted sel 3 →
      (∀ (j : Nat) (w w1 : World T), g1.inputs[j]? = some w → gL.inputs[j]? = some w1 →
        w1.fut.state = .PENDING → w.fut.state = .PENDING ∧
          ∃ rest, w1.fut.onReadyCallbacks = w.fut.onReadyCallbacks ++ rest ∧
            ∀ c ∈ rest, (j, Action.onReady c) ∈ during ++ late) →
      gL.leave = .ok g →
      g.promise.fut.freed = false ∧
      g.promise.fut.refs =
        (if entries sel g.inputs = 0 then -1 else (entries sel g.inputs : Int)) ∧
      ∀ (j : Nat) (w0 w1 : World T), futures[j]? = some w0 → g.inputs[j]? = some w1 →
        w1.fut.state = .PENDING →
        w0.fut.state = .PENDING ∧
        (∃ rest, w1.fut.onReadyCallbacks = w0.fut.onReadyCallbacks ++ sel :: rest ∧
          sel ∉ rest ∧ ∀ c ∈ rest, (j, Action.onReady c) ∈ during ++ late) ∧
        ((∀ c, (j, Action.onReady c) ∉ during ++ late) →
          w1.fut.onReadyCallbacks = w0.fut.onReadyCallbacks ++ [sel] ∧
          w1.fut.onReadyCallbacks.length = w0.fut.onReadyCallbacks.length + 1) ∧
        w1.fut.onReadyCallbacks.count sel = 1 ∧
        g.promise.fut.refs = entries sel g.inputs ∧ 1 ≤ g.promise.fut.refs := by
    intro gL hpL hCL hshape hleave
    rw [Group.leave_counted sel gL hpL hCL] at hleave
    simp only [Except.ok.injEq] at hleave
    subst hleave
    refine ⟨hCL.2.1, rfl, fun j w0 w1 hj0 hj1 hp1 => ?_⟩
    simp only at hj1
    have hjr : g1.inputs[j]? = some (registered sel w0) := by
      rw [hin1, List.getElem?_map, hj0]
      rfl
    obtain ⟨hpr, rest, hrest, hmem⟩ := hshape j _ w1 hjr hj1 hp1
    have hp0 : w0.fut.state = .PENDING := by
      rw [← (registered_state sel w0).1]
      exact hpr
    rw [(registered_queues sel w0).2.2, if_pos hp0, List.append_assoc] at hrest
    have hnot : sel ∉ rest := by
      intro hm
      exact henv _ (hmem sel hm) (by simp [Action.registered])
    have hcount : w1.fut.onReadyCallbacks.count sel = 1 := by
      have e0 : w0.fut.onReadyCallbacks.count sel = 0 :=
        List.count_eq_zero_of_not_mem (hfresh w0 (List.getElem?_mem hj0) .ready)
      rw [hrest, List.count_append, List.count_append, e0,
        List.count_eq_zero_of_not_mem hnot]
      simp
    have hge := entries_ge sel gL.inputs j w1 hj1
    have hne : entries sel gL.inputs ≠ 0 := by omega
    refine ⟨hp0, ⟨rest, hrest, hnot, hmem⟩, fun hnone => ?_, hcount, ?_, ?_⟩
    · have : rest = [] := by
        cases rest with
        | nil => rfl
        | cons c _ => exact absurd (hmem c (List.mem_cons_self _ _)) (hnone c)
      subst this
      rw [hrest]
      exact ⟨rfl, by simp⟩
    · simp only [if_neg hne]
    · simp only [if_neg hne]
      omega
  unfold select at h
  rw [hreg] at h
  simp only at h
  split at h
  · cases h
  · rename_i awaited g2 h2
    obtain ⟨hN2, hS2, -, haw, hor⟩ := Group.await_keeps prog sel (n + 1) during secs
      { g1 with promise := Future.copy g1.promise } hN1c hS1c awaited g2 h2
    have hC2 : g2.Counted sel 3 ∧
        ∀ (j : Nat) (w w1 : World T), g1.inputs[j]? = some w → g2.inputs[j]? = some w1 →
          w1.fut.state = .PENDING → w.fut.state = .PENDING ∧
            ∃ rest, w1.fut.onReadyCallbacks = w.fut.onReadyCallbacks ++ rest ∧
              ∀ c ∈ rest, (j, Action.onReady c) ∈ during := by
      rcases hor with ⟨-, rfl⟩ | ⟨-, hrun⟩
      · refine ⟨hC1c, fun j w w1 hj hj1 hp => ?_⟩
        simp only at hj1
        rw [hj] at hj1
        cases hj1
        exact ⟨hp, [], by simp, fun c hc => (by cases hc)⟩
      · exact ⟨Group.run_counted prog sel hP (n + 1) 3 (by decide) during
          { g1 with promise := Future.copy g1.promise } g2 hdur hN1c hS1c hC1c hrun,
          Group.run_pending_queue prog sel (n + 1) during
            { g1 with promise := Future.copy g1.promise } g2 hN1c hS1c hrun⟩
    cases awaited with
    | true =>
      simp only [if_true] at h
      split at h
      · cases h
      · split at h
        · cases h
        · rename_i g3 hleave
          simp only [Except.ok.injEq, Prod.mk.injEq] at h
          obtain ⟨-, rfl⟩ := h
          refine key g2 (haw.1 rfl) hC2.1 (fun j w w1 hj hj1 hp => ?_) hleave
          obtain ⟨h3, rest, h4, h5⟩ := hC2.2 j w w1 hj hj1 hp
          exact ⟨h3, rest, h4, fun c hc => List.mem_append_left _ (h5 c hc)⟩
    | false =>
      simp only [Bool.false_eq_true, if_false] at h
      split at h
      · cases h
      · rename_i g3 hrun3
        obtain ⟨hN3, hS3, hE3⟩ := Group.run_keeps prog sel (n + 1) late g2 g3 hN2 hS2 hrun3
        have hC3 := Group.run_counted prog sel hP (n + 1) 3 (by decide) late g2 g3 hlat hN2 hS2
          hC2.1 hrun3
        have hq3 := Group.run_pending_queue prog sel (n + 1) late g2 g3 hN2 hS2 hrun3
        split at h
        · cases h
        · rename_i b3 p hdis
          split at h
          · cases h
          · rename_i g4 hleave
            simp only [Except.ok.injEq, Prod.mk.injEq] at h
            obtain ⟨-, rfl⟩ := h
            have hp : p.fut.state ≠ .PENDING ∧ p.fut.refs = g3.promise.fut.refs ∧
                p.fut.freed = g3.promise.fut.freed := by
              by_cases hp3 : g3.promise.fut.state = .PENDING
              · rw [promise_settle g3.promise .discard rfl hN3 hp3] at hdis
                simp only [Except.ok.injEq, Prod.mk.injEq] at hdis
                rw [← hdis.2]
                exact ⟨by simp [Shared.settle], rfl, rfl⟩
              · rw [promise_terminal g3.promise .discard rfl hN3 hp3] at hdis
                simp only [Except.ok.injEq, Prod.mk.injEq] at hdis
                rw [← hdis.2]
                exact ⟨hp3, rfl, rfl⟩
            refine key { g3 with promise := p } hp.1
              ⟨by simp only; rw [hp.2.1]; exact hC3.1, by simp only; rw [hp.2.2]; exact hC3.2.1,
                hC3.2.2⟩ (fun j w w1 hj hj1 hp1 => ?_) hleave
            simp only at hj1
            have hlt : j < g2.inputs.length := by
              rw [← hE3.1]
              by_contra hn
              rw [List.getElem?_eq_none (by omega)] at hj1
              cases hj1
            have hj2 : g2.inputs[j]? = some (g2.inputs[j]) := List.getElem?_eq_getElem hlt
            obtain ⟨h3, r3, h4, h5⟩ := hq3 j _ w1 hj2 hj1 hp1
            obtain ⟨h6, r2, h7, h8⟩ := hC2.2 j w _ hj hj2 h3
            refine ⟨h6, r2 ++ r3, by rw [h4, h7, List.append_assoc], fun c hc => ?_⟩
            rcases List.mem_append.1 hc with h9 | h9
            · exact List.mem_append_left _ (h8 c h9)
            · exact List.mem_append_right _ (h5 c h9)

/-- C38, on two fresh futures and a failed one: another thread sets the first
while `select` waits, and `select` returns it; the second, still pending, has
the callback of `select` as the one entry of its ready queue, and the promise
of `select`, not freed, is held by that entry alone. -/
theorem C38_witness :
    ∃ g w1, select idle 7 3 [(0, .set 5)] [] 1 [World.init, World.init, broken] =
        .ok (some 0, g) ∧
      g.inputs[1]? = some w1 ∧ w1.fut.state = .PENDING ∧ w1.fut.onReadyCallbacks = [7] ∧
      g.promise.fut.refs = 1 ∧ g.promise.fut.freed = false := by
  have h6 : ∃ g w1, select idle 7 3 [(0, .set 5)] [] 1 [World.init, World.init, broken] =
        .ok (some 0, g) ∧
      g.inputs[1]? = some w1 ∧ w1.fut.state = .PENDING ∧ entries 7 g.inputs = 1 :=
    ⟨_, _, rfl, rfl, rfl, rfl⟩
  obtain ⟨g, w1, hg, hw1, hp, he⟩ := h6
  obtain ⟨hfreed, -, hin⟩ := C38_select_leaves_its_callbacks idle 7 2 [(0, .set 5)] [] 1
    [World.init, World.init, broken] (some 0) g
    (fun c a ha => by simp [idle] at ha)
    (fun op hop => by
      simp only [List.append_nil, List.mem_singleton] at hop
      subst hop
      simp [Action.registered])
    (by decide)
    (fun w hw q => by
      simp only [List.mem_cons, List.mem_singleton, List.not_mem_nil, or_false] at hw
      rcases hw with rfl | rfl | rfl <;> cases q <;>
        simp [World.init, Future.init, broken, Shared.queue])
    hg
  obtain ⟨-, -, hone, -, hrefs, -⟩ := hin 1 World.init w1 rfl hw1 hp
  refine ⟨g, w1, hg, hw1, hp, ?_, ?_, hfreed⟩
  · exact (hone (fun c hc => by simp at hc)).1
  · rw [hrefs, he]
    rfl

/-- C19, the claim as worded fails: the count is a 32-bit `int`.  On a block
with `2 ^ 31 - 1` live handles a copy construction returns with the count at
`-2 ^ 31`: it is not the number of live handles, `2 ^ 31`, it is not at least
1, and the copy did not add 1. -/
theorem C19_counterexample :
    crowded.fut.refs = 2147483647 ∧
      Handle.step32 idle 0 .copy crowded =
        .ok { crowded with fut := { crowded.fut with refs := -2147483648 } } ∧
      Handle.count crowded.fut.refs [.copy] = 2147483648 ∧
      (Future.copy32 crowded).fut.refs ≠ crowded.fut.refs + 1 := by
  decide

/-- C19, amended: the reference count counts the live handles while their
number stays within the range of the `int`.  Let the block have count `h ≥ 1`,
one per live handle.  For every sequence of copy constructions, `future()`
calls, assignments and destructions that never takes away the last handle and
never takes the number of live handles above `2 ^ 31 - 1`, the sequence, run on
the 32-bit count, runs to the end, changes nothing in the block but the count,
and leaves the count equal to the number of live handles, which is at least 1
and at most `2 ^ 31 - 1`.  With fewer than `2 ^ 31 - 1` live handles a copy
construction (and `future()`) adds exactly 1 and leaves the rest of the block,
which the new handle aliases, as it is. -/
theorem C19_refcount_counts_live_handles (prog : Callback → List (Action T))
    (w : World T) (h : Int) (ops : List Handle.Op) (n : Nat) (hrefs : w.fut.refs = h)
    (h1 : 1 ≤ h) (hv : Handle.Valid h ops) (hb : Handle.Bounded h ops) :
    Handle.run32 prog n ops w =
      .ok { w with fut := { w.fut with refs := Handle.count h ops } } ∧
    1 ≤ Handle.count h ops ∧ Handle.count h ops ≤ 2 ^ 31 - 1 ∧
    (h < 2 ^ 31 - 1 →
      Handle.step32 prog n .copy w = .ok { w with fut := { w.fut with refs := h + 1 } } ∧
      Handle.step32 prog n .future w = .ok { w with fut := { w.fut with refs := h + 1 } }) := by
  subst hrefs
  obtain ⟨h3, h4⟩ := handle_run prog n ops w h1 hv
  refine ⟨(handle_run32 prog n ops w h1 hv hb).trans h3, h4,
    (Handle.Bounded.count_le ops _ hb).1, fun hlt => ?_⟩
  have he := copy32_eq w (by omega) (by omega)
  exact ⟨by simp only [Handle.step32, he]; rfl, by simp only [Handle.step32, he]; rfl⟩

/-- C19, on a fresh promise (one handle): `future()`, two copies, an
assignment of a handle of another block onto one of this block, and the
destruction of one handle leave two live handles and the count 2. -/
theorem C19_witness :
    Handle.run32 idle 0 [.future, .copy, .copy, .assign false true false, .destroy]
        Promise.init =
      .ok { (Promise.init : World Nat) with fut := { Future.init with refs := 2 } } ∧
    Handle.count 1 [.future, .copy, .copy, .assign false true false, .destroy] = 2 := by
  have h := C19_refcount_counts_live_handles idle (Promise.init : World Nat) 1
    [.future, .copy, .copy, .assign false true false, .destroy] 0 rfl (by decide)
    ⟨trivial, trivial, trivial, Or.inr (Or.inr (by decide)), by decide, trivial⟩
    (by simp [Handle.Bounded, Handle.Op.delta])
  have hc : Handle.count 1 [.future, .copy, .copy, .assign false true false, .destroy] = 2 := by
    decide
  have h2 := h.1
  rw [hc] at h2
  exact ⟨h2, hc⟩

/-- C26, the claim as worded fails: with two pending futures A and B in the
set, and a callback registered on A with `onDiscarded` that sets B, the call
`discard` on the set, no other thread running, returns with A DISCARDED and B
READY holding 9: B was PENDING at the call and is not DISCARDED after it.  The
one invocation logged is that of the callback, on A. -/
theorem C26_counterexample :
    ∃ h1, Heap.discard crossing 0 3 (fun _ => []) [0, 1] pair = .ok h1 ∧
      pair.futures.map (fun s => s.state) = [.PENDING, .PENDING] ∧
      h1.futures.map (fun s => s.state) = [.DISCARDED, .READY] ∧
      h1.futures.map (fun s => s.t) = [none, some 9] ∧
      h1.log.map (fun e => (e.1, e.2.callback)) = [(0, 7)] :=
  ⟨_, rfl, rfl, rfl, rfl, rfl⟩

/-- C26, amended: whenever `discard` on a set of futures returns, whatever the
callbacks do and whatever other threads do between its iterations, no element
of the set is PENDING; a future that was READY, FAILED or DISCARDED at the call
keeps its state, value and message; and an element that is still PENDING when
the loop reaches it (heap `ha`, after the elements `done` before it and what
the other threads did since) is DISCARDED from then on, with value and message
untouched, its discarded queue empty and the callbacks of that queue invoked in
order on it during its iteration (heap `hj` after it).  An element that was
PENDING at the call may thus end READY or FAILED only if a callback or another
thread resolved it before its turn.  And the call does return, with any fuel
from some bound on, when the callbacks are ranked (a body registers only
callbacks of smaller rank), the guards are free and no `select` is under way
on the futures. -/
theorem C26_discard_set_leaves_none_pending (prog : Callback → Nat → Body T) (sel : Callback)
    (between : Nat → Body T) (is : List Nat) (h : Heap T) :
    (∀ (n : Nat) (h1 : Heap T), Heap.discard prog sel n between is h = .ok h1 →
      (∀ i ∈ is, ∀ s1, h1.futures[i]? = some s1 → s1.state ≠ .PENDING) ∧
      (∀ (i : Nat) (s : Shared T), h.futures[i]? = some s → s.state ≠ .PENDING →
        ∃ s1, h1.futures[i]? = some s1 ∧ s1.state = s.state ∧ s1.t = s.t ∧
          s1.message = s.message) ∧
      (∀ (done : List Nat) (i : Nat) (rest : List Nat), is = done ++ i :: rest →
        ∃ hi ha hj, Heap.discard prog sel n between done h = .ok hi ∧
          Heap.run prog sel n (between i) hi = .ok ha ∧
          Heap.discard prog sel n between [i] hi = .ok hj ∧
          Heap.discard prog sel n between rest hj = .ok h1 ∧
          ∀ s, ha.futures[i]? = some s → s.state = .PENDING →
            Heap.fired ha hj = s.onDiscardedCallbacks.map (fun c => (i, c)) ∧
            ∃ s1, h1.futures[i]? = some s1 ∧ s1.state = .DISCARDED ∧ s1.t = s.t ∧
              s1.message = s.message ∧ s1.onDiscardedCallbacks = [])) ∧
    (∀ rank : Callback → Nat, Heap.Ranked prog rank → Heap.Apart sel prog → Heap.Free sel h →
      (∀ i, ∀ x ∈ between i, sel ∉ x.2.registered) →
      ∃ N, ∀ m, N ≤ m → ∃ h1, Heap.discard prog sel m between is h = .ok h1) := by
  refine ⟨fun n h1 hd => ⟨Heap.discard_settles prog sel n between is h h1 hd,
    fun i s hs hne => ?_, fun done i rest hsplit => ?_⟩, fun rank hR hA hF hB => ?_⟩
  · obtain ⟨s1, hs1, hst⟩ := (Heap.discard_grows prog sel n between is h h1 hd).1.2.2.1 i s hs
    exact ⟨s1, hs1, hst hne⟩
  · subst hsplit
    rw [Heap.discard_append] at hd
    cases hx : Heap.discard prog sel n between done h with
    | error e => rw [hx] at hd; cases hd
    | ok hi =>
      rw [hx] at hd
      simp only at hd
      rw [Heap.discard_cons] at hd
      cases hy : Heap.discard prog sel n between [i] hi with
      | error e => rw [hy] at hd; cases hd
      | ok hj =>
        rw [hy] at hd
        simp only at hd
        obtain ⟨-, ha, hrun, hspec⟩ := Heap.discard_one prog sel n between i hi hj hy
        refine ⟨hi, ha, hj, rfl, hrun, hy, hd, fun s hs hp => ?_⟩
        obtain ⟨sj, hsj, hne, hpend⟩ := hspec s hs
        obtain ⟨a1, a2, a3, a4, a5⟩ := hpend hp
        have hg := Heap.discard_grows prog sel n between rest hj h1 hd
        obtain ⟨s1, hs1, hst⟩ := hg.1.2.2.1 i sj hsj
        obtain ⟨b1, b2, b3⟩ := hst hne
        refine ⟨a5, s1, hs1, b1.trans a1, b2.trans a2, b3.trans a3, ?_⟩
        have := hg.2 i sj s1 .discarded hsj hs1 hne trivial
        exact this.trans a4
  · obtain ⟨N, h1, hd⟩ := Heap.discard_returns prog sel hA rank hR between hB is h hF
    exact ⟨N, fun m hm => ⟨h1, Heap.discard_mono prog sel N m hm between is h h1 hd⟩⟩

/-- C26, on the set of the counterexample: it returns, no element is PENDING
afterwards, and A, found pending, is DISCARDED after its callback 7 ran; B was
resolved by that callback before its turn and is READY.  The callbacks of the
table register nothing, so the call returns with any fuel from some bound
on. -/
theorem C26_witness :
    (∃ h1, Heap.discard crossing 0 3 (fun _ => []) [0, 1] pair = .ok h1 ∧
      (∀ i ∈ [0, 1], ∀ s1, h1.futures[i]? = some s1 → s1.state ≠ .PENDING) ∧
      h1.futures.map (fun s => s.state) = [.DISCARDED, .READY]) ∧
    Heap.Ranked crossing (fun _ => 0) ∧ Heap.Apart 0 crossing ∧ Heap.Free 0 pair ∧
    ∃ N, ∀ m, N ≤ m → ∃ h1, Heap.discard crossing 0 m (fun _ => []) [0, 1] pair = .ok h1 := by
  have h6 : ∃ h1, Heap.discard crossing 0 3 (fun _ => []) [0, 1] pair = .ok h1 ∧
      h1.futures.map (fun s => s.state) = [.DISCARDED, .READY] := ⟨_, rfl, rfl⟩
  have hreg : ∀ (c i : Nat), ∀ x ∈ crossing c i, x.2.registered = [] := by
    intro c i x hx
    unfold crossing at hx
    split at hx
    · rw [List.mem_singleton] at hx
      subst hx
      rfl
    · cases hx
  have hR : Heap.Ranked crossing (fun _ => 0) := by
    intro c i x hx c1 hc1
    rw [hreg c i x hx] at hc1
    cases hc1
  have hA : Heap.Apart 0 crossing := by
    intro c i x hx hc1
    rw [hreg c i x hx] at hc1
    cases hc1
  have hF : Heap.Free 0 pair := by
    intro i s hs
    match i, hs with
    | 0, hs =>
      simp only [pair, List.getElem?_cons_zero, Option.some.injEq] at hs
      subst hs
      exact ⟨rfl, fun q => by cases q <;> decide⟩
    | 1, hs =>
      simp only [pair, List.getElem?_cons_succ, List.getElem?_cons_zero, Option.some.injEq] at hs
      subst hs
      exact ⟨rfl, fun q => by cases q <;> decide⟩
    | k + 2, hs =>
      simp [pair] at hs
  obtain ⟨h1, h7, h8⟩ := h6
  exact ⟨⟨h1, h7,
      ((C26_discard_set_leaves_none_pending crossing 0 (fun _ => []) [0, 1] pair).1 3 h1 h7).1,
      h8⟩, hR, hA, hF,
    (C26_discard_set_leaves_none_pending crossing 0 (fun _ => []) [0, 1] pair).2
      (fun _ => 0) hR hA hF (fun _ _ hx => by cases hx)⟩

end Claims

end process

/-! ## The executor launcher: lemmas and claims -/

namespace mesos.internal.launcher

section Launcher

theorem occursAt_iff_take : ∀ (pat s : string), occursAt pat s = true ↔ s.take pat.length = pat
  | [], s => by simp [occursAt]
  | _ :: _, [] => by simp [occursAt]
  | p :: pat, c :: s => by
    simp only [occursAt, Bool.and_eq_true, decide_eq_true_eq, List.length_cons, List.take_succ_cons,
      List.cons.injEq, occursAt_iff_take pat s]
    constructor
    · rintro ⟨h1, h2⟩; exact ⟨h1.symm, h2⟩
    · rintro ⟨h1, h2⟩; exact ⟨h1.symm, h2⟩

theorem findFrom_ge (pat : string) : ∀ (s : string) (pos : Nat),
    pos ≤ findFrom pat s pos ∨ findFrom pat s pos = npos
  | [], pos => by
    simp only [findFrom]
    split
    · exact Or.inl (Nat.le_refl _)
    · exact Or.inr rfl
  | c :: s, pos => by
    simp only [findFrom]
    split
    · exact Or.inl (Nat.le_refl _)
    · rcases findFrom_ge pat s (pos + 1) with h | h
      · exact Or.inl (by omega)
      · exact Or.inr h

/-- The test `s.find(pat) == 0` holds exactly when `s` starts with the C
string `pat`. -/
theorem find_eq_zero (s pat : string) :
    find s pat = 0 ↔ s.take (c_str pat).length = c_str pat := by
  rw [← occursAt_iff_take]
  unfold find
  cases s with
  | nil =>
    simp only [findFrom]
    split
    · simp [*]
    · simp [*, npos]
  | cons c s =>
    simp only [findFrom]
    split
    · simp [*]
    · rename_i hn
      have h0 : findFrom (c_str pat) s (0 + 1) ≠ 0 := by
        rcases findFrom_ge (c_str pat) s (0 + 1) with h | h
        · omega
        · rw [h]; decide
      simp [hn, h0]

/-- A string without NUL is its own C string. -/
theorem c_str_eq (s : string) (h : Char.ofNat 0 ∉ s) : c_str s = s := by
  unfold c_str
  rw [List.takeWhile_eq_self_iff]
  intro c hc
  simp only [ne_eq, decide_not, Bool.not_eq_eq_eq_not, Bool.not_true, decide_eq_false_iff_not]
  rintro rfl
  exact h hc

theorem setupEnvVariable_eq (key value : string) (e : Environment) :
    ExecutorLauncher.setupEnvVariable key value e =
      .ok (if key.take 4 = "env.".toList then (setenv (c_str (key.drop 4)) (c_str value) 1 e).2
        else e) := by
  have hl : strlen "env.".toList = 4 := by decide
  have hf : find key "env.".toList = 0 ↔ key.take 4 = "env.".toList := by
    rw [find_eq_zero]
    exact Iff.rfl
  unfold ExecutorLauncher.setupEnvVariable
  by_cases hk : key.take 4 = "env.".toList
  · have hlen : ¬ 4 > key.length := by
      have := congrArg List.length hk
      rw [List.length_take] at this
      have h4 : "env.".toList.length = 4 := by decide
      omega
    rw [if_pos (hf.2 hk), if_pos hk, hl]
    simp [substr, hlen]
  · rw [if_neg (fun h => hk (hf.1 h)), if_neg hk]

theorem expectedCalls_cons_env (key value : string) (rest : List (string × string))
    (hk : key.take 4 = "env.".toList) :
    expectedCalls ((key, value) :: rest) =
      ⟨c_str (key.drop 4), c_str value, 1⟩ :: expectedCalls rest := by
  unfold expectedCalls
  rw [List.filterMap_cons]
  simp only [hk, if_true]

theorem expectedCalls_cons_other (key value : string) (rest : List (string × string))
    (hk : ¬ key.take 4 = "env.".toList) :
    expectedCalls ((key, value) :: rest) = expectedCalls rest := by
  unfold expectedCalls
  rw [List.filterMap_cons]
  simp only [hk, if_false]

theorem setenv_calls (name value : string) (overwrite : Int) (e : Environment) :
    (setenv name value overwrite e).2.calls = e.calls ++ [⟨name, value, overwrite⟩] := by
  unfold setenv
  split
  · rfl
  · split <;> rfl

theorem getenv_store_ne (name value other : string) (h : other ≠ name) :
    ∀ vars : List (string × string), getenv other (store name value vars) = getenv other vars
  | [] => by simp [store, getenv, h.symm]
  | (k, v) :: rest => by
    by_cases hk : k = name
    · subst hk
      simp [store, getenv, h.symm]
    · by_cases ho : k = other
      · subst ho
        simp [store, getenv, hk]
      · simp [store, getenv, hk, ho, getenv_store_ne name value other h rest]

theorem getenv_store_same (name value : string) :
    ∀ vars : List (string × string), getenv name (store name value vars) = some value
  | [] => by simp [store, getenv]
  | (k, v) :: rest => by
    by_cases hk : k = name
    · simp [store, getenv, hk]
    · simp [store, getenv, hk, getenv_store_same name value rest]

/-- A call of `setenv` leaves every other variable alone. -/
theorem getenv_setenv_ne (name value other : string) (overwrite : Int) (e : Environment)
    (h : other ≠ name) :
    getenv other (setenv name value overwrite e).2.environ = getenv other e.environ := by
  unfold setenv
  split
  · rfl
  · split
    · rfl
    · exact getenv_store_ne name value other h e.environ

/-- A call of `setenv` with a well-formed name and `overwrite = 1` sets the
variable. -/
theorem getenv_setenv_same (name value : string) (e : Environment) (h1 : name ≠ [])
    (h2 : '=' ∉ name) : getenv name (setenv name value 1 e).2.environ = some value := by
  unfold setenv
  simp [h1, h2, getenv_store_same]

theorem setupEnvVariablesFrom_spec : ∀ (params : List (string × string)) (e : Environment),
    ∃ e1, ExecutorLauncher.setupEnvVariablesFrom params e = .ok e1 ∧
      e1.calls = e.calls ++ expectedCalls params ∧
      ∀ name, (∀ c ∈ expectedCalls params, c.name ≠ name) →
        getenv name e1.environ = getenv name e.environ
  | [], e => ⟨e, rfl, by simp [expectedCalls], fun _ _ => rfl⟩
  | (key, value) :: rest, e => by
    simp only [ExecutorLauncher.setupEnvVariablesFrom, setupEnvVariable_eq]
    by_cases hk : key.take 4 = "env.".toList
    · obtain ⟨e1, h1, h2, h3⟩ := setupEnvVariablesFrom_spec rest
        (setenv (c_str (key.drop 4)) (c_str value) 1 e).2
      rw [expectedCalls_cons_env key value rest hk, if_pos hk]
      refine ⟨e1, h1, ?_, ?_⟩
      · rw [h2, setenv_calls, List.append_assoc]
        rfl
      · intro name hn
        have hn1 : ∀ c ∈ expectedCalls rest, c.name ≠ name := fun c hc =>
          hn c (List.mem_cons_of_mem _ hc)
        have hn2 : name ≠ c_str (key.drop 4) := fun heq =>
          hn ⟨c_str (key.drop 4), c_str value, 1⟩ (List.mem_cons_self _ _) heq.symm
        rw [h3 name hn1, getenv_setenv_ne _ _ _ _ _ hn2]
    · obtain ⟨e1, h1, h2, h3⟩ := setupEnvVariablesFrom_spec rest e
      rw [expectedCalls_cons_other key value rest hk, if_neg hk]
      exact ⟨e1, h1, h2, h3⟩

theorem setupEnvVariablesFrom_none : ∀ (params : List (string × string)) (e : Environment),
    (∀ p ∈ params, ¬ p.1.take 4 = "env.".toList) →
    ExecutorLauncher.setupEnvVariablesFrom params e = .ok e
  | [], _, _ => rfl
  | (key, value) :: rest, e, h => by
    have hk : ¬ key.take 4 = "env.".toList := h (key, value) (List.mem_cons_self _ _)
    simp only [ExecutorLauncher.setupEnvVariablesFrom, setupEnvVariable_eq, if_neg hk]
    exact setupEnvVariablesFrom_none rest e fun p hp => h p (List.mem_cons_of_mem _ hp)

/-- C28: `setupEnvVariablesFromParams()` returns for every parameter map, and
the calls of `setenv` it makes are, in the order of the map, one call for each
entry whose key starts with `env.`, named by the key without these four
characters, carrying the value of the entry, with `overwrite` 1 (name and value
as the C strings `c_str()` hands over, which are the strings themselves when
they hold no NUL); no variable other than the ones so named changes, and a map
without such a key leaves the environment and the record of calls as they
were. -/
theorem C28_env_params_become_setenv_calls (l : ExecutorLauncher) (e : Environment) :
    (∃ e1, ExecutorLauncher.setupEnvVariablesFromParams l e = .ok e1 ∧
      e1.calls = e.calls ++ expectedCalls l.params ∧
      ∀ name, (∀ c ∈ expectedCalls l.params, c.name ≠ name) →
        getenv name e1.environ = getenv name e.environ) ∧
    expectedCalls l.params = l.params.filterMap (fun p =>
      if p.1.take 4 = "env.".toList then some ⟨c_str (p.1.drop 4), c_str p.2, 1⟩ else none) ∧
    (∀ s : string, Char.ofNat 0 ∉ s → c_str s = s) ∧
    ((∀ p ∈ l.params, ¬ p.1.take 4 = "env.".toList) →
      ExecutorLauncher.setupEnvVariablesFromParams l e = .ok e) :=
  ⟨setupEnvVariablesFrom_spec l.params e, rfl, c_str_eq,
    setupEnvVariablesFrom_none l.params e⟩

/-- C28, on the parameters of `sample`: of the five entries, the three with an
`env.` key give the three calls, and `cpus` and `environment` give none. -/
theorem C28_witness :
    ∃ e1, ExecutorLauncher.setupEnvVariablesFromParams sample ⟨[], []⟩ = .ok e1 ∧
      e1.calls = [⟨"LIBPROCESS_PORT".toList, "9999".toList, 1⟩,
        ⟨"MESOS_DIRECTORY".toList, "/elsewhere".toList, 1⟩,
        ⟨"PATH".toList, "/usr/bin".toList, 1⟩] ∧
      getenv "cpus".toList e1.environ = none ∧ getenv "environment".toList e1.environ = none := by
  obtain ⟨e1, h1, h2, h3⟩ := (C28_env_params_become_setenv_calls sample ⟨[], []⟩).1
  have hc : expectedCalls sample.params = [⟨"LIBPROCESS_PORT".toList, "9999".toList, 1⟩,
        ⟨"MESOS_DIRECTORY".toList, "/elsewhere".toList, 1⟩,
        ⟨"PATH".toList, "/usr/bin".toList, 1⟩] := by decide
  refine ⟨e1, h1, ?_, ?_, ?_⟩
  · rw [h2, hc]; rfl
  · rw [h3 _ (by rw [hc]; decide)]; rfl
  · rw [h3 _ (by rw [hc]; decide)]; rfl

/-- C29: `setupEnvironment()` returns for every launcher and every parameter
map, and afterwards `MESOS_DIRECTORY` is the working directory,
`MESOS_SLAVE_PID` the slave pid, `MESOS_FRAMEWORK_ID` and `MESOS_EXECUTOR_ID`
the two identifiers, `LIBPROCESS_PORT` is `0`, and `MESOS_HOME` is `mesosHome`
when that is not empty (each value as the C string `c_str()` hands over, which
is the string itself when it holds no NUL): the fixed variables are set after
the ones of the `env.` parameters, with `overwrite` 1. -/
theorem C29_fixed_variables_follow_the_launcher (l : ExecutorLauncher) (e : Environment) :
    (∃ e1, ExecutorLauncher.setupEnvironment l e = .ok e1 ∧
      getenv "MESOS_DIRECTORY".toList e1.environ = some (c_str l.workDirectory) ∧
      getenv "MESOS_SLAVE_PID".toList e1.environ = some (c_str l.slavePid) ∧
      getenv "MESOS_FRAMEWORK_ID".toList e1.environ = some (c_str l.frameworkId) ∧
      getenv "MESOS_EXECUTOR_ID".toList e1.environ = some (c_str l.executorId) ∧
      getenv "LIBPROCESS_PORT".toList e1.environ = some "0".toList ∧
      (l.mesosHome ≠ [] → getenv "MESOS_HOME".toList e1.environ = some (c_str l.mesosHome))) ∧
    (∀ s : string, Char.ofNat 0 ∉ s → c_str s = s) := by
  refine ⟨?_, c_str_eq⟩
  obtain ⟨e1, h1, -, -⟩ := setupEnvVariablesFrom_spec l.params e
  unfold ExecutorLauncher.setupEnvironment ExecutorLauncher.setupEnvVariablesFromParams
  rw [h1]
  by_cases hm : l.mesosHome = []
  · simp only [hm, ne_eq, not_true_eq_false, if_false, false_implies, and_true]
    refine ⟨_, rfl, ?_, ?_, ?_, ?_, ?_⟩
    · rw [getenv_setenv_ne _ _ _ _ _ (by decide), getenv_setenv_ne _ _ _ _ _ (by decide),
        getenv_setenv_ne _ _ _ _ _ (by decide), getenv_setenv_ne _ _ _ _ _ (by decide),
        getenv_setenv_same _ _ _ (by decide) (by decide)]
    · rw [getenv_setenv_ne _ _ _ _ _ (by decide), getenv_setenv_ne _ _ _ _ _ (by decide),
        getenv_setenv_ne _ _ _ _ _ (by decide),
        getenv_setenv_same _ _ _ (by decide) (by decide)]
    · rw [getenv_setenv_ne _ _ _ _ _ (by decide), getenv_setenv_ne _ _ _ _ _ (by decide),
        getenv_setenv_same _ _ _ (by decide) (by decide)]
    · rw [getenv_setenv_ne _ _ _ _ _ (by decide),
        getenv_setenv_same _ _ _ (by decide) (by decide)]
    · rw [getenv_setenv_same _ _ _ (by decide) (by decide)]
  · simp only [ne_eq, hm, not_false_eq_true, if_true, true_implies]
    refine ⟨_, rfl, ?_, ?_, ?_, ?_, ?_, ?_⟩
    · rw [getenv_setenv_ne _ _ _ _ _ (by decide),
        getenv_setenv_ne _ _ _ _ _ (by decide), getenv_setenv_ne _ _ _ _ _ (by decide),
        getenv_setenv_ne _ _ _ _ _ (by decide), getenv_setenv_ne _ _ _ _ _ (by decide),
        getenv_setenv_same _ _ _ (by decide) (by decide)]
    · rw [getenv_setenv_ne _ _ _ _ _ (by decide),
        getenv_setenv_ne _ _ _ _ _ (by decide), getenv_setenv_ne _ _ _ _ _ (by decide),
        getenv_setenv_ne _ _ _ _ _ (by decide),
        getenv_setenv_same _ _ _ (by decide) (by decide)]
    · rw [getenv_setenv_ne _ _ _ _ _ (by decide),
        getenv_setenv_ne _ _ _ _ _ (by decide), getenv_setenv_ne _ _ _ _ _ (by decide),
        getenv_setenv_same _ _ _ (by decide) (by decide)]
    · rw [getenv_setenv_ne _ _ _ _ _ (by decide),
        getenv_setenv_ne _ _ _ _ _ (by decide),
        getenv_setenv_same _ _ _ (by decide) (by decide)]
    · rw [getenv_setenv_ne _ _ _ _ _ (by decide),
        getenv_setenv_same _ _ _ (by decide) (by decide)]
    · rw [getenv_setenv_same _ _ _ (by decide) (by decide)]

/-- C29, on `sample`, whose parameters hold `env.MESOS_DIRECTORY` and
`env.LIBPROCESS_PORT`: the environment ends with the working directory of the
launcher and port `0`, not with the values of the parameters. -/
theorem C29_witness :
    ∃ e1, ExecutorLauncher.setupEnvironment sample ⟨[("PATH".toList, "/bin".toList)], []⟩ = .ok e1 ∧
      getenv "MESOS_DIRECTORY".toList e1.environ = some "/tmp/work".toList ∧
      getenv "LIBPROCESS_PORT".toList e1.environ = some "0".toList ∧
      getenv "MESOS_HOME".toList e1.environ = some "/opt/mesos".toList ∧
      getenv "PATH".toList e1.environ = some "/usr/bin".toList := by
  obtain ⟨e1, h1, h2, -, -, -, h6, h7⟩ :=
    (C29_fixed_variables_follow_the_launcher sample ⟨[("PATH".toList, "/bin".toList)], []⟩).1
  have h8 : ∃ r, ExecutorLauncher.setupEnvironment sample
      ⟨[("PATH".toList, "/bin".toList)], []⟩ = .ok r ∧
      getenv "PATH".toList r.environ = some "/usr/bin".toList := ⟨_, rfl, by decide⟩
  obtain ⟨r, h9, h10⟩ := h8
  have hr : r = e1 := by
    have := h9.symm.trans h1
    simpa using this
  subst hr
  exact ⟨r, h1, by rw [h2]; decide, h6, by rw [h7 (by decide)]; decide, h10⟩

theorem firstOfFrom_ge (chars : string) : ∀ (s : string) (pos : Nat),
    pos ≤ firstOfFrom chars s pos ∨ firstOfFrom chars s pos = npos
  | [], pos => Or.inr rfl
  | c :: s, pos => by
    simp only [firstOfFrom]
    split
    · exact Or.inl (Nat.le_refl _)
    · rcases firstOfFrom_ge chars s (pos + 1) with h | h
      · exact Or.inl (by omega)
      · exact Or.inr h

theorem firstOfFrom_none (chars : string) : ∀ (s : string) (pos : Nat),
    (∀ c ∈ s, c ∉ chars) → firstOfFrom chars s pos = npos
  | [], pos, _ => rfl
  | c :: s, pos, h => by
    simp only [firstOfFrom]
    rw [if_neg (h c (List.mem_cons_self _ _))]
    exact firstOfFrom_none chars s (pos + 1) fun d hd => h d (List.mem_cons_of_mem _ hd)

theorem firstOfFrom_lt (chars : string) : ∀ (s : string) (pos : Nat),
    (∃ c ∈ s, c ∈ chars) → firstOfFrom chars s pos < pos + s.length
  | [], pos, h => by obtain ⟨c, hc, -⟩ := h; cases hc
  | c :: s, pos, h => by
    simp only [firstOfFrom, List.length_cons]
    split
    · omega
    · rename_i hc
      have h2 : ∃ d ∈ s, d ∈ chars := by
        obtain ⟨d, hd, hd2⟩ := h
        rcases List.mem_cons.1 hd with rfl | hd
        · exact absurd hd2 hc
        · exact ⟨d, hd, hd2⟩
      have := firstOfFrom_lt chars s (pos + 1) h2
      omega

/-- The one-character `find_first_of` finds the character exactly when the
string, of a size that fits `size_t`, holds it. -/
theorem find_first_of_ne_npos (s : string) (c : Char) (h : s.length < 2 ^ 64) :
    find_first_of s [c] ≠ npos ↔ c ∈ s := by
  unfold find_first_of
  constructor
  · intro h1
    by_contra h2
    apply h1
    apply firstOfFrom_none
    intro d hd hd2
    rw [List.mem_singleton] at hd2
    subst hd2
    exact h2 hd
  · intro h1
    have := firstOfFrom_lt [c] s 0 ⟨c, h1, List.mem_singleton.2 rfl⟩
    unfold npos
    omega

theorem find_first_of_slash (s : string) :
    find_first_of s (c_str "/".toList) ≠ 0 ↔ s.head? ≠ some '/' := by
  have hc : c_str "/".toList = ['/'] := by decide
  rw [hc]
  unfold find_first_of
  cases s with
  | nil => simp [firstOfFrom, npos]
  | cons c s =>
    simp only [firstOfFrom, List.mem_singleton, List.head?_cons, ne_eq, Option.some.injEq]
    by_cases h : c = '/'
    · simp [h]
    · rw [if_neg h]
      simp only [h, not_false_eq_true, iff_true]
      rcases firstOfFrom_ge ['/'] s (0 + 1) with h1 | h1
      · omega
      · rw [h1]; decide

theorem rfindFrom_le (s pat : string) : ∀ pos : Nat,
    rfindFrom s pat pos ≤ pos ∨ rfindFrom s pat pos = npos
  | 0 => by
    simp only [rfindFrom]
    split
    · exact Or.inl (Nat.le_refl _)
    · exact Or.inr rfl
  | pos + 1 => by
    simp only [rfindFrom]
    split
    · exact Or.inl (Nat.le_refl _)
    · rcases rfindFrom_le s pat pos with h | h
      · exact Or.inl (by omega)
      · exact Or.inr h

theorem rfindFrom_eq_self (s pat : string) (pos : Nat) (h : pos < npos) :
    rfindFrom s pat pos = pos ↔ occursAt pat (s.drop pos) = true := by
  cases pos with
  | zero =>
    simp only [rfindFrom, List.drop_zero]
    split
    · simp [*]
    · simp [*, npos]
  | succ pos =>
    simp only [rfindFrom]
    split
    · simp [*]
    · rename_i hc
      simp only [hc, Bool.false_eq_true, iff_false]
      intro h2
      rcases rfindFrom_le s pat pos with h1 | h1
      · omega
      · omega

/-- The test of `fetchExecutor()` for a `.tgz` file holds for the paths that
end with `.tgz` and for the paths of three characters, where `rfind` gives
`npos` and the subtraction wraps to the same number. -/
theorem rfind_tgz (s : string) (h : s.length < 2 ^ 64) :
    rfind s ".tgz".toList = (s.length + 2 ^ 64 - strlen ".tgz".toList) % 2 ^ 64 ↔
      endsWithTgz s = true ∨ s.length = 3 := by
  have hc : c_str ".tgz".toList = ".tgz".toList := by decide
  have hl : strlen ".tgz".toList = 4 := by decide
  have hl2 : (".tgz".toList : string).length = 4 := by decide
  unfold rfind endsWithTgz
  rw [hc, hl, hl2]
  by_cases h4 : 4 ≤ s.length
  · rw [if_pos h4]
    have e : (s.length + 2 ^ 64 - 4) % 2 ^ 64 = s.length - 4 := by omega
    rw [e, rfindFrom_eq_self s _ _ (by unfold npos; omega), occursAt_iff_take, hl2]
    have ht : (s.drop (s.length - 4)).take 4 = s.drop (s.length - 4) := by
      apply List.take_of_length_le
      rw [List.length_drop]
      omega
    rw [ht]
    simp only [h4, decide_True, Bool.true_and, decide_eq_true_eq]
    constructor
    · intro h1; exact Or.inl h1
    · rintro (h1 | h1)
      · exact h1
      · omega
  · rw [if_neg h4]
    have e : (s.length + 2 ^ 64 - 4) % 2 ^ 64 = s.length + 2 ^ 64 - 4 := by
      apply Nat.mod_eq_of_lt
      omega
    rw [e]
    simp only [h4, decide_False, Bool.false_and, Bool.false_eq_true, false_or]
    unfold npos
    omega

theorem locate_illegal (l : ExecutorLauncher) (os : Host) (hsize : l.executorUri.length < 2 ^ 64)
    (h : Char.ofNat 92 ∈ l.executorUri ∨ quote ∈ l.executorUri ∨ Char.ofNat 0 ∈ l.executorUri) :
    l.locate os = ([], .error .fatal) := by
  unfold ExecutorLauncher.locate
  simp only [find_first_of_ne_npos _ _ hsize]
  rw [if_pos h]

theorem locate_legal (l : ExecutorLauncher) (os : Host) (hsize : l.executorUri.length < 2 ^ 64)
    (h : ¬ (Char.ofNat 92 ∈ l.executorUri ∨ quote ∈ l.executorUri ∨ Char.ofNat 0 ∈ l.executorUri))
    (hdfs : l.executorUri.take 7 ≠ "hdfs://".toList) :
    l.locate os = ([],
      if l.executorUri.head? = some '/' then .ok l.executorUri
      else if l.frameworksHome ≠ [] then .ok (l.frameworksHome ++ "/".toList ++ l.executorUri)
      else if l.mesosHome ≠ [] then .ok (l.mesosHome ++ "/frameworks/".toList ++ l.executorUri)
      else .error .fatal) := by
  have hc : c_str "hdfs://".toList = "hdfs://".toList := by decide
  have hl : ("hdfs://".toList : string).length = 7 := by decide
  have hf : ¬ find l.executorUri "hdfs://".toList = 0 := by
    rw [find_eq_zero, hc, hl]
    exact hdfs
  unfold ExecutorLauncher.locate
  simp only [find_first_of_ne_npos _ _ hsize]
  rw [if_neg h, if_neg hf]
  by_cases hs : l.executorUri.head? = some '/'
  · rw [if_neg (by rw [find_first_of_slash]; exact not_not.2 hs), if_pos hs]
  · rw [if_pos ((find_first_of_slash _).2 hs), if_neg hs]
    by_cases h1 : l.frameworksHome ≠ []
    · rw [if_pos h1, if_pos h1]
    · rw [if_neg h1, if_neg h1]
      by_cases h2 : l.mesosHome ≠ []
      · rw [if_pos h2, if_pos h2]
      · rw [if_neg h2, if_neg h2]

/-- C33, as the code decides it: for every host and every resolved path (of a
size that fits `size_t`), `fetchExecutor()` takes the untar step, handing
`tar xzf '<path>'` to `system`, exactly when the path ends with `.tgz` or has
three characters; otherwise it runs no command and returns the path.  For a
path of three characters `rfind(".tgz")` is `npos` and `size() - 4` wraps to
the same number, so the path is untarred although it does not end with
`.tgz`; paths of fewer characters are not. -/
theorem C33_three_character_path_is_untarred (os : Host) (executor : string)
    (hsize : executor.length < 2 ^ 64) :
    ((ExecutorLauncher.unpack os executor).1 =
        [c_str ("tar xzf ".toList ++ [quote] ++ executor ++ [quote])] ↔
      endsWithTgz executor = true ∨ executor.length = 3) ∧
    (¬ (endsWithTgz executor = true ∨ executor.length = 3) →
      ExecutorLauncher.unpack os executor = ([], .ok executor)) ∧
    (executor.length = 3 → endsWithTgz executor = false) ∧
    (executor.length < 3 → ExecutorLauncher.unpack os executor = ([], .ok executor)) := by
  have key := rfind_tgz executor hsize
  have hno : ¬ (endsWithTgz executor = true ∨ executor.length = 3) →
      ExecutorLauncher.unpack os executor = ([], .ok executor) := by
    intro h
    unfold ExecutorLauncher.unpack
    rw [if_neg (fun h1 => h (key.1 h1))]
  refine ⟨⟨fun h => ?_, fun h => ?_⟩, hno, fun h => ?_, fun h => hno ?_⟩
  · by_contra h1
    rw [hno h1] at h
    cases h
  · unfold ExecutorLauncher.unpack
    rw [if_pos (key.2 h)]
    simp only
    split
    · rfl
    · split
      · split
        · rfl
        · split
          · rfl
          · split <;> rfl
      · rfl
  · unfold endsWithTgz
    simp [h]
  · unfold endsWithTgz
    rintro (h1 | h1)
    · simp only [Bool.and_eq_true, decide_eq_true_eq] at h1
      omega
    · omega

/-- C33, the path `/ab`: on a host where every call succeeds the launcher runs
`tar xzf '/ab'` and returns `./executor`. -/
theorem C33_witness :
    (ExecutorLauncher.unpack quiet "/ab".toList).1 =
        ["tar xzf ".toList ++ [quote] ++ "/ab".toList ++ [quote]] ∧
      endsWithTgz "/ab".toList = false ∧
      ({ sample with executorUri := "/ab".toList } : ExecutorLauncher).fetchExecutor quiet =
        (["tar xzf ".toList ++ [quote] ++ "/ab".toList ++ [quote]], .ok "./executor".toList) :=
  ⟨((C33_three_character_path_is_untarred quiet "/ab".toList (by decide)).1.2 (Or.inr rfl)).trans
    (by decide), by decide, by rfl⟩

/-- C34: for every launcher and host, with an executor URI of a size that fits
`size_t`: a URI holding a backslash, a single quote or a NUL makes
`fetchExecutor()` end in `fatal` with no command run and no path resolved;
a URI with none of them that does not start with `hdfs://` is resolved with no
command run: unchanged when it starts with `/`, else `frameworksHome + "/" +
uri` when `frameworksHome` is not empty, else `mesosHome + "/frameworks/" +
uri` when `mesosHome` is not empty, else `fatal`. -/
theorem C34_executor_path_resolution (l : ExecutorLauncher) (os : Host)
    (hsize : l.executorUri.length < 2 ^ 64) :
    ((Char.ofNat 92 ∈ l.executorUri ∨ quote ∈ l.executorUri ∨ Char.ofNat 0 ∈ l.executorUri) →
      l.locate os = ([], .error .fatal) ∧ l.fetchExecutor os = ([], .error .fatal)) ∧
    (¬ (Char.ofNat 92 ∈ l.executorUri ∨ quote ∈ l.executorUri ∨ Char.ofNat 0 ∈ l.executorUri) →
      l.executorUri.take 7 ≠ "hdfs://".toList →
      (l.executorUri.head? = some '/' → l.locate os = ([], .ok l.executorUri)) ∧
      (l.executorUri.head? ≠ some '/' → l.frameworksHome ≠ [] →
        l.locate os = ([], .ok (l.frameworksHome ++ "/".toList ++ l.executorUri))) ∧
      (l.executorUri.head? ≠ some '/' → l.frameworksHome = [] → l.mesosHome ≠ [] →
        l.locate os = ([], .ok (l.mesosHome ++ "/frameworks/".toList ++ l.executorUri))) ∧
      (l.executorUri.head? ≠ some '/' → l.frameworksHome = [] → l.mesosHome = [] →
        l.locate os = ([], .error .fatal) ∧ l.fetchExecutor os = ([], .error .fatal)) ∧
      ∀ executor, l.locate os = ([], .ok executor) →
        l.fetchExecutor os = ExecutorLauncher.unpack os executor) := by
  have hfatal : l.locate os = ([], .error .fatal) → l.fetchExecutor os = ([], .error .fatal) := by
    intro h
    unfold ExecutorLauncher.fetchExecutor
    rw [h]
  refine ⟨fun h => ⟨locate_illegal l os hsize h, hfatal (locate_illegal l os hsize h)⟩,
    fun h hdfs => ?_⟩
  have key := locate_legal l os hsize h hdfs
  refine ⟨fun h1 => ?_, fun h1 h2 => ?_, fun h1 h2 h3 => ?_, fun h1 h2 h3 => ?_, fun e he => ?_⟩
  · rw [key, if_pos h1]
  · rw [key, if_neg h1, if_pos h2]
  · rw [key, if_neg h1, if_neg (not_not.2 h2), if_pos h3]
  · have : l.locate os = ([], .error .fatal) := by
      rw [key, if_neg h1, if_neg (not_not.2 h2), if_neg (not_not.2 h3)]
    exact ⟨this, hfatal this⟩
  · unfold ExecutorLauncher.fetchExecutor
    rw [he]
    simp

/-- C34, a relative URI with only `mesosHome` set, and a URI with a quote. -/
theorem C34_witness :
    ({ sample with executorUri := "bin/run.sh".toList } : ExecutorLauncher).locate quiet =
        ([], .ok "/opt/mesos/frameworks/bin/run.sh".toList) ∧
      ({ sample with executorUri := "a\x27; rm -rf /".toList } : ExecutorLauncher).fetchExecutor
        quiet = ([], .error .fatal) :=
  ⟨((C34_executor_path_resolution { sample with executorUri := "bin/run.sh".toList } quiet
      (by decide)).2 (by decide) (by decide)).2.2.1 (by decide) rfl (by decide),
    ((C34_executor_path_resolution { sample with executorUri := "a\x27; rm -rf /".toList } quiet
      (by decide)).1 (by decide)).2⟩

end Launcher

end mesos.internal.launcher
